import Mathlib

/-! Graph partitioning toolkit: shallow embedding.

`Weight` is the source's `long long`.  It is modelled by `Int`; the source's arithmetic agrees with
the model whenever no intermediate sum leaves the 64-bit range (signed overflow is undefined
behaviour in C++ and is outside the model).  The constant `std::numeric_limits<Weight>::max()`
is kept as `WEIGHT_MAX`.  Every theorem whose conclusion depends on the value of a weight sum
carries the bound under which the source forms no sum outside that range: `total_weight` at most
`WEIGHT_MAX` for cut weights, the dense matrix and the flow, `entry_weight` at most `WEIGHT_MAX`
for degrees, sort keys, gains, block weights and coarse edge weights.  Vertex indices (`int`,
always checked to be in `[0,n)`) are `Nat`; the sentinel `-1` of an index variable is `none`.
Vectors are lists, `v[i]` is `getD`.
-/

abbrev Weight := Int

/-- Value of `std::numeric_limits<long long>::max()`. -/
def WEIGHT_MAX : Weight := 9223372036854775807

/-- Record `WeightedGraph::Edge`; the field `to` is spelled `to_` (reserved word). -/
structure Edge where
  to_ : Nat
  w : Weight
deriving DecidableEq, Repr

/-- Record `WeightedGraph`: vertex count and adjacency sequences. -/
structure WeightedGraph where
  n : Nat
  adj : List (List Edge)
deriving DecidableEq, Repr

/-- Record `PartitionResult`; `score` only ever holds a separator size. -/
structure PartitionResult where
  part : List Int := []
  separator : List Nat := []
  cut_weight : Weight := 0
  score : Nat := 0
deriving DecidableEq, Repr

/-- Error kinds: `std::out_of_range` and `std::invalid_argument`. -/
inductive SolverError where
  | outOfRange
  | invalidArgument
deriving DecidableEq, Repr

namespace WeightedGraph

/-- Constructor `WeightedGraph(n_)`. -/
def init (n : Nat) : WeightedGraph := ⟨n, List.replicate n []⟩

/-- Adjacency sequence `adj[u]`. -/
def nbrs (g : WeightedGraph) (u : Nat) : List Edge := g.adj.getD u []

/-- Method `add_undirected(u, v, w)`. -/
def add_undirected (g : WeightedGraph) (u v : Int) (w : Weight) :
    Except SolverError WeightedGraph :=
  if u < 0 ∨ v < 0 ∨ u ≥ (g.n : Int) ∨ v ≥ (g.n : Int) then .error .outOfRange
  else if w < 0 then .error .invalidArgument
  else
    let adj1 := g.adj.modify (fun l => l ++ [⟨v.toNat, w⟩]) u.toNat
    let adj2 := adj1.modify (fun l => l ++ [⟨u.toNat, w⟩]) v.toNat
    .ok ⟨g.n, adj2⟩

/-- Method `degrees()`.  Every partial sum is at most `entry_weight` when weights are
non-negative. -/
def degrees (g : WeightedGraph) : List Weight :=
  (List.range g.n).map fun u => (g.nbrs u).foldl (fun s e => s + e.w) 0

/-- Graphs reachable through the construction interface. -/
inductive Built : WeightedGraph → Prop where
  | init (n : Nat) : Built (WeightedGraph.init n)
  | add {g g1 : WeightedGraph} (u v : Int) (w : Weight) :
      Built g → g.add_undirected u v w = .ok g1 → Built g1

/-- Structural well-formedness of a graph value: one adjacency sequence per vertex,
endpoints in range, weights non-negative. -/
def WF (g : WeightedGraph) : Prop :=
  g.adj.length = g.n ∧ ∀ l ∈ g.adj, ∀ e ∈ l, e.to_ < g.n ∧ 0 ≤ e.w

/-- Builds a graph from a list of `add_undirected` calls, ignoring failed calls. -/
def ofEdges (n : Nat) (es : List (Int × Int × Weight)) : WeightedGraph :=
  es.foldl (fun g e => match g.add_undirected e.1 e.2.1 e.2.2 with
    | .ok g1 => g1
    | .error _ => g) (init n)

end WeightedGraph

/-- Function `cut_weight_undirected`.  With non-negative weights every partial sum lies between
0 and `total_weight`; the source computes the same value when that is at most `WEIGHT_MAX`. -/
def cut_weight_undirected (g : WeightedGraph) (part : List Int) : Weight :=
  (List.range g.n).foldl (fun sum u =>
    (g.nbrs u).foldl (fun sum e =>
      if u < e.to_ ∧ part.getD u 0 ≠ part.getD e.to_ 0 then sum + e.w else sum) sum) 0

/-- Membership flags `in` built from a vertex list. -/
def mark_in (n : Nat) (vertices : List Nat) : List Bool :=
  vertices.foldl (fun a v => a.set v true) (List.replicate n false)

/-- Comparator of `order_by_internal_degree`, as the non-strict order its `std::sort` call sorts by:
the strict comparator is a strict total order on (degree, vertex) pairs, so the sorted sequence is unique. -/
def dvLe (a b : Weight × Nat) : Prop := a.1 > b.1 ∨ (a.1 = b.1 ∧ a.2 ≤ b.2)

instance : DecidableRel dvLe := fun a b => by unfold dvLe; infer_instance

/-- Function `order_by_internal_degree`.  With non-negative weights every partial sum of a sort
key lies between 0 and the key; the source computes the same keys when they are at most
`WEIGHT_MAX`. -/
def order_by_internal_degree (g : WeightedGraph) (vertices : List Nat) : List Nat :=
  let inn := mark_in g.n vertices
  let dv := vertices.map fun v =>
    ((g.nbrs v).foldl (fun d e => if inn.getD e.to_ false then d + e.w else d) 0, v)
  (dv.insertionSort dvLe).map Prod.snd

namespace MinimumBisectionSolver

/-- Lambda `compute_D` of `bisection_on_subset`.  The sums `internal` and `external` of a vertex
add up weights of its adjacency entries, so they and their difference stay in range when
`entry_weight` is at most `WEIGHT_MAX`. -/
def compute_D (g : WeightedGraph) (inn : List Bool) (p : List Int) : List Weight :=
  (List.range g.n).map fun u =>
    if !inn.getD u false then 0
    else
      let ie := (g.nbrs u).foldl (fun (ie : Weight × Weight) e =>
        if !inn.getD e.to_ false then ie
        else if p.getD u 0 = p.getD e.to_ 0 then (ie.1 + e.w, ie.2)
        else (ie.1, ie.2 + e.w)) (0, 0)
      ie.2 - ie.1

/-- Weight of the first edge from `u` to `v` in `adj[u]`, else 0 (the `wuv` scan). -/
def first_weight (g : WeightedGraph) (u v : Nat) : Weight :=
  match (g.nbrs u).find? (fun e => e.to_ = v) with
  | some e => e.w
  | none => 0

/-- Scan state `(best_gain, best_u, best_v)`. -/
structure BestSwap where
  best_gain : Weight := 0
  best_u : Option Nat := none
  best_v : Option Nat := none
deriving DecidableEq, Repr

/-- Double loop over cross pairs of one pass.  On a graph built by `add_undirected` the gain
`D[u] + D[v] - 2 * wuv` and its partial results are bounded in absolute value by the weights of
the adjacency entries of `u` and `v`, hence by `entry_weight`. -/
def best_swap (g : WeightedGraph) (vertices : List Nat) (part : List Int) (D : List Weight) :
    BestSwap :=
  vertices.foldl (fun b u =>
    if part.getD u 0 = 0 then
      vertices.foldl (fun b v =>
        if part.getD v 0 = 1 then
          let gain := D.getD u 0 + D.getD v 0 - 2 * first_weight g u v
          if gain > b.best_gain then ⟨gain, some u, some v⟩ else b
        else b) b
    else b) {}

/-- Effect of `std::swap(part[i], part[j])`. -/
def swap_labels (part : List Int) (i j : Nat) : List Int :=
  (part.set i (part.getD j 0)).set j (part.getD i 0)

/-- Loop `for (pass = 0; pass < max_passes; ++pass)` with its early `break`. -/
def passes (g : WeightedGraph) (vertices : List Nat) (inn : List Bool) :
    Nat → List Int → List Int
  | 0, part => part
  | k + 1, part =>
    let D := compute_D g inn part
    let b := best_swap g vertices part D
    match b.best_u, b.best_v with
    | some u, some v =>
      if b.best_gain > 0 then passes g vertices inn k (swap_labels part u v) else part
    | _, _ => part

/-- Initial labeling loop over the degree order. -/
def initial_part (n : Nat) (targetA : Nat) (order : List Nat) : List Int :=
  (order.foldl (fun (pc : List Int × Nat) v =>
    if pc.2 < targetA then (pc.1.set v 0, pc.2 + 1) else (pc.1.set v 1, pc.2))
    (List.replicate n (-1), 0)).1

/-- Final loop: vertices outside the subset get label 0. -/
def clear_outside (n : Nat) (inn : List Bool) (part : List Int) : List Int :=
  (List.range n).foldl (fun p u => if !inn.getD u false then p.set u 0 else p) part

/-- Static method `bisection_on_subset`. -/
def bisection_on_subset (g : WeightedGraph) (vertices : List Nat) (max_passes : Int) :
    List Int :=
  let n := g.n
  let inn := mark_in n vertices
  let s := vertices.length
  let targetA := (s + 1) / 2
  let order := order_by_internal_degree g vertices
  let part := initial_part n targetA order
  let part := passes g vertices inn max_passes.toNat part
  clear_outside n inn part

/-- Solver object: constructor argument and stored result. -/
structure State where
  max_passes_ : Int := 20
  res_ : PartitionResult := {}
deriving DecidableEq, Repr

/-- Method `solve`. -/
def solve (self : State) (g : WeightedGraph) : State :=
  if g.n = 0 then { self with res_ := {} }
  else
    let all := List.range g.n
    let part := bisection_on_subset g all self.max_passes_
    { self with res_ := { self.res_ with part := part, cut_weight := cut_weight_undirected g part } }

/-- Method `result`. -/
def result (self : State) : PartitionResult := self.res_

end MinimumBisectionSolver

namespace KWayPartitionSolver

/-- Solver object: constructor arguments and stored result. -/
structure State where
  k_ : Int
  passes_ : Int
  res_ : PartitionResult := {}
deriving DecidableEq, Repr

/-- Scan for the currently largest block (ties: lowest index). -/
def largest_idx (parts : List (List Nat)) : Nat :=
  (List.range' 1 (parts.length - 1)).foldl (fun idx i =>
    if (parts.getD i []).length > (parts.getD idx []).length then i else idx) 0

/-- Loop `while ((int) parts.size() < k)`; every iteration that does not `break` adds one block,
so `fuel = k` iterations are never exhausted. -/
def split_loop (g : WeightedGraph) (passes_ : Int) (k : Int) :
    Nat → List (List Nat) → List (List Nat)
  | 0, parts => parts
  | fuel + 1, parts =>
    if (parts.length : Int) < k then
      let idx := largest_idx parts
      let subset := parts.getD idx []
      if subset.length ≤ 1 then parts
      else
        let bi := MinimumBisectionSolver.bisection_on_subset g subset passes_
        let A := subset.filter fun v => bi.getD v 0 = 0
        let B := subset.filter fun v => ¬ bi.getD v 0 = 0
        if A.isEmpty ∨ B.isEmpty then parts
        else split_loop g passes_ k fuel (parts.set idx A ++ [B])
    else parts

/-- Final labeling loop: `res_.part[v] = i` for every `v` in `parts[i]`. -/
def label_blocks (n : Nat) (parts : List (List Nat)) : List Int :=
  (List.range parts.length).foldl (fun part i =>
    (parts.getD i []).foldl (fun part v => part.set v (i : Int)) part) (List.replicate n 0)

/-- Method `solve`. -/
def solve (self : State) (g : WeightedGraph) : State :=
  if g.n = 0 then { self with res_ := {} }
  else
    let k := max 1 self.k_
    if k = 1 then { self with res_ := { part := List.replicate g.n 0, cut_weight := 0 } }
    else
      let parts := split_loop g self.passes_ k k.toNat [List.range g.n]
      let part := label_blocks g.n parts
      { self with res_ := { part := part, cut_weight := cut_weight_undirected g part } }

/-- Method `result`. -/
def result (self : State) : PartitionResult := self.res_

end KWayPartitionSolver

namespace MultilevelKWayPartitionSolver

/-- Iteration order of a `std::unordered_map<int, Weight>`: the standard leaves it unspecified, so it
is a parameter of the model; a legal order enumerates every entry exactly once. -/
abbrev MapOrder := List (Nat × Weight) → List (Nat × Weight)

/-- Legal iteration orders. -/
def MapOrder.Legal (iter : MapOrder) : Prop := ∀ l, (iter l).Perm l

/-- Comparator of the vertex sort in `coarsen_graph` (descending degree, then ascending index). -/
def degLe (deg : List Weight) (a b : Nat) : Prop :=
  deg.getD a 0 > deg.getD b 0 ∨ (deg.getD a 0 = deg.getD b 0 ∧ a ≤ b)

instance (deg : List Weight) : DecidableRel (degLe deg) := fun a b => by unfold degLe; infer_instance

/-- Working variables of the matching loop. -/
structure Matching where
  matched : List Bool
  fine_to_coarse : List Int
  coarse_n : Nat
deriving DecidableEq, Repr

/-- Scan of `adj[u]` for the heaviest unmatched neighbour (`best`, `best_w`). -/
def heaviest_unmatched (g : WeightedGraph) (matched : List Bool) (u : Nat) : Option Nat × Weight :=
  (g.nbrs u).foldl (fun (b : Option Nat × Weight) e =>
    if matched.getD e.to_ false then b
    else if e.w > b.2 then (some e.to_, e.w) else b) (none, -1)

/-- Body of the loop `for (int u : order)`. -/
def match_step (g : WeightedGraph) (m : Matching) (u : Nat) : Matching :=
  if m.matched.getD u false then m
  else
    let matched := m.matched.set u true
    match (heaviest_unmatched g matched u).1 with
    | some best =>
      { matched := matched.set best true
        fine_to_coarse := (m.fine_to_coarse.set u m.coarse_n).set best m.coarse_n
        coarse_n := m.coarse_n + 1 }
    | none =>
      { matched := matched
        fine_to_coarse := m.fine_to_coarse.set u m.coarse_n
        coarse_n := m.coarse_n + 1 }

/-- Heavy-edge matching: the sorted order followed by the matching loop. -/
def heavy_edge_matching (g : WeightedGraph) : Matching :=
  let order := (List.range g.n).insertionSort (degLe g.degrees)
  order.foldl (match_step g) ⟨List.replicate g.n false, List.replicate g.n (-1), 0⟩

/-- Statement `m[k] += w` on an `unordered_map` kept as an association list.  In `coarsen_graph`
the accumulated value adds up weights of adjacency entries `u < v` of the fine graph, so it is at
most `total_weight`. -/
def map_add (m : List (Nat × Weight)) (k : Nat) (w : Weight) : List (Nat × Weight) :=
  if m.any (fun p => p.1 = k) then m.map (fun p => if p.1 = k then (p.1, p.2 + w) else p)
  else m ++ [(k, 0 + w)]

/-- Accumulation of the coarse edge weights into `adj_map`. -/
def build_adj_map (g : WeightedGraph) (fine_to_coarse : List Int) (coarse_n : Nat) :
    List (List (Nat × Weight)) :=
  (List.range g.n).foldl (fun am u =>
    let cu := fine_to_coarse.getD u 0
    (g.nbrs u).foldl (fun am e =>
      let v := e.to_
      if u < v then
        let cv := fine_to_coarse.getD v 0
        if cu = cv then am
        else
          let am := am.modify (fun m => map_add m cv.toNat e.w) cu.toNat
          am.modify (fun m => map_add m cu.toNat e.w) cv.toNat
      else am) am) (List.replicate coarse_n [])

/-- Emission of the coarse graph from `adj_map`. -/
def emit_coarse (iter : MapOrder) (adj_map : List (List (Nat × Weight))) (coarse_n : Nat) :
    Except SolverError WeightedGraph :=
  (List.range coarse_n).foldl (fun acc u =>
    (iter (adj_map.getD u [])).foldl (fun acc p =>
      if u < p.1 then acc.bind fun c => c.add_undirected u p.1 p.2 else acc) acc)
    (.ok (WeightedGraph.init coarse_n))

/-- Function `coarsen_graph`: returns the coarse graph and `fine_to_coarse`. -/
def coarsen_graph (iter : MapOrder) (g : WeightedGraph) :
    Except SolverError (WeightedGraph × List Int) :=
  let m := heavy_edge_matching g
  let adj_map := build_adj_map g m.fine_to_coarse m.coarse_n
  (emit_coarse iter adj_map m.coarse_n).map fun c => (c, m.fine_to_coarse)

/-- Working variables of one refinement pass. -/
structure Refine where
  part : List Int
  sizes : List Int
  moved : Bool
deriving DecidableEq, Repr

/-- Block sizes `sizes` counted at the start of a pass. -/
def count_sizes (part : List Int) (k : Int) : List Int :=
  part.foldl (fun sizes p =>
    if p ≥ 0 ∧ p < k then sizes.modify (fun c => c + 1) p.toNat else sizes)
    (List.replicate k.toNat 0)

/-- Connection weights of `u` to every block (`weights`).  Each is a sum of weights of adjacency
entries of `u`, at most `entry_weight` when weights are non-negative. -/
def block_weights (g : WeightedGraph) (part : List Int) (k : Int) (u : Nat) : List Weight :=
  (g.nbrs u).foldl (fun ws e =>
    let q := part.getD e.to_ 0
    if q ≥ 0 ∧ q < k then ws.modify (fun x => x + e.w) q.toNat else ws)
    (List.replicate k.toNat 0)

/-- Scan over target blocks for the best move of a vertex in block `p`: `(best, best_gain)`. -/
def best_move (weights : List Weight) (sizes : List Int) (k : Int) (max_size : Int) (p : Int) :
    Int × Weight :=
  (List.range k.toNat).foldl (fun (b : Int × Weight) (q : Nat) =>
    if (q : Int) = p then b
    else if sizes.getD q 0 ≥ max_size then b
    else
      let gain := weights.getD q 0 - weights.getD p.toNat 0
      if gain > b.2 then ((q : Int), gain) else b) (p, 0)

/-- Body of the loop `for (int u = 0; u < n; ++u)` of a refinement pass. -/
def refine_vertex (g : WeightedGraph) (k min_size max_size : Int) (r : Refine) (u : Nat) : Refine :=
  let p := r.part.getD u 0
  if p < 0 ∨ p ≥ k then r
  else if r.sizes.getD p.toNat 0 ≤ min_size then r
  else
    let weights := block_weights g r.part k u
    let b := best_move weights r.sizes k max_size p
    if b.1 ≠ p ∧ b.2 > 0 then
      { part := r.part.set u b.1
        sizes := (r.sizes.modify (fun c => c - 1) p.toNat).modify (fun c => c + 1) b.1.toNat
        moved := true }
    else r

/-- Loop over the passes of `refine_partition`, with its early `break`. -/
def refine_passes (g : WeightedGraph) (k min_size max_size : Int) : Nat → List Int → List Int
  | 0, part => part
  | fuel + 1, part =>
    let r := (List.range g.n).foldl (refine_vertex g k min_size max_size)
      ⟨part, count_sizes part k, false⟩
    if r.moved then refine_passes g k min_size max_size fuel r.part else r.part

/-- Function `refine_partition`. -/
def refine_partition (g : WeightedGraph) (part : List Int) (k : Int) (max_passes : Int) : List Int :=
  if k ≤ 1 then part
  else
    let n : Int := g.n
    refine_passes g k (n / k) ((n + k - 1) / k) max_passes.toNat part

/-- Solver object: constructor arguments and stored result. -/
structure State where
  k_ : Int
  bisection_passes_ : Int := 8
  refine_passes_ : Int := 4
  max_levels_ : Int := 10
  res_ : PartitionResult := {}
deriving DecidableEq, Repr

/-- Coarsening loop of `solve`: `graphs` and `maps` in push order; `fuel` counts the remaining
values of `level` below `max_levels_`. -/
def coarsen_loop (iter : MapOrder) (min_coarse : Int) :
    Nat → List WeightedGraph → List (List Int) →
    Except SolverError (List WeightedGraph × List (List Int))
  | 0, graphs, maps => .ok (graphs, maps)
  | fuel + 1, graphs, maps =>
    let back := graphs.getLastD (WeightedGraph.init 0)
    if (back.n : Int) > min_coarse then
      match coarsen_graph iter back with
      | .error e => .error e
      | .ok (coarse, map) =>
        if coarse.n ≥ back.n then .ok (graphs, maps)
        else coarsen_loop iter min_coarse fuel (graphs ++ [coarse]) (maps ++ [map])
    else .ok (graphs, maps)

/-- Projection of the coarse labels onto the vertices of `graphs[level]`. -/
def project (fine : WeightedGraph) (map : List Int) (part : List Int) : List Int :=
  (List.range fine.n).map fun u => part.getD (map.getD u 0).toNat 0

/-- Uncoarsening loop of `solve`: `level` runs from `graphs.size() - 2` down to 0. -/
def uncoarsen (graphs : List WeightedGraph) (maps : List (List Int)) (k : Int)
    (refine_passes_ : Int) (part : List Int) : List Int :=
  (List.range (graphs.length - 1)).reverse.foldl (fun part level =>
    let fine := graphs.getD level (WeightedGraph.init 0)
    let fine_part := project fine (maps.getD level []) part
    refine_partition fine fine_part k refine_passes_) part

/-- Method `solve`; an exception leaves `res_` reset. -/
def solve (iter : MapOrder) (self : State) (g : WeightedGraph) : Except SolverError Unit × State :=
  if g.n = 0 then (.ok (), { self with res_ := {} })
  else
    let k := max 1 (min self.k_ g.n)
    if k = 1 then (.ok (), { self with res_ := { part := List.replicate g.n 0, cut_weight := 0 } })
    else
      let min_coarse := max (2 * k) 20
      match coarsen_loop iter min_coarse self.max_levels_.toNat [g] [] with
      | .error e => (.error e, { self with res_ := { part := List.replicate g.n 0 } })
      | .ok (graphs, maps) =>
        let base := KWayPartitionSolver.solve ⟨k, self.bisection_passes_, {}⟩
          (graphs.getLastD (WeightedGraph.init 0))
        let part := uncoarsen graphs maps k self.refine_passes_ (KWayPartitionSolver.result base).part
        (.ok (), { self with res_ := { part := part, cut_weight := cut_weight_undirected g part } })

/-- Method `result`. -/
def result (self : State) : PartitionResult := self.res_

end MultilevelKWayPartitionSolver

namespace GlobalMinCutSolver

/-- Dense matrix entry `w[i][j]`. -/
def mat_get (w : List (List Weight)) (i j : Nat) : Weight := (w.getD i []).getD j 0

/-- Statement `w[i][j] += x`. -/
def mat_add (w : List (List Weight)) (i j : Nat) (x : Weight) : List (List Weight) :=
  w.modify (fun row => row.modify (fun y => y + x) j) i

/-- Construction of the dense symmetric weight matrix from the adjacency sequences.  Every entry
adds up weights counted by `total_weight`. -/
def build_matrix (g : WeightedGraph) : List (List Weight) :=
  (List.range g.n).foldl (fun w u =>
    (g.nbrs u).foldl (fun w e =>
      let v := e.to_
      if u < v then mat_add (mat_add w u v e.w) v u e.w else w) w)
    (List.replicate g.n (List.replicate g.n 0))

/-- Working variables of one maximum-adjacency ordering. -/
structure Phase where
  dist : List Weight
  added : List Bool
  prev : Option Nat := none
  last : Option Nat := none
deriving DecidableEq, Repr

/-- Scan for `sel`: the unvisited index of largest `dist`, earliest on ties. -/
def select (curN : Nat) (dist : List Weight) (added : List Bool) : Option Nat :=
  (List.range curN).foldl (fun sel i =>
    if !added.getD i false then
      match sel with
      | none => some i
      | some s => if dist.getD i 0 > dist.getD s 0 then some i else sel
    else sel) none

/-- Body of the loop `for (int it = 0; it < curN; ++it)`. -/
def phase_step (w : List (List Weight)) (vtx : List Nat) (curN : Nat) (p : Phase) : Phase :=
  match select curN p.dist p.added with
  | none => p
  | some sel =>
    let added := p.added.set sel true
    let dist := (List.range curN).foldl (fun d i =>
      if !added.getD i false then
        d.modify (fun x => x + mat_get w (vtx.getD sel 0) (vtx.getD i 0)) i
      else d) p.dist
    { dist := dist, added := added, prev := p.last, last := some sel }

/-- One maximum-adjacency ordering: `curN` selection steps. -/
def min_cut_phase (w : List (List Weight)) (vtx : List Nat) (curN : Nat) : Phase :=
  (List.range curN).foldl (fun p _ => phase_step w vtx curN p)
    { dist := List.replicate curN 0, added := List.replicate curN false }

/-- Working variables of `solve`. -/
structure Work where
  w : List (List Weight)
  vtx : List Nat
  clusters : List (List Nat)
  best : Weight
  bestA : List Nat
  curN : Nat
deriving DecidableEq, Repr

/-- Merge loop: adds the row and column of `vt` into those of `vs`. -/
def merge_rows (w : List (List Weight)) (vtx : List Nat) (curN vs vt : Nat) : List (List Weight) :=
  (List.range curN).foldl (fun w i =>
    let vi := vtx.getD i 0
    if vi = vs ∨ vi = vt then w
    else
      let w := mat_add w vs vi (mat_get w vt vi)
      mat_add w vi vs (mat_get w vi vt)) w

/-- Body of the loop `while (curN > 1)`. -/
def contract (st : Work) : Work :=
  let ph := min_cut_phase st.w st.vtx st.curN
  match ph.prev, ph.last with
  | some s, some t =>
    let cut := ph.dist.getD t 0
    let vs := st.vtx.getD s 0
    let vt := st.vtx.getD t 0
    { w := merge_rows st.w st.vtx st.curN vs vt
      vtx := st.vtx.eraseIdx t
      clusters := st.clusters.modify (fun c => c ++ st.clusters.getD vt []) vs
      best := if cut < st.best then cut else st.best
      bestA := if cut < st.best then st.clusters.getD vt [] else st.bestA
      curN := st.curN - 1 }
  | _, _ => st

/-- Loop `while (curN > 1)`; `curN` drops by one per iteration, so `fuel = n` is never exhausted. -/
def main_loop : Nat → Work → Work
  | 0, st => st
  | fuel + 1, st => if st.curN > 1 then main_loop fuel (contract st) else st

/-- Initial working variables. -/
def init_work (g : WeightedGraph) : Work :=
  { w := build_matrix g
    vtx := List.range g.n
    clusters := (List.range g.n).map fun i => [i]
    best := WEIGHT_MAX
    bestA := []
    curN := g.n }

/-- Solver object: stored result. -/
structure State where
  res_ : PartitionResult := {}
deriving DecidableEq, Repr

/-- Method `solve`. -/
def solve (_self : State) (g : WeightedGraph) : State :=
  if g.n = 0 then { res_ := {} }
  else if g.n = 1 then { res_ := { part := [0], cut_weight := 0 } }
  else
    let fin := main_loop g.n (init_work g)
    { res_ := { part := fin.bestA.foldl (fun p v => p.set v 0) (List.replicate g.n 1)
                cut_weight := fin.best } }

/-- Method `result`. -/
def result (self : State) : PartitionResult := self.res_

end GlobalMinCutSolver

namespace STMinCutSolver

/-- Record `Dinic::E`: a residual arc (`to` is spelled `to_`). -/
structure E where
  to_ : Nat
  rev : Nat
  cap : Weight
deriving DecidableEq, Repr, Inhabited

/-- Record `Dinic`. -/
structure Dinic where
  n : Nat
  g : List (List E)
  lvl : List Int
  it : List Nat
deriving DecidableEq, Repr

/-- Constructor `Dinic(n_)`. -/
def Dinic.init (n : Nat) : Dinic :=
  ⟨n, List.replicate n [], List.replicate n 0, List.replicate n 0⟩

/-- Method `Dinic::add_edge`. -/
def Dinic.add_edge (d : Dinic) (u v : Nat) (c : Weight) : Dinic :=
  let a : E := ⟨v, (d.g.getD v []).length, c⟩
  let b : E := ⟨u, (d.g.getD u []).length, 0⟩
  let g1 := d.g.modify (fun l => l ++ [a]) u
  let g2 := g1.modify (fun l => l ++ [b]) v
  { d with g := g2 }

/-- Statement `g[u][i].cap += x`. -/
def add_cap (g : List (List E)) (u i : Nat) (x : Weight) : List (List E) :=
  g.modify (fun l => l.modify (fun e => { e with cap := e.cap + x }) i) u

/-- Queue loop shared by `bfs`; every vertex is queued at most once. -/
def bfs_loop (g : List (List E)) : Nat → List Int → List Nat → Option (List Int)
  | _, lvl, [] => some lvl
  | 0, _, _ :: _ => none
  | fuel + 1, lvl, u :: q =>
    let lq := (g.getD u []).foldl (fun (lq : List Int × List Nat) e =>
      if e.cap > 0 ∧ lq.1.getD e.to_ 0 < 0 then
        (lq.1.set e.to_ (lq.1.getD u 0 + 1), lq.2 ++ [e.to_])
      else lq) (lvl, q)
    bfs_loop g fuel lq.1 lq.2

/-- Method `Dinic::bfs`: the new `lvl`; its return value is `lvl[t] >= 0`. -/
def Dinic.bfs (d : Dinic) (fuel : Nat) (s : Nat) : Option Dinic :=
  (bfs_loop d.g fuel ((List.replicate d.lvl.length (-1 : Int)).set s 0) [s]).map
    fun lvl => { d with lvl := lvl }

/-- Method `Dinic::dfs`.  The loop `for (int &i = it[u]; ...; ++i)` reads its cursor from the
state; a `continue` re-enters the function at the same `u`, where the test `u == t` fails again. -/
def Dinic.dfs (t : Nat) : Nat → Dinic → Nat → Weight → Option (Weight × Dinic)
  | 0, _, _, _ => none
  | fuel + 1, d, u, f =>
    if u = t then some (f, d)
    else
      let i := d.it.getD u 0
      if i < (d.g.getD u []).length then
        let e := (d.g.getD u []).getD i default
        if e.cap ≤ 0 ∨ d.lvl.getD e.to_ 0 ≠ d.lvl.getD u 0 + 1 then
          Dinic.dfs t fuel { d with it := d.it.set u (i + 1) } u f
        else
          match Dinic.dfs t fuel d e.to_ (min f e.cap) with
          | none => none
          | some (pushed, d1) =>
            if pushed > 0 then
              let g1 := add_cap d1.g u i (-pushed)
              let g2 := add_cap g1 e.to_ e.rev pushed
              some (pushed, { d1 with g := g2 })
            else
              Dinic.dfs t fuel { d1 with it := d1.it.set u (d1.it.getD u 0 + 1) } u f
      else some (0, d)

/-- Inner loop `while (true)` of `maxflow`: pushes until `dfs` returns 0.  The accumulated flow is
at most the weight of every s-t cut, hence at most `total_weight`. -/
def Dinic.blocking (s t : Nat) (dfsFuel : Nat) : Nat → Dinic → Weight → Option (Weight × Dinic)
  | 0, _, _ => none
  | fuel + 1, d, flow =>
    match Dinic.dfs t dfsFuel d s (WEIGHT_MAX / 4) with
    | none => none
    | some (pushed, d1) =>
      if pushed = 0 then some (flow, d1) else Dinic.blocking s t dfsFuel fuel d1 (flow + pushed)

/-- Outer loop `while (bfs(s, t))` of `maxflow`. -/
def Dinic.maxflow_loop (s t : Nat) (subFuel : Nat) : Nat → Dinic → Weight → Option (Weight × Dinic)
  | 0, _, _ => none
  | fuel + 1, d, flow =>
    match d.bfs subFuel s with
    | none => none
    | some d1 =>
      if d1.lvl.getD t 0 ≥ 0 then
        match Dinic.blocking s t subFuel subFuel { d1 with it := List.replicate d1.it.length 0 } flow with
        | none => none
        | some (flow1, d2) => Dinic.maxflow_loop s t subFuel fuel d2 flow1
      else some (flow, d1)

/-- Method `Dinic::maxflow`; `none` when `fuel` is exhausted. -/
def Dinic.maxflow (d : Dinic) (fuel : Nat) (s t : Nat) : Option (Weight × Dinic) :=
  Dinic.maxflow_loop s t fuel fuel d 0

/-- Queue loop of `reachable_from`. -/
def reach_loop (g : List (List E)) : Nat → List Bool → List Nat → Option (List Bool)
  | _, vis, [] => some vis
  | 0, _, _ :: _ => none
  | fuel + 1, vis, u :: q =>
    let vq := (g.getD u []).foldl (fun (vq : List Bool × List Nat) e =>
      if e.cap > 0 ∧ !vq.1.getD e.to_ false then (vq.1.set e.to_ true, vq.2 ++ [e.to_])
      else vq) (vis, q)
    reach_loop g fuel vq.1 vq.2

/-- Method `Dinic::reachable_from`. -/
def Dinic.reachable_from (d : Dinic) (fuel : Nat) (s : Nat) : Option (List Bool) :=
  reach_loop d.g fuel ((List.replicate d.n false).set s true) [s]

/-- Construction of the flow network from the adjacency sequences. -/
def build_network (g : WeightedGraph) : Dinic :=
  (List.range g.n).foldl (fun d u =>
    (g.nbrs u).foldl (fun d e => d.add_edge u e.to_ e.w) d) (Dinic.init g.n)

/-- Solver object: terminals and stored result. -/
structure State where
  s_ : Int
  t_ : Int
  res_ : PartitionResult := {}
deriving DecidableEq, Repr

/-- Method `solve`.  The first component is `none` when `fuel` is exhausted, else how the call
ended; the second is the solver object afterwards (`res_` is reset before any check). -/
def solve (fuel : Nat) (self : State) (g : WeightedGraph) :
    Option (Except SolverError Unit) × State :=
  let n := g.n
  if n = 0 then (some (.ok ()), { self with res_ := {} })
  else if self.s_ < 0 ∨ self.t_ < 0 ∨ self.s_ ≥ (n : Int) ∨ self.t_ ≥ (n : Int) ∨ self.s_ = self.t_ then
    (some (.error .invalidArgument), { self with res_ := {} })
  else
    let din := build_network g
    match din.maxflow fuel self.s_.toNat self.t_.toNat with
    | none => (none, { self with res_ := {} })
    | some (flow, din1) =>
      match din1.reachable_from fuel self.s_.toNat with
      | none => (none, { self with res_ := {} })
      | some reach =>
        (some (.ok ()), { self with res_ :=
          { part := (List.range n).map fun i => if reach.getD i false then 0 else 1
            cut_weight := flow } })

/-- Method `result`. -/
def result (self : State) : PartitionResult := self.res_

end STMinCutSolver

/-! ## Auxiliary definitions used by the proofs -/

namespace WeightedGraph

instance (g : WeightedGraph) : Decidable g.WF := by unfold WF; infer_instance

end WeightedGraph

/-- The 8-vertex demonstration graph of `main`. -/
def demoGraph : WeightedGraph :=
  WeightedGraph.ofEdges 8 [(0,1,3),(1,2,2),(2,3,4),(3,0,1),(4,5,3),(5,6,2),(6,7,4),(7,4,1),(3,4,1),(2,5,1)]

namespace MinimumBisectionSolver

/-- Number of vertices of `S` carrying label `a`. -/
def label_count (S : List Nat) (part : List Int) (a : Int) : Nat :=
  S.countP fun v => part.getD v 0 = a

/-- Step function of the initial labeling loop. -/
def init_step (targetA : Nat) (pc : List Int × Nat) (v : Nat) : List Int × Nat :=
  if pc.2 < targetA then (pc.1.set v 0, pc.2 + 1) else (pc.1.set v 1, pc.2)

/-- The best pair found by a pass joins a 0-labelled and a 1-labelled vertex of the subset. -/
def CrossPair (S : List Nat) (part : List Int) (b : BestSwap) : Prop :=
  ∀ u v, b.best_u = some u → b.best_v = some v →
    u ∈ S ∧ v ∈ S ∧ part.getD u 0 = 0 ∧ part.getD v 0 = 1

end MinimumBisectionSolver

namespace MultilevelKWayPartitionSolver

/-- Invariant of the matching loop: every matched vertex carries a coarse id below `coarse_n`. -/
def MatchInv (n : Nat) (m : Matching) : Prop :=
  m.matched.length = n ∧ m.fine_to_coarse.length = n ∧
  ∀ x, m.matched.getD x false = true →
    0 ≤ m.fine_to_coarse.getD x 0 ∧ m.fine_to_coarse.getD x 0 < (m.coarse_n : Int)

/-- Rows of `adj_map` hold keys below `coarse_n` and non-negative weights. -/
def RowOk (coarse_n : Nat) (row : List (Nat × Weight)) : Prop :=
  ∀ p ∈ row, p.1 < coarse_n ∧ (0 : Int) ≤ p.2

/-- Labels of a partition vector: count and range. -/
def LabelsOk (len : Nat) (k : Int) (part : List Int) : Prop :=
  part.length = len ∧ ∀ x ∈ part, 0 ≤ x ∧ x < k

/-- A 22-vertex cycle with weights 1, 2, 3 repeating: large enough for one coarsening level. -/
def cycleGraph : WeightedGraph :=
  WeightedGraph.ofEdges 22 [(0,1,1),(1,2,2),(2,3,3),(3,4,1),(4,5,2),(5,6,3),(6,7,1),(7,8,2),
    (8,9,3),(9,10,1),(10,11,2),(11,12,3),(12,13,1),(13,14,2),(14,15,3),(15,16,1),(16,17,2),
    (17,18,3),(18,19,1),(19,20,2),(20,21,3),(21,0,1)]

end MultilevelKWayPartitionSolver

/-! ## Weights between vertex pairs and the cut of a labeling function -/

namespace WeightedGraph

/-- Total weight of the adjacency entries of `a` that point to `b`, counted when `a < b`
(the entries `cut_weight_undirected` and the dense matrix read). -/
def dirW (g : WeightedGraph) (a b : Nat) : Weight :=
  ((g.nbrs a).map fun e => if e.to_ = b ∧ a < b then e.w else 0).sum

/-- Symmetric weight between two vertices. -/
def pairW (g : WeightedGraph) (a b : Nat) : Weight := g.dirW a b + g.dirW b a

/-- Sum of the weights of all edges joining two distinct vertices, each counted once: an upper
bound for every sum that `cut_weight_undirected`, the dense matrix of the global solver and the
flow of the s-t solver form. -/
def total_weight (g : WeightedGraph) : Weight :=
  (List.range g.n).foldl (fun sum u =>
    (g.nbrs u).foldl (fun sum e => if u < e.to_ then sum + e.w else sum) sum) 0

/-- Sum of the weights of all adjacency entries, that is the sum of `degrees()`: on a graph built
by `add_undirected` every call (self-loops included) counts twice.  With non-negative weights it
is an upper bound for every degree, every sort key of `order_by_internal_degree`, every
`internal`/`external` sum and gain of the bisection, every block weight of the refinement and
every accumulated coarse edge weight. -/
def entry_weight (g : WeightedGraph) : Weight :=
  ((List.range g.n).map fun u => ((g.nbrs u).map fun e => e.w).sum).sum

end WeightedGraph

/-- Cut weight of a labeling given as a function on vertices. -/
def cutOf (g : WeightedGraph) (lab : Nat → Int) : Weight :=
  ∑ a ∈ Finset.range g.n, ∑ b ∈ Finset.range g.n, if lab a ≠ lab b then g.dirW a b else 0

namespace GlobalMinCutSolver

/-- Accumulated weight from the members of `Q` to `y`. -/
def wTo (M : Nat → Nat → Int) (Q : List Nat) (y : Nat) : Int := (Q.map fun x => M x y).sum

/-- Weight between the members of `P` and `v` that `side` separates. -/
def crossTo (M : Nat → Nat → Int) (side : Nat → Bool) (P : List Nat) (v : Nat) : Int :=
  (P.map fun x => if side x ≠ side v then M x v else 0).sum

/-- Weight of the pairs of list members that `side` separates, each pair once. -/
def pairCut (M : Nat → Nat → Int) (side : Nat → Bool) : List Nat → Int
  | [] => 0
  | x :: l => (l.map fun y => if side x ≠ side y then M x y else 0).sum + pairCut M side l

/-- Vertex `v` is at most as tightly connected to every proper prefix of `P` as the member of `P`
chosen after that prefix. -/
def After (M : Nat → Nat → Int) (P : List Nat) (v : Nat) : Prop :=
  ∀ Q x R, P = Q ++ x :: R → wTo M Q v ≤ wTo M Q x

/-- Maximum-adjacency order: every member was a most tightly connected choice when selected. -/
def MaxAdj (M : Nat → Nat → Int) (L : List Nat) : Prop :=
  ∀ P v R, L = P ++ v :: R → After M P v

end GlobalMinCutSolver

namespace GlobalMinCutSolver

/-- Matrix entry between the super-vertices at two positions of `vtx`. -/
def posW (w : List (List Weight)) (vtx : List Nat) (i j : Nat) : Int :=
  mat_get w (vtx.getD i 0) (vtx.getD j 0)

/-- State of a maximum-adjacency ordering after the positions of `L` were selected, in that
order. -/
structure PhaseInv (M : Nat → Nat → Int) (curN : Nat) (L : List Nat) (p : Phase) : Prop where
  nodup : L.Nodup
  bound : ∀ i ∈ L, i < curN
  dlen : p.dist.length = curN
  alen : p.added.length = curN
  added : ∀ i, i < curN → (p.added.getD i false = true ↔ i ∈ L)
  dist_out : ∀ i, i < curN → i ∉ L → p.dist.getD i 0 = wTo M L i
  dist_in : ∀ Q x R, L = Q ++ x :: R → p.dist.getD x 0 = wTo M Q x
  ma : ∀ Q x R, L = Q ++ x :: R → ∀ y, y < curN → y ∉ Q → y ≠ x → wTo M Q y ≤ wTo M Q x
  last : p.last = L.getLast?
  prev : p.prev = L.dropLast.getLast?

end GlobalMinCutSolver

namespace GlobalMinCutSolver

/-- All rows present and of full length. -/
def Square (n : Nat) (w : List (List Weight)) : Prop :=
  w.length = n ∧ ∀ row ∈ w, row.length = n

end GlobalMinCutSolver

namespace GlobalMinCutSolver

/-- Weight between the clusters of two super-vertices; `rep` maps an original vertex to the
super-vertex whose cluster holds it. -/
def clusterW (g : WeightedGraph) (rep : Nat → Nat) (a b : Nat) : Int :=
  ∑ x ∈ Finset.range g.n, ∑ y ∈ Finset.range g.n,
    if rep x = a ∧ rep y = b then (g.pairW x y : Int) else 0

/-- Invariant of the contraction loop. -/
structure SWInv (g : WeightedGraph) (rep : Nat → Nat) (st : Work) : Prop where
  curN_eq : st.curN = st.vtx.length
  nodup : st.vtx.Nodup
  vlt : ∀ a ∈ st.vtx, a < g.n
  square : Square g.n st.w
  clen : st.clusters.length = g.n
  rep_mem : ∀ x, x < g.n → rep x ∈ st.vtx
  rep_self : ∀ a ∈ st.vtx, rep a = a
  cl : ∀ a ∈ st.vtx, ∀ x, x ∈ st.clusters.getD a [] ↔ (x < g.n ∧ rep x = a)
  mat : ∀ a ∈ st.vtx, ∀ b ∈ st.vtx, a ≠ b → (mat_get st.w a b : Int) = clusterW g rep a b

/-- Representative map after merging the cluster of `vt` into that of `vs`. -/
def merge_rep (rep : Nat → Nat) (vs vt : Nat) (x : Nat) : Nat :=
  if rep x = vt then vs else rep x

/-- Labeling that puts the members of `A` on side 0 and all other vertices on side 1. -/
def side_of (A : List Nat) (x : Nat) : Int := if x ∈ A then 0 else 1

/-- The recorded best cut: either still the initial sentinel, or the weight of the cut around the
recorded vertex set, which is neither empty nor everything. -/
def BestOk (g : WeightedGraph) (st : Work) : Prop :=
  (st.best = WEIGHT_MAX ∧ st.bestA = []) ∨
  (st.best < WEIGHT_MAX ∧ (st.best : Int) = cutOf g (side_of st.bestA) ∧
    (∃ x, x < g.n ∧ x ∈ st.bestA) ∧ (∃ y, y < g.n ∧ y ∉ st.bestA))

end GlobalMinCutSolver

/-- Two vertices joined by one edge of the largest representable weight. -/
def maxEdgeGraph : WeightedGraph := WeightedGraph.ofEdges 2 [(0, 1, WEIGHT_MAX)]

/-! ## Auxiliary definitions for the flow network -/

namespace STMinCutSolver

/-- Arc `g[u][i]`, if present. -/
def arc (g : List (List E)) (u i : Nat) : Option E := (g.getD u [])[i]?

/-- Structure of a residual network: endpoints in range, paired arcs pointing at each other
(for arcs that are not self-loops), capacities non-negative. -/
structure NetOk (n : Nat) (g : List (List E)) : Prop where
  len : g.length = n
  to_lt : ∀ u i e, arc g u i = some e → e.to_ < n
  partner : ∀ u i e, arc g u i = some e → e.to_ ≠ u →
    ∃ e1, arc g e.to_ e.rev = some e1 ∧ e1.to_ = u ∧ e1.rev = i
  cap_nonneg : ∀ u i e, arc g u i = some e → (0 : Int) ≤ e.cap

/-- Two networks with the same arcs up to capacities. -/
def SameShape (g1 g2 : List (List E)) : Prop :=
  g1.length = g2.length ∧ ∀ u, (g1.getD u []).map (fun e => (e.to_, e.rev))
    = (g2.getD u []).map (fun e => (e.to_, e.rev))

/-- Residual capacity leaving the vertex set `S`. -/
def capOut (n : Nat) (g : List (List E)) (S : Nat → Bool) : Int :=
  ∑ u ∈ Finset.range n, if S u then
    ((g.getD u []).map fun e => if S e.to_ then (0 : Int) else e.cap).sum else 0

/-- Weight of the adjacency entries leaving the vertex set `S`. -/
def outW (g : WeightedGraph) (S : Nat → Bool) : Int :=
  ∑ u ∈ Finset.range g.n, if S u then
    ((g.nbrs u).map fun e => if S e.to_ then (0 : Int) else e.w).sum else 0

/-- Vertex `v` is reachable from `s` through arcs of positive residual capacity. -/
inductive Reach (g : List (List E)) (s : Nat) : Nat → Prop where
  | refl : Reach g s s
  | step (u : Nat) (e : E) : Reach g s u → e ∈ g.getD u [] → e.cap > 0 → Reach g s e.to_

/-- Vertex `u` reaches `t` in the level graph: along arcs of positive residual capacity that go
up exactly one level. -/
inductive CanReach (g : List (List E)) (lvl : List Int) (t : Nat) : Nat → Prop where
  | here : CanReach g lvl t t
  | step (u : Nat) (e : E) : e ∈ g.getD u [] → e.cap > 0 →
      lvl.getD e.to_ 0 = lvl.getD u 0 + 1 → CanReach g lvl t e.to_ → CanReach g lvl t u

/-- Arcs below the cursor of a vertex are useless: saturated, off-level, or leading to a vertex
that cannot reach `t` in the level graph. -/
def PtrInv (t : Nat) (d : Dinic) : Prop :=
  ∀ u i e, i < d.it.getD u 0 → arc d.g u i = some e →
    e.cap ≤ 0 ∨ d.lvl.getD e.to_ 0 ≠ d.lvl.getD u 0 + 1 ∨ ¬ CanReach d.g d.lvl t e.to_

/-- Level structure left by `bfs`: the source has level 0 and every other levelled vertex has
a levelled predecessor one level below, joined by an arc of positive residual capacity. -/
def LevelOk (g : List (List E)) (lvl : List Int) (s : Nat) : Prop :=
  lvl.getD s 0 = 0 ∧ ∀ v, v < lvl.length → 0 ≤ lvl.getD v 0 →
    v = s ∨ ∃ u e, u < lvl.length ∧ 0 ≤ lvl.getD u 0 ∧ e ∈ g.getD u [] ∧ e.to_ = v ∧ e.cap > 0 ∧
      lvl.getD v 0 = lvl.getD u 0 + 1

/-- Sum of `f u e` over all adjacency entries `e` of all vertices `u`. -/
def adjSum (g : WeightedGraph) (f : Nat → Edge → Int) : Int :=
  ∑ u ∈ Finset.range g.n, ((g.nbrs u).map (f u)).sum

end STMinCutSolver

namespace STMinCutSolver

/-- Number of vertices without a level. -/
def unvisited (n : Nat) (lvl : List Int) : Nat :=
  (List.range n).countP fun v => decide (lvl.getD v 0 < 0)

/-- Every arc of positive residual capacity out of `u` leads to a levelled vertex. -/
def ClosedAt (g : List (List E)) (lvl : List Int) (u : Nat) : Prop :=
  ∀ e ∈ g.getD u [], e.cap > 0 → 0 ≤ lvl.getD e.to_ 0

/-- Invariant of the queue loop of `bfs`. -/
structure BfsInv (n : Nat) (g : List (List E)) (s : Nat) (lvl : List Int) (q : List Nat) : Prop where
  len : lvl.length = n
  q_ok : ∀ v ∈ q, v < n ∧ 0 ≤ lvl.getD v 0
  level : LevelOk g lvl s
  closed : ∀ u, u < n → 0 ≤ lvl.getD u 0 → u ∈ q ∨ ClosedAt g lvl u

end STMinCutSolver

namespace STMinCutSolver

/-- Step of the scan of the arcs of `u` in `bfs`. -/
def bfs_step (u : Nat) (lq : List Int × List Nat) (e : E) : List Int × List Nat :=
  if e.cap > 0 ∧ lq.1.getD e.to_ 0 < 0 then
    (lq.1.set e.to_ (lq.1.getD u 0 + 1), lq.2 ++ [e.to_])
  else lq

/-- Arc under the cursor of `u`: `g[u][it[u]]`. -/
def cur_arc (d : Dinic) (u : Nat) : E := (d.g.getD u []).getD (d.it.getD u 0) default

/-- State after `++i` on the cursor of `u`. -/
def advance (d : Dinic) (u : Nat) : Dinic := { d with it := d.it.set u (d.it.getD u 0 + 1) }

/-- State after pushing `p` along arc `i` of `u`, whose record (before the recursive call) is `e`. -/
def push_flow (d : Dinic) (u i : Nat) (e : E) (p : Weight) : Dinic :=
  { d with g := add_cap (add_cap d.g u i (-p)) e.to_ e.rev p }

/-- The arc under the cursor cannot be used: saturated or not one level up. -/
def Inadmissible (d : Dinic) (u : Nat) : Prop :=
  (cur_arc d u).cap ≤ 0 ∨ d.lvl.getD (cur_arc d u).to_ 0 ≠ d.lvl.getD u 0 + 1

instance (d : Dinic) (u : Nat) : Decidable (Inadmissible d u) := by
  unfold Inadmissible; infer_instance

end STMinCutSolver

namespace STMinCutSolver

/-- What a completed `dfs(u, t, f)` call does to the state: shape, levels and well-formedness are
kept, vertices on lower levels are untouched, the returned amount `r` lies in `[0, f]`, nothing
changes in the network when `r = 0`, and `r` units leave every vertex set that contains `u` but
not `t`. -/
structure DfsEffect (n t : Nat) (d : Dinic) (u : Nat) (f r : Weight) (d1 : Dinic) : Prop where
  net : NetOk n d1.g
  shape : SameShape d1.g d.g
  lvl_eq : d1.lvl = d.lvl
  n_eq : d1.n = d.n
  it_len : d1.it.length = d.it.length
  r_nonneg : (0 : Int) ≤ r
  r_le : (r : Int) ≤ f
  frame : ∀ x, d.lvl.getD x 0 < d.lvl.getD u 0 →
    d1.g.getD x [] = d.g.getD x [] ∧ d1.it.getD x 0 = d.it.getD x 0
  zero_same : r = 0 → d1.g = d.g
  cut : ∀ S : Nat → Bool, S t = false →
    capOut n d1.g S = capOut n d.g S - if S u then (r : Int) else 0

end STMinCutSolver

namespace STMinCutSolver

/-- Invariant of `maxflow`: the network stays well-formed and, for every vertex set that holds
`s` but not `t`, the residual capacity leaving it plus the flow pushed so far is the constant
`C S` (its value in the initial network). -/
structure FlowInv (n s t : Nat) (C : (Nat → Bool) → Int) (d : Dinic) (flow : Weight) : Prop where
  net : NetOk n d.g
  it_len : d.it.length = n
  lvl_len : d.lvl.length = n
  n_eq : d.n = n
  flow_nonneg : (0 : Int) ≤ flow
  cut : ∀ S : Nat → Bool, S s = true → S t = false → capOut n d.g S + flow = C S

/-- The vertex set `{s}`. -/
def only (s : Nat) (x : Nat) : Bool := decide (x = s)

end STMinCutSolver

namespace VertexSeparatorSolver

/-- Solver object: constructor argument and stored result. -/
structure State where
  passes_ : Int := 15
  res_ : PartitionResult := {}
deriving DecidableEq, Repr

/-- Boundary scan of `solve`: flags both endpoints of every adjacency entry whose endpoints carry
different labels (`isSep`). -/
def mark_sep (g : WeightedGraph) (p : List Int) : List Bool :=
  (List.range g.n).foldl (fun isSep u =>
    (g.nbrs u).foldl (fun isSep e =>
      if p.getD u 0 ≠ p.getD e.to_ 0 then (isSep.set u true).set e.to_ true else isSep) isSep)
    (List.replicate g.n false)

/-- Collection loop of `solve`: the flagged vertices in ascending order. -/
def collect_sep (n : Nat) (isSep : List Bool) : List Nat :=
  (List.range n).foldl (fun sep i => if isSep.getD i false then sep ++ [i] else sep) []

/-- Method `solve`. -/
def solve (self : State) (g : WeightedGraph) : State :=
  if g.n = 0 then { self with res_ := {} }
  else
    let bis := MinimumBisectionSolver.solve { max_passes_ := self.passes_ } g
    let p := (MinimumBisectionSolver.result bis).part
    let isSep := mark_sep g p
    let sep := collect_sep g.n isSep
    { self with res_ :=
      { part := p
        separator := sep
        cut_weight := (MinimumBisectionSolver.result bis).cut_weight
        score := sep.length } }

/-- Method `result`. -/
def result (self : State) : PartitionResult := self.res_

end VertexSeparatorSolver

/-- The vertex set `S` separates the two labelled sides: no adjacency entry joins two vertices
outside `S` that carry different labels. -/
def Separates (g : WeightedGraph) (part : List Int) (S : List Nat) : Prop :=
  ∀ u ∈ List.range g.n, ∀ e ∈ g.nbrs u, u ∉ S → e.to_ ∉ S →
    part.getD u 0 = part.getD e.to_ 0

instance (g : WeightedGraph) (part : List Int) (S : List Nat) : Decidable (Separates g part S) := by
  unfold Separates; infer_instance

/-- Vertex `x` is an endpoint of an adjacency entry whose endpoints carry different labels. -/
def OnBoundary (g : WeightedGraph) (part : List Int) (x : Nat) : Prop :=
  ∃ u ∈ List.range g.n, ∃ e ∈ g.nbrs u,
    part.getD u 0 ≠ part.getD e.to_ 0 ∧ (x = u ∨ x = e.to_)

instance (g : WeightedGraph) (part : List Int) (x : Nat) : Decidable (OnBoundary g part x) := by
  unfold OnBoundary; infer_instance

/-- The graph with the single edge 0-1 of weight 1. -/
def edgeGraph : WeightedGraph := WeightedGraph.ofEdges 2 [(0, 1, 1)]

/-- Graph `g` is obtained from `WeightedGraph(n)` by the successful `add_undirected` calls
`calls`, made in that order. -/
inductive WeightedGraph.BuiltBy (n : Nat) : List (Int × Int × Weight) → WeightedGraph → Prop where
  | init : WeightedGraph.BuiltBy n [] (WeightedGraph.init n)
  | add {calls : List (Int × Int × Weight)} {g g1 : WeightedGraph} (u v : Int) (w : Weight) :
      WeightedGraph.BuiltBy n calls g → g.add_undirected u v w = .ok g1 →
      WeightedGraph.BuiltBy n (calls ++ [(u, v, w)]) g1

/-- Arguments of an `add_undirected` call that passes both checks on an `n`-vertex graph. -/
def ValidCall (n : Nat) (c : Int × Int × Weight) : Prop :=
  0 ≤ c.1 ∧ c.1 < (n : Int) ∧ 0 ≤ c.2.1 ∧ c.2.1 < (n : Int) ∧ 0 ≤ c.2.2

instance (n : Nat) (c : Int × Int × Weight) : Decidable (ValidCall n c) := by
  unfold ValidCall; infer_instance

/-- The calls that built the demonstration graph in `main`. -/
def demoCalls : List (Int × Int × Weight) :=
  [(0,1,3),(1,2,2),(2,3,4),(3,0,1),(4,5,3),(5,6,2),(6,7,4),(7,4,1),(3,4,1),(2,5,1)]

/-- Sort key of `order_by_internal_degree` for vertex `a` and subset `S`: the sum of the weights of
all adjacency entries of `a` whose endpoint lies in `S` (an entry of a self-loop on `a` counts). -/
def internal_degree (g : WeightedGraph) (S : List Nat) (a : Nat) : Weight :=
  ((g.nbrs a).map fun e => if e.to_ ∈ S then e.w else 0).sum

/-- Sum of the weights of the adjacency entries of `a` that lead to members of `S` other than `a`. -/
def other_degree (g : WeightedGraph) (S : List Nat) (a : Nat) : Weight :=
  ((g.nbrs a).map fun e => if e.to_ ∈ S ∧ e.to_ ≠ a then e.w else 0).sum

/-- The list is ordered by descending key, ties by ascending vertex index. -/
def OrderedBy (key : Nat → Weight) (out : List Nat) : Prop :=
  out.Pairwise fun a b => key a > key b ∨ (key a = key b ∧ a < b)

instance (key : Nat → Weight) (out : List Nat) : Decidable (OrderedBy key out) := by
  unfold OrderedBy; infer_instance

/-- Two vertices, one self-loop of weight 1 on vertex 1. -/
def loopGraph : WeightedGraph := WeightedGraph.ofEdges 2 [(1, 1, 1)]

/-- Three vertices with the edge 0-1 of weight 3 and two parallel edges 0-2 of weights 1 and 2. -/
def multiGraph : WeightedGraph := WeightedGraph.ofEdges 3 [(0, 1, 3), (0, 2, 1), (0, 2, 2)]

namespace MultilevelKWayPartitionSolver

/-- The counters `sizes` agree with the labeling: one counter per block, holding the number of
entries of `part` that carry the block's label. -/
def SizesOk (k : Int) (r : Refine) : Prop :=
  r.sizes.length = k.toNat ∧ ∀ q, q < k.toNat → r.sizes.getD q 0 = (r.part.count (q : Int) : Int)

/-- Block sizes stay between `min(size before, lo)` and `max(size before, hi)`; `c0` holds the
sizes before. -/
def SizeBounds (k : Int) (c0 : Nat → Int) (lo hi : Int) (part : List Int) : Prop :=
  ∀ q, q < k.toNat → min (c0 q) lo ≤ (part.count (q : Int) : Int) ∧
    (part.count (q : Int) : Int) ≤ max (c0 q) hi

end MultilevelKWayPartitionSolver

namespace KWayPartitionSolver

/-- Invariant of the splitting loop: the blocks are non-empty and together list every vertex
exactly once. -/
def PartsInv (n : Nat) (parts : List (List Nat)) : Prop :=
  parts.flatten.Perm (List.range n) ∧ ∀ b ∈ parts, b ≠ []

end KWayPartitionSolver

/-- Simple graph: no vertex has a self-loop entry or two adjacency entries to the same vertex. -/
def WeightedGraph.Simple (g : WeightedGraph) : Prop :=
  ∀ u ∈ List.range g.n, (∀ e ∈ g.nbrs u, e.to_ ≠ u) ∧ ((g.nbrs u).map fun e => e.to_).Nodup

instance (g : WeightedGraph) : Decidable g.Simple := by
  unfold WeightedGraph.Simple; infer_instance

namespace MinimumBisectionSolver

/-- Local optimum of pairwise exchange: exchanging a vertex labelled 0 with a vertex labelled 1
never gives a strictly smaller cut weight. -/
def SwapOptimal (g : WeightedGraph) (part : List Int) : Prop :=
  ∀ u ∈ List.range g.n, ∀ v ∈ List.range g.n, part.getD u 0 = 0 → part.getD v 0 = 1 →
    cut_weight_undirected g part ≤ cut_weight_undirected g (swap_labels part u v)

instance (g : WeightedGraph) (part : List Int) : Decidable (SwapOptimal g part) := by
  unfold SwapOptimal; infer_instance

/-- Gain of exchanging `u` and `v` as a pass computes it: `D[u] + D[v] - 2 * wuv`. -/
def swap_gain (g : WeightedGraph) (D : List Weight) (u v : Nat) : Weight :=
  D.getD u 0 + D.getD v 0 - 2 * first_weight g u v

/-- Labeling before the first pass of `solve`: the degree order cut in half. -/
def start_part (g : WeightedGraph) : List Int :=
  initial_part g.n ((g.n + 1) / 2) (order_by_internal_degree g (List.range g.n))

end MinimumBisectionSolver

namespace MultilevelKWayPartitionSolver

/-- Row `u` of `adj_map` holds every key once and never the key `u`. -/
def RowGood (u : Nat) (row : List (Nat × Weight)) : Prop :=
  (row.map Prod.fst).Nodup ∧ ∀ p ∈ row, p.1 ≠ u

/-- Sum of `φ u v W` over the entries `(v, W)` of all rows `u` of `adj_map`. -/
def mapSum (φ : Nat → Nat → Int → Int) (am : List (List (Nat × Weight))) (cn : Nat) : Int :=
  ∑ u ∈ Finset.range cn, ((am.getD u []).map fun p => φ u p.1 p.2).sum

/-- Contribution of a coarse edge between `u` and `v` of weight `W` to the cut weight of the
coarse labeling `cp`, taken at the lower endpoint. -/
def cutTerm (cp : List Int) (u v : Nat) (W : Int) : Int :=
  if u < v ∧ cp.getD u 0 ≠ cp.getD v 0 then W else 0

/-- The (coarse vertex, map entry) pairs visited by the emission loops, in order. -/
def emit_pairs (iter : MapOrder) (adj_map : List (List (Nat × Weight))) (coarse_n : Nat) :
    List (Nat × (Nat × Weight)) :=
  (List.range coarse_n).flatMap fun u => (iter (adj_map.getD u [])).map fun p => (u, p)

/-- The calls `coarse.add_undirected(u, v, W)` made by the emission loops, in order. -/
def emit_calls (iter : MapOrder) (adj_map : List (List (Nat × Weight))) (coarse_n : Nat) :
    List (Int × Int × Weight) :=
  ((emit_pairs iter adj_map coarse_n).filter fun up => decide (up.1 < up.2.1)).map fun up =>
    ((up.1 : Int), (up.2.1 : Int), up.2.2)

/-- Body of the inner loop of the accumulation of `adj_map`, for the entry `e` of vertex `u`. -/
def adj_step (fine_to_coarse : List Int) (am : List (List (Nat × Weight))) (u : Nat) (e : Edge) :
    List (List (Nat × Weight)) :=
  let cu := fine_to_coarse.getD u 0
  let v := e.to_
  if u < v then
    let cv := fine_to_coarse.getD v 0
    if cu = cv then am
    else
      let am := am.modify (fun m => map_add m cv.toNat e.w) cu.toNat
      am.modify (fun m => map_add m cu.toNat e.w) cv.toNat
  else am

/-- What the entry `e` of vertex `u` adds to `mapSum φ`. -/
def adj_term (φ : Nat → Nat → Int → Int) (fine_to_coarse : List Int) (u : Nat) (e : Edge) : Int :=
  if u < e.to_ then
    if fine_to_coarse.getD u 0 = fine_to_coarse.getD e.to_ 0 then 0
    else φ (fine_to_coarse.getD u 0).toNat (fine_to_coarse.getD e.to_ 0).toNat e.w
      + φ (fine_to_coarse.getD e.to_ 0).toNat (fine_to_coarse.getD u 0).toNat e.w
  else 0

/-- Invariant of `adj_map`: one row per coarse vertex, every row good. -/
def AdjInv (cn : Nat) (am : List (List (Nat × Weight))) : Prop :=
  am.length = cn ∧ ∀ u, u < cn → RowGood u (am.getD u [])

/-- Five vertices with two parallel edges 0-1, a self-loop at 2 and a chord 1-3. -/
def loopyGraph : WeightedGraph :=
  WeightedGraph.ofEdges 5 [(0,1,2),(0,1,3),(1,2,1),(2,2,4),(2,3,5),(3,4,1),(4,0,2),(1,3,1)]

end MultilevelKWayPartitionSolver

namespace MultilevelKWayPartitionSolver

/-- Every coarse vertex below `cn` is the image of a fine vertex below `fn`. -/
def Onto (fn cn : Nat) (map : List Int) : Prop :=
  ∀ c, c < cn → ∃ u, u < fn ∧ map.getD u 0 = (c : Int)

/-- Every label of `[0, k)` is carried by an entry of `part`. -/
def AllLabels (k : Int) (part : List Int) : Prop :=
  ∀ x : Int, 0 ≤ x → x < k → x ∈ part

/-- A level of the multilevel hierarchy: a graph built by `add_undirected` whose adjacency entries
sum to at most the 64-bit maximum (no weight sum formed on this level overflows), with at least
`k` vertices. -/
def LevelOk (k : Int) (g : WeightedGraph) : Prop :=
  g.Built ∧ g.entry_weight ≤ WEIGHT_MAX ∧ k ≤ (g.n : Int)

/-- Levels of the multilevel hierarchy: every graph is a good level (`LevelOk`), and `maps[i]`
sends the vertices of `graphs[i]` onto those of `graphs[i+1]`. -/
def ChainOk (k : Int) : List WeightedGraph → List (List Int) → Prop
  | [g], [] => LevelOk k g
  | g :: c :: rest, m :: maps => LevelOk k g ∧ Onto g.n c.n m ∧ ChainOk k (c :: rest) maps
  | _, _ => False

/-- Invariant of the matching loop: every coarse id below `coarse_n` is carried by a matched
vertex, and at most two vertices are matched per coarse id. -/
def MatchOnto (n : Nat) (m : Matching) : Prop :=
  (∀ c, c < m.coarse_n →
    ∃ x, x < n ∧ m.matched.getD x false = true ∧ m.fine_to_coarse.getD x 0 = (c : Int)) ∧
  m.matched.count true ≤ 2 * m.coarse_n

end MultilevelKWayPartitionSolver

/-! ## General list lemmas -/

theorem getD_set_eq {α : Type} (l : List α) (i j : Nat) (a d : α) :
    (l.set i a).getD j d = if i = j ∧ i < l.length then a else l.getD j d := by
  simp only [List.getD_eq_getElem?_getD, List.getElem?_set]
  by_cases h : i = j
  · subst h
    by_cases h2 : i < l.length
    · simp [h2]
    · simp [h2, List.getElem?_eq_none (Nat.le_of_not_lt h2)]
  · simp [h]

theorem getD_modify_eq {α : Type} (l : List α) (f : α → α) (i j : Nat) (d : α) :
    (l.modify f i).getD j d = if i = j ∧ i < l.length then f (l.getD j d) else l.getD j d := by
  simp only [List.getD_eq_getElem?_getD, List.getElem?_modify]
  by_cases h : i = j
  · subst h
    by_cases h2 : i < l.length
    · simp [h2]
    · simp [h2, List.getElem?_eq_none (Nat.le_of_not_lt h2)]
  · simp [h]

theorem getD_replicate_eq {α : Type} (n j : Nat) (a d : α) :
    (List.replicate n a).getD j d = if j < n then a else d := by
  simp only [List.getD_eq_getElem?_getD, List.getElem?_replicate]
  split <;> simp

/-- Invariant rule for a left fold. -/
theorem foldl_inv {α β : Type} (P : β → Prop) (f : β → α → β) (l : List α) (b : β)
    (h0 : P b) (hstep : ∀ b x, x ∈ l → P b → P (f b x)) : P (l.foldl f b) := by
  induction l generalizing b with
  | nil => simpa using h0
  | cons x xs ih =>
    simp only [List.foldl_cons]
    apply ih
    · exact hstep b x (by simp) h0
    · intro b y hy hb
      exact hstep b y (by simp [hy]) hb

/-! ## Bisection: label counts -/

namespace MinimumBisectionSolver

theorem mark_in_fold (vs : List Nat) (a : List Bool) :
    (vs.foldl (fun a v => a.set v true) a).length = a.length ∧
    ∀ x, (vs.foldl (fun a v => a.set v true) a).getD x false =
      (a.getD x false || decide (x ∈ vs ∧ x < a.length)) := by
  induction vs generalizing a with
  | nil => simp
  | cons v vs ih =>
    simp only [List.foldl_cons]
    obtain ⟨h1, h2⟩ := ih (a.set v true)
    refine ⟨by simpa using h1, fun x => ?_⟩
    rw [h2 x, getD_set_eq]
    simp only [List.length_set, List.mem_cons]
    by_cases hx : v = x
    · subst hx
      by_cases hl : v < a.length
      · simp [hl]
      · have : a.getD v false = false := by
          simp [List.getD_eq_getElem?_getD, List.getElem?_eq_none (Nat.le_of_not_lt hl)]
        simp [hl, this]
    · have hx2 : ¬ x = v := fun h => hx h.symm
      simp [hx, hx2]

theorem mark_in_length (n : Nat) (vs : List Nat) : (mark_in n vs).length = n := by
  unfold mark_in
  simpa using (mark_in_fold vs (List.replicate n false)).1

theorem mark_in_getD (n : Nat) (vs : List Nat) (x : Nat) :
    (mark_in n vs).getD x false = true ↔ x ∈ vs ∧ x < n := by
  unfold mark_in
  rw [(mark_in_fold vs (List.replicate n false)).2 x, getD_replicate_eq]
  simp

end MinimumBisectionSolver

theorem order_by_internal_degree_perm (g : WeightedGraph) (vs : List Nat) :
    (order_by_internal_degree g vs).Perm vs := by
  unfold order_by_internal_degree
  simp only
  have h := (List.perm_insertionSort dvLe
    (vs.map fun v => ((g.nbrs v).foldl (fun d e =>
      if (mark_in g.n vs).getD e.to_ false then d + e.w else d) 0, v))).map Prod.snd
  refine h.trans ?_
  rw [List.map_map]
  have : (Prod.snd ∘ fun v => ((g.nbrs v).foldl (fun d e =>
      if (mark_in g.n vs).getD e.to_ false then d + e.w else d) (0 : Weight), v)) = id := by
    funext v; rfl
  rw [this, List.map_id]

namespace MinimumBisectionSolver

theorem label_count_perm {S T : List Nat} (h : S.Perm T) (part : List Int) (a : Int) :
    label_count S part a = label_count T part a := by
  unfold label_count
  exact h.countP_eq _

theorem label_count_congr (S : List Nat) (p q : List Int) (a : Int)
    (h : ∀ v ∈ S, p.getD v 0 = q.getD v 0) : label_count S p a = label_count S q a := by
  unfold label_count
  apply List.countP_congr
  intro v hv
  simp only [decide_eq_true_eq]
  rw [h v hv]

theorem label_count_set_other (S : List Nat) (p : List Int) (u : Nat) (a b : Int)
    (hu : u ∉ S) : label_count S (p.set u b) a = label_count S p a := by
  apply label_count_congr
  intro v hv
  rw [getD_set_eq]
  have : ¬ u = v := fun h => hu (h ▸ hv)
  simp [this]

/-- Relabelling one vertex of a duplicate-free list moves one unit between the counts. -/
theorem label_count_set (S : List Nat) (p : List Int) (u : Nat) (b a : Int)
    (hnd : S.Nodup) (hu : u ∈ S) (hlen : u < p.length) :
    label_count S (p.set u b) a + (if p.getD u 0 = a then 1 else 0)
      = label_count S p a + (if b = a then 1 else 0) := by
  induction S with
  | nil => simp at hu
  | cons x xs ih =>
    have hx : x ∉ xs := (List.nodup_cons.mp hnd).1
    have hnd2 : xs.Nodup := (List.nodup_cons.mp hnd).2
    by_cases hxu : x = u
    · subst hxu
      have h1 := label_count_set_other xs p x a b hx
      unfold label_count at h1 ⊢
      rw [List.countP_cons, List.countP_cons, h1]
      simp only [getD_set_eq, hlen, and_self, if_true, decide_eq_true_eq]
      omega
    · have hu2 : u ∈ xs := by
        rcases List.mem_cons.mp hu with h | h
        · exact absurd h.symm hxu
        · exact h
      have h1 := ih hnd2 hu2
      unfold label_count at h1 ⊢
      rw [List.countP_cons, List.countP_cons]
      have hux : ¬ u = x := fun h => hxu h.symm
      simp only [getD_set_eq, hux, false_and, if_false] at h1 ⊢
      omega

theorem swap_labels_length (p : List Int) (i j : Nat) : (swap_labels p i j).length = p.length := by
  simp [swap_labels]

/-- Swapping a 0-labelled with a 1-labelled vertex of `S` keeps both counts. -/
theorem swap_labels_count (S : List Nat) (p : List Int) (u v : Nat) (a : Int)
    (hnd : S.Nodup) (hu : u ∈ S) (hv : v ∈ S) (hul : u < p.length) (hvl : v < p.length)
    (h0 : p.getD u 0 = 0) (h1 : p.getD v 0 = 1) :
    label_count S (swap_labels p u v) a = label_count S p a := by
  unfold swap_labels
  have huv : ¬ u = v := by
    intro h; rw [h] at h0; rw [h0] at h1; exact absurd h1 (by decide)
  have e1 := label_count_set S p u (p.getD v 0) a hnd hu hul
  have e2 := label_count_set S (p.set u (p.getD v 0)) v (p.getD u 0) a hnd hv (by simpa using hvl)
  rw [getD_set_eq] at e2
  simp only [huv, false_and, if_false] at e2
  rw [h0, h1] at e1 e2
  by_cases ha0 : (0 : Int) = a
  · subst ha0
    simp at e1 e2
    rw [h0, h1]
    omega
  · by_cases ha1 : (1 : Int) = a
    · subst ha1
      simp at e1 e2
      rw [h0, h1]
      omega
    · simp [ha0, ha1] at e1 e2
      rw [h0, h1]
      omega

end MinimumBisectionSolver

namespace MinimumBisectionSolver

theorem initial_part_eq (n targetA : Nat) (order : List Nat) :
    initial_part n targetA order =
      (order.foldl (init_step targetA) (List.replicate n (-1), 0)).1 := rfl

theorem init_fold (targetA : Nat) (l : List Nat) (p : List Int) (c : Nat)
    (hnd : l.Nodup) (hr : ∀ v ∈ l, v < p.length) :
    (l.foldl (init_step targetA) (p, c)).1.length = p.length ∧
    (∀ x, x ∉ l → (l.foldl (init_step targetA) (p, c)).1.getD x 0 = p.getD x 0) ∧
    label_count l (l.foldl (init_step targetA) (p, c)).1 0 = min l.length (targetA - c) ∧
    label_count l (l.foldl (init_step targetA) (p, c)).1 1 = l.length - min l.length (targetA - c) := by
  induction l generalizing p c with
  | nil => simp [label_count]
  | cons v vs ih =>
    have hv : v ∉ vs := (List.nodup_cons.mp hnd).1
    have hnd2 : vs.Nodup := (List.nodup_cons.mp hnd).2
    have hvl : v < p.length := hr v (by simp)
    simp only [List.foldl_cons]
    by_cases hc : c < targetA
    · have hs : init_step targetA (p, c) v = (p.set v 0, c + 1) := by simp [init_step, hc]
      rw [hs]
      obtain ⟨h1, h2, h3, h4⟩ := ih (p.set v 0) (c + 1) hnd2
        (fun x hx => by simpa using hr x (by simp [hx]))
      have hvv := h2 v hv
      rw [getD_set_eq] at hvv
      simp only [hvl, and_self, if_true] at hvv
      refine ⟨by simpa using h1, ?_, ?_, ?_⟩
      · intro x hx
        have hx1 : x ∉ vs := fun h => hx (by simp [h])
        have hx2 : ¬ v = x := fun h => hx (by simp [h])
        rw [h2 x hx1, getD_set_eq]
        simp [hx2]
      · unfold label_count at h3 ⊢
        rw [List.countP_cons, h3]
        simp only [hvv, decide_True, if_true, List.length_cons]
        omega
      · unfold label_count at h4 ⊢
        rw [List.countP_cons, h4]
        simp only [hvv, List.length_cons]
        simp
        omega
    · have hs : init_step targetA (p, c) v = (p.set v 1, c) := by simp [init_step, hc]
      rw [hs]
      obtain ⟨h1, h2, h3, h4⟩ := ih (p.set v 1) c hnd2
        (fun x hx => by simpa using hr x (by simp [hx]))
      have hvv := h2 v hv
      rw [getD_set_eq] at hvv
      simp only [hvl, and_self, if_true] at hvv
      refine ⟨by simpa using h1, ?_, ?_, ?_⟩
      · intro x hx
        have hx1 : x ∉ vs := fun h => hx (by simp [h])
        have hx2 : ¬ v = x := fun h => hx (by simp [h])
        rw [h2 x hx1, getD_set_eq]
        simp [hx2]
      · unfold label_count at h3 ⊢
        rw [List.countP_cons, h3]
        simp only [hvv, List.length_cons]
        simp
        omega
      · unfold label_count at h4 ⊢
        rw [List.countP_cons, h4]
        simp only [hvv, decide_True, if_true, List.length_cons]
        omega

theorem best_swap_cross (g : WeightedGraph) (S : List Nat) (part : List Int) (D : List Weight) :
    CrossPair S part (best_swap g S part D) := by
  unfold best_swap
  apply foldl_inv (CrossPair S part)
  · intro u v h; simp at h
  · intro b u hu hb
    by_cases h0 : part.getD u 0 = 0
    · rw [if_pos h0]
      apply foldl_inv (CrossPair S part)
      · exact hb
      · intro b v hv hb
        by_cases h1 : part.getD v 0 = 1
        · rw [if_pos h1]
          simp only
          split
          · intro u' v' hu' hv'
            simp only [Option.some.injEq] at hu' hv'
            subst hu' hv'
            exact ⟨hu, hv, h0, h1⟩
          · exact hb
        · rw [if_neg h1]; exact hb
    · rw [if_neg h0]; exact hb

theorem passes_inv (g : WeightedGraph) (S : List Nat) (inn : List Bool) (k : Nat) (part : List Int)
    (hnd : S.Nodup) (hr : ∀ v ∈ S, v < part.length) :
    (passes g S inn k part).length = part.length ∧
    (∀ a, label_count S (passes g S inn k part) a = label_count S part a) := by
  induction k generalizing part with
  | zero => simp [passes]
  | succ k ih =>
    unfold passes
    simp only
    have hc := best_swap_cross g S part (compute_D g inn part)
    generalize best_swap g S part (compute_D g inn part) = b at hc
    rcases hbu : b.best_u with _ | u
    · simp
    · rcases hbv : b.best_v with _ | v
      · simp
      · simp only
        obtain ⟨hu, hv, h0, h1⟩ := hc u v hbu hbv
        split
        · have hl := swap_labels_length part u v
          obtain ⟨i1, i2⟩ := ih (swap_labels part u v) (fun x hx => by rw [hl]; exact hr x hx)
          refine ⟨by rw [i1, hl], fun a => ?_⟩
          rw [i2 a]
          exact swap_labels_count S part u v a hnd hu hv (hr u hu) (hr v hv) h0 h1
        · simp

theorem clear_outside_spec (inn : List Bool) (part : List Int) (m : Nat) :
    ((List.range m).foldl (fun p u => if !inn.getD u false then p.set u 0 else p) part).length
      = part.length ∧
    ∀ x, ((List.range m).foldl (fun p u => if !inn.getD u false then p.set u 0 else p) part).getD x 0
      = if x < m ∧ x < part.length ∧ inn.getD x false = false then 0 else part.getD x 0 := by
  induction m with
  | zero => simp
  | succ m ih =>
    rw [List.range_succ, List.foldl_append]
    simp only [List.foldl_cons, List.foldl_nil]
    obtain ⟨h1, h2⟩ := ih
    by_cases hm : inn.getD m false = false
    · simp only [hm, Bool.not_false, if_true]
      refine ⟨by simpa using h1, fun x => ?_⟩
      rw [getD_set_eq, h1, h2 x]
      by_cases hx : m = x
      · subst hx
        by_cases hl : m < part.length
        · simp [-List.getD_eq_getElem?_getD, hl, hm]
        · simp [-List.getD_eq_getElem?_getD, hl]
      · have : x < m + 1 ↔ x < m := by omega
        simp only [hx, false_and, if_false, this]
    · have hm' : inn.getD m false = true := by simpa using hm
      simp only [hm', Bool.not_true, Bool.false_eq_true, if_false]
      refine ⟨h1, fun x => ?_⟩
      rw [h2 x]
      by_cases hx : x = m
      · subst hx
        simp [-List.getD_eq_getElem?_getD, hm']
      · have : x < m + 1 ↔ x < m := by omega
        simp only [this]

/-- Labels produced by `bisection_on_subset`: length, labels outside the subset, counts inside. -/
theorem bisection_on_subset_spec (g : WeightedGraph) (S : List Nat) (max_passes : Int)
    (hnd : S.Nodup) (hr : ∀ v ∈ S, v < g.n) :
    (bisection_on_subset g S max_passes).length = g.n ∧
    (∀ v, v < g.n → v ∉ S → (bisection_on_subset g S max_passes).getD v 0 = 0) ∧
    label_count S (bisection_on_subset g S max_passes) 0 = (S.length + 1) / 2 ∧
    label_count S (bisection_on_subset g S max_passes) 1 = S.length / 2 := by
  have hperm := order_by_internal_degree_perm g S
  have hnd_o : (order_by_internal_degree g S).Nodup := hperm.nodup_iff.mpr hnd
  have hr_o : ∀ v ∈ order_by_internal_degree g S, v < (List.replicate g.n (-1 : Int)).length := by
    intro v hv
    simpa using hr v (hperm.mem_iff.mp hv)
  obtain ⟨a1, _, a3, a4⟩ := init_fold ((S.length + 1) / 2) (order_by_internal_degree g S)
    (List.replicate g.n (-1)) 0 hnd_o hr_o
  rw [← initial_part_eq] at a1 a3 a4
  rw [List.length_replicate] at a1
  rw [label_count_perm hperm, hperm.length_eq] at a3 a4
  obtain ⟨b1, b2⟩ := passes_inv g S (mark_in g.n S) max_passes.toNat
    (initial_part g.n ((S.length + 1) / 2) (order_by_internal_degree g S)) hnd
    (fun v hv => by rw [a1]; exact hr v hv)
  obtain ⟨c1, c2⟩ := clear_outside_spec (mark_in g.n S)
    (passes g S (mark_in g.n S) max_passes.toNat
      (initial_part g.n ((S.length + 1) / 2) (order_by_internal_degree g S))) g.n
  have hin : ∀ x, (mark_in g.n S).getD x false = false ↔ ¬ (x ∈ S ∧ x < g.n) := by
    intro x
    rw [← mark_in_getD g.n S x]
    simp
  have hcong : ∀ a, label_count S (bisection_on_subset g S max_passes) a =
      label_count S (passes g S (mark_in g.n S) max_passes.toNat
        (initial_part g.n ((S.length + 1) / 2) (order_by_internal_degree g S))) a := by
    intro a
    apply label_count_congr
    intro v hv
    show (clear_outside _ _ _).getD v 0 = _
    unfold clear_outside
    rw [c2 v]
    have : ¬ ((mark_in g.n S).getD v false = false) := by
      rw [hin v]; exact not_not.mpr ⟨hv, hr v hv⟩
    rw [if_neg]
    intro h
    exact this h.2.2
  refine ⟨?_, ?_, ?_, ?_⟩
  · show (clear_outside _ _ _).length = _
    unfold clear_outside
    rw [c1, b1, a1]
  · intro v hv hvS
    show (clear_outside _ _ _).getD v 0 = _
    unfold clear_outside
    rw [c2 v, b1, a1]
    have : (mark_in g.n S).getD v false = false := (hin v).mpr (fun h => hvS h.1)
    simp [-List.getD_eq_getElem?_getD, hv, this]
  · rw [hcong 0, b2 0, a3]
    omega
  · rw [hcong 1, b2 1, a4]
    omega

end MinimumBisectionSolver

theorem list_eq_map_getD (l : List Int) :
    l = (List.range l.length).map (fun i => l.getD i 0) := by
  apply List.ext_getElem
  · simp
  · intro i h1 h2
    simp [List.getD_eq_getElem?_getD, List.getElem?_eq_getElem h1]

namespace MinimumBisectionSolver

theorem label_count_range (l : List Int) (a : Int) :
    label_count (List.range l.length) l a = l.count a := by
  unfold label_count
  conv_rhs => rw [list_eq_map_getD l]
  rw [List.count, List.countP_map]
  apply List.countP_congr
  intro v _
  simp only [Function.comp, beq_iff_eq, decide_eq_true_eq]

theorem label_count_filter (S : List Nat) (p : List Int) (a : Int) :
    (S.filter fun v => p.getD v 0 = a).length = label_count S p a := by
  unfold label_count
  rw [List.countP_eq_length_filter]

/-- C8: `bisection_on_subset(g, S, max_passes)`, for a duplicate-free list `S` of in-range
vertices, returns `g.n` labels; every vertex outside `S` has label 0, exactly `ceil(|S|/2)`
vertices of `S` have label 0 and exactly `floor(|S|/2)` vertices of `S` have label 1. -/
theorem bisection_on_subset_labels (g : WeightedGraph) (S : List Nat) (max_passes : Int)
    (hnd : S.Nodup) (hr : ∀ v ∈ S, v < g.n) :
    (bisection_on_subset g S max_passes).length = g.n ∧
    (∀ v, v < g.n → v ∉ S → (bisection_on_subset g S max_passes).getD v 0 = 0) ∧
    (S.filter fun v => (bisection_on_subset g S max_passes).getD v 0 = 0).length
      = (S.length + 1) / 2 ∧
    (S.filter fun v => (bisection_on_subset g S max_passes).getD v 0 = 1).length
      = S.length / 2 := by
  obtain ⟨h1, h2, h3, h4⟩ := bisection_on_subset_spec g S max_passes hnd hr
  rw [label_count_filter, label_count_filter]
  exact ⟨h1, h2, h3, h4⟩

set_option maxRecDepth 100000 in
/-- Witness for C8 on the demonstration graph with the subset `[0, 2, 4, 5, 7]` and 20 passes. -/
theorem bisection_on_subset_labels_witness :
    ([0, 2, 4, 5, 7] : List Nat).Nodup ∧ (∀ v ∈ ([0, 2, 4, 5, 7] : List Nat), v < demoGraph.n) ∧
    ((bisection_on_subset demoGraph [0, 2, 4, 5, 7] 20).length = demoGraph.n ∧
    (∀ v, v < demoGraph.n → v ∉ ([0, 2, 4, 5, 7] : List Nat) →
      (bisection_on_subset demoGraph [0, 2, 4, 5, 7] 20).getD v 0 = 0) ∧
    (([0, 2, 4, 5, 7] : List Nat).filter fun v =>
      (bisection_on_subset demoGraph [0, 2, 4, 5, 7] 20).getD v 0 = 0).length
      = (([0, 2, 4, 5, 7] : List Nat).length + 1) / 2 ∧
    (([0, 2, 4, 5, 7] : List Nat).filter fun v =>
      (bisection_on_subset demoGraph [0, 2, 4, 5, 7] 20).getD v 0 = 1).length
      = ([0, 2, 4, 5, 7] : List Nat).length / 2) :=
  ⟨by decide, by decide,
    bisection_on_subset_labels demoGraph [0, 2, 4, 5, 7] 20 (by decide) (by decide)⟩

theorem count_zero_one_le (l : List Int) : l.count 0 + l.count 1 ≤ l.length := by
  induction l with
  | nil => simp
  | cons a as ih =>
    rw [List.count_cons, List.count_cons, List.length_cons]
    by_cases h0 : a = 0
    · subst h0; simp; omega
    · by_cases h1 : a = 1
      · subst h1; simp; omega
      · have e0 : (a == 0) = false := by simpa using h0
        have e1 : (a == 1) = false := by simpa using h1
        simp [e0, e1]; omega

theorem labels_binary_of_counts (l : List Int)
    (h : l.count 0 + l.count 1 = l.length) : ∀ x ∈ l, x = 0 ∨ x = 1 := by
  induction l with
  | nil => simp
  | cons a as ih =>
    intro x hx
    have hle := count_zero_one_le as
    rw [List.count_cons, List.count_cons, List.length_cons] at h
    by_cases h0 : a = 0
    · subst h0
      simp at h
      rcases List.mem_cons.mp hx with h' | h'
      · left; exact h'
      · exact ih (by omega) x h'
    · by_cases h1 : a = 1
      · subst h1
        simp at h
        rcases List.mem_cons.mp hx with h' | h'
        · right; exact h'
        · exact ih (by omega) x h'
      · have e0 : (a == 0) = false := by simpa using h0
        have e1 : (a == 1) = false := by simpa using h1
        simp [e0, e1] at h
        omega

/-- C7: the labeling returned by `MinimumBisectionSolver::solve` has one label per vertex, every
label is 0 or 1, and the numbers of 0-labels and 1-labels differ by at most one (for every
graph and every `max_passes`, also zero or negative). -/
theorem solve_balanced (self : State) (g : WeightedGraph) :
    (result (solve self g)).part.length = g.n ∧
    (∀ x ∈ (result (solve self g)).part, x = 0 ∨ x = 1) ∧
    ((result (solve self g)).part.count 0 : Int) - (result (solve self g)).part.count 1 ≤ 1 ∧
    ((result (solve self g)).part.count 1 : Int) - (result (solve self g)).part.count 0 ≤ 1 := by
  unfold solve result
  by_cases hn : g.n = 0
  · simp [hn]
  · simp only [hn, if_false]
    obtain ⟨h1, _, h3, h4⟩ := bisection_on_subset_spec g (List.range g.n) self.max_passes_
      (List.nodup_range g.n) (fun v hv => by simpa using hv)
    have e3 := label_count_range (bisection_on_subset g (List.range g.n) self.max_passes_) 0
    have e4 := label_count_range (bisection_on_subset g (List.range g.n) self.max_passes_) 1
    rw [h1] at e3 e4
    rw [e3] at h3
    rw [e4] at h4
    simp only [List.length_range] at h3 h4
    refine ⟨h1, ?_, ?_, ?_⟩
    · apply labels_binary_of_counts
      rw [h3, h4, h1]
      omega
    · rw [h3, h4]; omega
    · rw [h3, h4]; omega

end MinimumBisectionSolver

/-! ## Recursive bisection: label range -/

namespace KWayPartitionSolver

theorem split_loop_length (g : WeightedGraph) (passes_ k : Int) (fuel : Nat)
    (parts : List (List Nat)) (h : (parts.length : Int) ≤ k) :
    ((split_loop g passes_ k fuel parts).length : Int) ≤ k := by
  induction fuel generalizing parts with
  | zero => simpa [split_loop] using h
  | succ fuel ih =>
    unfold split_loop
    simp only
    split
    · rename_i hlt
      split
      · exact h
      · split
        · exact h
        · apply ih
          simp only [List.length_append, List.length_set, List.length_singleton]
          push_cast
          omega
    · exact h

/-- The loop of `solve` never runs out of the `k` iterations the model grants it. -/
theorem split_loop_fuel_stable (g : WeightedGraph) (passes_ k : Int) (fuel : Nat)
    (parts : List (List Nat)) (h : k - parts.length ≤ fuel) :
    split_loop g passes_ k (fuel + 1) parts = split_loop g passes_ k fuel parts := by
  induction fuel generalizing parts with
  | zero =>
    have hk : ¬ ((parts.length : Int) < k) := by
      simp only [CharP.cast_eq_zero] at h; omega
    simp [split_loop, hk]
  | succ fuel ih =>
    rw [split_loop]
    conv_rhs => rw [split_loop]
    simp only
    split
    · split
      · rfl
      · split
        · rfl
        · apply ih
          simp only [List.length_append, List.length_set, List.length_singleton]
          push_cast at h ⊢
          omega
    · rfl

theorem label_blocks_spec (n : Nat) (parts : List (List Nat)) :
    (label_blocks n parts).length = n ∧
    ∀ x ∈ label_blocks n parts, 0 ≤ x ∧ (x < (parts.length : Int) ∨ x = 0) := by
  unfold label_blocks
  apply foldl_inv (fun (p : List Int) =>
    p.length = n ∧ ∀ x ∈ p, 0 ≤ x ∧ (x < (parts.length : Int) ∨ x = 0))
  · refine ⟨by simp, fun x hx => ?_⟩
    have := List.eq_of_mem_replicate hx
    subst this
    simp
  · intro p i hi hp
    apply foldl_inv (fun (p : List Int) =>
      p.length = n ∧ ∀ x ∈ p, 0 ≤ x ∧ (x < (parts.length : Int) ∨ x = 0))
    · exact hp
    · intro p v _ hp
      refine ⟨by simpa using hp.1, fun x hx => ?_⟩
      rcases List.mem_or_eq_of_mem_set hx with h | h
      · exact hp.2 x h
      · subst h
        have : i < parts.length := by simpa using hi
        refine ⟨by omega, Or.inl (by exact_mod_cast this)⟩

/-- Shape of the labeling stored by `solve`. -/
theorem kway_solve_spec (self : State) (g : WeightedGraph) :
    (result (solve self g)).part.length = g.n ∧
    (∀ x ∈ (result (solve self g)).part, 0 ≤ x ∧ x < max 1 self.k_) ∧
    (self.k_ ≤ 1 → (∀ x ∈ (result (solve self g)).part, x = 0) ∧
      (result (solve self g)).cut_weight = 0) := by
  unfold solve result
  by_cases hn : g.n = 0
  · simp [hn]
  · simp only [hn, if_false]
    by_cases hk : max 1 self.k_ = 1
    · simp only [hk, if_true]
      refine ⟨by simp, fun x hx => ?_, fun _ => ⟨fun x hx => ?_, trivial⟩⟩
      · have := List.eq_of_mem_replicate hx
        subst this; simp
      · exact List.eq_of_mem_replicate hx
    · simp only [hk, if_false]
      have hk2 : 2 ≤ self.k_ := by omega
      have hmax : max 1 self.k_ = self.k_ := by omega
      obtain ⟨h1, h2⟩ := label_blocks_spec g.n
        (split_loop g self.passes_ (max 1 self.k_) (max 1 self.k_).toNat [List.range g.n])
      have hlen := split_loop_length g self.passes_ (max 1 self.k_) (max 1 self.k_).toNat
        [List.range g.n] (by simp)
      refine ⟨h1, fun x hx => ?_, fun h => by omega⟩
      obtain ⟨a, b⟩ := h2 x hx
      refine ⟨a, ?_⟩
      rcases b with b | b
      · omega
      · omega

/-- C9: the labeling returned by `KWayPartitionSolver::solve` has one label per vertex and every
label lies in `[0, max(1, k))`; for `k <= 1` every label is 0 and `cut_weight` is 0. -/
theorem solve_labels_in_range (self : State) (g : WeightedGraph) :
    (result (solve self g)).part.length = g.n ∧
    (∀ x ∈ (result (solve self g)).part, 0 ≤ x ∧ x < max 1 self.k_) ∧
    (self.k_ ≤ 1 → (∀ x ∈ (result (solve self g)).part, x = 0) ∧
      (result (solve self g)).cut_weight = 0) :=
  kway_solve_spec self g

end KWayPartitionSolver

/-! ## Graph construction: well-formedness -/

namespace WeightedGraph

theorem init_WF (n : Nat) : (init n).WF := by
  refine ⟨by simp [init], fun l hl e he => ?_⟩
  have := List.eq_of_mem_replicate hl
  subst this
  simp at he

theorem mem_modify {α : Type} (f : α → α) (i : Nat) (l : List α) (x : α)
    (h : x ∈ l.modify f i) : x ∈ l ∨ ∃ y ∈ l, x = f y := by
  induction l generalizing i with
  | nil => simp at h
  | cons a as ih =>
    cases i with
    | zero =>
      simp only [List.modify_zero_cons, List.mem_cons] at h
      rcases h with h | h
      · right; exact ⟨a, by simp, h⟩
      · left; simp [h]
    | succ i =>
      simp only [List.modify_succ_cons, List.mem_cons] at h
      rcases h with h | h
      · left; simp [h]
      · rcases ih i h with h' | ⟨y, hy, hxy⟩
        · left; simp [h']
        · right; exact ⟨y, by simp [hy], hxy⟩

theorem add_undirected_ok (g : WeightedGraph) (u v : Nat) (w : Weight)
    (hu : u < g.n) (hv : v < g.n) (hw : 0 ≤ w) :
    g.add_undirected u v w = .ok ⟨g.n,
      (g.adj.modify (fun l => l ++ [⟨v, w⟩]) u).modify (fun l => l ++ [⟨u, w⟩]) v⟩ := by
  unfold add_undirected
  have h1 : ¬ ((u : Int) < 0 ∨ (v : Int) < 0 ∨ (u : Int) ≥ g.n ∨ (v : Int) ≥ g.n) := by omega
  have h2 : ¬ (w < 0) := not_lt.mpr hw
  simp only [h1, h2, if_false, Int.toNat_ofNat]

theorem add_undirected_inv (g g1 : WeightedGraph) (u v : Int) (w : Weight)
    (h : g.add_undirected u v w = .ok g1) :
    0 ≤ u ∧ 0 ≤ v ∧ u < g.n ∧ v < g.n ∧ 0 ≤ w ∧
    g1 = ⟨g.n, (g.adj.modify (fun l => l ++ [⟨v.toNat, w⟩]) u.toNat).modify
      (fun l => l ++ [⟨u.toNat, w⟩]) v.toNat⟩ := by
  unfold add_undirected at h
  by_cases h1 : (u < 0 ∨ v < 0 ∨ u ≥ (g.n : Int) ∨ v ≥ (g.n : Int))
  · simp [h1] at h
  · by_cases h2 : w < 0
    · simp [h1, h2] at h
    · simp only [h1, h2, if_false, Except.ok.injEq] at h
      refine ⟨by omega, by omega, by omega, by omega, not_lt.mp h2, h.symm⟩

theorem add_undirected_WF (g g1 : WeightedGraph) (u v : Int) (w : Weight)
    (hg : g.WF) (h : g.add_undirected u v w = .ok g1) : g1.WF ∧ g1.n = g.n := by
  obtain ⟨h1, h2, h3, h4, h5, h6⟩ := add_undirected_inv g g1 u v w h
  subst h6
  refine ⟨⟨by simpa using hg.1, fun l hl e he => ?_⟩, rfl⟩
  simp only at hl ⊢
  rcases mem_modify _ _ _ _ hl with hl | ⟨y, hy, rfl⟩
  · rcases mem_modify _ _ _ _ hl with hl | ⟨y, hy, rfl⟩
    · exact hg.2 l hl e he
    · rcases List.mem_append.mp he with he | he
      · exact hg.2 y hy e he
      · simp only [List.mem_singleton] at he
        subst he
        exact ⟨by simp only; omega, h5⟩
  · rcases List.mem_append.mp he with he | he
    · rcases mem_modify _ _ _ _ hy with hl | ⟨z, hz, rfl⟩
      · exact hg.2 y hl e he
      · rcases List.mem_append.mp he with he | he
        · exact hg.2 z hz e he
        · simp only [List.mem_singleton] at he
          subst he
          exact ⟨by simp only; omega, h5⟩
    · simp only [List.mem_singleton] at he
      subst he
      exact ⟨by simp only; omega, h5⟩

theorem Built.WF {g : WeightedGraph} (h : g.Built) : g.WF := by
  induction h with
  | init n => exact init_WF n
  | add u v w _ hadd ih => exact (add_undirected_WF _ _ u v w ih hadd).1

theorem nbrs_mem_WF {g : WeightedGraph} (hg : g.WF) (u : Nat) (e : Edge) (he : e ∈ g.nbrs u) :
    e.to_ < g.n ∧ 0 ≤ e.w := by
  unfold nbrs at he
  by_cases hu : u < g.adj.length
  · rw [List.getD_eq_getElem _ _ hu] at he
    exact hg.2 _ (List.getElem_mem _) e he
  · rw [List.getD_eq_default _ _ (Nat.le_of_not_lt hu)] at he
    simp at he

end WeightedGraph

/-- Fold rule: an invariant `P`, and a stable property `Q x` established when `x` is processed. -/
theorem foldl_inv_cover {α β : Type} (P : β → Prop) (Q : α → β → Prop) (f : β → α → β)
    (l : List α) (b : β) (h0 : P b)
    (hstep : ∀ b x, x ∈ l → P b → P (f b x) ∧ Q x (f b x))
    (hstable : ∀ b x y, P b → Q y b → Q y (f b x)) :
    P (l.foldl f b) ∧ ∀ x ∈ l, Q x (l.foldl f b) := by
  induction l generalizing b with
  | nil => simpa using h0
  | cons a as ih =>
    simp only [List.foldl_cons]
    have h1 := hstep b a (by simp) h0
    obtain ⟨i1, i2⟩ := ih (f b a) h1.1 (fun b x hx hb => hstep b x (by simp [hx]) hb)
    refine ⟨i1, fun x hx => ?_⟩
    rcases List.mem_cons.mp hx with h | h
    · subst h
      have key : ∀ (l : List α) (b : β), P b → (∀ b x, x ∈ l → P b → P (f b x)) →
          Q x b → Q x (l.foldl f b) := by
        intro l
        induction l with
        | nil => intro b _ _ hq; simpa using hq
        | cons c cs ihc =>
          intro b hb hs hq
          simp only [List.foldl_cons]
          exact ihc (f b c) (hs b c (by simp) hb) (fun b x hx hb => hs b x (by simp [hx]) hb)
            (hstable b c x hb hq)
      exact key as (f b x) h1.1 (fun b y hy hb => (hstep b y (by simp [hy]) hb).1) h1.2
    · exact i2 x h

namespace MultilevelKWayPartitionSolver

/-! ## Heavy-edge matching -/

theorem match_step_inv (g : WeightedGraph) (n : Nat) (m : Matching) (u : Nat) (hu : u < n)
    (hm : MatchInv n m) :
    MatchInv n (match_step g m u) ∧ (match_step g m u).matched.getD u false = true := by
  obtain ⟨h1, h2, h3⟩ := hm
  unfold match_step
  by_cases hmu : m.matched.getD u false = true
  · simp only [hmu, if_true]
    exact ⟨⟨h1, h2, h3⟩, trivial⟩
  · simp only [hmu, Bool.false_eq_true, if_false]
    rcases (heaviest_unmatched g (m.matched.set u true) u).1 with _ | best
    · simp only
      refine ⟨⟨by simpa using h1, by simpa using h2, fun x hx => ?_⟩, ?_⟩
      · rw [getD_set_eq] at hx ⊢
        simp only [h1, h2] at hx ⊢
        split_ifs at hx ⊢
        · omega
        · have := h3 x hx
          omega
      · rw [getD_set_eq]; simp [h1, hu]
    · simp only
      refine ⟨⟨by simpa using h1, by simpa using h2, fun x hx => ?_⟩, ?_⟩
      · rw [getD_set_eq, getD_set_eq] at hx
        rw [getD_set_eq, getD_set_eq]
        simp only [List.length_set, h1, h2] at hx ⊢
        split_ifs at hx ⊢
        · omega
        · omega
        · have := h3 x hx
          omega
      · rw [getD_set_eq, getD_set_eq]
        simp only [List.length_set, h1, hu, and_true]
        split <;> simp

theorem match_step_stable (g : WeightedGraph) (m : Matching) (u y : Nat)
    (hy : m.matched.getD y false = true) : (match_step g m u).matched.getD y false = true := by
  unfold match_step
  by_cases hmu : m.matched.getD u false = true
  · simpa only [hmu, if_true] using hy
  · simp only [hmu, Bool.false_eq_true, if_false]
    rcases (heaviest_unmatched g (m.matched.set u true) u).1 with _ | best
    · simp only
      rw [getD_set_eq]
      split
      · rfl
      · exact hy
    · simp only
      rw [getD_set_eq, getD_set_eq]
      split
      · rfl
      · split
        · rfl
        · exact hy

theorem heavy_edge_matching_spec (g : WeightedGraph) :
    (heavy_edge_matching g).fine_to_coarse.length = g.n ∧
    ∀ x, x < g.n → 0 ≤ (heavy_edge_matching g).fine_to_coarse.getD x 0 ∧
      (heavy_edge_matching g).fine_to_coarse.getD x 0 < ((heavy_edge_matching g).coarse_n : Int) := by
  unfold heavy_edge_matching
  simp only
  have hperm := List.perm_insertionSort (degLe g.degrees) (List.range g.n)
  have hmem : ∀ x, x ∈ (List.range g.n).insertionSort (degLe g.degrees) ↔ x < g.n := by
    intro x; rw [hperm.mem_iff]; simp
  obtain ⟨⟨_, h2, h3⟩, h4⟩ := foldl_inv_cover (MatchInv g.n)
    (fun u (m : Matching) => m.matched.getD u false = true) (match_step g)
    ((List.range g.n).insertionSort (degLe g.degrees))
    ⟨List.replicate g.n false, List.replicate g.n (-1), 0⟩
    ⟨by simp, by simp, fun x hx => by
      rw [getD_replicate_eq] at hx
      split at hx <;> simp at hx⟩
    (fun b x hx hb => match_step_inv g g.n b x ((hmem x).mp hx) hb)
    (fun b x y _ hq => match_step_stable g b x y hq)
  exact ⟨h2, fun x hx => h3 x (h4 x ((hmem x).mpr hx))⟩

/-! ## Coarse adjacency maps -/

theorem map_add_ok (coarse_n : Nat) (row : List (Nat × Weight)) (k : Nat) (w : Weight)
    (hk : k < coarse_n) (hw : (0 : Int) ≤ w) (hrow : RowOk coarse_n row) :
    RowOk coarse_n (map_add row k w) := by
  unfold map_add
  split
  · intro p hp
    obtain ⟨q, hq, rfl⟩ := List.mem_map.mp hp
    have := hrow q hq
    split
    · refine ⟨this.1, ?_⟩
      show (0 : Int) ≤ q.2 + w
      omega
    · exact this
  · intro p hp
    rcases List.mem_append.mp hp with hp | hp
    · exact hrow p hp
    · simp only [List.mem_singleton] at hp
      subst hp
      refine ⟨hk, ?_⟩
      show (0 : Int) ≤ 0 + w
      omega

theorem build_adj_map_spec (g : WeightedGraph) (hg : g.WF) (ftc : List Int) (coarse_n : Nat)
    (hftc : ∀ x, x < g.n → 0 ≤ ftc.getD x 0 ∧ ftc.getD x 0 < (coarse_n : Int)) :
    (build_adj_map g ftc coarse_n).length = coarse_n ∧
    ∀ row ∈ build_adj_map g ftc coarse_n, RowOk coarse_n row := by
  unfold build_adj_map
  apply foldl_inv (fun (am : List (List (Nat × Weight))) =>
    am.length = coarse_n ∧ ∀ row ∈ am, RowOk coarse_n row)
  · refine ⟨by simp, fun row hrow => ?_⟩
    have := List.eq_of_mem_replicate hrow
    subst this
    intro p hp; simp at hp
  · intro am u hu ham
    have hu' : u < g.n := by simpa using hu
    apply foldl_inv (fun (am : List (List (Nat × Weight))) =>
      am.length = coarse_n ∧ ∀ row ∈ am, RowOk coarse_n row)
    · exact ham
    · intro am e he ham
      obtain ⟨hv, hw⟩ := WeightedGraph.nbrs_mem_WF hg u e he
      simp only
      split
      · split
        · exact ham
        · have hcu := hftc u hu'
          have hcv := hftc e.to_ hv
          refine ⟨by simpa using ham.1, fun row hrow => ?_⟩
          rcases WeightedGraph.mem_modify _ _ _ _ hrow with h | ⟨y, hy, rfl⟩
          · rcases WeightedGraph.mem_modify _ _ _ _ h with h | ⟨y, hy, rfl⟩
            · exact ham.2 row h
            · exact map_add_ok coarse_n y _ e.w (by omega) hw (ham.2 y hy)
          · apply map_add_ok coarse_n y _ e.w (by omega) hw
            rcases WeightedGraph.mem_modify _ _ _ _ hy with h | ⟨z, hz, rfl⟩
            · exact ham.2 y h
            · exact map_add_ok coarse_n z _ e.w (by omega) hw (ham.2 z hz)
      · exact ham

theorem getD_mem_or_default {α : Type} (l : List α) (i : Nat) (d : α) :
    l.getD i d ∈ l ∨ l.getD i d = d := by
  by_cases h : i < l.length
  · left; rw [List.getD_eq_getElem _ _ h]; exact List.getElem_mem _
  · right; exact List.getD_eq_default _ _ (Nat.le_of_not_lt h)

theorem emit_coarse_spec (iter : MapOrder) (hiter : iter.Legal)
    (adj_map : List (List (Nat × Weight))) (coarse_n : Nat)
    (hrows : ∀ row ∈ adj_map, RowOk coarse_n row) :
    ∃ c, emit_coarse iter adj_map coarse_n = .ok c ∧ c.WF ∧ c.n = coarse_n := by
  unfold emit_coarse
  apply foldl_inv (fun (acc : Except SolverError WeightedGraph) =>
    ∃ c, acc = .ok c ∧ c.WF ∧ c.n = coarse_n)
  · exact ⟨_, rfl, WeightedGraph.init_WF coarse_n, rfl⟩
  · intro acc u hu hacc
    have hu' : u < coarse_n := by simpa using hu
    apply foldl_inv (fun (acc : Except SolverError WeightedGraph) =>
      ∃ c, acc = .ok c ∧ c.WF ∧ c.n = coarse_n)
    · exact hacc
    · intro acc p hp hacc
      obtain ⟨c, rfl, hc, hn⟩ := hacc
      have hp' : p ∈ adj_map.getD u [] := (hiter _).mem_iff.mp hp
      have hrow : RowOk coarse_n (adj_map.getD u []) := by
        rcases getD_mem_or_default adj_map u [] with h | h
        · exact hrows _ h
        · rw [h]; intro q hq; simp at hq
      obtain ⟨hk, hw⟩ := hrow p hp'
      split
      · have hok := WeightedGraph.add_undirected_ok c u p.1 p.2 (by omega) (by omega) hw
        have hwf := WeightedGraph.add_undirected_WF c _ u p.1 p.2 hc hok
        exact ⟨_, hok, hwf.1, by rw [hwf.2, hn]⟩
      · exact ⟨c, rfl, hc, hn⟩

theorem coarsen_graph_spec (iter : MapOrder) (hiter : iter.Legal) (g : WeightedGraph)
    (hg : g.WF) : ∃ c map, coarsen_graph iter g = .ok (c, map) ∧ c.WF := by
  obtain ⟨_, h2⟩ := heavy_edge_matching_spec g
  obtain ⟨_, h4⟩ := build_adj_map_spec g hg (heavy_edge_matching g).fine_to_coarse
    (heavy_edge_matching g).coarse_n h2
  obtain ⟨c, hc, hwf, _⟩ := emit_coarse_spec iter hiter _ (heavy_edge_matching g).coarse_n h4
  refine ⟨c, (heavy_edge_matching g).fine_to_coarse, ?_, hwf⟩
  unfold coarsen_graph
  simp only [hc]
  rfl

end MultilevelKWayPartitionSolver

namespace MultilevelKWayPartitionSolver

/-! ## Refinement keeps labels in range -/

theorem best_move_range (weights : List Weight) (sizes : List Int) (k max_size p : Int) :
    (best_move weights sizes k max_size p).1 = p ∨
    (0 ≤ (best_move weights sizes k max_size p).1 ∧ (best_move weights sizes k max_size p).1 < k) := by
  unfold best_move
  apply foldl_inv (fun (b : Int × Weight) => b.1 = p ∨ (0 ≤ b.1 ∧ b.1 < k))
  · left; rfl
  · intro b q hq hb
    have hq' : q < k.toNat := by simpa using hq
    simp only
    split
    · exact hb
    · split
      · exact hb
      · split
        · right
          simp only
          omega
        · exact hb

theorem refine_vertex_ok (g : WeightedGraph) (len : Nat) (k min_size max_size : Int) (r : Refine)
    (u : Nat) (hr : LabelsOk len k r.part) :
    LabelsOk len k (refine_vertex g k min_size max_size r u).part := by
  unfold refine_vertex
  simp only
  split
  · exact hr
  · rename_i hp
    split
    · exact hr
    · split
      · refine ⟨by simpa using hr.1, fun x hx => ?_⟩
        rcases List.mem_or_eq_of_mem_set hx with h | h
        · exact hr.2 x h
        · subst h
          rcases best_move_range (block_weights g r.part k u) r.sizes k max_size
            (r.part.getD u 0) with h | h
          · rw [h]; omega
          · exact h
      · exact hr

theorem refine_passes_ok (g : WeightedGraph) (len : Nat) (k min_size max_size : Int) (fuel : Nat)
    (part : List Int) (hp : LabelsOk len k part) :
    LabelsOk len k (refine_passes g k min_size max_size fuel part) := by
  induction fuel generalizing part with
  | zero => simpa [refine_passes] using hp
  | succ fuel ih =>
    unfold refine_passes
    simp only
    have hr : LabelsOk len k ((List.range g.n).foldl (refine_vertex g k min_size max_size)
        ⟨part, count_sizes part k, false⟩).part := by
      apply foldl_inv (fun (r : Refine) => LabelsOk len k r.part)
      · exact hp
      · intro r u _ hr
        exact refine_vertex_ok g len k min_size max_size r u hr
    split
    · exact ih _ hr
    · exact hr

theorem refine_partition_ok (g : WeightedGraph) (len : Nat) (k max_passes : Int)
    (part : List Int) (hp : LabelsOk len k part) :
    LabelsOk len k (refine_partition g part k max_passes) := by
  unfold refine_partition
  split
  · exact hp
  · exact refine_passes_ok g len k _ _ _ part hp

theorem project_ok (fine : WeightedGraph) (map : List Int) (len : Nat) (k : Int) (part : List Int)
    (hk : 0 < k) (hp : LabelsOk len k part) : LabelsOk fine.n k (project fine map part) := by
  unfold project
  refine ⟨by simp, fun x hx => ?_⟩
  obtain ⟨u, _, rfl⟩ := List.mem_map.mp hx
  rcases getD_mem_or_default part (map.getD u 0).toNat 0 with h | h
  · exact hp.2 _ h
  · rw [h]; omega

/-! ## The coarsening and uncoarsening loops -/

theorem getLastD_mem {α : Type} (a : α) (l : List α) (d : α) : (a :: l).getLastD d ∈ a :: l := by
  rw [List.getLastD_cons]
  induction l generalizing a with
  | nil => simp
  | cons b bs ih =>
    rw [List.getLastD_cons]
    exact List.mem_cons_of_mem _ (ih b)

theorem coarsen_loop_spec (iter : MapOrder) (hiter : iter.Legal) (min_coarse : Int) (g : WeightedGraph)
    (fuel : Nat) (rest : List WeightedGraph) (maps : List (List Int))
    (hwf : ∀ x ∈ g :: rest, x.WF) :
    ∃ rest1 maps1, coarsen_loop iter min_coarse fuel (g :: rest) maps = .ok (g :: rest1, maps1) := by
  induction fuel generalizing rest maps with
  | zero => exact ⟨rest, maps, rfl⟩
  | succ fuel ih =>
    unfold coarsen_loop
    simp only
    split
    · obtain ⟨c, map, hc, hcwf⟩ := coarsen_graph_spec iter hiter _
        (hwf _ (getLastD_mem g rest (WeightedGraph.init 0)))
      rw [hc]
      simp only
      split
      · exact ⟨rest, maps, rfl⟩
      · have := ih (rest ++ [c]) (maps ++ [map]) (by
          intro x hx
          rw [← List.cons_append] at hx
          rcases List.mem_append.mp hx with h | h
          · exact hwf x h
          · simp only [List.mem_singleton] at h
            subst h; exact hcwf)
        simpa using this
    · exact ⟨rest, maps, rfl⟩

theorem uncoarsen_ok (g : WeightedGraph) (rest : List WeightedGraph) (maps : List (List Int))
    (k rp : Int) (hk : 0 < k) (part : List Int)
    (hp : LabelsOk ((g :: rest).getLastD (WeightedGraph.init 0)).n k part) :
    LabelsOk g.n k (uncoarsen (g :: rest) maps k rp part) := by
  unfold uncoarsen
  simp only [List.length_cons, Nat.add_sub_cancel]
  cases rest with
  | nil => simpa using hp
  | cons b bs =>
    simp only [List.length_cons]
    rw [List.range_succ_eq_map, List.reverse_cons, List.foldl_append]
    simp only [List.foldl_cons, List.foldl_nil, List.getD_cons_zero]
    have hex : ∃ len, LabelsOk len k
        (List.foldl (fun part level =>
          refine_partition ((g :: b :: bs).getD level (WeightedGraph.init 0))
            (project ((g :: b :: bs).getD level (WeightedGraph.init 0)) (maps.getD level []) part)
            k rp) part (List.map Nat.succ (List.range bs.length)).reverse) := by
      apply foldl_inv (fun (p : List Int) => ∃ len, LabelsOk len k p)
      · exact ⟨_, hp⟩
      · intro p level _ hq
        obtain ⟨len, hq⟩ := hq
        exact ⟨_, refine_partition_ok _ _ k rp _ (project_ok _ _ len k p hk hq)⟩
    obtain ⟨len, hq⟩ := hex
    exact refine_partition_ok _ _ k rp _ (project_ok g _ len k _ hk hq)

/-- Outcome of `solve` on a well-formed graph: no exception, one label per vertex, labels below
the clamped block count. -/
theorem multilevel_solve_spec (iter : MapOrder) (hiter : iter.Legal) (self : State) (g : WeightedGraph)
    (hg : g.WF) :
    (solve iter self g).1 = .ok () ∧
    LabelsOk g.n (max 1 (min self.k_ g.n)) (result (solve iter self g).2).part := by
  unfold solve result
  by_cases hn : g.n = 0
  · simp [hn, LabelsOk]
  · simp only [hn, if_false]
    by_cases hk : max 1 (min self.k_ (g.n : Int)) = 1
    · simp only [hk, if_true, true_and]
      refine ⟨by simp, fun x hx => ?_⟩
      have := List.eq_of_mem_replicate hx
      subst this; simp
    · simp only [hk, if_false]
      obtain ⟨rest1, maps1, hloop⟩ := coarsen_loop_spec iter hiter
        (max (2 * max 1 (min self.k_ (g.n : Int))) 20) g self.max_levels_.toNat [] []
        (fun x hx => by simp at hx; subst hx; exact hg)
      rw [hloop]
      simp only [true_and]
      apply uncoarsen_ok
      · omega
      · have hb := KWayPartitionSolver.kway_solve_spec
          ⟨max 1 (min self.k_ (g.n : Int)), self.bisection_passes_, {}⟩
          ((g :: rest1).getLastD (WeightedGraph.init 0))
        refine ⟨hb.1, fun x hx => ?_⟩
        have := hb.2.1 x hx
        simp only at this
        omega

end MultilevelKWayPartitionSolver

/-! ## Cut weight as a sum over vertex pairs -/

theorem foldl_ite_add {α : Type} (l : List α) (c : α → Prop) [DecidablePred c] (h : α → Int)
    (s0 : Int) :
    l.foldl (fun s e => if c e then s + h e else s) s0
      = s0 + (l.map fun e => if c e then h e else 0).sum := by
  induction l generalizing s0 with
  | nil => simp
  | cons a as ih =>
    simp only [List.foldl_cons, List.map_cons, List.sum_cons]
    rw [ih]
    split <;> omega

theorem foldl_range_add (n : Nat) (F : Int → Nat → Int) (G : Nat → Int)
    (hF : ∀ s u, F s u = s + G u) (s0 : Int) :
    (List.range n).foldl F s0 = s0 + ∑ u ∈ Finset.range n, G u := by
  induction n with
  | zero => simp
  | succ n ih =>
    rw [List.range_succ, List.foldl_append, ih, Finset.sum_range_succ]
    simp only [List.foldl_cons, List.foldl_nil, hF]
    omega

theorem sum_map_exchange {α : Type} (l : List α) (s : Finset Nat) (F : Nat → α → Int) :
    ∑ b ∈ s, (l.map (F b)).sum = (l.map fun e => ∑ b ∈ s, F b e).sum := by
  induction l with
  | nil => simp
  | cons a as ih =>
    simp only [List.map_cons, List.sum_cons]
    rw [Finset.sum_add_distrib, ih]

theorem ite_sum_map {α : Type} (l : List α) (p : Prop) [Decidable p] (f : α → Int) :
    (if p then (l.map f).sum else 0) = (l.map fun e => if p then f e else 0).sum := by
  by_cases hp : p
  · simp [hp]
  · simp [hp]

namespace WeightedGraph

/-- Adjacency entries of `u` towards larger, `P`-selected endpoints, regrouped by endpoint. -/
theorem sum_nbrs_eq_sum_dirW (g : WeightedGraph) (hg : g.WF) (u : Nat) (P : Nat → Prop)
    [DecidablePred P] :
    ((g.nbrs u).map fun e => if u < e.to_ ∧ P e.to_ then e.w else 0).sum
      = ∑ b ∈ Finset.range g.n, if P b then g.dirW u b else 0 := by
  unfold dirW
  have h1 : ∀ b, (if P b then ((g.nbrs u).map fun e => if e.to_ = b ∧ u < b then e.w else 0).sum
      else 0) = ((g.nbrs u).map fun e => if P b then (if e.to_ = b ∧ u < b then e.w else 0)
        else 0).sum := fun b => ite_sum_map _ _ _
  simp only [h1]
  rw [sum_map_exchange]
  apply congrArg
  apply List.map_congr_left
  intro e he
  have hto := (nbrs_mem_WF hg u e he).1
  rw [Finset.sum_eq_single e.to_]
  · by_cases h : u < e.to_ ∧ P e.to_
    · simp [h.1, h.2]
    · rw [if_neg h]
      by_cases hp : P e.to_
      · have : ¬ u < e.to_ := fun hu => h ⟨hu, hp⟩
        simp [hp, this]
      · simp [hp]
  · intro b _ hb
    have : ¬ (e.to_ = b ∧ u < b) := fun h => hb h.1.symm
    simp [this]
  · intro h
    exact absurd (Finset.mem_range.mpr hto) h

theorem dirW_nonneg (g : WeightedGraph) (hg : g.WF) (a b : Nat) : (0 : Int) ≤ g.dirW a b := by
  unfold dirW
  apply List.sum_nonneg
  intro x hx
  obtain ⟨e, he, rfl⟩ := List.mem_map.mp hx
  split
  · exact (nbrs_mem_WF hg a e he).2
  · exact le_refl _

theorem pairW_nonneg (g : WeightedGraph) (hg : g.WF) (a b : Nat) : (0 : Int) ≤ g.pairW a b := by
  unfold pairW
  have := dirW_nonneg g hg a b
  have := dirW_nonneg g hg b a
  unfold Weight at *
  omega

theorem pairW_comm (g : WeightedGraph) (a b : Nat) : g.pairW a b = g.pairW b a := by
  unfold pairW
  unfold Weight at *
  omega

theorem dirW_self (g : WeightedGraph) (a : Nat) : g.dirW a a = 0 := by
  unfold dirW
  simp

theorem total_weight_eq (g : WeightedGraph) (hg : g.WF) :
    g.total_weight = ∑ a ∈ Finset.range g.n, ∑ b ∈ Finset.range g.n, g.dirW a b := by
  unfold total_weight
  rw [foldl_range_add g.n _ (fun u => ((g.nbrs u).map fun e => if u < e.to_ then e.w else 0).sum)
    (fun s u => foldl_ite_add (g.nbrs u) (fun e => u < e.to_) (fun e => e.w) s)]
  rw [zero_add]
  apply Finset.sum_congr rfl
  intro u _
  have := sum_nbrs_eq_sum_dirW g hg u (fun _ => True)
  simpa using this

end WeightedGraph

theorem cut_weight_undirected_eq (g : WeightedGraph) (hg : g.WF) (part : List Int) :
    cut_weight_undirected g part = cutOf g (fun x => part.getD x 0) := by
  unfold cut_weight_undirected cutOf
  rw [foldl_range_add g.n _ (fun u => ((g.nbrs u).map fun e =>
    if u < e.to_ ∧ part.getD u 0 ≠ part.getD e.to_ 0 then e.w else 0).sum)
    (fun s u => foldl_ite_add (g.nbrs u)
      (fun e => u < e.to_ ∧ part.getD u 0 ≠ part.getD e.to_ 0) (fun e => e.w) s)]
  rw [zero_add]
  apply Finset.sum_congr rfl
  intro u _
  exact WeightedGraph.sum_nbrs_eq_sum_dirW g hg u (fun b => part.getD u 0 ≠ part.getD b 0)

theorem cutOf_le_total (g : WeightedGraph) (hg : g.WF) (lab : Nat → Int) :
    (cutOf g lab : Int) ≤ g.total_weight := by
  rw [WeightedGraph.total_weight_eq g hg]
  unfold cutOf
  apply Finset.sum_le_sum
  intro a _
  apply Finset.sum_le_sum
  intro b _
  have := WeightedGraph.dirW_nonneg g hg a b
  split
  · exact le_refl _
  · exact this

theorem cutOf_nonneg (g : WeightedGraph) (hg : g.WF) (lab : Nat → Int) : (0 : Int) ≤ cutOf g lab := by
  unfold cutOf
  apply Finset.sum_nonneg
  intro a _
  apply Finset.sum_nonneg
  intro b _
  have := WeightedGraph.dirW_nonneg g hg a b
  split
  · exact this
  · exact le_refl _

/-- Twice the cut weight, as a sum of symmetric pair weights over ordered pairs. -/
theorem two_cutOf (g : WeightedGraph) (lab : Nat → Int) :
    2 * (cutOf g lab : Int) =
      ∑ a ∈ Finset.range g.n, ∑ b ∈ Finset.range g.n, if lab a ≠ lab b then g.pairW a b else 0 := by
  have h1 : ∑ a ∈ Finset.range g.n, ∑ b ∈ Finset.range g.n,
      (if lab a ≠ lab b then g.pairW a b else 0)
      = (∑ a ∈ Finset.range g.n, ∑ b ∈ Finset.range g.n, if lab a ≠ lab b then g.dirW a b else 0)
      + ∑ a ∈ Finset.range g.n, ∑ b ∈ Finset.range g.n, if lab a ≠ lab b then g.dirW b a else 0 := by
    rw [← Finset.sum_add_distrib]
    apply Finset.sum_congr rfl
    intro a _
    rw [← Finset.sum_add_distrib]
    apply Finset.sum_congr rfl
    intro b _
    unfold WeightedGraph.pairW
    split <;> simp
  have h2 : ∑ a ∈ Finset.range g.n, ∑ b ∈ Finset.range g.n,
      (if lab a ≠ lab b then g.dirW b a else 0)
      = ∑ a ∈ Finset.range g.n, ∑ b ∈ Finset.range g.n, if lab a ≠ lab b then g.dirW a b else 0 := by
    rw [Finset.sum_comm]
    apply Finset.sum_congr rfl
    intro a _
    apply Finset.sum_congr rfl
    intro b _
    by_cases h : lab a = lab b
    · simp [h]
    · have h' : ¬ lab b = lab a := fun e => h e.symm
      simp [h, h']
  rw [h1, h2]
  unfold cutOf
  ring

/-! ## Range of the weight sums -/

theorem list_sum_range (n : Nat) (F : Nat → Int) :
    ((List.range n).map F).sum = ∑ u ∈ Finset.range n, F u := by
  induction n with
  | zero => rfl
  | succ n ih =>
    rw [List.range_succ, List.map_append, List.sum_append, ih, Finset.sum_range_succ]
    simp

/-- The cut weight of every labeling lies between 0 and the total edge weight: every partial sum
that `cut_weight_undirected` forms is a sum of some of the non-negative weights counted by
`total_weight`. -/
theorem cut_weight_range (g : WeightedGraph) (hg : g.WF) (part : List Int) :
    (0 : Int) ≤ cut_weight_undirected g part ∧
    (cut_weight_undirected g part : Int) ≤ g.total_weight := by
  rw [cut_weight_undirected_eq g hg]
  exact ⟨cutOf_nonneg g hg _, cutOf_le_total g hg _⟩

/-- The total edge weight counts a part of the adjacency entries. -/
theorem total_le_entry (g : WeightedGraph) (hg : g.WF) :
    (g.total_weight : Int) ≤ g.entry_weight := by
  unfold WeightedGraph.total_weight WeightedGraph.entry_weight
  rw [foldl_range_add g.n _ (fun u => ((g.nbrs u).map fun e => if u < e.to_ then e.w else 0).sum)
    (fun s u => foldl_ite_add (g.nbrs u) (fun e => u < e.to_) (fun e => e.w) s)]
  rw [zero_add, list_sum_range]
  apply Finset.sum_le_sum
  intro u _
  apply List.sum_le_sum
  intro e he
  split
  · exact le_refl _
  · exact (WeightedGraph.nbrs_mem_WF hg u e he).2

/-- With the adjacency entries summing to at most the 64-bit maximum, every cut weight is
representable. -/
theorem cut_weight_fits (g : WeightedGraph) (hg : g.WF) (hsum : g.entry_weight ≤ WEIGHT_MAX)
    (part : List Int) :
    (0 : Int) ≤ cut_weight_undirected g part ∧ cut_weight_undirected g part ≤ WEIGHT_MAX := by
  obtain ⟨h0, h1⟩ := cut_weight_range g hg part
  exact ⟨h0, le_trans h1 (le_trans (total_le_entry g hg) hsum)⟩

/-! ## Stoer-Wagner: the cut of the phase is a minimum cut between the last two vertices -/

namespace GlobalMinCutSolver

theorem wTo_append (M : Nat → Nat → Int) (P Q : List Nat) (v : Nat) :
    wTo M (P ++ Q) v = wTo M P v + wTo M Q v := by
  simp [wTo]

theorem wTo_single (M : Nat → Nat → Int) (u v : Nat) : wTo M [u] v = M u v := by
  simp [wTo]

theorem crossTo_append (M : Nat → Nat → Int) (side : Nat → Bool) (P Q : List Nat) (v : Nat) :
    crossTo M side (P ++ Q) v = crossTo M side P v + crossTo M side Q v := by
  simp [crossTo]

theorem crossTo_nonneg (M : Nat → Nat → Int) (side : Nat → Bool) (P : List Nat) (v : Nat)
    (hM : ∀ x ∈ P, 0 ≤ M x v) : 0 ≤ crossTo M side P v := by
  unfold crossTo
  apply List.sum_nonneg
  intro y hy
  obtain ⟨x, hx, rfl⟩ := List.mem_map.mp hy
  split
  · exact hM x hx
  · exact le_refl _

theorem pairCut_snoc (M : Nat → Nat → Int) (side : Nat → Bool) (P : List Nat) (v : Nat) :
    pairCut M side (P ++ [v]) = pairCut M side P + crossTo M side P v := by
  induction P with
  | nil => simp [pairCut, crossTo]
  | cons a as ih =>
    rw [List.cons_append, pairCut, ih, pairCut]
    simp only [crossTo, List.map_append, List.sum_append,
      List.map_cons, List.map_nil, List.sum_cons, List.sum_nil]
    omega

theorem pairCut_nonneg (M : Nat → Nat → Int) (side : Nat → Bool) (P : List Nat)
    (hnd : P.Nodup) (hM : ∀ x ∈ P, ∀ y ∈ P, x ≠ y → 0 ≤ M x y) : 0 ≤ pairCut M side P := by
  induction P with
  | nil => simp [pairCut]
  | cons a as ih =>
    unfold pairCut
    have h1 : 0 ≤ (as.map fun y => if side a ≠ side y then M a y else 0).sum := by
      apply List.sum_nonneg
      intro z hz
      obtain ⟨y, hy, rfl⟩ := List.mem_map.mp hz
      split
      · apply hM a (by simp) y (by simp [hy])
        intro h; subst h
        exact (List.nodup_cons.mp hnd).1 hy
      · exact le_refl _
    have h2 := ih (List.nodup_cons.mp hnd).2
      (fun x hx y hy hxy => hM x (by simp [hx]) y (by simp [hy]) hxy)
    omega

theorem After_of_snoc (M : Nat → Nat → Int) (P : List Nat) (u v : Nat)
    (h : After M (P ++ [u]) v) : After M P v := by
  intro Q x R hP
  exact h Q x (R ++ [u]) (by rw [hP]; simp)

theorem MaxAdj_of_append (M : Nat → Nat → Int) (P R : List Nat) (h : MaxAdj M (P ++ R)) :
    MaxAdj M P := by
  intro Q v R' hP
  exact h Q v (R' ++ R) (by rw [hP]; simp)

/-- Key inequality of Stoer and Wagner, for a vertex `v` on the other side than the last member
of the maximum-adjacency prefix `P`. -/
theorem max_adj_key (M : Nat → Nat → Int) (side : Nat → Bool) (P : List Nat) :
    ∀ v, (P ++ [v]).Nodup → (∀ x ∈ P ++ [v], ∀ y ∈ P ++ [v], x ≠ y → 0 ≤ M x y) →
      MaxAdj M P → After M P v → (∀ u, P.getLast? = some u → side u ≠ side v) →
      wTo M P v ≤ pairCut M side P + crossTo M side P v := by
  induction P using List.reverseRecOn with
  | nil =>
    intro v _ _ _ _ _
    simp [wTo, pairCut, crossTo]
  | append_singleton P u ih =>
    intro v hnd hM hMA hAf hside
    have hsuv : side u ≠ side v := hside u (by simp)
    have hndP : (P ++ [u]).Nodup := (List.nodup_append.mp hnd).1
    have huv : u ≠ v := by
      intro h
      have := (List.nodup_append.mp hnd).2.2
      exact this (by simp : u ∈ P ++ [u]) (by simp [h] : u ∈ [v])
    have hvP : v ∉ P := by
      intro h
      have := (List.nodup_append.mp hnd).2.2
      exact this (by simp [h] : v ∈ P ++ [u]) (by simp : v ∈ [v])
    have huP : u ∉ P := by
      intro h
      have := (List.nodup_append.mp hndP).2.2
      exact this h (by simp : u ∈ [u])
    have hMuv : 0 ≤ M u v := hM u (by simp) v (by simp) huv
    have hcv : 0 ≤ crossTo M side P v :=
      crossTo_nonneg M side P v (fun x hx => hM x (by simp [hx]) v (by simp)
        (fun h => hvP (h ▸ hx)))
    have hcu : 0 ≤ crossTo M side P u :=
      crossTo_nonneg M side P u (fun x hx => hM x (by simp [hx]) u (by simp)
        (fun h => huP (h ▸ hx)))
    have hpc : 0 ≤ pairCut M side P :=
      pairCut_nonneg M side P (List.nodup_append.mp hndP).1
        (fun x hx y hy hxy => hM x (by simp [hx]) y (by simp [hy]) hxy)
    rw [wTo_append, wTo_single, pairCut_snoc, crossTo_append]
    have hcs : crossTo M side [u] v = M u v := by simp [crossTo, hsuv]
    rw [hcs]
    rcases List.eq_nil_or_concat P with hP | ⟨P', u', hP⟩
    · subst hP
      simp only [wTo, List.map_nil, List.sum_nil] at *
      omega
    · rw [List.concat_eq_append] at hP
      by_cases hs : side u' = side u
      · -- `u` is not active: continue with the prefix and the same `v`
        have hndPv : (P ++ [v]).Nodup := by
          rw [List.nodup_append] at hnd ⊢
          refine ⟨(List.nodup_append.mp hndP).1, hnd.2.1, ?_⟩
          intro a ha hb
          exact hnd.2.2 (by simp [ha]) hb
        have := ih v hndPv
          (fun x hx y hy hxy => hM x (by
            rcases List.mem_append.mp hx with h | h
            · simp [h]
            · simp at h; simp [h]) y (by
            rcases List.mem_append.mp hy with h | h
            · simp [h]
            · simp at h; simp [h]) hxy)
          (MaxAdj_of_append M P [u] hMA) (After_of_snoc M P u v hAf)
          (by
            intro w hw
            rw [hP] at hw
            simp at hw
            subst hw
            rw [hs]; exact hsuv)
        omega
      · -- `u` is active: use the induction hypothesis for `u`, then maximum adjacency
        have hAu : After M P u := hMA P u [] (by simp)
        have := ih u hndP
          (fun x hx y hy hxy => hM x (by simp at hx ⊢; tauto) y (by simp at hy ⊢; tauto) hxy)
          (MaxAdj_of_append M P [u] hMA) hAu
          (by
            intro w hw
            rw [hP] at hw
            simp at hw
            subst hw
            exact hs)
        have hle : wTo M P v ≤ wTo M P u := hAf P u [] (by simp)
        omega

end GlobalMinCutSolver

namespace GlobalMinCutSolver

/-! ## One maximum-adjacency ordering -/

theorem select_spec (dist : List Weight) (added : List Bool) (m : Nat) :
    (select m dist added = none ∧ ∀ i, i < m → added.getD i false = true) ∨
    (∃ s, select m dist added = some s ∧ s < m ∧ added.getD s false = false ∧
      ∀ i, i < m → added.getD i false = false → (dist.getD i 0 : Int) ≤ dist.getD s 0) := by
  induction m with
  | zero => left; simp [select]
  | succ m ih =>
    unfold select at ih ⊢
    rw [List.range_succ, List.foldl_append]
    simp only [List.foldl_cons, List.foldl_nil]
    by_cases ha : added.getD m false = true
    · simp only [ha, Bool.not_true, Bool.false_eq_true, if_false]
      rcases ih with ⟨h1, h2⟩ | ⟨s, h1, h2, h3, h4⟩
      · left
        refine ⟨h1, fun i hi => ?_⟩
        by_cases him : i = m
        · subst him; exact ha
        · exact h2 i (by omega)
      · right
        refine ⟨s, h1, by omega, h3, fun i hi hai => ?_⟩
        by_cases him : i = m
        · subst him; rw [ha] at hai; exact absurd hai (by decide)
        · exact h4 i (by omega) hai
    · have ha' : added.getD m false = false := by simpa using ha
      simp only [ha', Bool.not_false, if_true]
      right
      rcases ih with ⟨h1, h2⟩ | ⟨s, h1, h2, h3, h4⟩
      · rw [h1]
        refine ⟨m, rfl, by omega, ha', fun i hi hai => ?_⟩
        by_cases him : i = m
        · subst him; exact le_refl _
        · have := h2 i (by omega)
          rw [this] at hai; exact absurd hai (by decide)
      · rw [h1]
        simp only
        by_cases hgt : dist.getD m 0 > dist.getD s 0
        · rw [if_pos hgt]
          refine ⟨m, rfl, by omega, ha', fun i hi hai => ?_⟩
          by_cases him : i = m
          · subst him; exact le_refl _
          · have := h4 i (by omega) hai
            unfold Weight at *
            omega
        · rw [if_neg hgt]
          refine ⟨s, rfl, by omega, h3, fun i hi hai => ?_⟩
          by_cases him : i = m
          · subst him
            unfold Weight at *
            omega
          · exact h4 i (by omega) hai

/-- Effect of the loop that adds the weights towards `sel` to `dist`. -/
theorem dist_update_spec (c : Nat → Bool) (h : Nat → Weight) (d : List Weight) (m : Nat) :
    ((List.range m).foldl (fun d i => if c i then d.modify (fun x => x + h i) i else d) d).length
      = d.length ∧
    ∀ j, ((List.range m).foldl (fun d i => if c i then d.modify (fun x => x + h i) i else d) d).getD j 0
      = if j < m ∧ j < d.length ∧ c j = true then d.getD j 0 + h j else d.getD j 0 := by
  induction m with
  | zero => simp
  | succ m ih =>
    rw [List.range_succ, List.foldl_append]
    simp only [List.foldl_cons, List.foldl_nil]
    obtain ⟨h1, h2⟩ := ih
    by_cases hc : c m = true
    · simp only [hc, if_true]
      refine ⟨by simpa using h1, fun j => ?_⟩
      rw [getD_modify_eq, h1, h2 j]
      by_cases hj : m = j
      · subst hj
        by_cases hl : m < d.length
        · simp [-List.getD_eq_getElem?_getD, hl, hc]
        · simp [-List.getD_eq_getElem?_getD, hl]
      · have : j < m + 1 ↔ j < m := by omega
        simp only [hj, false_and, if_false, this]
    · simp only [hc, Bool.false_eq_true, if_false]
      refine ⟨h1, fun j => ?_⟩
      rw [h2 j]
      by_cases hj : j = m
      · subst hj
        simp [-List.getD_eq_getElem?_getD, hc]
      · have : j < m + 1 ↔ j < m := by omega
        simp only [this]

theorem exists_not_mem_of_length_lt (L : List Nat) (m : Nat) (hlen : L.length < m) :
    ∃ i, i < m ∧ i ∉ L := by
  by_contra hcon
  push_neg at hcon
  have hsub : List.range m ⊆ L := fun i hi => hcon i (List.mem_range.mp hi)
  have := (List.nodup_range m).subperm hsub |>.length_le
  simp at this
  omega

theorem PhaseInv_init (M : Nat → Nat → Int) (curN : Nat) :
    PhaseInv M curN [] { dist := List.replicate curN 0, added := List.replicate curN false } := by
  refine ⟨List.nodup_nil, by simp, by simp, by simp, ?_, ?_, ?_, ?_, rfl, rfl⟩
  · intro i hi
    rw [getD_replicate_eq]
    simp [hi]
  · intro i hi _
    rw [getD_replicate_eq]
    simp [hi, wTo]
  · intro Q x R h
    simp at h
  · intro Q x R h
    simp at h

theorem snoc_split {α : Type} (L Q R : List α) (s x : α) (h : L ++ [s] = Q ++ x :: R) :
    (R = [] ∧ Q = L ∧ x = s) ∨ (∃ R', R = R' ++ [s] ∧ L = Q ++ x :: R') := by
  rcases List.eq_nil_or_concat R with hR | ⟨R', r, hR⟩
  · subst hR
    left
    have := List.append_inj' h (by simp)
    simp at this
    exact ⟨rfl, this.1.symm, this.2.symm⟩
  · right
    rw [List.concat_eq_append] at hR
    subst hR
    have h' : L ++ [s] = (Q ++ x :: R') ++ [r] := by rw [h]; simp
    have := List.append_inj' h' (by simp)
    simp at this
    exact ⟨R', by rw [this.2], this.1⟩

/-- One selection step extends the order by the selected position. -/
theorem phase_step_inv (w : List (List Weight)) (vtx : List Nat) (curN : Nat) (L : List Nat)
    (p : Phase) (hp : PhaseInv (posW w vtx) curN L p) (hlen : L.length < curN) :
    ∃ sel, PhaseInv (posW w vtx) curN (L ++ [sel]) (phase_step w vtx curN p) := by
  obtain ⟨i0, hi0, hi0L⟩ := exists_not_mem_of_length_lt L curN hlen
  have hadd0 : p.added.getD i0 false = false := by
    have := (hp.added i0 hi0).not.mpr hi0L
    simpa using this
  rcases select_spec p.dist p.added curN with ⟨_, h2⟩ | ⟨sel, h1, h2, h3, h4⟩
  · have := h2 i0 hi0
    rw [this] at hadd0; exact absurd hadd0 (by decide)
  · have hselL : sel ∉ L := by
      intro h
      have := (hp.added sel h2).mpr h
      rw [this] at h3; exact absurd h3 (by decide)
    refine ⟨sel, ?_⟩
    unfold phase_step
    rw [h1]
    simp only
    obtain ⟨u1, u2⟩ := dist_update_spec (fun i => !(p.added.set sel true).getD i false)
      (fun i => mat_get w (vtx.getD sel 0) (vtx.getD i 0)) p.dist curN
    have hadd' : ∀ i, i < curN → ((p.added.set sel true).getD i false = true ↔ i ∈ L ++ [sel]) := by
      intro i hi
      rw [getD_set_eq, hp.alen]
      by_cases his : sel = i
      · subst his
        simp [h2]
      · have his' : ¬ i = sel := fun h => his h.symm
        simp only [his, false_and, if_false, List.mem_append, List.mem_singleton, his', or_false]
        exact hp.added i hi
    refine ⟨?_, ?_, ?_, ?_, hadd', ?_, ?_, ?_, ?_, ?_⟩
    · rw [List.nodup_append]
      refine ⟨hp.nodup, by simp, ?_⟩
      intro a ha hb
      simp at hb
      subst hb
      exact hselL ha
    · intro i hi
      rcases List.mem_append.mp hi with h | h
      · exact hp.bound i h
      · simp at h; subst h; exact h2
    · show ((List.range curN).foldl _ p.dist).length = curN
      rw [u1]; exact hp.dlen
    · simpa using hp.alen
    · intro i hi hiL
      show ((List.range curN).foldl _ p.dist).getD i 0 = _
      rw [u2 i, hp.dlen]
      have hi1 : i ∉ L := fun h => hiL (by simp [h])
      have hi2 : (p.added.set sel true).getD i false = false := by
        have := (hadd' i hi).not.mpr hiL
        simpa using this
      simp only [hi, hi2, Bool.not_false, and_self, if_true]
      rw [hp.dist_out i hi hi1, wTo_append, wTo_single]
      rfl
    · intro Q x R hsplit
      show ((List.range curN).foldl _ p.dist).getD x 0 = _
      have hxmem : x ∈ L ++ [sel] := by rw [hsplit]; simp
      have hxlt : x < curN := by
        rcases List.mem_append.mp hxmem with h | h
        · exact hp.bound x h
        · simp at h; subst h; exact h2
      have hx2 : (p.added.set sel true).getD x false = true := (hadd' x hxlt).mpr hxmem
      rw [u2 x]
      simp only [hx2, Bool.not_true, Bool.false_eq_true, and_false, if_false]
      rcases snoc_split L Q R sel x hsplit with ⟨_, hQ, hx⟩ | ⟨R', _, hL⟩
      · subst hQ hx
        exact hp.dist_out x hxlt hselL
      · exact hp.dist_in Q x R' hL
    · intro Q x R hsplit y hy hyQ hyx
      rcases snoc_split L Q R sel x hsplit with ⟨_, hQ, hx⟩ | ⟨R', _, hL⟩
      · subst hQ hx
        have hya : p.added.getD y false = false := by
          have := (hp.added y hy).not.mpr hyQ
          simpa using this
        have := h4 y hy hya
        rw [hp.dist_out y hy hyQ, hp.dist_out x h2 hselL] at this
        exact this
      · exact hp.ma Q x R' hL y hy hyQ hyx
    · show some sel = (L ++ [sel]).getLast?
      simp
    · show p.last = (L ++ [sel]).dropLast.getLast?
      rw [hp.last]
      simp

theorem phase_iterate_inv (w : List (List Weight)) (vtx : List Nat) (curN : Nat) (k : Nat)
    (hk : k ≤ curN) :
    ∃ L, L.length = k ∧ PhaseInv (posW w vtx) curN L
      ((List.range k).foldl (fun p _ => phase_step w vtx curN p)
        { dist := List.replicate curN 0, added := List.replicate curN false }) := by
  induction k with
  | zero => exact ⟨[], rfl, PhaseInv_init _ _⟩
  | succ k ih =>
    obtain ⟨L, hL, hp⟩ := ih (by omega)
    rw [List.range_succ, List.foldl_append]
    simp only [List.foldl_cons, List.foldl_nil]
    obtain ⟨sel, hsel⟩ := phase_step_inv w vtx curN L _ hp (by omega)
    exact ⟨L ++ [sel], by simp [hL], hsel⟩

/-- A complete ordering: all positions selected, ending in `s`, `t`. -/
theorem min_cut_phase_spec (w : List (List Weight)) (vtx : List Nat) (curN : Nat) (h2 : 2 ≤ curN) :
    ∃ P s t, (P ++ [s, t]).length = curN ∧
      PhaseInv (posW w vtx) curN (P ++ [s, t]) (min_cut_phase w vtx curN) ∧
      (min_cut_phase w vtx curN).prev = some s ∧ (min_cut_phase w vtx curN).last = some t := by
  obtain ⟨L, hL, hp⟩ := phase_iterate_inv w vtx curN curN (le_refl _)
  rcases List.eq_nil_or_concat L with h | ⟨L1, t, h⟩
  · subst h; simp at hL; omega
  · rw [List.concat_eq_append] at h
    rcases List.eq_nil_or_concat L1 with h' | ⟨P, s, h'⟩
    · subst h'; subst h; simp at hL; omega
    · rw [List.concat_eq_append] at h'
      subst h'
      have hLe : L = P ++ [s, t] := by rw [h]; simp
      subst hLe
      refine ⟨P, s, t, hL, hp, ?_, ?_⟩
      · have := hp.prev
        unfold min_cut_phase
        rw [this]
        have : (P ++ [s, t]).dropLast = P ++ [s] := by
          rw [show P ++ [s, t] = (P ++ [s]) ++ [t] by simp, List.dropLast_concat]
        rw [this]; simp
      · have := hp.last
        unfold min_cut_phase
        rw [this]; simp

end GlobalMinCutSolver

namespace GlobalMinCutSolver

/-! ## The dense weight matrix -/

theorem Square_getD_length (n : Nat) (w : List (List Weight)) (hw : Square n w) (i : Nat)
    (hi : i < n) : (w.getD i []).length = n := by
  have : i < w.length := by rw [hw.1]; exact hi
  rw [List.getD_eq_getElem _ _ this]
  exact hw.2 _ (List.getElem_mem _)

theorem mat_add_square (n : Nat) (w : List (List Weight)) (hw : Square n w) (i j : Nat)
    (x : Weight) : Square n (mat_add w i j x) := by
  unfold mat_add
  refine ⟨by simpa using hw.1, fun row hrow => ?_⟩
  rcases WeightedGraph.mem_modify _ _ _ _ hrow with h | ⟨y, hy, rfl⟩
  · exact hw.2 row h
  · simpa using hw.2 y hy

theorem mat_get_add (n : Nat) (w : List (List Weight)) (hw : Square n w) (i j : Nat) (x : Weight)
    (hi : i < n) (hj : j < n) (a b : Nat) :
    (mat_get (mat_add w i j x) a b : Int) = mat_get w a b + if i = a ∧ j = b then x else 0 := by
  unfold mat_get mat_add
  rw [getD_modify_eq, hw.1]
  by_cases hia : i = a
  · subst hia
    simp only [hi, and_self, if_true, true_and]
    rw [getD_modify_eq, Square_getD_length n w hw i hi]
    by_cases hjb : j = b
    · subst hjb
      simp only [hj, and_self, if_true]
    · simp only [hjb, false_and, if_false]
      unfold Weight at *
      omega
  · simp only [hia, false_and, if_false]
    unfold Weight at *
    omega

/-- Fold rule: a quantity that every step increases by a known amount. -/
theorem foldl_measure {α β : Type} (φ : β → Int) (P : β → Prop) (f : β → α → β) (c : α → Int)
    (l : List α) (b0 : β) (hP : P b0)
    (hstep : ∀ b x, x ∈ l → P b → P (f b x) ∧ φ (f b x) = φ b + c x) :
    P (l.foldl f b0) ∧ φ (l.foldl f b0) = φ b0 + (l.map c).sum := by
  induction l generalizing b0 with
  | nil => simp [hP]
  | cons a as ih =>
    simp only [List.foldl_cons, List.map_cons, List.sum_cons]
    obtain ⟨h1, h2⟩ := hstep b0 a (by simp) hP
    obtain ⟨i1, i2⟩ := ih (f b0 a) h1 (fun b x hx hb => hstep b x (by simp [hx]) hb)
    refine ⟨i1, ?_⟩
    rw [i2, h2]
    omega

theorem build_matrix_spec (g : WeightedGraph) (hg : g.WF) :
    Square g.n (build_matrix g) ∧
    ∀ a b, a < g.n → b < g.n → (mat_get (build_matrix g) a b : Int) = g.pairW a b := by
  have hsq0 : Square g.n (List.replicate g.n (List.replicate g.n (0 : Weight))) := by
    refine ⟨by simp, fun row hrow => ?_⟩
    have := List.eq_of_mem_replicate hrow
    subst this; simp
  have h0 : ∀ a b, (mat_get (List.replicate g.n (List.replicate g.n (0 : Weight))) a b : Int) = 0 := by
    intro a b
    unfold mat_get
    rw [getD_replicate_eq]
    split
    · rw [getD_replicate_eq]; split <;> rfl
    · rfl
  constructor
  · unfold build_matrix
    apply foldl_inv (Square g.n)
    · exact hsq0
    · intro w u _ hw
      apply foldl_inv (Square g.n)
      · exact hw
      · intro w e _ hw
        simp only
        split
        · exact mat_add_square _ _ (mat_add_square _ _ hw _ _ _) _ _ _
        · exact hw
  · intro a b ha hb
    have key := foldl_measure (fun w => (mat_get w a b : Int)) (Square g.n)
      (fun w u => (g.nbrs u).foldl (fun w e =>
        let v := e.to_
        if u < v then mat_add (mat_add w u v e.w) v u e.w else w) w)
      (fun u => ((g.nbrs u).map fun e =>
        (if u < e.to_ ∧ (u = a ∧ e.to_ = b) then e.w else 0) +
        (if u < e.to_ ∧ (e.to_ = a ∧ u = b) then e.w else 0)).sum)
      (List.range g.n) (List.replicate g.n (List.replicate g.n 0)) hsq0
      (by
        intro w u hu hw
        have hu' : u < g.n := by simpa using hu
        apply foldl_measure (fun w => (mat_get w a b : Int)) (Square g.n)
        · exact hw
        · intro w e he hw
          have hv := (WeightedGraph.nbrs_mem_WF hg u e he).1
          simp only
          by_cases huv : u < e.to_
          · simp only [huv, if_true, true_and]
            refine ⟨mat_add_square _ _ (mat_add_square _ _ hw _ _ _) _ _ _, ?_⟩
            rw [mat_get_add g.n _ (mat_add_square _ _ hw _ _ _) _ _ _ hv hu',
              mat_get_add g.n _ hw _ _ _ hu' hv]
            omega
          · simp only [huv, if_false, false_and]
            exact ⟨hw, by omega⟩)
    unfold build_matrix
    have k2 := key.2
    beta_reduce at k2
    rw [k2, h0 a b, zero_add]
    unfold WeightedGraph.pairW WeightedGraph.dirW
    have e1 : ∀ u, ((g.nbrs u).map fun e =>
        (if u < e.to_ ∧ (u = a ∧ e.to_ = b) then e.w else 0) +
        (if u < e.to_ ∧ (e.to_ = a ∧ u = b) then e.w else 0)).sum
        = ((g.nbrs u).map fun e => if u < e.to_ ∧ (u = a ∧ e.to_ = b) then e.w else 0).sum
        + ((g.nbrs u).map fun e => if u < e.to_ ∧ (e.to_ = a ∧ u = b) then e.w else 0).sum :=
      fun u => List.sum_map_add
    show ∑ u ∈ Finset.range g.n, _ = _
    simp only [e1]
    rw [Finset.sum_add_distrib]
    congr 1
    · rw [Finset.sum_eq_single a]
      · apply congrArg
        apply List.map_congr_left
        intro e _
        by_cases h : e.to_ = b
        · subst h; simp
        · simp [h]
      · intro u _ hu
        have : ∀ e : Edge, ¬ (u < e.to_ ∧ (u = a ∧ e.to_ = b)) := fun e h => hu h.2.1
        simp [this]
      · intro h; exact absurd (Finset.mem_range.mpr ha) h
    · rw [Finset.sum_eq_single b]
      · apply congrArg
        apply List.map_congr_left
        intro e _
        by_cases h : e.to_ = a
        · subst h; simp
        · simp [h]
      · intro u _ hu
        have : ∀ e : Edge, ¬ (u < e.to_ ∧ (e.to_ = a ∧ u = b)) := fun e h => hu h.2.2
        simp [this]
      · intro h; exact absurd (Finset.mem_range.mpr hb) h

theorem foldl_range_getD {α β : Type} (l : List α) (d : α) (f : β → α → β) (b0 : β) :
    (List.range l.length).foldl (fun b i => f b (l.getD i d)) b0 = l.foldl f b0 := by
  have h : l = (List.range l.length).map (fun i => l.getD i d) := by
    apply List.ext_getElem
    · simp
    · intro i h1 h2
      simp [List.getD_eq_getElem?_getD, List.getElem?_eq_getElem h1]
  conv_rhs => rw [h]
  rw [List.foldl_map]

/-- Matrix after the merge loop over the super-vertices of `l`. -/
theorem merge_fold_spec (n : Nat) (vs vt : Nat) (hvs : vs < n) (hne : vs ≠ vt)
    (l : List Nat) (hnd : l.Nodup) (hl : ∀ a ∈ l, a < n) (w : List (List Weight))
    (hw : Square n w) :
    Square n (l.foldl (fun w vi =>
      if vi = vs ∨ vi = vt then w
      else mat_add (mat_add w vs vi (mat_get w vt vi)) vi vs
        (mat_get (mat_add w vs vi (mat_get w vt vi)) vi vt)) w) ∧
    ∀ a b, (mat_get (l.foldl (fun w vi =>
      if vi = vs ∨ vi = vt then w
      else mat_add (mat_add w vs vi (mat_get w vt vi)) vi vs
        (mat_get (mat_add w vs vi (mat_get w vt vi)) vi vt)) w) a b : Int)
      = mat_get w a b
        + (if a = vs ∧ b ∈ l ∧ b ≠ vs ∧ b ≠ vt then (mat_get w vt b : Int) else 0)
        + (if b = vs ∧ a ∈ l ∧ a ≠ vs ∧ a ≠ vt then (mat_get w a vt : Int) else 0) := by
  induction l generalizing w with
  | nil => simp [hw]
  | cons vi l ih =>
    have hvi : vi < n := hl vi (by simp)
    have hvil : vi ∉ l := (List.nodup_cons.mp hnd).1
    simp only [List.foldl_cons]
    by_cases hc : vi = vs ∨ vi = vt
    · simp only [hc, if_true]
      obtain ⟨i1, i2⟩ := ih (List.nodup_cons.mp hnd).2 (fun a ha => hl a (by simp [ha])) w hw
      refine ⟨i1, fun a b => ?_⟩
      rw [i2 a b]
      have e1 : (b ∈ vi :: l ∧ b ≠ vs ∧ b ≠ vt) ↔ (b ∈ l ∧ b ≠ vs ∧ b ≠ vt) := by
        simp only [List.mem_cons]
        constructor
        · rintro ⟨h | h, h2, h3⟩
          · subst h; rcases hc with h | h
            · exact absurd h h2
            · exact absurd h h3
          · exact ⟨h, h2, h3⟩
        · rintro ⟨h, h2, h3⟩; exact ⟨Or.inr h, h2, h3⟩
      have e2 : (a ∈ vi :: l ∧ a ≠ vs ∧ a ≠ vt) ↔ (a ∈ l ∧ a ≠ vs ∧ a ≠ vt) := by
        simp only [List.mem_cons]
        constructor
        · rintro ⟨h | h, h2, h3⟩
          · subst h; rcases hc with h | h
            · exact absurd h h2
            · exact absurd h h3
          · exact ⟨h, h2, h3⟩
        · rintro ⟨h, h2, h3⟩; exact ⟨Or.inr h, h2, h3⟩
      simp only [e1, e2]
    · simp only [hc, if_false]
      have hvis : vi ≠ vs := fun h => hc (Or.inl h)
      have hvit : vi ≠ vt := fun h => hc (Or.inr h)
      have hsq1 := mat_add_square n w hw vs vi (mat_get w vt vi)
      have hsq2 := mat_add_square n _ hsq1 vi vs
        (mat_get (mat_add w vs vi (mat_get w vt vi)) vi vt)
      obtain ⟨i1, i2⟩ := ih (List.nodup_cons.mp hnd).2 (fun a ha => hl a (by simp [ha])) _ hsq2
      refine ⟨i1, fun a b => ?_⟩
      rw [i2 a b]
      have g1 : ∀ a b, (mat_get (mat_add (mat_add w vs vi (mat_get w vt vi)) vi vs
          (mat_get (mat_add w vs vi (mat_get w vt vi)) vi vt)) a b : Int)
          = mat_get w a b + (if vs = a ∧ vi = b then (mat_get w vt vi : Int) else 0)
            + (if vi = a ∧ vs = b then (mat_get w vi vt : Int) else 0) := by
        intro a b
        rw [mat_get_add n _ hsq1 vi vs _ hvi hvs, mat_get_add n _ hw vs vi _ hvs hvi,
          mat_get_add n _ hw vs vi _ hvs hvi]
        have : ¬ (vs = vi ∧ vi = vt) := fun h => hvis h.1.symm
        simp only [this, if_false, add_zero]
      rw [g1 a b, g1 vt b, g1 a vt]
      have n1 : ¬ (vs = vt ∧ vi = b) := fun h => hne h.1
      have n2 : ¬ (vi = vt ∧ vs = b) := fun h => hvit h.1
      have n3 : ¬ (vs = a ∧ vi = vt) := fun h => hvit h.2
      have n4 : ¬ (vi = a ∧ vs = vt) := fun h => hne h.2
      simp only [n1, n2, n3, n4, if_false, add_zero]
      by_cases ha : a = vs
      · subst ha
        have hb1 : ¬ (vi = a ∧ a = b) := fun h => hvis h.1
        by_cases hb : b = vi
        · subst hb
          have : ¬ (b = a) := hvis
          simp [this, hvil, hvit, hne]
        · have hb' : ¬ vi = b := fun h => hb h.symm
          by_cases hba : b = a
          · subst hba
            simp [hb', hvis]
          · simp [hb', hb, hba, hb1]
      · have ha' : ¬ vs = a := fun h => ha h.symm
        by_cases hb : b = vs
        · subst hb
          by_cases hav : a = vi
          · subst hav
            simp [ha, hvil, hvit]
          · have hav' : ¬ vi = a := fun h => hav h.symm
            simp [ha, ha', hav, hav']
        · have hb' : ¬ vs = b := fun h => hb h.symm
          simp [ha, ha', hb, hb']

end GlobalMinCutSolver

namespace GlobalMinCutSolver

/-! ## Sums over clusters -/

theorem perm_range_of_nodup (L : List Nat) (m : Nat) (hnd : L.Nodup) (hb : ∀ i ∈ L, i < m)
    (hlen : L.length = m) : L.Perm (List.range m) := by
  have hsub : L ⊆ List.range m := fun i hi => List.mem_range.mpr (hb i hi)
  exact (hnd.subperm hsub).perm_of_length_le (by simp [hlen])

theorem map_getD_range (l : List Nat) : (List.range l.length).map (fun i => l.getD i 0) = l := by
  apply List.ext_getElem
  · simp
  · intro i h1 h2
    simp [List.getD_eq_getElem?_getD, List.getElem?_eq_getElem h2]

/-- A sum over all positions, taken in any order, is the sum over the super-vertices. -/
theorem sum_positions (vtx L : List Nat) (hnd : vtx.Nodup) (hL : L.Perm (List.range vtx.length))
    (f : Nat → Int) :
    (L.map fun i => f (vtx.getD i 0)).sum = ∑ a ∈ vtx.toFinset, f a := by
  rw [(hL.map _).sum_eq, List.sum_toFinset f hnd]
  have : (List.range vtx.length).map (fun i => f (vtx.getD i 0))
      = ((List.range vtx.length).map (fun i => vtx.getD i 0)).map f := by
    rw [List.map_map]; rfl
  rw [this, map_getD_range]

theorem double_sum_pairCut (M : Nat → Nat → Int) (side : Nat → Bool) (L : List Nat)
    (hsym : ∀ x ∈ L, ∀ y ∈ L, M x y = M y x) :
    (L.map fun x => (L.map fun y => if side x ≠ side y then M x y else 0).sum).sum
      = 2 * pairCut M side L := by
  induction L with
  | nil => simp [pairCut]
  | cons a l ih =>
    have ih' := ih (fun x hx y hy => hsym x (by simp [hx]) y (by simp [hy]))
    simp only [List.map_cons, List.sum_cons, pairCut]
    have e1 : (l.map fun x => (if side x ≠ side a then M x a else 0) +
        (l.map fun y => if side x ≠ side y then M x y else 0).sum).sum
        = (l.map fun x => if side x ≠ side a then M x a else 0).sum
          + (l.map fun x => (l.map fun y => if side x ≠ side y then M x y else 0).sum).sum :=
      List.sum_map_add
    have e2 : (l.map fun x => if side x ≠ side a then M x a else 0)
        = (l.map fun y => if side a ≠ side y then M a y else 0) := by
      apply List.map_congr_left
      intro x hx
      have := hsym x (by simp [hx]) a (by simp)
      by_cases h : side x = side a
      · simp [h]
      · have h' : ¬ side a = side x := fun e => h e.symm
        simp [h, h', this]
    rw [e1, e2, ih']
    simp only [ne_eq, not_true_eq_false, if_false]
    ring

/-- Regrouping a sum over pairs of super-vertices as a sum over pairs of original vertices. -/
theorem cluster_regroup (g : WeightedGraph) (rep : Nat → Nat) (vtx : List Nat)
    (hrep : ∀ x, x < g.n → rep x ∈ vtx) (C : Nat → Nat → Prop) [DecidableRel C] :
    ∑ a ∈ vtx.toFinset, ∑ b ∈ vtx.toFinset, (if C a b then clusterW g rep a b else 0)
      = ∑ x ∈ Finset.range g.n, ∑ y ∈ Finset.range g.n,
          if C (rep x) (rep y) then (g.pairW x y : Int) else 0 := by
  unfold clusterW
  have h1 : ∀ a b, (if C a b then ∑ x ∈ Finset.range g.n, ∑ y ∈ Finset.range g.n,
        (if rep x = a ∧ rep y = b then (g.pairW x y : Int) else 0) else 0)
      = ∑ x ∈ Finset.range g.n, ∑ y ∈ Finset.range g.n,
        (if a = rep x then (if b = rep y then (if C a b then (g.pairW x y : Int) else 0) else 0)
          else 0) := by
    intro a b
    by_cases hc : C a b
    · simp only [hc, if_true]
      apply Finset.sum_congr rfl; intro x _
      apply Finset.sum_congr rfl; intro y _
      by_cases hx : a = rep x
      · by_cases hy : b = rep y
        · simp [hx, hy]
        · have : ¬ rep y = b := fun h => hy h.symm
          simp [hy, this]
      · have : ¬ rep x = a := fun h => hx h.symm
        simp [hx, this]
    · simp only [hc, if_false]
      symm
      apply Finset.sum_eq_zero; intro x _
      apply Finset.sum_eq_zero; intro y _
      split <;> simp
  simp only [h1]
  -- move the sums over original vertices outwards
  have h2 : ∀ a, ∑ b ∈ vtx.toFinset, ∑ x ∈ Finset.range g.n, ∑ y ∈ Finset.range g.n,
        (if a = rep x then (if b = rep y then (if C a b then (g.pairW x y : Int) else 0) else 0)
          else 0)
      = ∑ x ∈ Finset.range g.n, ∑ y ∈ Finset.range g.n,
        (if a = rep x then (if C a (rep y) then (g.pairW x y : Int) else 0) else 0) := by
    intro a
    rw [Finset.sum_comm]
    apply Finset.sum_congr rfl; intro x _
    rw [Finset.sum_comm]
    apply Finset.sum_congr rfl; intro y hy
    by_cases hx : a = rep x
    · simp only [hx, if_true]
      rw [Finset.sum_ite_eq']
      have : rep y ∈ vtx.toFinset := List.mem_toFinset.mpr (hrep y (Finset.mem_range.mp hy))
      simp [this]
    · simp [hx]
  simp only [h2]
  rw [Finset.sum_comm]
  apply Finset.sum_congr rfl; intro x hx
  rw [Finset.sum_comm]
  apply Finset.sum_congr rfl; intro y _
  rw [Finset.sum_ite_eq']
  have : rep x ∈ vtx.toFinset := List.mem_toFinset.mpr (hrep x (Finset.mem_range.mp hx))
  simp [this]

theorem clusterW_nonneg (g : WeightedGraph) (hg : g.WF) (rep : Nat → Nat) (a b : Nat) :
    0 ≤ clusterW g rep a b := by
  unfold clusterW
  apply Finset.sum_nonneg; intro x _
  apply Finset.sum_nonneg; intro y _
  split
  · exact WeightedGraph.pairW_nonneg g hg x y
  · exact le_refl _

theorem clusterW_comm (g : WeightedGraph) (rep : Nat → Nat) (a b : Nat) :
    clusterW g rep a b = clusterW g rep b a := by
  unfold clusterW
  rw [Finset.sum_comm]
  apply Finset.sum_congr rfl; intro x _
  apply Finset.sum_congr rfl; intro y _
  rw [WeightedGraph.pairW_comm g x y]
  by_cases h : rep x = b ∧ rep y = a
  · simp [h.1, h.2]
  · have : ¬ (rep y = a ∧ rep x = b) := fun h' => h ⟨h'.2, h'.1⟩
    simp [h, this]

theorem clusterW_id (g : WeightedGraph) (a b : Nat) (ha : a < g.n) (hb : b < g.n) :
    clusterW g id a b = g.pairW a b := by
  unfold clusterW
  rw [Finset.sum_eq_single a]
  · rw [Finset.sum_eq_single b]
    · simp
    · intro y _ hy
      simp [hy]
    · intro h; exact absurd (Finset.mem_range.mpr hb) h
  · intro x _ hx
    apply Finset.sum_eq_zero
    intro y _
    simp [hx]
  · intro h; exact absurd (Finset.mem_range.mpr ha) h

/-- Merging `vt` into `vs` adds the cluster weights of `vt` to those of `vs`. -/
theorem clusterW_merge_left (g : WeightedGraph) (rep : Nat → Nat) (vs vt b : Nat) (hne : vs ≠ vt)
    (hbs : b ≠ vs) (hbt : b ≠ vt) :
    clusterW g (merge_rep rep vs vt) vs b = clusterW g rep vs b + clusterW g rep vt b := by
  unfold clusterW
  rw [← Finset.sum_add_distrib]
  apply Finset.sum_congr rfl; intro x _
  rw [← Finset.sum_add_distrib]
  apply Finset.sum_congr rfl; intro y _
  unfold merge_rep
  by_cases hy : rep y = vt
  · have h1 : ¬ vs = b := fun h => hbs h.symm
    have h2 : ¬ vt = b := fun h => hbt h.symm
    simp [hy, h1, h2]
  · simp only [hy, if_false]
    by_cases hx : rep x = vt
    · have : ¬ vt = vs := fun h => hne h.symm
      simp [hx, this]
    · by_cases hx2 : rep x = vs
      · simp [hx, hx2, hne]
      · simp [hx, hx2]

theorem clusterW_merge_other (g : WeightedGraph) (rep : Nat → Nat) (vs vt a b : Nat)
    (has : a ≠ vs) (hat : a ≠ vt) (hbs : b ≠ vs) (hbt : b ≠ vt) :
    clusterW g (merge_rep rep vs vt) a b = clusterW g rep a b := by
  unfold clusterW
  apply Finset.sum_congr rfl; intro x _
  apply Finset.sum_congr rfl; intro y _
  unfold merge_rep
  by_cases hx : rep x = vt
  · have h1 : ¬ vs = a := fun h => has h.symm
    have h2 : ¬ vt = a := fun h => hat h.symm
    simp [hx, h1, h2]
  · by_cases hy : rep y = vt
    · have h1 : ¬ vs = b := fun h => hbs h.symm
      have h2 : ¬ vt = b := fun h => hbt h.symm
      simp [hx, hy, h1, h2]
    · simp [hx, hy]

end GlobalMinCutSolver

namespace GlobalMinCutSolver

/-! ## The cut of the phase -/

theorem getD_mem_of_lt (l : List Nat) (i : Nat) (h : i < l.length) : l.getD i 0 ∈ l := by
  rw [List.getD_eq_getElem _ _ h]
  exact List.getElem_mem _

theorem getD_inj_of_nodup (l : List Nat) (hnd : l.Nodup) (i j : Nat) (hi : i < l.length)
    (hj : j < l.length) (h : l.getD i 0 = l.getD j 0) : i = j := by
  rw [List.getD_eq_getElem _ _ hi, List.getD_eq_getElem _ _ hj] at h
  exact (List.Nodup.getElem_inj_iff hnd).mp h

theorem mem_eraseIdx_nodup (l : List Nat) (t : Nat) (ht : t < l.length) (hnd : l.Nodup) (a : Nat) :
    a ∈ l.eraseIdx t ↔ a ∈ l ∧ a ≠ l.getD t 0 := by
  rw [List.mem_eraseIdx_iff_getElem, List.getD_eq_getElem _ _ ht]
  constructor
  · rintro ⟨i, hi, hne, rfl⟩
    refine ⟨List.getElem_mem _, fun h => hne ?_⟩
    exact (List.Nodup.getElem_inj_iff hnd).mp h
  · rintro ⟨hmem, hne⟩
    obtain ⟨i, hi, rfl⟩ := List.getElem_of_mem hmem
    exact ⟨i, hi, fun h => hne (by subst h; rfl), rfl⟩

/-- Facts about the last two positions of a complete ordering. -/
theorem last_two_facts (vtx : List Nat) (hnd : vtx.Nodup) (P : List Nat) (s t : Nat)
    (hL : (P ++ [s, t]).Nodup) (hb : ∀ i ∈ P ++ [s, t], i < vtx.length) :
    s < vtx.length ∧ t < vtx.length ∧ s ≠ t ∧ vtx.getD s 0 ∈ vtx ∧ vtx.getD t 0 ∈ vtx ∧
    vtx.getD s 0 ≠ vtx.getD t 0 ∧
    (∀ i ∈ P ++ [s], i < vtx.length ∧ vtx.getD i 0 ≠ vtx.getD t 0) := by
  have hs : s < vtx.length := hb s (by simp)
  have ht : t < vtx.length := hb t (by simp)
  have hL' : ((P ++ [s]) ++ [t]).Nodup := by simpa using hL
  have hdisj := (List.nodup_append.mp hL').2.2
  have hst : s ≠ t := by
    intro h
    exact hdisj (by simp : s ∈ P ++ [s]) (by simp [h] : s ∈ [t])
  refine ⟨hs, ht, hst, getD_mem_of_lt vtx s hs, getD_mem_of_lt vtx t ht, ?_, ?_⟩
  · intro h
    exact hst (getD_inj_of_nodup vtx hnd s t hs ht h)
  · intro i hi
    have hil : i < vtx.length := hb i (by
      rcases List.mem_append.mp hi with h | h
      · simp [h]
      · simp at h; simp [h])
    refine ⟨hil, fun h => ?_⟩
    have := getD_inj_of_nodup vtx hnd i t hil ht h
    subst this
    exact hdisj hi (by simp)

/-- Weight between the cluster of `vt` and the rest, as a sum over vertex pairs. -/
theorem phase_cut_eq (g : WeightedGraph) (rep : Nat → Nat) (st : Work) (hinv : SWInv g rep st)
    (P : List Nat) (s t : Nat) (ph : Phase)
    (hlen : (P ++ [s, t]).length = st.curN)
    (hph : PhaseInv (posW st.w st.vtx) st.curN (P ++ [s, t]) ph) :
    (ph.dist.getD t 0 : Int) = ∑ x ∈ Finset.range g.n, ∑ y ∈ Finset.range g.n,
      if rep x ≠ st.vtx.getD t 0 ∧ rep y = st.vtx.getD t 0 then (g.pairW x y : Int) else 0 := by
  have hcur := hinv.curN_eq
  obtain ⟨hs, ht, hst, hvs, hvt, hvne, hPs⟩ := last_two_facts st.vtx hinv.nodup P s t hph.nodup
    (fun i hi => by rw [← hcur]; exact hph.bound i hi)
  have hLe : P ++ [s, t] = (P ++ [s]) ++ t :: [] := by simp
  have hperm : (P ++ [s, t]).Perm (List.range st.vtx.length) :=
    perm_range_of_nodup _ _ hph.nodup (fun i hi => by rw [← hcur]; exact hph.bound i hi)
      (by rw [hlen, hcur])
  rw [hph.dist_in (P ++ [s]) t [] hLe]
  -- as a sum over all positions
  have e1 : wTo (posW st.w st.vtx) (P ++ [s]) t
      = ∑ a ∈ st.vtx.toFinset,
          (if a ≠ st.vtx.getD t 0 then (mat_get st.w a (st.vtx.getD t 0) : Int) else 0) := by
    rw [← sum_positions st.vtx _ hinv.nodup hperm
      (fun a => if a ≠ st.vtx.getD t 0 then (mat_get st.w a (st.vtx.getD t 0) : Int) else 0)]
    rw [hLe, List.map_append, List.sum_append]
    simp only [List.map_cons, List.map_nil, List.sum_cons, List.sum_nil, ne_eq, not_true_eq_false,
      if_false, add_zero]
    unfold wTo posW
    apply congrArg
    apply List.map_congr_left
    intro i hi
    have := (hPs i hi).2
    rw [if_pos this]
  rw [e1]
  -- matrix entries are cluster weights
  have e2 : ∑ a ∈ st.vtx.toFinset,
      (if a ≠ st.vtx.getD t 0 then (mat_get st.w a (st.vtx.getD t 0) : Int) else 0)
      = ∑ a ∈ st.vtx.toFinset, ∑ b ∈ st.vtx.toFinset,
        (if a ≠ st.vtx.getD t 0 ∧ b = st.vtx.getD t 0 then clusterW g rep a b else 0) := by
    apply Finset.sum_congr rfl
    intro a ha
    have ha' : a ∈ st.vtx := List.mem_toFinset.mp ha
    rw [Finset.sum_eq_single (st.vtx.getD t 0)]
    · by_cases h : a = st.vtx.getD t 0
      · simp [h]
      · simp only [ne_eq, h, not_false_eq_true, if_true, and_self]
        exact hinv.mat a ha' _ hvt h
    · intro b _ hb
      rw [if_neg]
      intro h
      exact hb h.2
    · intro h
      exact absurd (List.mem_toFinset.mpr hvt) h
  rw [e2, cluster_regroup g rep st.vtx hinv.rep_mem
    (fun a b => a ≠ st.vtx.getD t 0 ∧ b = st.vtx.getD t 0)]

/-- The cut around a vertex set, from the crossing pair weights in one direction. -/
theorem cutOf_side_eq (g : WeightedGraph) (rep : Nat → Nat) (vt : Nat) (A : List Nat)
    (hA : ∀ x, x < g.n → (x ∈ A ↔ rep x = vt)) :
    (cutOf g (side_of A) : Int) = ∑ x ∈ Finset.range g.n, ∑ y ∈ Finset.range g.n,
      if rep x ≠ vt ∧ rep y = vt then (g.pairW x y : Int) else 0 := by
  have h2 := two_cutOf g (side_of A)
  have e1 : ∑ a ∈ Finset.range g.n, ∑ b ∈ Finset.range g.n,
      (if side_of A a ≠ side_of A b then (g.pairW a b : Int) else 0)
      = (∑ x ∈ Finset.range g.n, ∑ y ∈ Finset.range g.n,
          if rep x ≠ vt ∧ rep y = vt then (g.pairW x y : Int) else 0)
        + ∑ x ∈ Finset.range g.n, ∑ y ∈ Finset.range g.n,
          if rep x = vt ∧ rep y ≠ vt then (g.pairW x y : Int) else 0 := by
    rw [← Finset.sum_add_distrib]
    apply Finset.sum_congr rfl; intro x hx
    rw [← Finset.sum_add_distrib]
    apply Finset.sum_congr rfl; intro y hy
    have hx' := hA x (Finset.mem_range.mp hx)
    have hy' := hA y (Finset.mem_range.mp hy)
    unfold side_of
    by_cases h1 : rep x = vt
    · by_cases h2 : rep y = vt
      · simp [hx'.mpr h1, hy'.mpr h2, h1, h2]
      · have : y ∉ A := fun h => h2 (hy'.mp h)
        simp [hx'.mpr h1, this, h1, h2]
    · have hxA : x ∉ A := fun h => h1 (hx'.mp h)
      by_cases h2 : rep y = vt
      · simp [hxA, hy'.mpr h2, h1, h2]
      · have : y ∉ A := fun h => h2 (hy'.mp h)
        simp [hxA, this, h1, h2]
  have e2 : ∑ x ∈ Finset.range g.n, ∑ y ∈ Finset.range g.n,
      (if rep x = vt ∧ rep y ≠ vt then (g.pairW x y : Int) else 0)
      = ∑ x ∈ Finset.range g.n, ∑ y ∈ Finset.range g.n,
        if rep x ≠ vt ∧ rep y = vt then (g.pairW x y : Int) else 0 := by
    rw [Finset.sum_comm]
    apply Finset.sum_congr rfl; intro x _
    apply Finset.sum_congr rfl; intro y _
    rw [WeightedGraph.pairW_comm g y x]
    by_cases h : rep y = vt ∧ rep x ≠ vt
    · have : rep x ≠ vt ∧ rep y = vt := ⟨h.2, h.1⟩
      simp [h, this]
    · have : ¬ (rep x ≠ vt ∧ rep y = vt) := fun h' => h ⟨h'.2, h'.1⟩
      simp only [h, this, if_false]
  rw [e1, e2] at h2
  unfold Weight at *
  omega

/-- Stoer-Wagner bound in terms of the graph: a labeling that is constant on clusters and
separates the last two super-vertices weighs at least the cut of the phase. -/
theorem phase_cut_le (g : WeightedGraph) (hg : g.WF) (rep : Nat → Nat) (st : Work)
    (hinv : SWInv g rep st) (P : List Nat) (s t : Nat) (ph : Phase)
    (hlen : (P ++ [s, t]).length = st.curN)
    (hph : PhaseInv (posW st.w st.vtx) st.curN (P ++ [s, t]) ph)
    (labC : Nat → Int) (hsep : labC (st.vtx.getD s 0) ≠ labC (st.vtx.getD t 0)) :
    (ph.dist.getD t 0 : Int) ≤ cutOf g (fun x => labC (rep x)) := by
  have hcur := hinv.curN_eq
  have hbound : ∀ i ∈ P ++ [s, t], i < st.vtx.length :=
    fun i hi => by rw [← hcur]; exact hph.bound i hi
  obtain ⟨hs, ht, hst, hvs, hvt, hvne, hPs⟩ := last_two_facts st.vtx hinv.nodup P s t hph.nodup
    hbound
  have hLe : P ++ [s, t] = (P ++ [s]) ++ t :: [] := by simp
  have hLe' : P ++ [s, t] = (P ++ [s]) ++ [t] := by simp
  have hperm : (P ++ [s, t]).Perm (List.range st.vtx.length) :=
    perm_range_of_nodup _ _ hph.nodup hbound (by rw [hlen, hcur])
  -- facts about the position weights
  have hMne : ∀ i ∈ P ++ [s, t], ∀ j ∈ P ++ [s, t], i ≠ j →
      posW st.w st.vtx i j = clusterW g rep (st.vtx.getD i 0) (st.vtx.getD j 0) := by
    intro i hi j hj hij
    unfold posW
    apply hinv.mat _ (getD_mem_of_lt _ _ (hbound i hi)) _ (getD_mem_of_lt _ _ (hbound j hj))
    intro h
    exact hij (getD_inj_of_nodup st.vtx hinv.nodup i j (hbound i hi) (hbound j hj) h)
  have hMnn : ∀ i ∈ P ++ [s, t], ∀ j ∈ P ++ [s, t], i ≠ j → 0 ≤ posW st.w st.vtx i j := by
    intro i hi j hj hij
    rw [hMne i hi j hj hij]
    exact clusterW_nonneg g hg rep _ _
  have hMsym : ∀ i ∈ P ++ [s, t], ∀ j ∈ P ++ [s, t], posW st.w st.vtx i j = posW st.w st.vtx j i := by
    intro i hi j hj
    by_cases hij : i = j
    · subst hij; rfl
    · rw [hMne i hi j hj hij, hMne j hj i hi (fun h => hij h.symm), clusterW_comm]
  -- the side of a position
  obtain ⟨sideC, hsideC⟩ : ∃ f : Nat → Bool, ∀ a, f a = decide (labC a = labC (st.vtx.getD t 0)) :=
    ⟨_, fun _ => rfl⟩
  obtain ⟨side, hside⟩ : ∃ f : Nat → Bool, ∀ i, f i = sideC (st.vtx.getD i 0) := ⟨_, fun _ => rfl⟩
  have hside_st : side s ≠ side t := by
    have h1 : side s = false := by rw [hside, hsideC]; exact decide_eq_false hsep
    have h2 : side t = true := by rw [hside, hsideC]; exact decide_eq_true rfl
    rw [h1, h2]; decide
  -- maximum adjacency of the order
  have hMA : MaxAdj (posW st.w st.vtx) (P ++ [s]) := by
    intro P1 v R hsplit Q x R' hsplit'
    have hLs : P ++ [s, t] = Q ++ x :: (R' ++ v :: (R ++ [t])) := by
      rw [hLe', hsplit, hsplit']; simp
    have hnd := hph.nodup
    rw [hLs] at hnd
    have hvlt : v < st.curN := hph.bound v (by rw [hLs]; simp)
    have hnd' : (Q ++ (x :: R' ++ v :: (R ++ [t]))).Nodup := by simpa using hnd
    have hd := (List.nodup_append.mp hnd').2.2
    have hvQ : v ∉ Q := fun h => hd h (by simp)
    have hvx : v ≠ x := by
      intro h
      have h3 := (List.nodup_append.mp hnd').2.1
      simp only [List.cons_append, List.nodup_cons, List.mem_append, List.mem_cons] at h3
      exact h3.1 (Or.inr (Or.inl h.symm))
    exact hph.ma Q x _ hLs v hvlt hvQ hvx
  have hAf : After (posW st.w st.vtx) (P ++ [s]) t := by
    intro Q x R hsplit
    have hLs : P ++ [s, t] = Q ++ x :: (R ++ [t]) := by
      rw [hLe', hsplit]; simp
    have hnd := hph.nodup
    rw [hLs] at hnd
    have hnd' : (Q ++ (x :: R ++ [t])).Nodup := by simpa using hnd
    have hd := (List.nodup_append.mp hnd').2.2
    have htQ : t ∉ Q := fun h => hd h (by simp)
    have htx : t ≠ x := by
      intro h
      have h3 := (List.nodup_append.mp hnd').2.1
      simp only [List.cons_append, List.nodup_cons, List.mem_append, List.mem_singleton] at h3
      exact h3.1 (Or.inr h.symm)
    exact hph.ma Q x _ hLs t (by rw [hcur]; exact ht) htQ htx
  have hkey := max_adj_key (posW st.w st.vtx) side (P ++ [s]) t
    (by rw [← hLe']; exact hph.nodup)
    (by rw [← hLe']; exact hMnn) hMA hAf
    (by
      intro u hu
      simp at hu
      subst hu
      exact hside_st)
  rw [← pairCut_snoc, ← hLe'] at hkey
  have hdist := hph.dist_in (P ++ [s]) t [] hLe
  -- twice the pair cut as a sum over vertex pairs
  have hdouble := double_sum_pairCut (posW st.w st.vtx) side (P ++ [s, t]) hMsym
  have e1 : ((P ++ [s, t]).map fun x => ((P ++ [s, t]).map fun y =>
      if side x ≠ side y then posW st.w st.vtx x y else 0).sum).sum
      = ∑ a ∈ st.vtx.toFinset, ∑ b ∈ st.vtx.toFinset,
        (if sideC a ≠ sideC b then (mat_get st.w a b : Int) else 0) := by
    rw [← sum_positions st.vtx _ hinv.nodup hperm
      (fun a => ∑ b ∈ st.vtx.toFinset, (if sideC a ≠ sideC b then (mat_get st.w a b : Int) else 0))]
    apply congrArg
    apply List.map_congr_left
    intro i _
    rw [← sum_positions st.vtx _ hinv.nodup hperm
      (fun b => if sideC (st.vtx.getD i 0) ≠ sideC b then
        (mat_get st.w (st.vtx.getD i 0) b : Int) else 0)]
    apply congrArg
    apply List.map_congr_left
    intro j _
    rw [hside, hside]
    rfl
  have e2 : ∑ a ∈ st.vtx.toFinset, ∑ b ∈ st.vtx.toFinset,
      (if sideC a ≠ sideC b then (mat_get st.w a b : Int) else 0)
      = ∑ a ∈ st.vtx.toFinset, ∑ b ∈ st.vtx.toFinset,
        (if sideC a ≠ sideC b then clusterW g rep a b else 0) := by
    apply Finset.sum_congr rfl; intro a ha
    apply Finset.sum_congr rfl; intro b hb
    by_cases h : sideC a = sideC b
    · simp [h]
    · simp only [ne_eq, h, not_false_eq_true, if_true]
      apply hinv.mat a (List.mem_toFinset.mp ha) b (List.mem_toFinset.mp hb)
      intro hab
      exact h (by rw [hab])
  have e3 := cluster_regroup g rep st.vtx hinv.rep_mem (fun a b => sideC a ≠ sideC b)
  have e4 : ∑ x ∈ Finset.range g.n, ∑ y ∈ Finset.range g.n,
      (if sideC (rep x) ≠ sideC (rep y) then (g.pairW x y : Int) else 0)
      ≤ ∑ x ∈ Finset.range g.n, ∑ y ∈ Finset.range g.n,
        (if labC (rep x) ≠ labC (rep y) then (g.pairW x y : Int) else 0) := by
    apply Finset.sum_le_sum; intro x _
    apply Finset.sum_le_sum; intro y _
    have hnn := WeightedGraph.pairW_nonneg g hg x y
    by_cases h : labC (rep x) = labC (rep y)
    · have : sideC (rep x) = sideC (rep y) := by rw [hsideC, hsideC, h]
      simp [h, this]
    · simp only [ne_eq, h, not_false_eq_true, if_true]
      split
      · exact le_refl _
      · exact hnn
  have e5 := two_cutOf g (fun x => labC (rep x))
  rw [hdist]
  rw [e1, e2, e3] at hdouble
  unfold Weight at *
  omega

end GlobalMinCutSolver

namespace GlobalMinCutSolver

/-! ## The contraction loop -/

theorem SWInv_init (g : WeightedGraph) (hg : g.WF) : SWInv g id (init_work g) := by
  obtain ⟨hsq, hmat⟩ := build_matrix_spec g hg
  refine ⟨by simp [init_work], List.nodup_range g.n, fun a ha => by simpa [init_work] using ha,
    hsq, by simp [init_work], fun x hx => by simpa [init_work] using hx, fun a _ => rfl, ?_, ?_⟩
  · intro a ha x
    have ha' : a < g.n := by simpa [init_work] using ha
    have : (init_work g).clusters.getD a [] = [a] := by
      unfold init_work
      simp only
      rw [List.getD_eq_getElem _ _ (by simpa using ha')]
      simp
    rw [this]
    simp only [List.mem_singleton, id]
    constructor
    · intro h; subst h; exact ⟨ha', rfl⟩
    · intro h; exact h.2
  · intro a ha b hb _
    have ha' : a < g.n := by simpa [init_work] using ha
    have hb' : b < g.n := by simpa [init_work] using hb
    show (mat_get (build_matrix g) a b : Int) = _
    rw [hmat a b ha' hb', clusterW_id g a b ha' hb']

theorem merge_rows_eq (w : List (List Weight)) (vtx : List Nat) (vs vt : Nat) :
    merge_rows w vtx vtx.length vs vt = vtx.foldl (fun w vi =>
      if vi = vs ∨ vi = vt then w
      else mat_add (mat_add w vs vi (mat_get w vt vi)) vi vs
        (mat_get (mat_add w vs vi (mat_get w vt vi)) vi vt)) w := by
  unfold merge_rows
  exact foldl_range_getD vtx 0 (fun w vi =>
      if vi = vs ∨ vi = vt then w
      else mat_add (mat_add w vs vi (mat_get w vt vi)) vi vs
        (mat_get (mat_add w vs vi (mat_get w vt vi)) vi vt)) w

/-- One iteration of the contraction loop. -/
theorem contract_spec (g : WeightedGraph) (hg : g.WF) (rep : Nat → Nat) (st : Work)
    (hinv : SWInv g rep st) (h2 : 2 ≤ st.curN) (hbest : BestOk g st) :
    ∃ vs vt, vs ∈ st.vtx ∧ vt ∈ st.vtx ∧ vs ≠ vt ∧
      SWInv g (merge_rep rep vs vt) (contract st) ∧
      (contract st).curN = st.curN - 1 ∧
      (∀ a, a ∈ (contract st).vtx ↔ a ∈ st.vtx ∧ a ≠ vt) ∧
      BestOk g (contract st) ∧ (contract st).best ≤ st.best ∧
      ((contract st).best : Int) ≤ g.total_weight ∧
      (∀ labC : Nat → Int, labC vs ≠ labC vt →
        ((contract st).best : Int) ≤ cutOf g (fun x => labC (rep x))) := by
  obtain ⟨P, s, t, hlen, hph, hprev, hlast⟩ := min_cut_phase_spec st.w st.vtx st.curN h2
  have hcur := hinv.curN_eq
  have hbound : ∀ i ∈ P ++ [s, t], i < st.vtx.length :=
    fun i hi => by rw [← hcur]; exact hph.bound i hi
  obtain ⟨hs, ht, hst, hvs, hvt, hvne, _⟩ := last_two_facts st.vtx hinv.nodup P s t hph.nodup
    hbound
  have hvsn := hinv.vlt _ hvs
  have hvtn := hinv.vlt _ hvt
  -- the cut of the phase
  have hA : ∀ x, x < g.n → (x ∈ st.clusters.getD (st.vtx.getD t 0) [] ↔ rep x = st.vtx.getD t 0) := by
    intro x hx
    rw [hinv.cl _ hvt x]
    exact ⟨fun h => h.2, fun h => ⟨hx, h⟩⟩
  have hcut : ((min_cut_phase st.w st.vtx st.curN).dist.getD t 0 : Int)
      = cutOf g (side_of (st.clusters.getD (st.vtx.getD t 0) [])) := by
    rw [phase_cut_eq g rep st hinv P s t _ hlen hph, cutOf_side_eq g rep _ _ hA]
  have hcut_tot := cutOf_le_total g hg (side_of (st.clusters.getD (st.vtx.getD t 0) []))
  have hbest_le : st.best ≤ WEIGHT_MAX := by
    rcases hbest with ⟨h, _⟩ | ⟨h, _⟩
    · rw [h]
    · exact le_of_lt h
  have hmem' : ∀ a, a ∈ st.vtx.eraseIdx t ↔ a ∈ st.vtx ∧ a ≠ st.vtx.getD t 0 :=
    mem_eraseIdx_nodup st.vtx t ht hinv.nodup
  obtain ⟨hsq', hmat'⟩ := merge_fold_spec g.n (st.vtx.getD s 0) (st.vtx.getD t 0) hvsn hvne
    st.vtx hinv.nodup hinv.vlt st.w hinv.square
  rw [← merge_rows_eq, ← hcur] at hsq' hmat'
  refine ⟨st.vtx.getD s 0, st.vtx.getD t 0, hvs, hvt, hvne, ?_⟩
  unfold contract
  simp only [hprev, hlast]
  refine ⟨?_, trivial, hmem', ?_, ?_, ?_, ?_⟩
  · -- the invariant
    refine ⟨?_, List.Nodup.eraseIdx t hinv.nodup, ?_, hsq', by simpa using hinv.clen, ?_, ?_, ?_, ?_⟩
    · show st.curN - 1 = (st.vtx.eraseIdx t).length
      rw [List.length_eraseIdx, if_pos ht, hcur]
    · intro a ha
      exact hinv.vlt a ((hmem' a).mp ha).1
    · intro x hx
      show merge_rep rep _ _ x ∈ st.vtx.eraseIdx t
      rw [hmem']
      unfold merge_rep
      split
      · exact ⟨hvs, hvne⟩
      · rename_i h
        exact ⟨hinv.rep_mem x hx, h⟩
    · intro a ha
      have ha' := (hmem' a).mp ha
      show merge_rep rep _ _ a = a
      unfold merge_rep
      rw [hinv.rep_self a ha'.1, if_neg ha'.2]
    · intro a ha x
      have ha' := (hmem' a).mp ha
      show x ∈ (st.clusters.modify _ _).getD a [] ↔ _
      rw [getD_modify_eq, hinv.clen]
      unfold merge_rep
      by_cases hav : st.vtx.getD s 0 = a
      · subst hav
        simp only [hvsn, and_self, if_true, List.mem_append]
        rw [hinv.cl _ hvs x, hinv.cl _ hvt x]
        constructor
        · rintro (h | h)
          · refine ⟨h.1, ?_⟩
            rw [h.2, if_neg hvne]
          · refine ⟨h.1, ?_⟩
            rw [if_pos h.2]
        · rintro ⟨h1, h2⟩
          by_cases hx : rep x = st.vtx.getD t 0
          · right; exact ⟨h1, hx⟩
          · left; rw [if_neg hx] at h2; exact ⟨h1, h2⟩
      · simp only [hav, false_and, if_false]
        rw [hinv.cl a ha'.1 x]
        constructor
        · rintro ⟨h1, h2⟩
          refine ⟨h1, ?_⟩
          rw [h2, if_neg ha'.2]
        · rintro ⟨h1, h2⟩
          refine ⟨h1, ?_⟩
          by_cases hx : rep x = st.vtx.getD t 0
          · rw [if_pos hx] at h2; exact absurd h2 hav
          · rw [if_neg hx] at h2; exact h2
    · intro a ha b hb hab
      have ha' := (hmem' a).mp ha
      have hb' := (hmem' b).mp hb
      show (mat_get (merge_rows _ _ _ _ _) a b : Int) = _
      rw [hmat' a b]
      by_cases has : a = st.vtx.getD s 0
      · subst has
        have hbs : b ≠ st.vtx.getD s 0 := fun h => hab h.symm
        have c1 : (st.vtx.getD s 0 = st.vtx.getD s 0 ∧ b ∈ st.vtx ∧ b ≠ st.vtx.getD s 0 ∧
            b ≠ st.vtx.getD t 0) := ⟨rfl, hb'.1, hbs, hb'.2⟩
        have c2 : ¬ (b = st.vtx.getD s 0 ∧ st.vtx.getD s 0 ∈ st.vtx ∧
            st.vtx.getD s 0 ≠ st.vtx.getD s 0 ∧ st.vtx.getD s 0 ≠ st.vtx.getD t 0) :=
          fun h => hbs h.1
        rw [if_pos c1, if_neg c2, hinv.mat _ hvs b hb'.1 hab, hinv.mat _ hvt b hb'.1
          (fun h => hb'.2 h.symm), clusterW_merge_left g rep _ _ b hvne hbs hb'.2]
        ring
      · by_cases hbs : b = st.vtx.getD s 0
        · subst hbs
          have c1 : ¬ (a = st.vtx.getD s 0 ∧ st.vtx.getD s 0 ∈ st.vtx ∧
              st.vtx.getD s 0 ≠ st.vtx.getD s 0 ∧ st.vtx.getD s 0 ≠ st.vtx.getD t 0) :=
            fun h => has h.1
          have c2 : (st.vtx.getD s 0 = st.vtx.getD s 0 ∧ a ∈ st.vtx ∧ a ≠ st.vtx.getD s 0 ∧
              a ≠ st.vtx.getD t 0) := ⟨rfl, ha'.1, has, ha'.2⟩
          rw [if_neg c1, if_pos c2, hinv.mat a ha'.1 _ hvs hab, hinv.mat a ha'.1 _ hvt ha'.2,
            clusterW_comm g (merge_rep rep _ _) a _,
            clusterW_merge_left g rep _ _ a hvne has ha'.2,
            clusterW_comm g rep a (st.vtx.getD s 0), clusterW_comm g rep a (st.vtx.getD t 0)]
          ring
        · have c1 : ¬ (a = st.vtx.getD s 0 ∧ b ∈ st.vtx ∧ b ≠ st.vtx.getD s 0 ∧
              b ≠ st.vtx.getD t 0) := fun h => has h.1
          have c2 : ¬ (b = st.vtx.getD s 0 ∧ a ∈ st.vtx ∧ a ≠ st.vtx.getD s 0 ∧
              a ≠ st.vtx.getD t 0) := fun h => hbs h.1
          rw [if_neg c1, if_neg c2, hinv.mat a ha'.1 b hb'.1 hab,
            clusterW_merge_other g rep _ _ a b has ha'.2 hbs hb'.2]
          ring
  · -- the recorded best cut
    by_cases hlt : (min_cut_phase st.w st.vtx st.curN).dist.getD t 0 < st.best
    · right
      simp only [hlt, if_true]
      refine ⟨lt_of_lt_of_le hlt hbest_le, hcut, ⟨st.vtx.getD t 0, hvtn, ?_⟩,
        ⟨st.vtx.getD s 0, hvsn, ?_⟩⟩
      · rw [hinv.cl _ hvt]; exact ⟨hvtn, hinv.rep_self _ hvt⟩
      · rw [hinv.cl _ hvt]
        intro h
        rw [hinv.rep_self _ hvs] at h
        exact hvne h.2
    · simp only [hlt, if_false]
      exact hbest
  · show (if _ then _ else _) ≤ st.best
    split
    · rename_i h; exact le_of_lt h
    · exact le_refl _
  · show ((if _ then _ else _ : Weight) : Int) ≤ _
    split
    · rw [hcut]; exact hcut_tot
    · rename_i h
      have := not_lt.mp h
      rw [hcut] at this
      exact le_trans this hcut_tot
  · intro labC hsep
    have hle := phase_cut_le g hg rep st hinv P s t _ hlen hph labC hsep
    show ((if _ then _ else _ : Weight) : Int) ≤ _
    split
    · exact hle
    · rename_i h
      exact le_trans (not_lt.mp h) hle

end GlobalMinCutSolver

namespace GlobalMinCutSolver

theorem main_loop_spec (g : WeightedGraph) (hg : g.WF) (fuel : Nat) :
    ∀ (st : Work) (rep : Nat → Nat), SWInv g rep st → 1 ≤ st.curN → st.curN ≤ fuel + 1 →
      BestOk g st →
      BestOk g (main_loop fuel st) ∧ (main_loop fuel st).best ≤ st.best ∧
      (main_loop fuel st).curN = 1 ∧
      (2 ≤ st.curN → ((main_loop fuel st).best : Int) ≤ g.total_weight) ∧
      ∀ labC : Nat → Int, (∃ a ∈ st.vtx, ∃ b ∈ st.vtx, labC a ≠ labC b) →
        ((main_loop fuel st).best : Int) ≤ cutOf g (fun x => labC (rep x)) := by
  have base : ∀ (st : Work) (rep : Nat → Nat), SWInv g rep st → st.curN = 1 →
      ∀ labC : Nat → Int, (∃ a ∈ st.vtx, ∃ b ∈ st.vtx, labC a ≠ labC b) → False := by
    intro st rep hinv h1 labC ⟨a, ha, b, hb, hab⟩
    have hl : st.vtx.length = 1 := by rw [← hinv.curN_eq]; exact h1
    obtain ⟨x, hx⟩ := List.length_eq_one.mp hl
    rw [hx] at ha hb
    simp at ha hb
    subst ha hb
    exact hab rfl
  induction fuel with
  | zero =>
    intro st rep hinv h1 h2 hbest
    have hc : st.curN = 1 := by omega
    refine ⟨hbest, le_refl _, hc, fun h => by omega, fun labC h => ?_⟩
    exact absurd (base st rep hinv hc labC h) id
  | succ fuel ih =>
    intro st rep hinv h1 h2 hbest
    unfold main_loop
    by_cases hc : st.curN > 1
    · simp only [hc, if_true]
      obtain ⟨vs, vt, hvs, hvt, hne, hinv', hcur', hmem', hbest', hle', htot', hsep'⟩ :=
        contract_spec g hg rep st hinv (by omega) hbest
      obtain ⟨i1, i2, i3, _, i5⟩ := ih (contract st) (merge_rep rep vs vt) hinv'
        (by rw [hcur']; omega) (by rw [hcur']; omega) hbest'
      refine ⟨i1, le_trans i2 hle', i3, fun _ => le_trans (by exact_mod_cast i2) htot',
        fun labC hex => ?_⟩
      by_cases hsep : labC vs = labC vt
      · -- the labeling does not separate the merged pair: it is a labeling of the contracted graph
        have hfun : (fun x => labC (rep x)) = (fun x => labC (merge_rep rep vs vt x)) := by
          funext x
          unfold merge_rep
          split
          · rename_i h; rw [h, hsep]
          · rfl
        rw [hfun]
        apply i5 labC
        obtain ⟨a, ha, b, hb, hab⟩ := hex
        refine ⟨if a = vt then vs else a, ?_, if b = vt then vs else b, ?_, ?_⟩
        · rw [hmem']
          split
          · exact ⟨hvs, hne⟩
          · rename_i h; exact ⟨ha, h⟩
        · rw [hmem']
          split
          · exact ⟨hvs, hne⟩
          · rename_i h; exact ⟨hb, h⟩
        · have ea : labC (if a = vt then vs else a) = labC a := by
            split
            · rename_i h; rw [h, hsep]
            · rfl
          have eb : labC (if b = vt then vs else b) = labC b := by
            split
            · rename_i h; rw [h, hsep]
            · rfl
          rw [ea, eb]; exact hab
      · exact le_trans (by exact_mod_cast i2) (hsep' labC hsep)
    · simp only [hc, if_false]
      have hc1 : st.curN = 1 := by omega
      refine ⟨hbest, le_refl _, hc1, fun h => by omega, fun labC h => ?_⟩
      exact absurd (base st rep hinv hc1 labC h) id

/-! ## The result of `solve` -/

theorem set_zero_fold (A : List Nat) (p : List Int) :
    (A.foldl (fun p v => p.set v 0) p).length = p.length ∧
    ∀ x, (A.foldl (fun p v => p.set v 0) p).getD x 0
      = if x ∈ A ∧ x < p.length then 0 else p.getD x 0 := by
  induction A generalizing p with
  | nil => simp
  | cons a as ih =>
    simp only [List.foldl_cons]
    obtain ⟨h1, h2⟩ := ih (p.set a 0)
    refine ⟨by simpa using h1, fun x => ?_⟩
    rw [h2 x, getD_set_eq]
    simp only [List.length_set, List.mem_cons]
    by_cases hx : x ∈ as ∧ x < p.length
    · simp [hx]
    · simp only [hx, if_false]
      by_cases hax : a = x
      · subst hax
        by_cases hl : a < p.length
        · simp [hl]
        · simp [-List.getD_eq_getElem?_getD, hl]
      · have : ¬ x = a := fun h => hax h.symm
        have h3 : ¬ ((x = a ∨ x ∈ as) ∧ x < p.length) := by
          rintro ⟨h | h, hl⟩
          · exact this h
          · exact hx ⟨h, hl⟩
        simp only [hax, false_and, if_false, h3]

/-- Labels written by `solve`: 0 on the recorded vertex set, 1 elsewhere. -/
theorem result_part_spec (n : Nat) (A : List Nat) :
    (A.foldl (fun p v => p.set v 0) (List.replicate n (1 : Int))).length = n ∧
    (∀ x, x < n → (A.foldl (fun p v => p.set v 0) (List.replicate n (1 : Int))).getD x 0
      = side_of A x) ∧
    ∀ y ∈ A.foldl (fun p v => p.set v 0) (List.replicate n (1 : Int)), y = 0 ∨ y = 1 := by
  obtain ⟨h1, h2⟩ := set_zero_fold A (List.replicate n (1 : Int))
  have hlen : (A.foldl (fun p v => p.set v 0) (List.replicate n (1 : Int))).length = n := by
    simpa using h1
  have hget : ∀ x, x < n → (A.foldl (fun p v => p.set v 0) (List.replicate n (1 : Int))).getD x 0
      = side_of A x := by
    intro x hx
    rw [h2 x, getD_replicate_eq]
    unfold side_of
    by_cases hA : x ∈ A
    · simp [hA, hx]
    · simp [hA, hx]
  refine ⟨hlen, hget, fun y hy => ?_⟩
  obtain ⟨i, hi, rfl⟩ := List.getElem_of_mem hy
  have := hget i (by rw [← hlen]; exact hi)
  rw [List.getD_eq_getElem _ _ hi] at this
  rw [this]
  unfold side_of
  split
  · left; rfl
  · right; rfl

theorem cutOf_congr (g : WeightedGraph) (f h : Nat → Int) (hfh : ∀ x, x < g.n → f x = h x) :
    cutOf g f = cutOf g h := by
  unfold cutOf
  apply Finset.sum_congr rfl; intro a ha
  apply Finset.sum_congr rfl; intro b hb
  rw [hfh a (Finset.mem_range.mp ha), hfh b (Finset.mem_range.mp hb)]

theorem solve_eq (self : State) (g : WeightedGraph) (h2 : 2 ≤ g.n) :
    solve self g = { res_ :=
      { part := (main_loop g.n (init_work g)).bestA.foldl (fun p v => p.set v 0)
          (List.replicate g.n 1)
        cut_weight := (main_loop g.n (init_work g)).best } } := by
  unfold solve
  have h0 : ¬ g.n = 0 := by omega
  have h1 : ¬ g.n = 1 := by omega
  simp only [h0, h1, if_false]

theorem BestOk_init (g : WeightedGraph) : BestOk g (init_work g) := Or.inl ⟨rfl, rfl⟩

/-- Summary of `solve` on a well-formed graph with at least two vertices. -/
theorem global_solve_spec (self : State) (g : WeightedGraph) (hg : g.WF) (h2 : 2 ≤ g.n) :
    (result (solve self g)).part.length = g.n ∧
    (∀ y ∈ (result (solve self g)).part, y = 0 ∨ y = 1) ∧
    ((result (solve self g)).cut_weight : Int) ≤ g.total_weight ∧
    ((result (solve self g)).cut_weight < WEIGHT_MAX →
      cut_weight_undirected g (result (solve self g)).part = (result (solve self g)).cut_weight ∧
      (0 : Int) ∈ (result (solve self g)).part ∧ (1 : Int) ∈ (result (solve self g)).part) ∧
    ((result (solve self g)).cut_weight = WEIGHT_MAX ∨
      (result (solve self g)).cut_weight < WEIGHT_MAX) ∧
    (∀ lab : Nat → Int, (∃ a, a < g.n ∧ ∃ b, b < g.n ∧ lab a ≠ lab b) →
      ((result (solve self g)).cut_weight : Int) ≤ cutOf g lab) := by
  rw [solve_eq self g h2]
  unfold result
  simp only
  obtain ⟨m1, _, _, m4, m5⟩ := main_loop_spec g hg g.n (init_work g) id (SWInv_init g hg)
    (by simp [init_work]; omega) (by simp [init_work]) (BestOk_init g)
  obtain ⟨r1, r2, r3⟩ := result_part_spec g.n (main_loop g.n (init_work g)).bestA
  refine ⟨r1, r3, m4 (by simpa [init_work] using h2), ?_, ?_, ?_⟩
  · intro hlt
    rcases m1 with ⟨h, _⟩ | ⟨_, hcut, ⟨x, hx, hxA⟩, ⟨y, hy, hyA⟩⟩
    · rw [h] at hlt; exact absurd hlt (lt_irrefl _)
    · refine ⟨?_, ?_, ?_⟩
      · rw [cut_weight_undirected_eq g hg, hcut]
        exact cutOf_congr g _ _ r2
      · have := r2 x hx
        unfold side_of at this
        rw [if_pos hxA] at this
        have hx' : x < ((main_loop g.n (init_work g)).bestA.foldl (fun p v => p.set v 0)
            (List.replicate g.n (1 : Int))).length := by rw [r1]; exact hx
        have hm := List.getElem_mem hx'
        rw [← List.getD_eq_getElem _ 0 hx', this] at hm
        exact hm
      · have := r2 y hy
        unfold side_of at this
        rw [if_neg hyA] at this
        have hy' : y < ((main_loop g.n (init_work g)).bestA.foldl (fun p v => p.set v 0)
            (List.replicate g.n (1 : Int))).length := by rw [r1]; exact hy
        have hm := List.getElem_mem hy'
        rw [← List.getD_eq_getElem _ 0 hy', this] at hm
        exact hm
  · rcases m1 with ⟨h, _⟩ | ⟨h, _⟩
    · left; exact h
    · right; exact h
  · intro lab ⟨a, ha, b, hb, hab⟩
    exact m5 lab ⟨a, by simpa [init_work] using ha, b, by simpa [init_work] using hb, hab⟩

end GlobalMinCutSolver

namespace GlobalMinCutSolver

theorem exists_index_of_mem (part : List Int) (v : Int) (h : v ∈ part) :
    ∃ a, a < part.length ∧ part.getD a 0 = v := by
  obtain ⟨i, hi, rfl⟩ := List.getElem_of_mem h
  exact ⟨i, hi, List.getD_eq_getElem _ _ hi⟩

/-- C1: for a well-formed graph (in particular any graph built by `add_undirected`) with at least
two vertices whose total edge weight does not exceed the 64-bit maximum, the `cut_weight`
reported by `GlobalMinCutSolver::solve` is the minimum of `cut_weight_undirected(g, part)` over
all 0/1 labelings `part` of the vertices in which both labels occur: it is a lower bound for
every such labeling and it is attained by one of them. -/
theorem global_min_cut_optimal (self : State) (g : WeightedGraph) (hg : g.WF) (h2 : 2 ≤ g.n)
    (hsum : g.total_weight ≤ WEIGHT_MAX) :
    (∀ part : List Int, part.length = g.n → (∀ x ∈ part, x = 0 ∨ x = 1) →
      (0 : Int) ∈ part → (1 : Int) ∈ part →
      (result (solve self g)).cut_weight ≤ cut_weight_undirected g part) ∧
    (∃ part : List Int, part.length = g.n ∧ (∀ x ∈ part, x = 0 ∨ x = 1) ∧
      (0 : Int) ∈ part ∧ (1 : Int) ∈ part ∧
      cut_weight_undirected g part = (result (solve self g)).cut_weight) := by
  obtain ⟨s1, s2, _, s4, s5, s6⟩ := global_solve_spec self g hg h2
  have lower : ∀ part : List Int, part.length = g.n → (0 : Int) ∈ part → (1 : Int) ∈ part →
      (result (solve self g)).cut_weight ≤ cut_weight_undirected g part := by
    intro part hlen h0 h1
    obtain ⟨a, ha, hpa⟩ := exists_index_of_mem part 0 h0
    obtain ⟨b, hb, hpb⟩ := exists_index_of_mem part 1 h1
    rw [cut_weight_undirected_eq g hg]
    apply s6 (fun x => part.getD x 0)
    refine ⟨a, by rw [← hlen]; exact ha, b, by rw [← hlen]; exact hb, ?_⟩
    show part.getD a 0 ≠ part.getD b 0
    rw [hpa, hpb]; decide
  refine ⟨fun part hlen _ h0 h1 => lower part hlen h0 h1, ?_⟩
  rcases s5 with hmax | hlt
  · -- every cut weighs exactly the maximum: any labeling with both labels attains it
    refine ⟨0 :: List.replicate (g.n - 1) 1, by simp; omega, ?_, by simp, ?_, ?_⟩
    · intro x hx
      rcases List.mem_cons.mp hx with h | h
      · left; exact h
      · right; exact List.eq_of_mem_replicate h
    · have : g.n - 1 ≠ 0 := by omega
      simp [this]
    · have hlow := lower (0 :: List.replicate (g.n - 1) 1) (by simp; omega) (by simp)
        (by
          have : g.n - 1 ≠ 0 := by omega
          simp [this])
      have hup : cut_weight_undirected g (0 :: List.replicate (g.n - 1) 1) ≤ g.total_weight := by
        rw [cut_weight_undirected_eq g hg]
        exact cutOf_le_total g hg _
      rw [hmax] at hlow ⊢
      exact le_antisymm (le_trans hup hsum) hlow
  · obtain ⟨e, h0, h1⟩ := s4 hlt
    exact ⟨_, s1, s2, h0, h1, e⟩

set_option maxRecDepth 100000 in
/-- Witness for C1 on the demonstration graph. -/
theorem global_min_cut_optimal_witness :
    demoGraph.WF ∧ 2 ≤ demoGraph.n ∧ demoGraph.total_weight ≤ WEIGHT_MAX ∧
    ((∀ part : List Int, part.length = demoGraph.n → (∀ x ∈ part, x = 0 ∨ x = 1) →
      (0 : Int) ∈ part → (1 : Int) ∈ part →
      (result (solve {} demoGraph)).cut_weight ≤ cut_weight_undirected demoGraph part) ∧
    (∃ part : List Int, part.length = demoGraph.n ∧ (∀ x ∈ part, x = 0 ∨ x = 1) ∧
      (0 : Int) ∈ part ∧ (1 : Int) ∈ part ∧
      cut_weight_undirected demoGraph part = (result (solve {} demoGraph)).cut_weight)) :=
  ⟨by decide, by decide, by decide,
    global_min_cut_optimal {} demoGraph (by decide) (by decide) (by decide)⟩

set_option maxRecDepth 100000 in
/-- C4 fails on the graph with the single edge 0-1 of weight `2^63 - 1` (built by one
`add_undirected` call; the only sum formed is the weight itself, so nothing overflows): the
phase cut equals the initial value `numeric_limits<Weight>::max()` of `best`, the test
`cut < best` never records it, and `solve` reports `cut_weight = 2^63 - 1` together with the
trivial labeling `[1, 1]`, whose recomputed cut weight is 0. -/
theorem global_cut_weight_mismatch :
    maxEdgeGraph.Built ∧ maxEdgeGraph.n = 2 ∧ maxEdgeGraph.total_weight ≤ WEIGHT_MAX ∧
    (result (solve {} maxEdgeGraph)).part = [1, 1] ∧
    (result (solve {} maxEdgeGraph)).cut_weight = 9223372036854775807 ∧
    cut_weight_undirected maxEdgeGraph (result (solve {} maxEdgeGraph)).part = 0 ∧
    cut_weight_undirected maxEdgeGraph (result (solve {} maxEdgeGraph)).part
      ≠ (result (solve {} maxEdgeGraph)).cut_weight :=
  ⟨WeightedGraph.Built.add 0 1 WEIGHT_MAX (WeightedGraph.Built.init 2) rfl, by decide, by decide,
    by decide, by decide, by decide, by decide⟩

/-- Cut-weight consistency below the sentinel: for a well-formed graph with at least two vertices
whose total edge weight is below the 64-bit maximum (so that no sum overflows and the first
phase is recorded), recomputing `cut_weight_undirected(g, result().part)` gives exactly
`result().cut_weight`. -/
theorem global_cut_weight_consistent (self : State) (g : WeightedGraph) (hg : g.WF)
    (h2 : 2 ≤ g.n) (hlt : g.total_weight < WEIGHT_MAX) :
    cut_weight_undirected g (result (solve self g)).part = (result (solve self g)).cut_weight := by
  obtain ⟨_, _, s3, s4, _, _⟩ := global_solve_spec self g hg h2
  exact (s4 (lt_of_le_of_lt s3 hlt)).1

set_option maxRecDepth 100000 in
/-- Cut-weight consistency of the global solver on the demonstration graph. -/
theorem global_cut_weight_consistent_witness :
    demoGraph.WF ∧ 2 ≤ demoGraph.n ∧ demoGraph.total_weight < WEIGHT_MAX ∧
    cut_weight_undirected demoGraph (result (solve {} demoGraph)).part
      = (result (solve {} demoGraph)).cut_weight :=
  ⟨by decide, by decide, by decide,
    global_cut_weight_consistent {} demoGraph (by decide) (by decide) (by decide)⟩

/-- C5: for a well-formed graph with at least two vertices and total edge weight below the
64-bit maximum, the labeling returned by `GlobalMinCutSolver::solve` has one label per vertex,
uses only the labels 0 and 1, and both labels occur. -/
theorem global_cut_nontrivial (self : State) (g : WeightedGraph) (hg : g.WF) (h2 : 2 ≤ g.n)
    (hlt : g.total_weight < WEIGHT_MAX) :
    (result (solve self g)).part.length = g.n ∧
    (∀ x ∈ (result (solve self g)).part, x = 0 ∨ x = 1) ∧
    (0 : Int) ∈ (result (solve self g)).part ∧ (1 : Int) ∈ (result (solve self g)).part := by
  obtain ⟨s1, s2, s3, s4, _, _⟩ := global_solve_spec self g hg h2
  obtain ⟨_, h0, h1⟩ := s4 (lt_of_le_of_lt s3 hlt)
  exact ⟨s1, s2, h0, h1⟩

set_option maxRecDepth 100000 in
/-- Witness for C5 on the demonstration graph. -/
theorem global_cut_nontrivial_witness :
    demoGraph.WF ∧ 2 ≤ demoGraph.n ∧ demoGraph.total_weight < WEIGHT_MAX ∧
    ((result (solve {} demoGraph)).part.length = demoGraph.n ∧
    (∀ x ∈ (result (solve {} demoGraph)).part, x = 0 ∨ x = 1) ∧
    (0 : Int) ∈ (result (solve {} demoGraph)).part ∧
    (1 : Int) ∈ (result (solve {} demoGraph)).part) :=
  ⟨by decide, by decide, by decide,
    global_cut_nontrivial {} demoGraph (by decide) (by decide) (by decide)⟩

end GlobalMinCutSolver

namespace STMinCutSolver

/-! ## Residual networks: arcs and capacity updates -/

theorem arc_eq_some_iff (g : List (List E)) (u i : Nat) (e : E) :
    arc g u i = some e ↔ ∃ h : i < (g.getD u []).length, (g.getD u [])[i] = e := by
  unfold arc
  rw [List.getElem?_eq_some_iff]

theorem arc_mem (g : List (List E)) (u i : Nat) (e : E) (h : arc g u i = some e) :
    e ∈ g.getD u [] := by
  obtain ⟨hi, he⟩ := (arc_eq_some_iff g u i e).mp h
  rw [← he]; exact List.getElem_mem _

theorem mem_arc (g : List (List E)) (u : Nat) (e : E) (h : e ∈ g.getD u []) :
    ∃ i, arc g u i = some e := by
  obtain ⟨i, hi, he⟩ := List.getElem_of_mem h
  exact ⟨i, (arc_eq_some_iff g u i e).mpr ⟨hi, he⟩⟩

theorem arc_lt (g : List (List E)) (u i : Nat) (e : E) (h : arc g u i = some e) :
    i < (g.getD u []).length ∧ u < g.length := by
  obtain ⟨hi, _⟩ := (arc_eq_some_iff g u i e).mp h
  refine ⟨hi, ?_⟩
  by_contra hu
  rw [List.getD_eq_default _ _ (Nat.le_of_not_lt hu)] at hi
  simp at hi

theorem arc_getD (g : List (List E)) (u i : Nat) (h : i < (g.getD u []).length) :
    arc g u i = some ((g.getD u []).getD i default) := by
  unfold arc
  rw [List.getD_eq_getElem _ _ h, List.getElem?_eq_getElem h]

theorem arc_add_cap (g : List (List E)) (x j : Nat) (c : Weight) (u i : Nat) :
    arc (add_cap g x j c) u i
      = (arc g u i).map fun e => if x = u ∧ j = i then { e with cap := e.cap + c } else e := by
  unfold arc add_cap
  rw [getD_modify_eq]
  by_cases hx : x = u
  · subst hx
    by_cases hl : x < g.length
    · simp only [hl, and_self, if_true, true_and]
      rw [List.getElem?_modify]
      by_cases hj : j = i
      · subst hj; simp
      · simp [hj]
    · simp only [hl, and_false, if_false, true_and]
      rw [List.getD_eq_default _ _ (Nat.le_of_not_lt hl)]
      simp
  · simp [hx]

theorem add_cap_length (g : List (List E)) (x j : Nat) (c : Weight) :
    (add_cap g x j c).length = g.length := by
  simp [add_cap]

theorem add_cap_getD_other (g : List (List E)) (x j : Nat) (c : Weight) (u : Nat) (h : x ≠ u) :
    (add_cap g x j c).getD u [] = g.getD u [] := by
  unfold add_cap
  rw [getD_modify_eq]
  simp [h]

theorem add_cap_getD_length (g : List (List E)) (x j : Nat) (c : Weight) (u : Nat) :
    ((add_cap g x j c).getD u []).length = (g.getD u []).length := by
  unfold add_cap
  rw [getD_modify_eq]
  split <;> simp

theorem SameShape.refl (g : List (List E)) : SameShape g g := ⟨rfl, fun _ => rfl⟩

theorem SameShape.trans {g1 g2 g3 : List (List E)} (h1 : SameShape g1 g2) (h2 : SameShape g2 g3) :
    SameShape g1 g3 := ⟨h1.1.trans h2.1, fun u => (h1.2 u).trans (h2.2 u)⟩

theorem SameShape.length_getD {g1 g2 : List (List E)} (h : SameShape g1 g2) (u : Nat) :
    (g1.getD u []).length = (g2.getD u []).length := by
  have := congrArg List.length (h.2 u)
  simpa using this

theorem add_cap_SameShape (g : List (List E)) (x j : Nat) (c : Weight) :
    SameShape (add_cap g x j c) g := by
  refine ⟨add_cap_length g x j c, fun u => ?_⟩
  apply List.ext_getElem?
  intro i
  have := arc_add_cap g x j c u i
  unfold arc at this
  rw [List.getElem?_map, List.getElem?_map, this]
  cases (g.getD u [])[i]? with
  | none => rfl
  | some e =>
    simp only [Option.map_some']
    split <;> rfl

theorem add_cap_NetOk (n : Nat) (g : List (List E)) (x j : Nat) (c : Weight) (hg : NetOk n g)
    (hc : ∀ e, arc g x j = some e → (0 : Int) ≤ e.cap + c) : NetOk n (add_cap g x j c) := by
  have key : ∀ u i e, arc (add_cap g x j c) u i = some e →
      ∃ e0, arc g u i = some e0 ∧ e.to_ = e0.to_ ∧ e.rev = e0.rev ∧
        e.cap = (if x = u ∧ j = i then e0.cap + c else e0.cap) := by
    intro u i e h
    rw [arc_add_cap] at h
    cases h0 : arc g u i with
    | none => rw [h0] at h; simp at h
    | some e0 =>
      rw [h0] at h
      simp only [Option.map_some', Option.some.injEq] at h
      refine ⟨e0, rfl, ?_⟩
      subst h
      split <;> simp
  have key2 : ∀ u i e0, arc g u i = some e0 →
      ∃ e, arc (add_cap g x j c) u i = some e ∧ e.to_ = e0.to_ ∧ e.rev = e0.rev := by
    intro u i e0 h
    rw [arc_add_cap, h]
    simp only [Option.map_some']
    refine ⟨_, rfl, ?_⟩
    split <;> simp
  refine ⟨by rw [add_cap_length]; exact hg.len, ?_, ?_, ?_⟩
  · intro u i e h
    obtain ⟨e0, h0, h1, _, _⟩ := key u i e h
    rw [h1]; exact hg.to_lt u i e0 h0
  · intro u i e h hne
    obtain ⟨e0, h0, h1, h2, _⟩ := key u i e h
    rw [h1] at hne ⊢
    rw [h2]
    obtain ⟨e1, p1, p2, p3⟩ := hg.partner u i e0 h0 hne
    obtain ⟨e2, q1, q2, q3⟩ := key2 _ _ e1 p1
    exact ⟨e2, q1, by rw [q2, p2], by rw [q3, p3]⟩
  · intro u i e h
    obtain ⟨e0, h0, _, _, h3⟩ := key u i e h
    rw [h3]
    split
    · rename_i hx
      obtain ⟨rfl, rfl⟩ := hx
      exact hc e0 h0
    · exact hg.cap_nonneg u i e0 h0

theorem sum_map_modify {α : Type} (F : α → Int) (f : α → α) (l : List α) (j : Nat) (e : α)
    (h : l[j]? = some e) : ((l.modify f j).map F).sum = (l.map F).sum + (F (f e) - F e) := by
  induction l generalizing j with
  | nil => simp at h
  | cons a as ih =>
    cases j with
    | zero =>
      simp only [List.getElem?_cons_zero, Option.some.injEq] at h
      subst h
      simp only [List.modify_zero_cons, List.map_cons, List.sum_cons]
      omega
    | succ j =>
      simp only [List.getElem?_cons_succ] at h
      simp only [List.modify_succ_cons, List.map_cons, List.sum_cons, ih j h]
      omega

/-- Effect of one capacity update on the capacity leaving `S`. -/
theorem capOut_add_cap (n : Nat) (g : List (List E)) (S : Nat → Bool) (x j : Nat) (c : Weight)
    (e : E) (hx : x < n) (hlen : g.length = n) (he : arc g x j = some e) :
    capOut n (add_cap g x j c) S
      = capOut n g S + if S x = true ∧ S e.to_ = false then (c : Int) else 0 := by
  unfold capOut
  have hsplit : ∀ (F : Nat → Int), ∑ u ∈ Finset.range n, F u
      = F x + ∑ u ∈ Finset.range n, if u = x then 0 else F u := by
    intro F
    have : ∀ u, F u = (if u = x then F u else 0) + (if u = x then 0 else F u) := by
      intro u; split <;> simp
    conv_lhs => rw [Finset.sum_congr rfl (fun u _ => this u)]
    rw [Finset.sum_add_distrib, Finset.sum_ite_eq']
    simp [hx]
  rw [hsplit (fun u => if S u then
    (((add_cap g x j c).getD u []).map fun e => if S e.to_ then (0 : Int) else e.cap).sum else 0),
    hsplit (fun u => if S u then
    ((g.getD u []).map fun e => if S e.to_ then (0 : Int) else e.cap).sum else 0)]
  have hrest : ∑ u ∈ Finset.range n, (if u = x then (0 : Int) else if S u then
      (((add_cap g x j c).getD u []).map fun e => if S e.to_ then (0 : Int) else e.cap).sum else 0)
      = ∑ u ∈ Finset.range n, (if u = x then (0 : Int) else if S u then
      ((g.getD u []).map fun e => if S e.to_ then (0 : Int) else e.cap).sum else 0) := by
    apply Finset.sum_congr rfl
    intro u _
    by_cases hu : u = x
    · simp [hu]
    · simp only [hu, if_false]
      rw [add_cap_getD_other g x j c u (fun h => hu h.symm)]
  rw [hrest]
  have hrow : (add_cap g x j c).getD x []
      = (g.getD x []).modify (fun e => { e with cap := e.cap + c }) j := by
    unfold add_cap
    rw [getD_modify_eq]
    simp [hlen, hx]
  rw [hrow]
  unfold arc at he
  rw [sum_map_modify (fun e => if S e.to_ then (0 : Int) else e.cap) _ _ j e he]
  by_cases hSx : S x = true
  · by_cases hSe : S e.to_ = true
    · simp [hSx, hSe]
    · simp only [Bool.not_eq_true] at hSe
      simp only [hSx, hSe, if_true, Bool.false_eq_true, if_false, and_self]
      unfold Weight at *
      omega
  · simp only [Bool.not_eq_true] at hSx
    simp [hSx]

theorem capOut_nonneg (n : Nat) (g : List (List E)) (S : Nat → Bool) (hg : NetOk n g) :
    0 ≤ capOut n g S := by
  unfold capOut
  apply Finset.sum_nonneg
  intro u _
  split
  · apply List.sum_nonneg
    intro y hy
    obtain ⟨e, he, rfl⟩ := List.mem_map.mp hy
    split
    · exact le_refl _
    · obtain ⟨i, hi⟩ := mem_arc g u e he
      exact hg.cap_nonneg u i e hi
  · exact le_refl _

end STMinCutSolver

namespace STMinCutSolver

/-! ## Sums over adjacency entries of built graphs -/

theorem getD_modify_append {α : Type} (l : List (List α)) (u x : Nat) (a : α) (hu : u < l.length) :
    (l.modify (fun r => r ++ [a]) u).getD x [] = l.getD x [] ++ (if x = u then [a] else []) := by
  rw [getD_modify_eq]
  by_cases h : u = x
  · subst h; simp [hu]
  · have : ¬ x = u := fun e => h e.symm
    simp [h, this]

theorem nbrs_add_undirected (g g1 : WeightedGraph) (u v : Int) (w : Weight)
    (h : g.add_undirected u v w = .ok g1) (hg : g.WF) (x : Nat) :
    g1.nbrs x = g.nbrs x ++ (if x = u.toNat then [⟨v.toNat, w⟩] else [])
      ++ (if x = v.toNat then [⟨u.toNat, w⟩] else []) := by
  obtain ⟨h1, h2, h3, h4, _, h6⟩ := WeightedGraph.add_undirected_inv g g1 u v w h
  subst h6
  unfold WeightedGraph.nbrs
  simp only
  rw [getD_modify_append _ _ _ _ (by simp [hg.1]; omega),
    getD_modify_append _ _ _ _ (by rw [hg.1]; omega)]

theorem adjSum_init (n : Nat) (f : Nat → Edge → Int) : adjSum (WeightedGraph.init n) f = 0 := by
  unfold adjSum
  apply Finset.sum_eq_zero
  intro u _
  have : (WeightedGraph.init n).nbrs u = [] := by
    unfold WeightedGraph.nbrs WeightedGraph.init
    rw [getD_replicate_eq]
    split <;> rfl
  rw [this]; rfl

theorem sum_range_two_points (n : Nat) (F : Nat → Int) (A B : Int) (u v : Nat) (hu : u < n)
    (hv : v < n) :
    ∑ x ∈ Finset.range n, (F x + (if x = u then A else 0) + (if x = v then B else 0))
      = ∑ x ∈ Finset.range n, F x + A + B := by
  rw [Finset.sum_add_distrib, Finset.sum_add_distrib, Finset.sum_ite_eq', Finset.sum_ite_eq']
  simp [hu, hv]

theorem sum_map_ite_single (f : Nat → Edge → Int) (x a : Nat) (e : Edge) :
    ((if x = a then [e] else []).map (f x)).sum = if x = a then f a e else 0 := by
  by_cases h : x = a
  · subst h; simp
  · simp [h]

theorem adjSum_add_undirected (g g1 : WeightedGraph) (u v : Int) (w : Weight)
    (h : g.add_undirected u v w = .ok g1) (hg : g.WF) (f : Nat → Edge → Int) :
    adjSum g1 f = adjSum g f + f u.toNat ⟨v.toNat, w⟩ + f v.toNat ⟨u.toNat, w⟩ := by
  obtain ⟨h1, h2, h3, h4, _, h6⟩ := WeightedGraph.add_undirected_inv g g1 u v w h
  have hn : g1.n = g.n := by subst h6; rfl
  unfold adjSum
  rw [hn, ← sum_range_two_points g.n _ _ _ u.toNat v.toNat (by omega) (by omega)]
  apply Finset.sum_congr rfl
  intro x _
  rw [nbrs_add_undirected g g1 u v w h hg x]
  simp only [List.map_append, List.sum_append, sum_map_ite_single]

theorem outW_eq_adjSum (g : WeightedGraph) (S : Nat → Bool) :
    outW g S = adjSum g (fun u e => if S u = true ∧ S e.to_ = false then (e.w : Int) else 0) := by
  unfold outW adjSum
  apply Finset.sum_congr rfl
  intro u _
  by_cases hS : S u = true
  · simp only [hS, if_true, true_and]
    apply congrArg
    apply List.map_congr_left
    intro e _
    by_cases he : S e.to_ = true
    · simp [he]
    · simp only [Bool.not_eq_true] at he
      simp [he]
  · simp only [Bool.not_eq_true] at hS
    simp [hS]

theorem cut_weight_undirected_adjSum (g : WeightedGraph) (part : List Int) :
    (cut_weight_undirected g part : Int) = adjSum g (fun u e =>
      if u < e.to_ ∧ part.getD u 0 ≠ part.getD e.to_ 0 then (e.w : Int) else 0) := by
  unfold cut_weight_undirected adjSum
  rw [foldl_range_add g.n _ (fun u => ((g.nbrs u).map fun e =>
    if u < e.to_ ∧ part.getD u 0 ≠ part.getD e.to_ 0 then e.w else 0).sum)
    (fun s u => foldl_ite_add (g.nbrs u)
      (fun e => u < e.to_ ∧ part.getD u 0 ≠ part.getD e.to_ 0) (fun e => e.w) s)]
  rw [zero_add]

/-- On a built graph the weight leaving `S` is the cut weight of a labeling that tells `S` from
its complement, and a lower bound for the cut weight of any labeling that separates them. -/
theorem outW_vs_cut (g : WeightedGraph) (hg : g.Built) (S : Nat → Bool) (part : List Int) :
    ((∀ a b, S a ≠ S b → part.getD a 0 ≠ part.getD b 0) →
      outW g S ≤ cut_weight_undirected g part) ∧
    ((∀ a b, a < g.n → b < g.n → (S a ≠ S b ↔ part.getD a 0 ≠ part.getD b 0)) →
      outW g S = cut_weight_undirected g part) := by
  rw [outW_eq_adjSum, cut_weight_undirected_adjSum]
  induction hg with
  | init n =>
    rw [adjSum_init, adjSum_init]
    exact ⟨fun _ => le_refl _, fun _ => rfl⟩
  | @add g g1 u v w hb hadd ih =>
    have hwf := hb.WF
    obtain ⟨h1, h2, h3, h4, h5, h6⟩ := WeightedGraph.add_undirected_inv g g1 u v w hadd
    have hn : g1.n = g.n := by subst h6; rfl
    rw [adjSum_add_undirected g g1 u v w hadd hwf, adjSum_add_undirected g g1 u v w hadd hwf]
    generalize adjSum g (fun u e => if S u = true ∧ S e.to_ = false then (e.w : Int) else 0)
      = A at ih ⊢
    generalize adjSum g (fun u e =>
      if u < e.to_ ∧ part.getD u 0 ≠ part.getD e.to_ 0 then (e.w : Int) else 0) = B at ih ⊢
    simp only
    have hw : (0 : Int) ≤ w := h5
    constructor
    · intro hsep
      have i1 := ih.1 hsep
      by_cases hS : S u.toNat = S v.toNat
      · have e1 : ¬ (S u.toNat = true ∧ S v.toNat = false) := by rw [hS]; simp
        have e2 : ¬ (S v.toNat = true ∧ S u.toNat = false) := by rw [hS]; simp
        rw [if_neg e1, if_neg e2]
        have : (0 : Int) ≤ (if u.toNat < v.toNat ∧ part.getD u.toNat 0 ≠ part.getD v.toNat 0
            then (w : Int) else 0) := by split <;> omega
        have : (0 : Int) ≤ (if v.toNat < u.toNat ∧ part.getD v.toNat 0 ≠ part.getD u.toNat 0
            then (w : Int) else 0) := by split <;> omega
        omega
      · have hp := hsep _ _ hS
        have hne : u.toNat ≠ v.toNat := fun e => hS (by rw [e])
        have hp' : part.getD v.toNat 0 ≠ part.getD u.toNat 0 := fun e => hp e.symm
        by_cases hlt : u.toNat < v.toNat
        · have hgt : ¬ v.toNat < u.toNat := by omega
          simp only [hlt, hp, hgt, ne_eq, not_false_eq_true, and_self, if_true, false_and,
            if_false]
          by_cases hSu : S u.toNat = true
          · have hSv : S v.toNat = false := by
              cases h : S v.toNat
              · rfl
              · rw [hSu, h] at hS; exact absurd rfl hS
            simp only [hSu, hSv, and_self, and_true, true_and, if_true, Bool.false_eq_true, Bool.true_eq_false, false_and, and_false, if_false]; omega
          · simp only [Bool.not_eq_true] at hSu
            have hSv : S v.toNat = true := by
              cases h : S v.toNat
              · rw [hSu, h] at hS; exact absurd rfl hS
              · rfl
            simp only [hSu, hSv, and_self, and_true, true_and, if_true, Bool.false_eq_true, Bool.true_eq_false, false_and, and_false, if_false]; omega
        · have hgt : v.toNat < u.toNat := by omega
          simp only [hlt, hp', hgt, ne_eq, not_false_eq_true, and_self, if_true, false_and,
            if_false]
          by_cases hSu : S u.toNat = true
          · have hSv : S v.toNat = false := by
              cases h : S v.toNat
              · rfl
              · rw [hSu, h] at hS; exact absurd rfl hS
            simp only [hSu, hSv, and_self, and_true, true_and, if_true, Bool.false_eq_true, Bool.true_eq_false, false_and, and_false, if_false]; omega
          · simp only [Bool.not_eq_true] at hSu
            have hSv : S v.toNat = true := by
              cases h : S v.toNat
              · rw [hSu, h] at hS; exact absurd rfl hS
              · rfl
            simp only [hSu, hSv, and_self, and_true, true_and, if_true, Bool.false_eq_true, Bool.true_eq_false, false_and, and_false, if_false]; omega
    · intro hiff
      have i2 := ih.2 (fun a b ha hb => hiff a b (by omega) (by omega))
      have hu : u.toNat < g1.n := by omega
      have hv : v.toNat < g1.n := by omega
      by_cases hS : S u.toNat = S v.toNat
      · have e1 : ¬ (S u.toNat = true ∧ S v.toNat = false) := by rw [hS]; simp
        have e2 : ¬ (S v.toNat = true ∧ S u.toNat = false) := by rw [hS]; simp
        have hp : part.getD u.toNat 0 = part.getD v.toNat 0 := by
          by_contra hc
          exact ((hiff _ _ hu hv).mpr hc) hS
        have e3 : ¬ (u.toNat < v.toNat ∧ part.getD u.toNat 0 ≠ part.getD v.toNat 0) :=
          fun h => h.2 hp
        have e4 : ¬ (v.toNat < u.toNat ∧ part.getD v.toNat 0 ≠ part.getD u.toNat 0) :=
          fun h => h.2 hp.symm
        rw [if_neg e1, if_neg e2, if_neg e3, if_neg e4]
        omega
      · have hp := (hiff _ _ hu hv).mp hS
        have hne : u.toNat ≠ v.toNat := fun e => hS (by rw [e])
        have hp' : part.getD v.toNat 0 ≠ part.getD u.toNat 0 := fun e => hp e.symm
        by_cases hlt : u.toNat < v.toNat
        · have hgt : ¬ v.toNat < u.toNat := by omega
          simp only [hlt, hp, hgt, ne_eq, not_false_eq_true, and_self, if_true, false_and,
            if_false]
          by_cases hSu : S u.toNat = true
          · have hSv : S v.toNat = false := by
              cases h : S v.toNat
              · rfl
              · rw [hSu, h] at hS; exact absurd rfl hS
            simp only [hSu, hSv, and_self, and_true, true_and, if_true, Bool.false_eq_true, Bool.true_eq_false, false_and, and_false, if_false]; omega
          · simp only [Bool.not_eq_true] at hSu
            have hSv : S v.toNat = true := by
              cases h : S v.toNat
              · rw [hSu, h] at hS; exact absurd rfl hS
              · rfl
            simp only [hSu, hSv, and_self, and_true, true_and, if_true, Bool.false_eq_true, Bool.true_eq_false, false_and, and_false, if_false]; omega
        · have hgt : v.toNat < u.toNat := by omega
          simp only [hlt, hp', hgt, ne_eq, not_false_eq_true, and_self, if_true, false_and,
            if_false]
          by_cases hSu : S u.toNat = true
          · have hSv : S v.toNat = false := by
              cases h : S v.toNat
              · rfl
              · rw [hSu, h] at hS; exact absurd rfl hS
            simp only [hSu, hSv, and_self, and_true, true_and, if_true, Bool.false_eq_true, Bool.true_eq_false, false_and, and_false, if_false]; omega
          · simp only [Bool.not_eq_true] at hSu
            have hSv : S v.toNat = true := by
              cases h : S v.toNat
              · rw [hSu, h] at hS; exact absurd rfl hS
              · rfl
            simp only [hSu, hSv, and_self, and_true, true_and, if_true, Bool.false_eq_true, Bool.true_eq_false, false_and, and_false, if_false]; omega

end STMinCutSolver

namespace STMinCutSolver

/-! ## The initial flow network -/

theorem add_edge_row (d : Dinic) (u v : Nat) (c : Weight) (hu : u < d.g.length)
    (hv : v < d.g.length) (x : Nat) :
    (d.add_edge u v c).g.getD x [] = d.g.getD x []
      ++ (if x = u then [⟨v, (d.g.getD v []).length, c⟩] else [])
      ++ (if x = v then [⟨u, (d.g.getD u []).length, 0⟩] else []) := by
  unfold Dinic.add_edge
  simp only
  rw [getD_modify_append _ _ _ _ (by simpa using hv), getD_modify_append _ _ _ _ hu]

theorem getElem?_append_some {α : Type} (R A : List α) (i : Nat) (e : α) :
    (R ++ A)[i]? = some e ↔ R[i]? = some e ∨ ∃ j, i = R.length + j ∧ A[j]? = some e := by
  by_cases h : i < R.length
  · rw [List.getElem?_append_left h]
    constructor
    · intro h1; exact Or.inl h1
    · rintro (h1 | ⟨j, hj, _⟩)
      · exact h1
      · omega
  · rw [List.getElem?_append_right (by omega)]
    have hnone : R[i]? = none := List.getElem?_eq_none (by omega)
    rw [hnone]
    constructor
    · intro h1; exact Or.inr ⟨i - R.length, by omega, h1⟩
    · rintro (h1 | ⟨j, hj, h1⟩)
      · simp at h1
      · have : i - R.length = j := by omega
        rw [this]; exact h1

theorem getElem?_ite_single {α : Type} (p : Prop) [Decidable p] (a : α) (j : Nat) (e : α) :
    (if p then [a] else [])[j]? = some e ↔ p ∧ j = 0 ∧ e = a := by
  by_cases hp : p
  · simp only [hp, if_true, true_and]
    cases j with
    | zero => simp [eq_comm]
    | succ j => simp
  · simp [hp]

theorem arc_add_edge (d : Dinic) (u v : Nat) (c : Weight) (hu : u < d.g.length)
    (hv : v < d.g.length) (x i : Nat) (e : E) :
    arc (d.add_edge u v c).g x i = some e ↔
      arc d.g x i = some e ∨
      (x = u ∧ i = (d.g.getD u []).length ∧ e = ⟨v, (d.g.getD v []).length, c⟩) ∨
      (x = v ∧ i = (d.g.getD v []).length + (if u = v then 1 else 0) ∧
        e = ⟨u, (d.g.getD u []).length, 0⟩) := by
  unfold arc
  rw [add_edge_row d u v c hu hv x, getElem?_append_some, getElem?_append_some]
  simp only [getElem?_ite_single, List.length_append]
  constructor
  · rintro ((h | ⟨j, hj, hx, hj0, he⟩) | ⟨j, hj, hx, hj0, he⟩)
    · exact Or.inl h
    · subst hx; subst hj0
      exact Or.inr (Or.inl ⟨rfl, by omega, he⟩)
    · subst hx; subst hj0
      refine Or.inr (Or.inr ⟨rfl, ?_, he⟩)
      by_cases hux : u = x
      · subst hux; simp at hj ⊢; omega
      · have : ¬ x = u := fun h => hux h.symm
        simp [this, hux] at hj ⊢; omega
  · rintro (h | ⟨hx, hi, he⟩ | ⟨hx, hi, he⟩)
    · exact Or.inl (Or.inl h)
    · subst hx
      exact Or.inl (Or.inr ⟨0, by omega, rfl, rfl, he⟩)
    · subst hx
      refine Or.inr ⟨0, ?_, rfl, rfl, he⟩
      by_cases hux : u = x
      · subst hux; simp at hi ⊢; omega
      · have : ¬ x = u := fun h => hux h.symm
        simp [this, hux] at hi ⊢; omega

theorem add_edge_NetOk (n : Nat) (d : Dinic) (u v : Nat) (c : Weight) (hd : NetOk n d.g)
    (hu : u < n) (hv : v < n) (hc : (0 : Int) ≤ c) : NetOk n (d.add_edge u v c).g := by
  have hu' : u < d.g.length := by rw [hd.len]; exact hu
  have hv' : v < d.g.length := by rw [hd.len]; exact hv
  have hold : ∀ x i e, arc d.g x i = some e → arc (d.add_edge u v c).g x i = some e :=
    fun x i e h => (arc_add_edge d u v c hu' hv' x i e).mpr (Or.inl h)
  refine ⟨by simp [Dinic.add_edge, hd.len], ?_, ?_, ?_⟩
  · intro x i e h
    rcases (arc_add_edge d u v c hu' hv' x i e).mp h with h | ⟨_, _, rfl⟩ | ⟨_, _, rfl⟩
    · exact hd.to_lt x i e h
    · exact hv
    · exact hu
  · intro x i e h hne
    rcases (arc_add_edge d u v c hu' hv' x i e).mp h with h | ⟨rfl, hi, rfl⟩ | ⟨rfl, hi, rfl⟩
    · obtain ⟨e1, p1, p2, p3⟩ := hd.partner x i e h hne
      exact ⟨e1, hold _ _ _ p1, p2, p3⟩
    · simp only at hne ⊢
      have hvx : ¬ x = v := fun h => hne h.symm
      refine ⟨⟨x, (d.g.getD x []).length, 0⟩, ?_, rfl, hi.symm⟩
      rw [arc_add_edge d x v c hu' hv']
      right; right
      simp [hvx]
    · simp only at hne ⊢
      have hux : ¬ u = x := hne
      simp only [hux, if_false, Nat.add_zero] at hi
      refine ⟨⟨x, (d.g.getD x []).length, c⟩, ?_, rfl, hi.symm⟩
      rw [arc_add_edge d u x c hu' hv']
      right; left
      exact ⟨rfl, rfl, rfl⟩
  · intro x i e h
    rcases (arc_add_edge d u v c hu' hv' x i e).mp h with h | ⟨_, _, rfl⟩ | ⟨_, _, rfl⟩
    · exact hd.cap_nonneg x i e h
    · exact hc
    · exact le_refl _

theorem capOut_add_edge (n : Nat) (d : Dinic) (u v : Nat) (c : Weight) (hlen : d.g.length = n)
    (hu : u < n) (hv : v < n) (S : Nat → Bool) :
    capOut n (d.add_edge u v c).g S
      = capOut n d.g S + if S u = true ∧ S v = false then (c : Int) else 0 := by
  have hu' : u < d.g.length := by rw [hlen]; exact hu
  have hv' : v < d.g.length := by rw [hlen]; exact hv
  unfold capOut
  have hrow : ∀ x, (if S x then
      (((d.add_edge u v c).g.getD x []).map fun e => if S e.to_ then (0 : Int) else e.cap).sum
      else 0)
      = (if S x then ((d.g.getD x []).map fun e => if S e.to_ then (0 : Int) else e.cap).sum else 0)
        + (if x = u then (if S u = true ∧ S v = false then (c : Int) else 0) else 0)
        + (if x = v then (0 : Int) else 0) := by
    intro x
    rw [add_edge_row d u v c hu' hv' x]
    by_cases hS : S x = true
    · simp only [hS, if_true, List.map_append, List.sum_append]
      by_cases hxu : x = u
      · subst hxu
        by_cases hxv : x = v
        · subst hxv
          simp [hS]
        · by_cases hSv : S v = true
          · simp [hS, hxv, hSv]
          · simp only [Bool.not_eq_true] at hSv
            simp [hS, hxv, hSv]
      · by_cases hxv : x = v
        · subst hxv
          by_cases hSu : S u = true
          · simp [hxu, hSu]
          · simp [hxu, hSu]
        · simp [hxu, hxv]
    · simp only [Bool.not_eq_true] at hS
      by_cases hxu : x = u
      · subst hxu
        simp [hS]
      · simp [hS, hxu]
  simp only [hrow]
  rw [sum_range_two_points n _ _ _ u v hu hv]
  omega

/-- The network built by `solve`: well-formed, and the capacity leaving any vertex set is the
weight of the adjacency entries leaving it. -/
theorem build_network_spec (g : WeightedGraph) (hg : g.WF) :
    NetOk g.n (build_network g).g ∧ (build_network g).n = g.n ∧
    (build_network g).lvl.length = g.n ∧ (build_network g).it.length = g.n ∧
    ∀ S, capOut g.n (build_network g).g S = outW g S := by
  have hinit : NetOk g.n (Dinic.init g.n).g := by
    refine ⟨by simp [Dinic.init], ?_, ?_, ?_⟩ <;>
    · intro u i e h
      exfalso
      unfold arc Dinic.init at h
      simp only at h
      rw [getD_replicate_eq] at h
      split at h <;> simp at h
  have hpres : ∀ (d : Dinic) (u : Nat) (e : Edge), u < g.n → e ∈ g.nbrs u →
      (NetOk g.n d.g ∧ d.n = g.n ∧ d.lvl.length = g.n ∧ d.it.length = g.n) →
      (NetOk g.n (d.add_edge u e.to_ e.w).g ∧ (d.add_edge u e.to_ e.w).n = g.n ∧
        (d.add_edge u e.to_ e.w).lvl.length = g.n ∧ (d.add_edge u e.to_ e.w).it.length = g.n) := by
    intro d u e hu he ⟨h1, h2, h3, h4⟩
    obtain ⟨hto, hw⟩ := WeightedGraph.nbrs_mem_WF hg u e he
    exact ⟨add_edge_NetOk g.n d u e.to_ e.w h1 hu hto hw, h2, h3, h4⟩
  have hP : NetOk g.n (build_network g).g ∧ (build_network g).n = g.n ∧
      (build_network g).lvl.length = g.n ∧ (build_network g).it.length = g.n := by
    unfold build_network
    apply foldl_inv (fun (d : Dinic) =>
      NetOk g.n d.g ∧ d.n = g.n ∧ d.lvl.length = g.n ∧ d.it.length = g.n)
    · exact ⟨hinit, rfl, by simp [Dinic.init], by simp [Dinic.init]⟩
    · intro d u hu hd
      apply foldl_inv (fun (d : Dinic) =>
        NetOk g.n d.g ∧ d.n = g.n ∧ d.lvl.length = g.n ∧ d.it.length = g.n)
      · exact hd
      · intro d e he hd
        exact hpres d u e (by simpa using hu) he hd
  refine ⟨hP.1, hP.2.1, hP.2.2.1, hP.2.2.2, fun S => ?_⟩
  have key := GlobalMinCutSolver.foldl_measure (fun (d : Dinic) => capOut g.n d.g S)
    (fun (d : Dinic) => NetOk g.n d.g ∧ d.n = g.n ∧ d.lvl.length = g.n ∧ d.it.length = g.n)
    (fun d u => (g.nbrs u).foldl (fun d e => d.add_edge u e.to_ e.w) d)
    (fun u => ((g.nbrs u).map fun e =>
      if S u = true ∧ S e.to_ = false then (e.w : Int) else 0).sum)
    (List.range g.n) (Dinic.init g.n)
    ⟨hinit, rfl, by simp [Dinic.init], by simp [Dinic.init]⟩
    (by
      intro d u hu hd
      have hu' : u < g.n := by simpa using hu
      apply GlobalMinCutSolver.foldl_measure (fun (d : Dinic) => capOut g.n d.g S)
        (fun (d : Dinic) => NetOk g.n d.g ∧ d.n = g.n ∧ d.lvl.length = g.n ∧ d.it.length = g.n)
      · exact hd
      · intro d e he hd
        refine ⟨hpres d u e hu' he hd, ?_⟩
        exact capOut_add_edge g.n d u e.to_ e.w hd.1.len hu'
          (WeightedGraph.nbrs_mem_WF hg u e he).1 S)
  have k2 := key.2
  beta_reduce at k2
  unfold build_network
  rw [k2, outW_eq_adjSum]
  unfold adjSum
  have h0 : capOut g.n (Dinic.init g.n).g S = 0 := by
    unfold capOut
    apply Finset.sum_eq_zero
    intro u _
    have : (Dinic.init g.n).g.getD u [] = [] := by
      unfold Dinic.init
      simp only
      rw [getD_replicate_eq]
      split <;> rfl
    rw [this]
    simp
  rw [h0, zero_add]
  rfl

end STMinCutSolver

namespace STMinCutSolver

/-! ## Breadth-first search -/

theorem countP_set_nodup (S : List Nat) (l : List Int) (v : Nat) (x : Int) (P : Int → Bool)
    (hnd : S.Nodup) (hv : v ∈ S) (hl : v < l.length) :
    S.countP (fun i => P ((l.set v x).getD i 0)) + (if P (l.getD v 0) then 1 else 0)
      = S.countP (fun i => P (l.getD i 0)) + (if P x then 1 else 0) := by
  induction S with
  | nil => simp at hv
  | cons a as ih =>
    have ha : a ∉ as := (List.nodup_cons.mp hnd).1
    have hnd2 : as.Nodup := (List.nodup_cons.mp hnd).2
    by_cases hav : a = v
    · subst hav
      have h1 : as.countP (fun i => P ((l.set a x).getD i 0)) = as.countP (fun i => P (l.getD i 0)) := by
        apply List.countP_congr
        intro i hi
        rw [getD_set_eq]
        have : ¬ a = i := fun h => ha (h ▸ hi)
        simp only [this, false_and, if_false]
      rw [List.countP_cons, List.countP_cons, h1, getD_set_eq]
      simp only [hl, and_self, if_true]
      omega
    · have hv2 : v ∈ as := by
        rcases List.mem_cons.mp hv with h | h
        · exact absurd h.symm hav
        · exact h
      have h1 := ih hnd2 hv2
      rw [List.countP_cons, List.countP_cons, getD_set_eq]
      have hva : ¬ v = a := fun h => hav h.symm
      simp only [hva, false_and, if_false]
      omega

theorem unvisited_set (n : Nat) (lvl : List Int) (v : Nat) (x : Int) (hv : v < n)
    (hl : lvl.length = n) (hneg : lvl.getD v 0 < 0) (hx : 0 ≤ x) :
    unvisited n (lvl.set v x) + 1 = unvisited n lvl := by
  unfold unvisited
  have := countP_set_nodup (List.range n) lvl v x (fun y => decide (y < 0)) (List.nodup_range n)
    (List.mem_range.mpr hv) (by rw [hl]; exact hv)
  have h1 : decide (lvl.getD v 0 < 0) = true := decide_eq_true hneg
  have h2 : decide (x < 0) = false := decide_eq_false (by omega)
  simp only [h1, h2, if_true, Bool.false_eq_true, if_false] at this
  omega

theorem bfs_loop_mono (g : List (List E)) (fuel : Nat) :
    ∀ (lvl : List Int) (q : List Nat) (r : List Int), bfs_loop g fuel lvl q = some r →
      ∀ k, bfs_loop g (fuel + k) lvl q = some r := by
  induction fuel with
  | zero =>
    intro lvl q r h k
    cases q with
    | nil =>
      cases k <;> simpa [bfs_loop] using h
    | cons u q => simp [bfs_loop] at h
  | succ fuel ih =>
    intro lvl q r h k
    cases q with
    | nil =>
      simp only [bfs_loop] at h ⊢
      exact h
    | cons u q =>
      rw [Nat.add_right_comm]
      simp only [bfs_loop] at h ⊢
      exact ih _ _ r h k

theorem bfs_loop_cons (g : List (List E)) (fuel : Nat) (lvl : List Int) (u : Nat) (q : List Nat) :
    bfs_loop g (fuel + 1) lvl (u :: q)
      = bfs_loop g fuel ((g.getD u []).foldl (bfs_step u) (lvl, q)).1
          ((g.getD u []).foldl (bfs_step u) (lvl, q)).2 := rfl

/-- Scanning the arcs of the queue head keeps the invariant and the termination measure. -/
theorem bfs_scan_inv (n : Nat) (g : List (List E)) (hg : NetOk n g) (s : Nat) (lvl : List Int)
    (u : Nat) (q : List Nat) (hinv : BfsInv n g s lvl (u :: q)) :
    BfsInv n g s ((g.getD u []).foldl (bfs_step u) (lvl, q)).1
      ((g.getD u []).foldl (bfs_step u) (lvl, q)).2 ∧
    ((g.getD u []).foldl (bfs_step u) (lvl, q)).2.length
      + unvisited n ((g.getD u []).foldl (bfs_step u) (lvl, q)).1
      = q.length + unvisited n lvl := by
  have hu := hinv.q_ok u (by simp)
  -- invariant of the scan
  have hscan := foldl_inv_cover
    (fun (lq : List Int × List Nat) =>
      lq.1.length = n ∧ (∀ v ∈ lq.2, v < n ∧ 0 ≤ lq.1.getD v 0) ∧ LevelOk g lq.1 s ∧
      (∀ x, 0 ≤ lvl.getD x 0 → lq.1.getD x 0 = lvl.getD x 0) ∧
      (∀ x, x < n → 0 ≤ lq.1.getD x 0 → 0 ≤ lvl.getD x 0 ∨ x ∈ lq.2) ∧
      (∀ x ∈ q, x ∈ lq.2) ∧
      lq.2.length + unvisited n lq.1 = q.length + unvisited n lvl)
    (fun (e : E) (lq : List Int × List Nat) => e.cap > 0 → 0 ≤ lq.1.getD e.to_ 0)
    (bfs_step u) (g.getD u []) (lvl, q)
    ⟨hinv.len, fun v hv => hinv.q_ok v (by simp [hv]), hinv.level, fun _ _ => rfl,
      fun _ _ h => Or.inl h, fun _ h => h, rfl⟩
    (by
      intro lq e he ⟨h1, h2, h3, h4, h5, h6, h7⟩
      obtain ⟨i, hi⟩ := mem_arc g u e he
      have hto := hg.to_lt u i e hi
      have hlu : lq.1.getD u 0 = lvl.getD u 0 := h4 u hu.2
      unfold bfs_step
      by_cases hc : e.cap > 0 ∧ lq.1.getD e.to_ 0 < 0
      · simp only [hc, and_self, if_true]
        have hset : ∀ x, (lq.1.set e.to_ (lq.1.getD u 0 + 1)).getD x 0
            = if e.to_ = x then lq.1.getD u 0 + 1 else lq.1.getD x 0 := by
          intro x
          rw [getD_set_eq, h1]
          by_cases hx : e.to_ = x
          · subst hx; simp [hto]
          · simp [hx]
        have hue : e.to_ ≠ u := by
          intro h
          rw [h, hlu] at hc
          omega
        refine ⟨⟨by simpa using h1, ?_, ?_, ?_, ?_, ?_, ?_⟩, ?_⟩
        · intro v hv
          rw [hset v]
          rcases List.mem_append.mp hv with h | h
          · have := h2 v h
            split
            · exact ⟨this.1, by omega⟩
            · exact this
          · simp only [List.mem_singleton] at h
            subst h
            simp only [if_true]
            exact ⟨hto, by omega⟩
        · refine ⟨?_, fun v hv hv0 => ?_⟩
          · rw [hset s]
            split
            · rename_i h
              rw [← h] at h3
              have := h3.1
              omega
            · exact h3.1
          · rw [List.length_set] at hv
            rw [hset v] at hv0 ⊢
            by_cases hev : e.to_ = v
            · subst hev
              simp only [if_true]
              by_cases hes : e.to_ = s
              · left; exact hes
              · right
                refine ⟨u, e, by rw [List.length_set, h1]; exact hu.1, ?_, he, rfl, hc.1, ?_⟩
                · rw [hset u]; simp only [hue, if_false]; omega
                · rw [hset u]; simp only [hue, if_false]
            · simp only [hev, if_false] at hv0 ⊢
              rcases h3.2 v hv hv0 with h | ⟨p, e', hp, hp0, he', hto', hcap', hlv'⟩
              · left; exact h
              · right
                have hpe : e.to_ ≠ p := by
                  intro h; rw [← h] at hp0; omega
                refine ⟨p, e', by rw [List.length_set]; exact hp, ?_, he', hto', hcap', ?_⟩
                · rw [hset p]; simp only [hpe, if_false]; exact hp0
                · rw [hset p]; simp only [hpe, if_false]; exact hlv'
        · intro x hx
          rw [hset x]
          have : e.to_ ≠ x := by
            intro h
            have := h4 x hx
            rw [← h] at this hx
            omega
          simp only [this, if_false]
          exact h4 x hx
        · intro x hx hx0
          rw [hset x] at hx0
          by_cases hev : e.to_ = x
          · right; simp [hev]
          · simp only [hev, if_false] at hx0
            rcases h5 x hx hx0 with h | h
            · left; exact h
            · right; simp [h]
        · intro x hx
          simp [h6 x hx]
        · have := unvisited_set n lq.1 e.to_ (lq.1.getD u 0 + 1) hto h1 hc.2 (by omega)
          simp only [List.length_append, List.length_singleton]
          omega
        · intro _
          rw [hset e.to_]
          simp only [if_true]
          omega
      · simp only [hc, if_false]
        refine ⟨⟨h1, h2, h3, h4, h5, h6, h7⟩, fun hcap => ?_⟩
        by_contra hneg
        exact hc ⟨hcap, by omega⟩)
    (by
      intro lq e e' ⟨h1, _, _, _, _, _, _⟩ hq hcap
      have := hq hcap
      unfold bfs_step
      split
      · rename_i hc
        simp only
        rw [getD_set_eq]
        split
        · rename_i h
          rw [h.1] at hc
          omega
        · exact this
      · exact this)
  obtain ⟨⟨h1, h2, h3, h4, h5, h6, h7⟩, hcov⟩ := hscan
  refine ⟨⟨h1, h2, h3, ?_⟩, h7⟩
  intro x hx hx0
  by_cases hxu : x = u
  · right
    subst hxu
    intro e he hcap
    exact hcov e he hcap
  · rcases h5 x hx hx0 with h | h
    · rcases hinv.closed x hx h with hq | hcl
      · rcases List.mem_cons.mp hq with hq | hq
        · exact absurd hq hxu
        · left; exact h6 x hq
      · right
        intro e he hcap
        have := hcl e he hcap
        rw [h4 e.to_ this]
        exact this
    · left; exact h

theorem bfs_loop_spec (n : Nat) (g : List (List E)) (hg : NetOk n g) (s : Nat) (fuel : Nat) :
    ∀ (lvl : List Int) (q : List Nat), BfsInv n g s lvl q → q.length + unvisited n lvl ≤ fuel →
      ∃ r, bfs_loop g fuel lvl q = some r ∧ BfsInv n g s r [] := by
  induction fuel with
  | zero =>
    intro lvl q hinv hm
    have : q = [] := List.eq_nil_of_length_eq_zero (by omega)
    subst this
    exact ⟨lvl, by simp [bfs_loop], hinv⟩
  | succ fuel ih =>
    intro lvl q hinv hm
    cases q with
    | nil => exact ⟨lvl, by simp [bfs_loop], hinv⟩
    | cons u q =>
      rw [bfs_loop_cons]
      obtain ⟨hinv', hmeas⟩ := bfs_scan_inv n g hg s lvl u q hinv
      apply ih _ _ hinv'
      simp only [List.length_cons] at hm
      omega

theorem reach_lt (n : Nat) (g : List (List E)) (hg : NetOk n g) (s : Nat) (hs : s < n) (v : Nat)
    (h : Reach g s v) : v < n := by
  induction h with
  | refl => exact hs
  | step u e _ he _ _ =>
    obtain ⟨i, hi⟩ := mem_arc g u e he
    exact hg.to_lt u i e hi

theorem level_reach (g : List (List E)) (lvl : List Int) (s : Nat) (hl : LevelOk g lvl s) :
    ∀ (k : Nat) (v : Nat), v < lvl.length → 0 ≤ lvl.getD v 0 → (lvl.getD v 0).toNat = k →
      Reach g s v := by
  intro k
  induction k using Nat.strong_induction_on with
  | _ k ih =>
    intro v hv hv0 hk
    rcases hl.2 v hv hv0 with h | ⟨u, e, hu, hu0, he, hto, hcap, hlv⟩
    · subst h; exact Reach.refl
    · have := ih (lvl.getD u 0).toNat (by omega) u hu hu0 rfl
      rw [← hto]
      exact Reach.step u e this he hcap

/-- After `bfs` the levelled vertices are exactly those reachable from `s` through arcs of
positive residual capacity. -/
theorem bfs_final_reach (n : Nat) (g : List (List E)) (hg : NetOk n g) (s : Nat) (hs : s < n)
    (r : List Int) (hr : BfsInv n g s r []) (v : Nat) (hv : v < n) :
    0 ≤ r.getD v 0 ↔ Reach g s v := by
  constructor
  · intro h
    exact level_reach g r s hr.level _ v (by rw [hr.len]; exact hv) h rfl
  · intro h
    induction h with
    | refl => rw [hr.level.1]
    | step u e hu he hcap ih =>
      have hun := reach_lt n g hg s hs u hu
      rcases hr.closed u hun (ih hun) with hq | hcl
      · simp at hq
      · exact hcl e he hcap

theorem bfs_init_inv (n : Nat) (g : List (List E)) (s : Nat) (hs : s < n) (m : Nat) (hm : m = n) :
    BfsInv n g s ((List.replicate m (-1 : Int)).set s 0) [s] := by
  subst hm
  have hget : ∀ x, ((List.replicate m (-1 : Int)).set s 0).getD x 0
      = if s = x then 0 else if x < m then -1 else 0 := by
    intro x
    rw [getD_set_eq, getD_replicate_eq]
    simp only [List.length_replicate, hs, and_true]
  refine ⟨by simp, ?_, ⟨?_, ?_⟩, ?_⟩
  · intro v hv
    simp only [List.mem_singleton] at hv
    subst hv
    rw [hget]; simp [hs]
  · rw [hget]; simp
  · intro v hv hv0
    rw [hget] at hv0
    simp only [List.length_set, List.length_replicate] at hv
    by_cases h : s = v
    · left; exact h.symm
    · simp [h, hv] at hv0
  · intro u hu hu0
    rw [hget] at hu0
    by_cases h : s = u
    · left; simp [h]
    · simp [h, hu] at hu0

end STMinCutSolver

namespace STMinCutSolver

/-! ## Depth-first search: unfolding -/

theorem dfs_zero (t : Nat) (d : Dinic) (u : Nat) (f : Weight) : Dinic.dfs t 0 d u f = none := rfl

theorem dfs_at_t (t fuel : Nat) (d : Dinic) (f : Weight) :
    Dinic.dfs t (fuel + 1) d t f = some (f, d) := by
  simp [Dinic.dfs]

theorem dfs_done (t fuel : Nat) (d : Dinic) (u : Nat) (f : Weight) (hut : u ≠ t)
    (hi : ¬ d.it.getD u 0 < (d.g.getD u []).length) :
    Dinic.dfs t (fuel + 1) d u f = some (0, d) := by
  rw [Dinic.dfs]
  simp only [hut, if_false, hi]

theorem dfs_skip (t fuel : Nat) (d : Dinic) (u : Nat) (f : Weight) (hut : u ≠ t)
    (hi : d.it.getD u 0 < (d.g.getD u []).length) (hin : Inadmissible d u) :
    Dinic.dfs t (fuel + 1) d u f = Dinic.dfs t fuel (advance d u) u f := by
  rw [Dinic.dfs]
  unfold Inadmissible cur_arc at hin
  simp only [hut, if_false, hi, if_true, hin]
  rfl

theorem dfs_try (t fuel : Nat) (d : Dinic) (u : Nat) (f : Weight) (hut : u ≠ t)
    (hi : d.it.getD u 0 < (d.g.getD u []).length) (hin : ¬ Inadmissible d u) :
    Dinic.dfs t (fuel + 1) d u f =
      match Dinic.dfs t fuel d (cur_arc d u).to_ (min f (cur_arc d u).cap) with
      | none => none
      | some (pushed, d1) =>
        if pushed > 0 then some (pushed, push_flow d1 u (d.it.getD u 0) (cur_arc d u) pushed)
        else Dinic.dfs t fuel (advance d1 u) u f := by
  rw [Dinic.dfs]
  unfold Inadmissible cur_arc at hin
  simp only [hut, if_false, hi, if_true, hin]
  rfl

end STMinCutSolver

namespace STMinCutSolver

/-! ## Depth-first search: effect on the state -/

theorem advance_getD_it (d : Dinic) (u x : Nat) (h : x ≠ u) :
    (advance d u).it.getD x 0 = d.it.getD x 0 := by
  unfold advance
  simp only
  rw [getD_set_eq]
  have : ¬ u = x := fun e => h e.symm
  simp [this]

theorem dfs_effect (n t : Nat) (fuel : Nat) :
    ∀ (d : Dinic) (u : Nat) (f r : Weight) (d' : Dinic),
      Dinic.dfs t fuel d u f = some (r, d') → NetOk n d.g → (0 : Int) ≤ f →
      DfsEffect n t d u f r d' := by
  induction fuel with
  | zero =>
    intro d u f r d' h
    rw [dfs_zero] at h
    exact absurd h (by simp)
  | succ fuel ih =>
    intro d u f r d' h hnet hf
    by_cases hut : u = t
    · subst hut
      rw [dfs_at_t] at h
      simp only [Option.some.injEq, Prod.mk.injEq] at h
      obtain ⟨rfl, rfl⟩ := h
      exact ⟨hnet, SameShape.refl _, rfl, rfl, rfl, hf, le_refl _, fun _ _ => ⟨rfl, rfl⟩,
        fun _ => rfl, fun S hS => by simp [hS]⟩
    · by_cases hi : d.it.getD u 0 < (d.g.getD u []).length
      · by_cases hin : Inadmissible d u
        · rw [dfs_skip t fuel d u f hut hi hin] at h
          have e := ih (advance d u) u f r d' h hnet hf
          refine ⟨e.net, e.shape, e.lvl_eq, e.n_eq, ?_, e.r_nonneg, e.r_le, ?_, e.zero_same, e.cut⟩
          · rw [e.it_len]; simp [advance]
          · intro x hx
            have := e.frame x hx
            refine ⟨this.1, ?_⟩
            rw [this.2]
            apply advance_getD_it
            intro hxu; rw [hxu] at hx; exact absurd hx (lt_irrefl _)
        · rw [dfs_try t fuel d u f hut hi hin] at h
          -- facts about the arc under the cursor
          have harc : arc d.g u (d.it.getD u 0) = some (cur_arc d u) := arc_getD d.g u _ hi
          have hadm : (cur_arc d u).cap > 0 ∧
              d.lvl.getD (cur_arc d u).to_ 0 = d.lvl.getD u 0 + 1 := by
            unfold Inadmissible at hin
            push_neg at hin
            exact ⟨hin.1, hin.2⟩
          have hun : u < n := by rw [← hnet.len]; exact (arc_lt d.g u _ _ harc).2
          have htn : (cur_arc d u).to_ < n := hnet.to_lt u _ _ harc
          have hne : (cur_arc d u).to_ ≠ u := by
            intro hc
            have := hadm.2
            rw [hc] at this
            omega
          have hmin : (0 : Int) ≤ min f (cur_arc d u).cap := by
            have := hadm.1
            unfold Weight at *
            omega
          cases hsub : Dinic.dfs t fuel d (cur_arc d u).to_ (min f (cur_arc d u).cap) with
          | none => rw [hsub] at h; simp at h
          | some pr =>
            obtain ⟨p, d1⟩ := pr
            rw [hsub] at h
            simp only at h
            have e1 := ih d (cur_arc d u).to_ (min f (cur_arc d u).cap) p d1 hsub hnet hmin
            have hfr_u := e1.frame u (by rw [hadm.2]; omega)
            by_cases hp : p > 0
            · rw [if_pos hp] at h
              simp only [Option.some.injEq, Prod.mk.injEq] at h
              obtain ⟨rfl, rfl⟩ := h
              have hple : (p : Int) ≤ (cur_arc d u).cap := by
                have := e1.r_le
                unfold Weight at *
                omega
              have hpf : (p : Int) ≤ f := by
                have := e1.r_le
                unfold Weight at *
                omega
              -- the arc in the state after the recursive call
              have harc1 : arc d1.g u (d.it.getD u 0) = some (cur_arc d u) := by
                unfold arc at harc ⊢
                rw [hfr_u.1]; exact harc
              have hnet1 : NetOk n (add_cap d1.g u (d.it.getD u 0) (-p)) := by
                apply add_cap_NetOk n _ _ _ _ e1.net
                intro e he
                rw [harc1] at he
                simp only [Option.some.injEq] at he
                subst he
                unfold Weight at *
                omega
              obtain ⟨e2, hp1, hp2, hp3⟩ := e1.net.partner u _ _ harc1 hne
              have harc2 : arc (add_cap d1.g u (d.it.getD u 0) (-p)) (cur_arc d u).to_
                  (cur_arc d u).rev = some e2 := by
                rw [arc_add_cap, hp1]
                have : ¬ (u = (cur_arc d u).to_ ∧ d.it.getD u 0 = (cur_arc d u).rev) :=
                  fun hc => hne hc.1.symm
                simp only [Option.map_some', this, if_false]
              have hnet2 : NetOk n (push_flow d1 u (d.it.getD u 0) (cur_arc d u) p).g := by
                unfold push_flow
                simp only
                apply add_cap_NetOk n _ _ _ _ hnet1
                intro e he
                rw [harc2] at he
                simp only [Option.some.injEq] at he
                subst he
                have := e1.net.cap_nonneg _ _ _ hp1
                unfold Weight at *
                omega
              refine ⟨hnet2, ?_, e1.lvl_eq, e1.n_eq, e1.it_len, le_of_lt hp, hpf, ?_, ?_, ?_⟩
              · unfold push_flow
                simp only
                exact (add_cap_SameShape _ _ _ _).trans
                  ((add_cap_SameShape _ _ _ _).trans e1.shape)
              · intro x hx
                have hx1 := e1.frame x (by rw [hadm.2]; omega)
                refine ⟨?_, hx1.2⟩
                unfold push_flow
                simp only
                rw [add_cap_getD_other _ _ _ _ x (by
                    intro hc; rw [← hc, hadm.2] at hx; omega),
                  add_cap_getD_other _ _ _ _ x (by
                    intro hc; rw [hc] at hx; exact absurd hx (lt_irrefl _))]
                exact hx1.1
              · intro h0
                rw [h0] at hp
                exact absurd hp (lt_irrefl _)
              · intro S hS
                unfold push_flow
                simp only
                rw [capOut_add_cap n _ S _ _ p e2 htn hnet1.len harc2,
                  capOut_add_cap n _ S _ _ (-p) (cur_arc d u) hun e1.net.len harc1,
                  e1.cut S hS, hp2]
                cases hSu : S u <;> cases hSv : S (cur_arc d u).to_ <;>
                  (simp; try (unfold Weight at *; omega))
            · rw [if_neg hp] at h
              have hp0 : p = 0 := by
                have := e1.r_nonneg
                unfold Weight at *
                omega
              have hg1 : d1.g = d.g := e1.zero_same hp0
              have e2 := ih (advance d1 u) u f r d' h (by
                show NetOk n d1.g
                exact e1.net) hf
              have hadv_lvl : (advance d1 u).lvl = d.lvl := e1.lvl_eq
              have hadv_g : (advance d1 u).g = d.g := hg1
              refine ⟨e2.net, ?_, ?_, ?_, ?_, e2.r_nonneg, e2.r_le, ?_, ?_, ?_⟩
              · have := e2.shape; rw [hadv_g] at this; exact this
              · rw [e2.lvl_eq, hadv_lvl]
              · rw [e2.n_eq]; exact e1.n_eq
              · rw [e2.it_len]
                simp only [advance, List.length_set]
                exact e1.it_len
              · intro x hx
                have h2 := e2.frame x (by rw [hadv_lvl]; exact hx)
                have h1 := e1.frame x (by rw [hadm.2]; omega)
                rw [hadv_g] at h2
                refine ⟨h2.1, ?_⟩
                rw [h2.2, advance_getD_it d1 u x (by
                  intro hc; rw [hc] at hx; exact absurd hx (lt_irrefl _))]
                exact h1.2
              · intro h0
                rw [e2.zero_same h0, hadv_g]
              · intro S hS
                rw [e2.cut S hS, hadv_g]
      · rw [dfs_done t fuel d u f hut hi] at h
        simp only [Option.some.injEq, Prod.mk.injEq] at h
        obtain ⟨rfl, rfl⟩ := h
        exact ⟨hnet, SameShape.refl _, rfl, rfl, rfl, le_refl _, hf, fun _ _ => ⟨rfl, rfl⟩,
          fun _ => rfl, fun S _ => by simp⟩

end STMinCutSolver

namespace STMinCutSolver

/-! ## Depth-first search: fuel, termination, completeness -/

theorem dfs_mono (t : Nat) (fuel : Nat) :
    ∀ (d : Dinic) (u : Nat) (f : Weight) (res : Weight × Dinic),
      Dinic.dfs t fuel d u f = some res → ∀ k, Dinic.dfs t (fuel + k) d u f = some res := by
  induction fuel with
  | zero =>
    intro d u f res h
    rw [dfs_zero] at h
    exact absurd h (by simp)
  | succ fuel ih =>
    intro d u f res h k
    rw [Nat.add_right_comm]
    by_cases hut : u = t
    · subst hut
      rw [dfs_at_t] at h ⊢
      exact h
    · by_cases hi : d.it.getD u 0 < (d.g.getD u []).length
      · by_cases hin : Inadmissible d u
        · rw [dfs_skip t _ d u f hut hi hin] at h ⊢
          exact ih _ _ _ _ h k
        · rw [dfs_try t _ d u f hut hi hin] at h ⊢
          cases hsub : Dinic.dfs t fuel d (cur_arc d u).to_ (min f (cur_arc d u).cap) with
          | none => rw [hsub] at h; simp at h
          | some pr =>
            rw [hsub] at h
            rw [ih _ _ _ _ hsub k]
            obtain ⟨p, d1⟩ := pr
            simp only at h ⊢
            by_cases hp : p > 0
            · rw [if_pos hp] at h ⊢
              exact h
            · rw [if_neg hp] at h ⊢
              exact ih _ _ _ _ h k
      · rw [dfs_done t _ d u f hut hi] at h ⊢
        exact h

theorem dfs_mono_le (t : Nat) (fuel fuel' : Nat) (hle : fuel ≤ fuel') (d : Dinic) (u : Nat)
    (f : Weight) (res : Weight × Dinic) (h : Dinic.dfs t fuel d u f = some res) :
    Dinic.dfs t fuel' d u f = some res := by
  have := dfs_mono t fuel d u f res h (fuel' - fuel)
  rwa [Nat.add_sub_cancel' hle] at this

/-- Enough fuel for a `dfs` call: it depends on the levels above that of `u`, the length of the
adjacency sequences and the remaining arcs of `u`. -/
theorem dfs_terminates (n t : Nat) (M : Int) (A : Nat) (fuel : Nat) :
    ∀ (d : Dinic) (u : Nat) (f : Weight), NetOk n d.g → (0 : Int) ≤ f → d.it.length = n → u < n →
      (∀ x, d.lvl.getD x 0 ≤ M) → (∀ x, (d.g.getD x []).length ≤ A) →
      (M - d.lvl.getD u 0).toNat * (A + 2) + ((d.g.getD u []).length - d.it.getD u 0) + 1 ≤ fuel →
      ∃ res, Dinic.dfs t fuel d u f = some res := by
  induction fuel with
  | zero =>
    intro d u f _ _ _ _ _ _ h
    omega
  | succ fuel ih =>
    intro d u f hnet hf hit hu hM hA hfuel
    by_cases hut : u = t
    · subst hut
      exact ⟨_, dfs_at_t _ fuel d f⟩
    · by_cases hi : d.it.getD u 0 < (d.g.getD u []).length
      · have hadv_it : (advance d u).it.getD u 0 = d.it.getD u 0 + 1 := by
          unfold advance
          simp only
          rw [getD_set_eq]
          simp [hit, hu]
        by_cases hin : Inadmissible d u
        · rw [dfs_skip t fuel d u f hut hi hin]
          apply ih (advance d u) u f hnet hf (by simp [advance, hit]) hu hM hA
          rw [hadv_it]
          show (M - d.lvl.getD u 0).toNat * (A + 2) + ((d.g.getD u []).length
            - (d.it.getD u 0 + 1)) + 1 ≤ fuel
          omega
        · rw [dfs_try t fuel d u f hut hi hin]
          have harc : arc d.g u (d.it.getD u 0) = some (cur_arc d u) := arc_getD d.g u _ hi
          have hadm : (cur_arc d u).cap > 0 ∧
              d.lvl.getD (cur_arc d u).to_ 0 = d.lvl.getD u 0 + 1 := by
            unfold Inadmissible at hin
            push_neg at hin
            exact ⟨hin.1, hin.2⟩
          have htn : (cur_arc d u).to_ < n := hnet.to_lt u _ _ harc
          have hmin : (0 : Int) ≤ min f (cur_arc d u).cap := by
            have := hadm.1
            unfold Weight at *
            omega
          have hMv := hM (cur_arc d u).to_
          have hAv := hA (cur_arc d u).to_
          have hmul : (M - d.lvl.getD u 0).toNat * (A + 2)
              = (M - d.lvl.getD (cur_arc d u).to_ 0).toNat * (A + 2) + (A + 2) := by
            have : (M - d.lvl.getD u 0).toNat
                = (M - d.lvl.getD (cur_arc d u).to_ 0).toNat + 1 := by
              rw [hadm.2]; omega
            rw [this]; ring
          obtain ⟨⟨p, d1⟩, hsub⟩ := ih d (cur_arc d u).to_ (min f (cur_arc d u).cap) hnet hmin hit
            htn hM hA (by omega)
          rw [hsub]
          simp only
          by_cases hp : p > 0
          · rw [if_pos hp]; exact ⟨_, rfl⟩
          · rw [if_neg hp]
            have e1 := dfs_effect n t fuel d _ _ p d1 hsub hnet hmin
            have hfr := e1.frame u (by rw [hadm.2]; omega)
            have hadv1 : (advance d1 u).it.getD u 0 = d.it.getD u 0 + 1 := by
              unfold advance
              simp only
              rw [getD_set_eq, hfr.2]
              simp [e1.it_len, hit, hu]
            apply ih (advance d1 u) u f e1.net hf (by simp [advance, e1.it_len, hit]) hu
              (by intro x; show d1.lvl.getD x 0 ≤ M; rw [e1.lvl_eq]; exact hM x)
              (by intro x; show (d1.g.getD x []).length ≤ A
                  rw [e1.shape.length_getD x]; exact hA x)
            rw [hadv1]
            show (M - d1.lvl.getD u 0).toNat * (A + 2) + ((d1.g.getD u []).length
              - (d.it.getD u 0 + 1)) + 1 ≤ fuel
            rw [e1.lvl_eq, hfr.1]
            omega
      · exact ⟨_, dfs_done t fuel d u f hut hi⟩

theorem canReach_congr (g : List (List E)) (lvl : List Int) (t u : Nat)
    (h : CanReach g lvl t u) (g1 : List (List E)) (lvl1 : List Int) (hg : g1 = g)
    (hl : lvl1 = lvl) : CanReach g1 lvl1 t u := by
  subst hg; subst hl; exact h

/-- A `dfs` call that returns 0 started at a vertex that cannot reach `t` in the level graph,
and it leaves only useless arcs below the cursors. -/
theorem dfs_complete (n t : Nat) (fuel : Nat) :
    ∀ (d : Dinic) (u : Nat) (f r : Weight) (d' : Dinic),
      Dinic.dfs t fuel d u f = some (r, d') → NetOk n d.g → (0 : Int) < f → PtrInv t d → r = 0 →
      ¬ CanReach d.g d.lvl t u ∧ PtrInv t d' := by
  induction fuel with
  | zero =>
    intro d u f r d' h
    rw [dfs_zero] at h
    exact absurd h (by simp)
  | succ fuel ih =>
    intro d u f r d' h hnet hf hptr hr
    by_cases hut : u = t
    · subst hut
      rw [dfs_at_t] at h
      simp only [Option.some.injEq, Prod.mk.injEq] at h
      obtain ⟨rfl, rfl⟩ := h
      rw [hr] at hf
      exact absurd hf (lt_irrefl _)
    · by_cases hi : d.it.getD u 0 < (d.g.getD u []).length
      · have harc : arc d.g u (d.it.getD u 0) = some (cur_arc d u) := arc_getD d.g u _ hi
        -- advancing the cursor past a useless arc keeps the cursor invariant
        have hadv : ∀ (d1 : Dinic), d1.g = d.g → d1.lvl = d.lvl → PtrInv t d1 →
            d1.it.getD u 0 = d.it.getD u 0 →
            ((cur_arc d u).cap ≤ 0 ∨ d.lvl.getD (cur_arc d u).to_ 0 ≠ d.lvl.getD u 0 + 1 ∨
              ¬ CanReach d.g d.lvl t (cur_arc d u).to_) →
            PtrInv t (advance d1 u) := by
          intro d1 hg1 hl1 hp1 hit1 hdead x i e hix hxe
          show e.cap ≤ 0 ∨ d1.lvl.getD e.to_ 0 ≠ d1.lvl.getD x 0 + 1 ∨
            ¬ CanReach d1.g d1.lvl t e.to_
          have hxe' : arc d1.g x i = some e := hxe
          by_cases hxu : x = u
          · subst hxu
            have hle : (advance d1 x).it.getD x 0 ≤ d1.it.getD x 0 + 1 := by
              unfold advance
              simp only
              rw [getD_set_eq]
              split <;> omega
            by_cases hlt : i < d1.it.getD x 0
            · exact hp1 x i e hlt hxe'
            · have hieq : i = d.it.getD x 0 := by omega
              rw [hg1, hieq, harc] at hxe'
              simp only [Option.some.injEq] at hxe'
              subst hxe'
              rw [hg1, hl1]
              exact hdead
          · rw [advance_getD_it d1 u x hxu] at hix
            exact hp1 x i e hix hxe'
        by_cases hin : Inadmissible d u
        · rw [dfs_skip t fuel d u f hut hi hin] at h
          have hptr' : PtrInv t (advance d u) := by
            apply hadv d rfl rfl hptr rfl
            unfold Inadmissible at hin
            rcases hin with h1 | h1
            · exact Or.inl h1
            · exact Or.inr (Or.inl h1)
          exact ih (advance d u) u f r d' h hnet hf hptr' hr
        · rw [dfs_try t fuel d u f hut hi hin] at h
          have hadm : (cur_arc d u).cap > 0 ∧
              d.lvl.getD (cur_arc d u).to_ 0 = d.lvl.getD u 0 + 1 := by
            unfold Inadmissible at hin
            push_neg at hin
            exact ⟨hin.1, hin.2⟩
          have hmin : (0 : Int) < min f (cur_arc d u).cap := by
            have := hadm.1
            unfold Weight at *
            omega
          cases hsub : Dinic.dfs t fuel d (cur_arc d u).to_ (min f (cur_arc d u).cap) with
          | none => rw [hsub] at h; simp at h
          | some pr =>
            obtain ⟨p, d1⟩ := pr
            rw [hsub] at h
            simp only at h
            have e1 := dfs_effect n t fuel d _ _ p d1 hsub hnet (le_of_lt hmin)
            by_cases hp : p > 0
            · rw [if_pos hp] at h
              simp only [Option.some.injEq, Prod.mk.injEq] at h
              obtain ⟨rfl, _⟩ := h
              rw [hr] at hp
              exact absurd hp (lt_irrefl _)
            · rw [if_neg hp] at h
              have hp0 : p = 0 := by
                have := e1.r_nonneg
                unfold Weight at *
                omega
              obtain ⟨hnr, hptr1⟩ := ih d _ _ p d1 hsub hnet hmin hptr hp0
              have hg1 : d1.g = d.g := e1.zero_same hp0
              have hfr := e1.frame u (by rw [hadm.2]; omega)
              have hptr' : PtrInv t (advance d1 u) :=
                hadv d1 hg1 e1.lvl_eq hptr1 hfr.2 (Or.inr (Or.inr hnr))
              obtain ⟨hnr2, hptr2⟩ := ih (advance d1 u) u f r d' h
                (by show NetOk n d1.g; exact e1.net) hf hptr' hr
              refine ⟨?_, hptr2⟩
              intro hc
              exact hnr2 (canReach_congr _ _ _ _ hc _ _ hg1 e1.lvl_eq)
      · rw [dfs_done t fuel d u f hut hi] at h
        simp only [Option.some.injEq, Prod.mk.injEq] at h
        obtain ⟨_, rfl⟩ := h
        refine ⟨?_, hptr⟩
        intro hc
        cases hc with
        | here => exact hut rfl
        | step _ e he hcap hlvl hcr =>
          obtain ⟨j, hj⟩ := mem_arc d.g u e he
          have hjlt := (arc_lt d.g u j e hj).1
          rcases hptr u j e (by omega) hj with h1 | h1 | h1
          · exact absurd hcap (not_lt.mpr h1)
          · exact h1 hlvl
          · exact h1 hcr

/-- After `bfs`, a levelled sink is reachable from the source in the level graph. -/
theorem level_canReach (g : List (List E)) (lvl : List Int) (s t : Nat) (hl : LevelOk g lvl s) :
    ∀ (k : Nat) (v : Nat), v < lvl.length → 0 ≤ lvl.getD v 0 → (lvl.getD v 0).toNat = k →
      CanReach g lvl t v → CanReach g lvl t s := by
  intro k
  induction k using Nat.strong_induction_on with
  | _ k ih =>
    intro v hv hv0 hk hcr
    rcases hl.2 v hv hv0 with h | ⟨u, e, hu, hu0, he, hto, hcap, hlv⟩
    · subst h; exact hcr
    · apply ih (lvl.getD u 0).toNat (by omega) u hu hu0 rfl
      subst hto
      exact CanReach.step u e he hcap hlv hcr

end STMinCutSolver

namespace STMinCutSolver

/-! ## The loops of `maxflow` -/

theorem exists_bound {α : Type} (l : List α) (d : α) (f : α → Int) :
    ∃ M, ∀ x, f (l.getD x d) ≤ M := by
  induction l with
  | nil => exact ⟨f d, fun x => by simp⟩
  | cons a as ih =>
    obtain ⟨M, hM⟩ := ih
    refine ⟨max (f a) M, fun x => ?_⟩
    cases x with
    | zero => simp
    | succ x =>
      have := hM x
      simp only [List.getD_cons_succ]
      omega

theorem blocking_succ (s t dfsFuel fuel : Nat) (d : Dinic) (flow : Weight) :
    Dinic.blocking s t dfsFuel (fuel + 1) d flow =
      match Dinic.dfs t dfsFuel d s (WEIGHT_MAX / 4) with
      | none => none
      | some (pushed, d1) =>
        if pushed = 0 then some (flow, d1)
        else Dinic.blocking s t dfsFuel fuel d1 (flow + pushed) := rfl

theorem blocking_mono (s t : Nat) (a a' : Nat) (ha : a ≤ a') (fuel : Nat) :
    ∀ (d : Dinic) (flow : Weight) (res : Weight × Dinic),
      Dinic.blocking s t a fuel d flow = some res →
      ∀ k, Dinic.blocking s t a' (fuel + k) d flow = some res := by
  induction fuel with
  | zero => intro d flow res h; simp [Dinic.blocking] at h
  | succ fuel ih =>
    intro d flow res h k
    rw [Nat.add_right_comm, blocking_succ]
    rw [blocking_succ] at h
    cases hsub : Dinic.dfs t a d s (WEIGHT_MAX / 4) with
    | none => rw [hsub] at h; simp at h
    | some pr =>
      rw [hsub] at h
      rw [dfs_mono_le t a a' ha d s _ pr hsub]
      obtain ⟨p, d1⟩ := pr
      simp only at h ⊢
      by_cases hp : p = 0
      · rw [if_pos hp] at h ⊢; exact h
      · rw [if_neg hp] at h ⊢; exact ih _ _ _ h k

theorem weight_max_quarter_pos : (0 : Int) < WEIGHT_MAX / 4 := by decide

theorem only_self (s : Nat) : only s s = true := by simp [only]

theorem only_other (s t : Nat) (h : s ≠ t) : only s t = false := by
  unfold only
  exact decide_eq_false (fun e => h e.symm)

/-- One `dfs` call from the source keeps the flow invariant, with the pushed amount added. -/
theorem dfs_flow_inv (n s t : Nat) (C : (Nat → Bool) → Int) (fuel : Nat) (d : Dinic)
    (flow p : Weight) (d1 : Dinic) (hinv : FlowInv n s t C d flow)
    (h : Dinic.dfs t fuel d s (WEIGHT_MAX / 4) = some (p, d1)) :
    FlowInv n s t C d1 (flow + p) ∧ d1.lvl = d.lvl ∧ (0 : Int) ≤ p ∧ (p = 0 → d1.g = d.g) := by
  have e := dfs_effect n t fuel d s _ p d1 h hinv.net (le_of_lt weight_max_quarter_pos)
  refine ⟨⟨e.net, by rw [e.it_len]; exact hinv.it_len, by rw [e.lvl_eq]; exact hinv.lvl_len,
    by rw [e.n_eq]; exact hinv.n_eq, ?_, ?_⟩,
    e.lvl_eq, e.r_nonneg, e.zero_same⟩
  · have := hinv.flow_nonneg
    have := e.r_nonneg
    show (0 : Int) ≤ flow + p
    omega
  · intro S hs ht
    rw [e.cut S ht, hs]
    have := hinv.cut S hs ht
    simp only [if_true]
    show capOut n d.g S - p + (flow + p) = C S
    omega

/-- Results of the inner loop: the invariant is kept, levels are unchanged, the flow does not
decrease, and it grows when the first `dfs` call finds a path. -/
theorem blocking_spec (n s t : Nat) (C : (Nat → Bool) → Int) (a fuel : Nat) :
    ∀ (d : Dinic) (flow flow1 : Weight) (d1 : Dinic), FlowInv n s t C d flow →
      Dinic.blocking s t a fuel d flow = some (flow1, d1) →
      FlowInv n s t C d1 flow1 ∧ (flow : Int) ≤ flow1 ∧
      (PtrInv t d → CanReach d.g d.lvl t s → (flow : Int) < flow1) := by
  induction fuel with
  | zero => intro d flow flow1 d1 _ h; simp [Dinic.blocking] at h
  | succ fuel ih =>
    intro d flow flow1 d1 hinv h
    rw [blocking_succ] at h
    cases hsub : Dinic.dfs t a d s (WEIGHT_MAX / 4) with
    | none => rw [hsub] at h; simp at h
    | some pr =>
      obtain ⟨p, d2⟩ := pr
      rw [hsub] at h
      simp only at h
      obtain ⟨hinv2, hl2, hp0, hsame⟩ := dfs_flow_inv n s t C a d flow p d2 hinv hsub
      by_cases hp : p = 0
      · rw [if_pos hp] at h
        simp only [Option.some.injEq, Prod.mk.injEq] at h
        rw [← h.1, ← h.2]
        subst hp
        refine ⟨by simpa using hinv2, le_refl _, fun hptr hcr => ?_⟩
        exact absurd hcr (dfs_complete n t a d s _ 0 d2 hsub hinv.net weight_max_quarter_pos
          hptr rfl).1
      · rw [if_neg hp] at h
        obtain ⟨i1, i2, _⟩ := ih d2 (flow + p) flow1 d1 hinv2 h
        have hppos : (0 : Int) < p := by
          unfold Weight at *
          omega
        have i2' : (flow : Int) + p ≤ flow1 := i2
        unfold Weight at *
        exact ⟨i1, by omega, fun _ _ => by omega⟩

theorem dfs_src_terminates (n s t : Nat) (hs : s < n) (C : (Nat → Bool) → Int) (d : Dinic)
    (flow : Weight) (hinv : FlowInv n s t C d flow) :
    ∃ F pr, Dinic.dfs t F d s (WEIGHT_MAX / 4) = some pr := by
  obtain ⟨M, hM⟩ := exists_bound d.lvl 0 (fun x => x)
  obtain ⟨A, hA⟩ := exists_bound d.g [] (fun l => (l.length : Int))
  exact ⟨_, dfs_terminates n t M A.toNat _ d s (WEIGHT_MAX / 4) hinv.net
    (le_of_lt weight_max_quarter_pos) hinv.it_len hs hM
    (fun x => by have := hA x; simp only at this; omega) (le_refl _)⟩

/-- The inner loop ends. -/
theorem blocking_terminates (n s t : Nat) (hst : s ≠ t) (hs : s < n) (C : (Nat → Bool) → Int)
    (m : Nat) :
    ∀ (d : Dinic) (flow : Weight), FlowInv n s t C d flow → (C (only s) - flow).toNat ≤ m →
      ∃ F res, Dinic.blocking s t F F d flow = some res := by
  induction m with
  | zero =>
    intro d flow hinv hm
    obtain ⟨F1, ⟨p, d1⟩, hsub⟩ := dfs_src_terminates n s t hs C d flow hinv
    obtain ⟨hinv2, _, hp0, _⟩ := dfs_flow_inv n s t C _ d flow p d1 hinv hsub
    have hcut := hinv2.cut (only s) (only_self s) (only_other s t hst)
    have hnn := capOut_nonneg n d1.g (only s) hinv2.net
    have hC : C (only s) - flow ≤ 0 := by omega
    have hp : p = 0 := by
      have e : capOut n d1.g (only s) + (flow + p) = C (only s) := hcut
      unfold Weight at *
      omega
    refine ⟨F1 + 1, (flow, d1), ?_⟩
    rw [blocking_succ, dfs_mono_le t _ _ (Nat.le_succ _) d s _ _ hsub]
    simp [hp]
  | succ m ih =>
    intro d flow hinv hm
    obtain ⟨F1, ⟨p, d1⟩, hsub⟩ := dfs_src_terminates n s t hs C d flow hinv
    obtain ⟨hinv2, _, hp0, _⟩ := dfs_flow_inv n s t C _ d flow p d1 hinv hsub
    by_cases hp : p = 0
    · refine ⟨F1 + 1, (flow, d1), ?_⟩
      rw [blocking_succ, dfs_mono_le t _ _ (Nat.le_succ _) d s _ _ hsub]
      simp [hp]
    · have hlt : (C (only s) - (flow + p)).toNat ≤ m := by
        have e : (0 : Int) ≤ p := hp0
        have hp' : (p : Int) ≠ 0 := hp
        unfold Weight at *
        omega
      obtain ⟨F2, res, h2⟩ := ih d1 (flow + p) hinv2 hlt
      refine ⟨max F1 F2 + 1, res, ?_⟩
      rw [blocking_succ, dfs_mono_le t _ _ (by omega) d s _ _ hsub]
      simp only [hp, if_false]
      have := blocking_mono s t F2 (max F1 F2 + 1) (by omega) F2 d1 (flow + p) res h2
        (max F1 F2 - F2)
      rw [Nat.add_sub_cancel' (by omega)] at this
      exact this

end STMinCutSolver

namespace STMinCutSolver

theorem unvisited_le (n : Nat) (lvl : List Int) : unvisited n lvl ≤ n := by
  unfold unvisited
  have := List.countP_le_length (fun v => decide (lvl.getD v 0 < 0)) (l := List.range n)
  simpa using this

theorem bfs_mono (d : Dinic) (s : Nat) (a a' : Nat) (ha : a ≤ a') (d1 : Dinic)
    (h : d.bfs a s = some d1) : d.bfs a' s = some d1 := by
  unfold Dinic.bfs at h ⊢
  cases hb : bfs_loop d.g a ((List.replicate d.lvl.length (-1 : Int)).set s 0) [s] with
  | none => rw [hb] at h; simp at h
  | some r =>
    rw [hb] at h
    have := bfs_loop_mono d.g a _ _ r hb (a' - a)
    rw [Nat.add_sub_cancel' ha] at this
    rw [this]
    exact h

/-- The level search ends and labels exactly the vertices reachable in the residual network. -/
theorem bfs_spec (n s : Nat) (hs : s < n) (d : Dinic) (hnet : NetOk n d.g)
    (hlen : d.lvl.length = n) :
    ∃ r, d.bfs (n + 1) s = some { d with lvl := r } ∧ BfsInv n d.g s r [] := by
  have hinit := bfs_init_inv n d.g s hs d.lvl.length hlen
  obtain ⟨r, hr, hinv⟩ := bfs_loop_spec n d.g hnet s (n + 1) _ _ hinit (by
    have := unvisited_le n ((List.replicate d.lvl.length (-1 : Int)).set s 0)
    simp only [List.length_singleton]
    omega)
  refine ⟨r, ?_, hinv⟩
  unfold Dinic.bfs
  rw [hr]
  rfl

theorem maxflow_loop_succ (s t a fuel : Nat) (d : Dinic) (flow : Weight) :
    Dinic.maxflow_loop s t a (fuel + 1) d flow =
      match d.bfs a s with
      | none => none
      | some d1 =>
        if d1.lvl.getD t 0 ≥ 0 then
          match Dinic.blocking s t a a { d1 with it := List.replicate d1.it.length 0 } flow with
          | none => none
          | some (flow1, d2) => Dinic.maxflow_loop s t a fuel d2 flow1
        else some (flow, d1) := rfl

theorem maxflow_loop_mono (s t : Nat) (a a' : Nat) (ha : a ≤ a') (fuel : Nat) :
    ∀ (d : Dinic) (flow : Weight) (res : Weight × Dinic),
      Dinic.maxflow_loop s t a fuel d flow = some res →
      ∀ k, Dinic.maxflow_loop s t a' (fuel + k) d flow = some res := by
  induction fuel with
  | zero => intro d flow res h; simp [Dinic.maxflow_loop] at h
  | succ fuel ih =>
    intro d flow res h k
    rw [Nat.add_right_comm, maxflow_loop_succ]
    rw [maxflow_loop_succ] at h
    cases hb : d.bfs a s with
    | none => rw [hb] at h; simp at h
    | some d1 =>
      rw [hb] at h
      rw [bfs_mono d s a a' ha d1 hb]
      simp only at h ⊢
      by_cases hc : d1.lvl.getD t 0 ≥ 0
      · rw [if_pos hc] at h ⊢
        cases hbl : Dinic.blocking s t a a { d1 with it := List.replicate d1.it.length 0 } flow with
        | none => rw [hbl] at h; simp at h
        | some pr =>
          rw [hbl] at h
          have := blocking_mono s t a a' ha a _ flow pr hbl (a' - a)
          rw [Nat.add_sub_cancel' ha] at this
          rw [this]
          obtain ⟨flow1, d2⟩ := pr
          simp only at h ⊢
          exact ih d2 flow1 res h k
      · rw [if_neg hc] at h ⊢
        exact h

/-- The outer loop ends; at its end the flow invariant holds and the sink is out of reach of
the source in the residual network. -/
theorem maxflow_loop_spec (n s t : Nat) (hst : s ≠ t) (hs : s < n) (ht : t < n)
    (C : (Nat → Bool) → Int) (m : Nat) :
    ∀ (d : Dinic) (flow : Weight), FlowInv n s t C d flow → (C (only s) - flow).toNat < m →
      ∃ F flow1 d1, Dinic.maxflow_loop s t F F d flow = some (flow1, d1) ∧
        FlowInv n s t C d1 flow1 ∧ ¬ Reach d1.g s t := by
  induction m with
  | zero => intro d flow _ h; omega
  | succ m ih =>
    intro d flow hinv hm
    obtain ⟨r, hbfs, hbinv⟩ := bfs_spec n s hs d hinv.net hinv.lvl_len
    have hinv1 : FlowInv n s t C { d with lvl := r } flow :=
      ⟨hinv.net, hinv.it_len, hbinv.len, hinv.n_eq, hinv.flow_nonneg, hinv.cut⟩
    by_cases hc : r.getD t 0 ≥ 0
    · have hinv2 : FlowInv n s t C
          { ({ d with lvl := r } : Dinic) with it := List.replicate d.it.length 0 } flow :=
        ⟨hinv.net, by simp [hinv.it_len], hbinv.len, hinv.n_eq, hinv.flow_nonneg, hinv.cut⟩
      obtain ⟨F2, ⟨flow1, d2⟩, hbl⟩ := blocking_terminates n s t hst hs C _ _ flow hinv2 (le_refl _)
      obtain ⟨hinv3, _, hgrow⟩ := blocking_spec n s t C F2 F2 _ flow flow1 d2 hinv2 hbl
      have hlt : (flow : Int) < flow1 := by
        apply hgrow
        · intro u i e hi
          exfalso
          simp only [getD_replicate_eq] at hi
          split at hi <;> omega
        · exact level_canReach d.g r s t hbinv.level _ t (by rw [hbinv.len]; exact ht) hc rfl
            CanReach.here
      have hcut := hinv3.cut (only s) (only_self s) (only_other s t hst)
      have hnn := capOut_nonneg n d2.g (only s) hinv3.net
      have hm2 : (C (only s) - flow1).toNat < m := by
        unfold Weight at *
        omega
      obtain ⟨F3, flow2, d3, hloop, hinv4, hnr⟩ := ih d2 flow1 hinv3 hm2
      refine ⟨max (n + 1) (max F2 F3) + 1, flow2, d3, ?_, hinv4, hnr⟩
      rw [maxflow_loop_succ, bfs_mono d s (n + 1) _ (by omega) _ hbfs]
      simp only [hc, if_true]
      have h1 := blocking_mono s t F2 (max (n + 1) (max F2 F3) + 1) (by omega) F2 _ flow _ hbl
        (max (n + 1) (max F2 F3) + 1 - F2)
      rw [Nat.add_sub_cancel' (by omega)] at h1
      rw [h1]
      have h2 := maxflow_loop_mono s t F3 (max (n + 1) (max F2 F3) + 1) (by omega) F3 d2 flow1 _
        hloop (max (n + 1) (max F2 F3) - F3)
      rw [Nat.add_sub_cancel' (by omega)] at h2
      exact h2
    · refine ⟨n + 1, flow, { d with lvl := r }, ?_, hinv1, ?_⟩
      · rw [maxflow_loop_succ, hbfs]
        simp only [hc, if_false]
      · intro hreach
        exact hc ((bfs_final_reach n d.g hinv.net s hs r hbinv t ht).mpr hreach)

/-- Correctness of `maxflow`: with enough fuel it returns, the flow invariant holds at the end
and the sink is out of reach of the source in the final residual network. -/
theorem maxflow_spec (n s t : Nat) (hst : s ≠ t) (hs : s < n) (ht : t < n) (d : Dinic)
    (hnet : NetOk n d.g) (hit : d.it.length = n) (hlvl : d.lvl.length = n) (hn : d.n = n) :
    ∃ F flow d1, (∀ fuel, F ≤ fuel → d.maxflow fuel s t = some (flow, d1)) ∧
      FlowInv n s t (capOut n d.g) d1 flow ∧ ¬ Reach d1.g s t := by
  have hinv : FlowInv n s t (capOut n d.g) d 0 :=
    ⟨hnet, hit, hlvl, hn, le_refl _, fun S _ _ => by
      show capOut n d.g S + (0 : Int) = capOut n d.g S
      omega⟩
  obtain ⟨F, flow, d1, h, hinv1, hnr⟩ :=
    maxflow_loop_spec n s t hst hs ht (capOut n d.g) _ d 0 hinv (Nat.lt_succ_self _)
  refine ⟨F, flow, d1, fun fuel hf => ?_, hinv1, hnr⟩
  unfold Dinic.maxflow
  have := maxflow_loop_mono s t F fuel hf F d 0 _ h (fuel - F)
  rw [Nat.add_sub_cancel' hf] at this
  exact this

end STMinCutSolver

namespace STMinCutSolver

/-! ## `reachable_from` and the result of `solve` -/

theorem getD_map_nonneg (lvl : List Int) (x : Nat) (hx : x < lvl.length) :
    (lvl.map fun a => decide (0 ≤ a)).getD x false = decide (0 ≤ lvl.getD x 0) := by
  rw [List.getD_eq_getElem _ _ (by simpa using hx), List.getD_eq_getElem _ _ hx]
  simp

/-- The scan of `reachable_from` does to the visited flags what the scan of `bfs` does to the
levels. -/
theorem reach_scan_sim (n u : Nat) (l : List E) (hl : ∀ e ∈ l, e.to_ < n) :
    ∀ (lvl : List Int) (q : List Nat), lvl.length = n → 0 ≤ lvl.getD u 0 →
      l.foldl (fun (vq : List Bool × List Nat) e =>
        if e.cap > 0 ∧ !vq.1.getD e.to_ false then (vq.1.set e.to_ true, vq.2 ++ [e.to_])
        else vq) (lvl.map fun a => decide (0 ≤ a), q)
      = ((l.foldl (bfs_step u) (lvl, q)).1.map fun a => decide (0 ≤ a),
          (l.foldl (bfs_step u) (lvl, q)).2) := by
  induction l with
  | nil => intro lvl q _ _; rfl
  | cons e l ih =>
    intro lvl q hlen hu
    have hto := hl e (by simp)
    simp only [List.foldl_cons]
    have hget := getD_map_nonneg lvl e.to_ (by rw [hlen]; exact hto)
    by_cases hc : e.cap > 0 ∧ lvl.getD e.to_ 0 < 0
    · have hc2 : e.cap > 0 ∧ (!(lvl.map fun a => decide (0 ≤ a)).getD e.to_ false) = true := by
        refine ⟨hc.1, ?_⟩
        rw [hget]
        simp only [Bool.not_eq_true', decide_eq_false_iff_not, not_le]
        exact hc.2
      have hstep : bfs_step u (lvl, q) e = (lvl.set e.to_ (lvl.getD u 0 + 1), q ++ [e.to_]) := by
        unfold bfs_step
        rw [if_pos hc]
      rw [if_pos hc2, hstep]
      have hmap : (lvl.map fun a => decide (0 ≤ a)).set e.to_ true
          = (lvl.set e.to_ (lvl.getD u 0 + 1)).map fun a => decide (0 ≤ a) := by
        rw [List.map_set]
        congr 1
        symm
        exact decide_eq_true (by omega)
      rw [hmap]
      have hue : e.to_ ≠ u := by
        intro h
        rw [h] at hc
        omega
      apply ih (fun e he => hl e (by simp [he])) _ _ (by simpa using hlen)
      rw [getD_set_eq]
      simp only [hue, false_and, if_false]
      exact hu
    · have hc2 : ¬ (e.cap > 0 ∧ (!(lvl.map fun a => decide (0 ≤ a)).getD e.to_ false) = true) := by
        intro h
        apply hc
        refine ⟨h.1, ?_⟩
        have h2 := h.2
        rw [hget] at h2
        simpa using h2
      have hstep : bfs_step u (lvl, q) e = (lvl, q) := by
        unfold bfs_step
        rw [if_neg hc]
      rw [if_neg hc2, hstep]
      exact ih (fun e he => hl e (by simp [he])) _ _ hlen hu

/-- The queue loop of `reachable_from` mirrors the queue loop of `bfs`. -/
theorem reach_loop_sim (n : Nat) (g : List (List E)) (hg : NetOk n g) (s : Nat) (fuel : Nat) :
    ∀ (lvl : List Int) (q : List Nat), BfsInv n g s lvl q →
      reach_loop g fuel (lvl.map fun a => decide (0 ≤ a)) q
        = (bfs_loop g fuel lvl q).map (List.map fun a => decide (0 ≤ a)) := by
  induction fuel with
  | zero =>
    intro lvl q _
    cases q <;> simp [reach_loop, bfs_loop]
  | succ fuel ih =>
    intro lvl q hinv
    cases q with
    | nil => simp [reach_loop, bfs_loop]
    | cons u q =>
      rw [bfs_loop_cons]
      have hsim := reach_scan_sim n u (g.getD u [])
        (fun e he => by
          obtain ⟨i, hi⟩ := mem_arc g u e he
          exact hg.to_lt u i e hi)
        lvl q hinv.len (hinv.q_ok u (by simp)).2
      have hnext := (bfs_scan_inv n g hg s lvl u q hinv).1
      rw [← ih _ _ hnext]
      show reach_loop g fuel _ _ = _
      rw [hsim]

/-- With enough fuel `reachable_from` returns, and it flags exactly the vertices reachable from
`s` through arcs of positive residual capacity. -/
theorem reachable_from_spec (n s : Nat) (hs : s < n) (d : Dinic) (hnet : NetOk n d.g)
    (hn : d.n = n) :
    ∃ vis, (∀ fuel, n + 1 ≤ fuel → d.reachable_from fuel s = some vis) ∧ vis.length = n ∧
      ∀ v, v < n → (vis.getD v false = true ↔ Reach d.g s v) := by
  have hinit := bfs_init_inv n d.g s hs n rfl
  obtain ⟨r, hr, hinv⟩ := bfs_loop_spec n d.g hnet s (n + 1) _ _ hinit (by
    have := unvisited_le n ((List.replicate n (-1 : Int)).set s 0)
    simp only [List.length_singleton]
    omega)
  refine ⟨r.map fun a => decide (0 ≤ a), fun fuel hf => ?_, by simpa using hinv.len,
    fun v hv => ?_⟩
  · unfold Dinic.reachable_from
    have hstart : (List.replicate d.n false).set s true
        = ((List.replicate n (-1 : Int)).set s 0).map fun a => decide (0 ≤ a) := by
      rw [List.map_set, List.map_replicate, hn]
      rfl
    rw [hstart, reach_loop_sim n d.g hnet s fuel _ _ hinit]
    have := bfs_loop_mono d.g (n + 1) _ _ r hr (fuel - (n + 1))
    rw [Nat.add_sub_cancel' hf] at this
    rw [this]
    rfl
  · rw [getD_map_nonneg r v (by rw [hinv.len]; exact hv)]
    rw [← bfs_final_reach n d.g hnet s hs r hinv v hv]
    simp

end STMinCutSolver

theorem WeightedGraph.ofEdges_Built (n : Nat) (es : List (Int × Int × Weight)) :
    (WeightedGraph.ofEdges n es).Built := by
  unfold WeightedGraph.ofEdges
  have key : ∀ (es : List (Int × Int × Weight)) (g : WeightedGraph), g.Built →
      (es.foldl (fun g e => match g.add_undirected e.1 e.2.1 e.2.2 with
        | .ok g1 => g1
        | .error _ => g) g).Built := by
    intro es
    induction es with
    | nil => intro g hg; exact hg
    | cons e es ih =>
      intro g hg
      simp only [List.foldl_cons]
      apply ih
      cases h : g.add_undirected e.1 e.2.1 e.2.2 with
      | ok g1 => exact WeightedGraph.Built.add _ _ _ hg h
      | error _ => exact hg
  exact key es _ (WeightedGraph.Built.init n)

namespace STMinCutSolver

theorem getD_labels (n : Nat) (vis : List Bool) (a : Nat) (ha : a < n) :
    ((List.range n).map fun i => if vis.getD i false then (0 : Int) else 1).getD a 0
      = if vis.getD a false then 0 else 1 := by
  rw [List.getD_eq_getElem _ _ (by simpa using ha)]
  simp

/-- What `solve` does on valid terminals: with enough fuel it returns normally; the stored flow
value and labeling come from a final residual network in which the flow invariant holds,
the sink is out of reach of the source, and the flags mark the reachable vertices. -/
theorem st_solve_spec (self : State) (g : WeightedGraph) (hg : g.WF)
    (hs : 0 ≤ self.s_ ∧ self.s_ < (g.n : Int)) (ht : 0 ≤ self.t_ ∧ self.t_ < (g.n : Int))
    (hst : self.s_ ≠ self.t_) :
    ∃ (F : Nat) (flow : Weight) (dfin : Dinic) (vis : List Bool),
      (∀ fuel, F ≤ fuel →
        (build_network g).maxflow fuel self.s_.toNat self.t_.toNat = some (flow, dfin)) ∧
      (∀ fuel, F ≤ fuel → solve fuel self g = (some (.ok ()), { self with res_ :=
        { part := (List.range g.n).map fun i => if vis.getD i false then 0 else 1
          cut_weight := flow } })) ∧
      FlowInv g.n self.s_.toNat self.t_.toNat (outW g) dfin flow ∧
      ¬ Reach dfin.g self.s_.toNat self.t_.toNat ∧ vis.length = g.n ∧
      ∀ v, v < g.n → (vis.getD v false = true ↔ Reach dfin.g self.s_.toNat v) := by
  obtain ⟨b1, b2, b3, b4, b5⟩ := build_network_spec g hg
  have hs' : self.s_.toNat < g.n := by omega
  have ht' : self.t_.toNat < g.n := by omega
  have hst' : self.s_.toNat ≠ self.t_.toNat := by omega
  obtain ⟨F1, flow, dfin, hmax, hinv, hnr⟩ :=
    maxflow_spec g.n _ _ hst' hs' ht' (build_network g) b1 b4 b3 b2
  have hC : (capOut g.n (build_network g).g) = outW g := funext b5
  rw [hC] at hinv
  obtain ⟨vis, hreach, hlen, hiff⟩ := reachable_from_spec g.n _ hs' dfin hinv.net hinv.n_eq
  refine ⟨max F1 (g.n + 1), flow, dfin, vis, fun fuel hf => hmax fuel (by omega),
    fun fuel hf => ?_, hinv, hnr, hlen, hiff⟩
  have hn0 : g.n ≠ 0 := by omega
  have hvalid : ¬ (self.s_ < 0 ∨ self.t_ < 0 ∨ self.s_ ≥ (g.n : Int) ∨ self.t_ ≥ (g.n : Int)
      ∨ self.s_ = self.t_) := by omega
  unfold solve
  simp only [hn0, if_false, hvalid, hmax fuel (by omega), hreach fuel (by omega)]

/-- The flow value is the recomputed weight of the labeling read off the reachability flags. -/
theorem st_cut_eq (g : WeightedGraph) (hb : g.Built) (s t : Nat) (hs : s < g.n)
    (flow : Weight) (dfin : Dinic) (vis : List Bool)
    (hinv : FlowInv g.n s t (outW g) dfin flow) (hnr : ¬ Reach dfin.g s t) (ht : t < g.n)
    (hiff : ∀ v, v < g.n → (vis.getD v false = true ↔ Reach dfin.g s v)) :
    flow = cut_weight_undirected g
      ((List.range g.n).map fun i => if vis.getD i false then 0 else 1) := by
  have hS : ∀ v, v < g.n → ((vis.getD v false && decide (v < g.n)) = true ↔ Reach dfin.g s v) := by
    intro v hv
    rw [← hiff v hv]
    simp [hv]
  have hcut := hinv.cut (fun v => vis.getD v false && decide (v < g.n))
    ((hS s hs).mpr Reach.refl)
    (by
      cases h : (vis.getD t false && decide (t < g.n))
      · exact h
      · exact absurd ((hS t ht).mp h) hnr)
  have hzero : capOut g.n dfin.g (fun v => vis.getD v false && decide (v < g.n)) = 0 := by
    unfold capOut
    apply Finset.sum_eq_zero
    intro u hu
    have hu' : u < g.n := by simpa using hu
    split
    · rename_i hSu
      have hru := (hS u hu').mp hSu
      apply List.sum_eq_zero
      intro x hx
      obtain ⟨e, he, rfl⟩ := List.mem_map.mp hx
      split
      · rfl
      · rename_i hSe
        obtain ⟨i, hi⟩ := mem_arc dfin.g u e he
        have hto := hinv.net.to_lt u i e hi
        have hnn := hinv.net.cap_nonneg u i e hi
        by_contra hne
        have hpos : e.cap > 0 := by
          have : e.cap ≠ 0 := hne
          unfold Weight at *
          omega
        exact hSe ((hS e.to_ hto).mpr (Reach.step u e hru he hpos))
    · rfl
  have hout := (outW_vs_cut g hb (fun v => vis.getD v false && decide (v < g.n))
    ((List.range g.n).map fun i => if vis.getD i false then 0 else 1)).2 (by
      intro a b ha hb
      rw [getD_labels g.n vis a ha, getD_labels g.n vis b hb]
      simp only [ha, hb, decide_True, Bool.and_true]
      cases vis.getD a false <;> cases vis.getD b false <;> simp)
  rw [← hout, ← hcut, hzero]
  show flow = 0 + flow
  unfold Weight at *
  omega

/-- The flow value is a lower bound for the weight of every labeling that puts `s` on side 0
and `t` elsewhere. -/
theorem st_cut_le (g : WeightedGraph) (hb : g.Built) (s t : Nat)
    (flow : Weight) (dfin : Dinic) (hinv : FlowInv g.n s t (outW g) dfin flow)
    (part : List Int) (hps : part.getD s 0 = 0) (hpt : part.getD t 0 ≠ 0) :
    flow ≤ cut_weight_undirected g part := by
  have hcut := hinv.cut (fun v => decide (part.getD v 0 = 0)) (decide_eq_true hps)
    (decide_eq_false hpt)
  have hnn := capOut_nonneg g.n dfin.g (fun v => decide (part.getD v 0 = 0)) hinv.net
  have hout := (outW_vs_cut g hb (fun v => decide (part.getD v 0 = 0)) part).1 (by
    intro a b hab heq
    apply hab
    simp only [heq])
  show (flow : Int) ≤ cut_weight_undirected g part
  have hout' : outW g (fun v => decide (part.getD v 0 = 0)) ≤ (cut_weight_undirected g part : Int) :=
    hout
  unfold Weight at *
  omega

end STMinCutSolver

namespace STMinCutSolver

theorem labels_zero_one (n : Nat) (vis : List Bool) :
    ∀ x ∈ (List.range n).map (fun i => if vis.getD i false then (0 : Int) else 1),
      x = 0 ∨ x = 1 := by
  intro x hx
  obtain ⟨i, _, rfl⟩ := List.mem_map.mp hx
  split
  · left; rfl
  · right; rfl

/-- C6: for a well-formed graph and valid terminals `s != t`, `STMinCutSolver::solve` returns
normally (for every sufficient fuel), and the stored labeling has length `n`, every label is 0
or 1, `part[s] = 0`, `part[t] = 1`, and `part[v] = 0` holds exactly for the vertices `v`
reachable from `s` through arcs of positive residual capacity in the residual network `dfin`
that `maxflow` leaves behind. -/
theorem st_labels_separate (self : State) (g : WeightedGraph) (hg : g.WF)
    (hs : 0 ≤ self.s_ ∧ self.s_ < (g.n : Int)) (ht : 0 ≤ self.t_ ∧ self.t_ < (g.n : Int))
    (hst : self.s_ ≠ self.t_) :
    ∃ (F : Nat) (dfin : Dinic), ∀ fuel, F ≤ fuel →
      (solve fuel self g).1 = some (.ok ()) ∧
      (build_network g).maxflow fuel self.s_.toNat self.t_.toNat
        = some ((result (solve fuel self g).2).cut_weight, dfin) ∧
      (result (solve fuel self g).2).part.length = g.n ∧
      (∀ x ∈ (result (solve fuel self g).2).part, x = 0 ∨ x = 1) ∧
      (result (solve fuel self g).2).part.getD self.s_.toNat 0 = 0 ∧
      (result (solve fuel self g).2).part.getD self.t_.toNat 0 = 1 ∧
      ∀ v, v < g.n →
        ((result (solve fuel self g).2).part.getD v 0 = 0 ↔ Reach dfin.g self.s_.toNat v) := by
  obtain ⟨F, flow, dfin, vis, hmax, hsolve, hinv, hnr, hlen, hiff⟩ :=
    st_solve_spec self g hg hs ht hst
  have hs' : self.s_.toNat < g.n := by omega
  have ht' : self.t_.toNat < g.n := by omega
  refine ⟨F, dfin, fun fuel hf => ?_⟩
  rw [hsolve fuel hf]
  simp only [result]
  refine ⟨trivial, hmax fuel hf, by simp, labels_zero_one g.n vis, ?_, ?_, fun v hv => ?_⟩
  · rw [getD_labels g.n vis _ hs', if_pos ((hiff _ hs').mpr Reach.refl)]
  · rw [getD_labels g.n vis _ ht', if_neg (fun h => hnr ((hiff _ ht').mp h))]
  · rw [getD_labels g.n vis v hv, ← hiff v hv]
    cases vis.getD v false <;> simp

set_option maxRecDepth 100000 in
/-- Witness for C6 on the demonstration graph with terminals 0 and 6. -/
theorem st_labels_separate_witness :
    demoGraph.WF ∧ (0 ≤ (0 : Int) ∧ (0 : Int) < (demoGraph.n : Int)) ∧
    (0 ≤ (6 : Int) ∧ (6 : Int) < (demoGraph.n : Int)) ∧ (0 : Int) ≠ 6 ∧
    ∃ (F : Nat) (dfin : Dinic), ∀ fuel, F ≤ fuel →
      (solve fuel ⟨0, 6, {}⟩ demoGraph).1 = some (.ok ()) ∧
      (build_network demoGraph).maxflow fuel 0 6
        = some ((result (solve fuel ⟨0, 6, {}⟩ demoGraph).2).cut_weight, dfin) ∧
      (result (solve fuel ⟨0, 6, {}⟩ demoGraph).2).part.length = demoGraph.n ∧
      (∀ x ∈ (result (solve fuel ⟨0, 6, {}⟩ demoGraph).2).part, x = 0 ∨ x = 1) ∧
      (result (solve fuel ⟨0, 6, {}⟩ demoGraph).2).part.getD 0 0 = 0 ∧
      (result (solve fuel ⟨0, 6, {}⟩ demoGraph).2).part.getD 6 0 = 1 ∧
      ∀ v, v < demoGraph.n →
        ((result (solve fuel ⟨0, 6, {}⟩ demoGraph).2).part.getD v 0 = 0 ↔ Reach dfin.g 0 v) :=
  ⟨by decide, by decide, by decide, by decide,
    st_labels_separate ⟨0, 6, {}⟩ demoGraph (by decide) (by decide) (by decide) (by decide)⟩

/-- C2: for a graph built through `add_undirected` (so all weights are non-negative) whose total
edge weight is at most the 64-bit maximum (so that the flow, every residual capacity and every
cut weight stay in the range of `Weight`) and valid terminals `s != t`,
`STMinCutSolver::solve` returns normally (for every sufficient fuel) and the reported
`cut_weight` is the exact minimum s-t cut value: it is at most
`cut_weight_undirected(g, part)` for every 0/1 labeling `part` with `part[s] = 0` and
`part[t] = 1`, it is attained by such a labeling, and it lies in `[0, 2^63 - 1]`. -/
theorem st_min_cut_optimal (self : State) (g : WeightedGraph) (hg : g.Built)
    (hsum : g.total_weight ≤ WEIGHT_MAX)
    (hs : 0 ≤ self.s_ ∧ self.s_ < (g.n : Int)) (ht : 0 ≤ self.t_ ∧ self.t_ < (g.n : Int))
    (hst : self.s_ ≠ self.t_) :
    ∃ F : Nat, ∀ fuel, F ≤ fuel →
      (solve fuel self g).1 = some (.ok ()) ∧
      (∀ part : List Int, part.length = g.n → (∀ x ∈ part, x = 0 ∨ x = 1) →
        part.getD self.s_.toNat 0 = 0 → part.getD self.t_.toNat 0 = 1 →
        (result (solve fuel self g).2).cut_weight ≤ cut_weight_undirected g part) ∧
      (∃ part : List Int, part.length = g.n ∧ (∀ x ∈ part, x = 0 ∨ x = 1) ∧
        part.getD self.s_.toNat 0 = 0 ∧ part.getD self.t_.toNat 0 = 1 ∧
        cut_weight_undirected g part = (result (solve fuel self g).2).cut_weight) ∧
      0 ≤ (result (solve fuel self g).2).cut_weight ∧
      (result (solve fuel self g).2).cut_weight ≤ WEIGHT_MAX := by
  obtain ⟨F, flow, dfin, vis, _, hsolve, hinv, hnr, hlen, hiff⟩ :=
    st_solve_spec self g hg.WF hs ht hst
  have hs' : self.s_.toNat < g.n := by omega
  have ht' : self.t_.toNat < g.n := by omega
  have heq := st_cut_eq g hg _ _ hs' flow dfin vis hinv hnr ht' hiff
  have hrange := cut_weight_range g hg.WF
    ((List.range g.n).map fun i => if vis.getD i false then 0 else 1)
  refine ⟨F, fun fuel hf => ?_⟩
  rw [hsolve fuel hf]
  simp only [result]
  refine ⟨trivial, fun part _ _ hps hpt => ?_, ?_, ?_, ?_⟩
  · exact st_cut_le g hg _ _ flow dfin hinv part hps (by rw [hpt]; decide)
  · refine ⟨_, by simp, labels_zero_one g.n vis, ?_, ?_, heq.symm⟩
    · rw [getD_labels g.n vis _ hs', if_pos ((hiff _ hs').mpr Reach.refl)]
    · rw [getD_labels g.n vis _ ht', if_neg (fun h => hnr ((hiff _ ht').mp h))]
  · rw [heq]; exact hrange.1
  · rw [heq]; exact le_trans hrange.2 hsum

set_option maxRecDepth 100000 in
/-- Witness for C2 on the demonstration graph with terminals 0 and 6. -/
theorem st_min_cut_optimal_witness :
    demoGraph.Built ∧ demoGraph.total_weight ≤ WEIGHT_MAX ∧
    (0 ≤ (0 : Int) ∧ (0 : Int) < (demoGraph.n : Int)) ∧
    (0 ≤ (6 : Int) ∧ (6 : Int) < (demoGraph.n : Int)) ∧ (0 : Int) ≠ 6 ∧
    ∃ F : Nat, ∀ fuel, F ≤ fuel →
      (solve fuel ⟨0, 6, {}⟩ demoGraph).1 = some (.ok ()) ∧
      (∀ part : List Int, part.length = demoGraph.n → (∀ x ∈ part, x = 0 ∨ x = 1) →
        part.getD 0 0 = 0 → part.getD 6 0 = 1 →
        (result (solve fuel ⟨0, 6, {}⟩ demoGraph).2).cut_weight
          ≤ cut_weight_undirected demoGraph part) ∧
      (∃ part : List Int, part.length = demoGraph.n ∧ (∀ x ∈ part, x = 0 ∨ x = 1) ∧
        part.getD 0 0 = 0 ∧ part.getD 6 0 = 1 ∧
        cut_weight_undirected demoGraph part
          = (result (solve fuel ⟨0, 6, {}⟩ demoGraph).2).cut_weight) ∧
      0 ≤ (result (solve fuel ⟨0, 6, {}⟩ demoGraph).2).cut_weight ∧
      (result (solve fuel ⟨0, 6, {}⟩ demoGraph).2).cut_weight ≤ WEIGHT_MAX :=
  ⟨WeightedGraph.ofEdges_Built _ _, by decide, by decide, by decide, by decide,
    st_min_cut_optimal ⟨0, 6, {}⟩ demoGraph (WeightedGraph.ofEdges_Built _ _) (by decide)
      (by decide) (by decide) (by decide)⟩

/-- C3: for a graph built through `add_undirected` (so all weights are non-negative) whose total
edge weight is at most the 64-bit maximum (so that the flow, every residual capacity and every
cut weight stay in the range of `Weight`) and valid terminals `s != t`,
`STMinCutSolver::solve` returns normally (for every sufficient fuel) and the flow value stored
in `result().cut_weight` equals `cut_weight_undirected(g, result().part)`; both lie in
`[0, 2^63 - 1]`. -/
theorem st_flow_equals_cut (self : State) (g : WeightedGraph) (hg : g.Built)
    (hsum : g.total_weight ≤ WEIGHT_MAX)
    (hs : 0 ≤ self.s_ ∧ self.s_ < (g.n : Int)) (ht : 0 ≤ self.t_ ∧ self.t_ < (g.n : Int))
    (hst : self.s_ ≠ self.t_) :
    ∃ F : Nat, ∀ fuel, F ≤ fuel →
      (solve fuel self g).1 = some (.ok ()) ∧
      (result (solve fuel self g).2).cut_weight
        = cut_weight_undirected g (result (solve fuel self g).2).part ∧
      0 ≤ (result (solve fuel self g).2).cut_weight ∧
      (result (solve fuel self g).2).cut_weight ≤ WEIGHT_MAX := by
  obtain ⟨F, flow, dfin, vis, _, hsolve, hinv, hnr, hlen, hiff⟩ :=
    st_solve_spec self g hg.WF hs ht hst
  have heq := st_cut_eq g hg _ _ (by omega) flow dfin vis hinv hnr (by omega) hiff
  have hrange := cut_weight_range g hg.WF
    ((List.range g.n).map fun i => if vis.getD i false then 0 else 1)
  refine ⟨F, fun fuel hf => ?_⟩
  rw [hsolve fuel hf]
  simp only [result]
  refine ⟨trivial, heq, ?_, ?_⟩
  · rw [heq]; exact hrange.1
  · rw [heq]; exact le_trans hrange.2 hsum

set_option maxRecDepth 100000 in
/-- Witness for C3 on the demonstration graph with terminals 0 and 6. -/
theorem st_flow_equals_cut_witness :
    demoGraph.Built ∧ demoGraph.total_weight ≤ WEIGHT_MAX ∧
    (0 ≤ (0 : Int) ∧ (0 : Int) < (demoGraph.n : Int)) ∧
    (0 ≤ (6 : Int) ∧ (6 : Int) < (demoGraph.n : Int)) ∧ (0 : Int) ≠ 6 ∧
    ∃ F : Nat, ∀ fuel, F ≤ fuel →
      (solve fuel ⟨0, 6, {}⟩ demoGraph).1 = some (.ok ()) ∧
      (result (solve fuel ⟨0, 6, {}⟩ demoGraph).2).cut_weight
        = cut_weight_undirected demoGraph (result (solve fuel ⟨0, 6, {}⟩ demoGraph).2).part ∧
      0 ≤ (result (solve fuel ⟨0, 6, {}⟩ demoGraph).2).cut_weight ∧
      (result (solve fuel ⟨0, 6, {}⟩ demoGraph).2).cut_weight ≤ WEIGHT_MAX :=
  ⟨WeightedGraph.ofEdges_Built _ _, by decide, by decide, by decide, by decide,
    st_flow_equals_cut ⟨0, 6, {}⟩ demoGraph (WeightedGraph.ofEdges_Built _ _) (by decide)
      (by decide) (by decide) (by decide)⟩

end STMinCutSolver

/-! ## Vertex separator -/

theorem foldl_append_filter {α : Type} (c : α → Bool) (l : List α) :
    ∀ init : List α, l.foldl (fun acc i => if c i then acc ++ [i] else acc) init
      = init ++ l.filter c := by
  induction l with
  | nil => intro init; simp
  | cons a l ih =>
    intro init
    simp only [List.foldl_cons, List.filter_cons]
    rw [ih]
    split <;> simp

/-- A nested loop over the adjacency sequences is one loop over the (vertex, entry) pairs. -/
theorem foldl_nested_flat {β γ : Type} (us : List Nat) (nb : Nat → List γ) (f : β → Nat → γ → β) :
    ∀ init : β, us.foldl (fun acc u => (nb u).foldl (fun acc e => f acc u e) acc) init
      = (us.flatMap fun u => (nb u).map fun e => (u, e)).foldl (fun acc ue => f acc ue.1 ue.2) init := by
  induction us with
  | nil => intro init; rfl
  | cons u us ih =>
    intro init
    simp only [List.foldl_cons, List.flatMap_cons, List.foldl_append, List.foldl_map]
    rw [ih]

namespace VertexSeparatorSolver

theorem collect_sep_eq (n : Nat) (isSep : List Bool) :
    collect_sep n isSep = (List.range n).filter fun i => isSep.getD i false := by
  unfold collect_sep
  rw [foldl_append_filter (fun i => isSep.getD i false)]
  rfl

/-- Flags written by a scan over (vertex, entry) pairs. -/
theorem mark_pairs_spec (n : Nat) (p : List Int) (L : List (Nat × Edge))
    (hL : ∀ ue ∈ L, ue.1 < n ∧ ue.2.to_ < n) :
    ∀ init : List Bool, init.length = n →
      (L.foldl (fun isSep ue => if p.getD ue.1 0 ≠ p.getD ue.2.to_ 0
          then (isSep.set ue.1 true).set ue.2.to_ true else isSep) init).length = n ∧
      ∀ x, (L.foldl (fun isSep ue => if p.getD ue.1 0 ≠ p.getD ue.2.to_ 0
          then (isSep.set ue.1 true).set ue.2.to_ true else isSep) init).getD x false = true ↔
        (init.getD x false = true ∨ ∃ ue ∈ L, p.getD ue.1 0 ≠ p.getD ue.2.to_ 0 ∧
          (x = ue.1 ∨ x = ue.2.to_)) := by
  induction L with
  | nil => intro init h; simp [h]
  | cons ue L ih =>
    intro init hlen
    have hr := hL ue (by simp)
    simp only [List.foldl_cons]
    by_cases hc : p.getD ue.1 0 ≠ p.getD ue.2.to_ 0
    · rw [if_pos hc]
      obtain ⟨i1, i2⟩ := ih (fun a ha => hL a (by simp [ha])) ((init.set ue.1 true).set ue.2.to_ true)
        (by simpa using hlen)
      refine ⟨i1, fun x => ?_⟩
      rw [i2 x, getD_set_eq, getD_set_eq]
      simp only [List.length_set, hlen, hr.1, hr.2, and_true, List.mem_cons, exists_eq_or_imp]
      constructor
      · rintro (h | h)
        · by_cases h2 : ue.2.to_ = x
          · right; left; exact ⟨hc, Or.inr h2.symm⟩
          · rw [if_neg h2] at h
            by_cases h1 : ue.1 = x
            · right; left; exact ⟨hc, Or.inl h1.symm⟩
            · rw [if_neg h1] at h; left; exact h
        · right; right; exact h
      · rintro (h | ⟨_, h | h⟩ | h)
        · left
          split
          · rfl
          · split
            · rfl
            · exact h
        · left; subst h; simp
        · left; subst h; simp
        · right; exact h
    · rw [if_neg hc]
      obtain ⟨i1, i2⟩ := ih (fun a ha => hL a (by simp [ha])) init hlen
      refine ⟨i1, fun x => ?_⟩
      rw [i2 x]
      simp only [List.mem_cons, exists_eq_or_imp]
      constructor
      · rintro (h | h)
        · left; exact h
        · right; right; exact h
      · rintro (h | ⟨h, _⟩ | h)
        · left; exact h
        · exact absurd h hc
        · right; exact h

/-- The boundary scan flags exactly the endpoints of label-crossing adjacency entries. -/
theorem mark_sep_spec (g : WeightedGraph) (hg : g.WF) (p : List Int) :
    (mark_sep g p).length = g.n ∧
    ∀ x, (mark_sep g p).getD x false = true ↔ OnBoundary g p x := by
  unfold mark_sep
  have key := foldl_nested_flat (List.range g.n) g.nbrs
    (fun (isSep : List Bool) u e =>
      if p.getD u 0 ≠ p.getD e.to_ 0 then (isSep.set u true).set e.to_ true else isSep)
    (List.replicate g.n false)
  beta_reduce at key
  rw [key]
  obtain ⟨h1, h2⟩ := mark_pairs_spec g.n p
    ((List.range g.n).flatMap fun u => (g.nbrs u).map fun e => (u, e))
    (by
      intro ue hue
      simp only [List.mem_flatMap, List.mem_range, List.mem_map] at hue
      obtain ⟨u, hu, e, he, rfl⟩ := hue
      exact ⟨hu, (WeightedGraph.nbrs_mem_WF hg u e he).1⟩)
    (List.replicate g.n false) (by simp)
  refine ⟨h1, fun x => ?_⟩
  rw [h2 x]
  unfold OnBoundary
  constructor
  · rintro (h | ⟨ue, hue, hc, hx⟩)
    · rw [getD_replicate_eq] at h
      split at h <;> simp at h
    · simp only [List.mem_flatMap, List.mem_map] at hue
      obtain ⟨u, hu, e, he, rfl⟩ := hue
      exact ⟨u, hu, e, he, hc, hx⟩
  · rintro ⟨u, hu, e, he, hc, hx⟩
    right
    exact ⟨(u, e), by
      simp only [List.mem_flatMap, List.mem_map]
      exact ⟨u, hu, e, he, rfl⟩, hc, hx⟩

end VertexSeparatorSolver

namespace VertexSeparatorSolver

/-- What `solve` stores: the labeling and cut weight of the inner bisection, the boundary
vertices in ascending order, and their number. -/
theorem separator_solve_spec (self : State) (g : WeightedGraph) (hg : g.WF) :
    (result (solve self g)).separator.Pairwise (fun a b => a < b) ∧
    (∀ x, x ∈ (result (solve self g)).separator ↔ OnBoundary g (result (solve self g)).part x) ∧
    (result (solve self g)).score = (result (solve self g)).separator.length ∧
    (result (solve self g)).part = (MinimumBisectionSolver.result
      (MinimumBisectionSolver.solve { max_passes_ := self.passes_ } g)).part ∧
    (result (solve self g)).cut_weight = (MinimumBisectionSolver.result
      (MinimumBisectionSolver.solve { max_passes_ := self.passes_ } g)).cut_weight := by
  by_cases hn : g.n = 0
  · simp only [solve, result, hn, if_true, MinimumBisectionSolver.solve,
      MinimumBisectionSolver.result]
    refine ⟨List.Pairwise.nil, fun x => ?_, rfl, by first | rfl | trivial, by first | rfl | trivial⟩
    unfold OnBoundary
    simp [hn]
  · simp only [solve, result, hn, if_false]
    obtain ⟨_, hflag⟩ := mark_sep_spec g hg (MinimumBisectionSolver.result
      (MinimumBisectionSolver.solve { max_passes_ := self.passes_ } g)).part
    refine ⟨?_, fun x => ?_, by first | rfl | trivial, by first | rfl | trivial, by first | rfl | trivial⟩
    · rw [collect_sep_eq]
      exact (List.pairwise_lt_range g.n).filter _
    · rw [collect_sep_eq, List.mem_filter, hflag x, List.mem_range]
      constructor
      · exact fun h => h.2
      · intro h
        refine ⟨?_, h⟩
        obtain ⟨u, hu, e, he, _, hx⟩ := h
        rcases hx with rfl | rfl
        · exact List.mem_range.mp hu
        · exact (WeightedGraph.nbrs_mem_WF hg u e he).1

/-- C11: for every well-formed graph, after `VertexSeparatorSolver::solve` the separator list is
strictly ascending and holds exactly the vertices that are an endpoint of an adjacency entry
whose two endpoints carry different labels in `result().part`; hence no entry joins two
non-separator vertices with different labels; `score` is the separator's size, and `part` and
`cut_weight` are those of `MinimumBisectionSolver` run with the same pass count. -/
theorem separator_is_boundary (self : State) (g : WeightedGraph) (hg : g.WF) :
    (result (solve self g)).separator.Pairwise (fun a b => a < b) ∧
    (∀ x, x ∈ (result (solve self g)).separator ↔ OnBoundary g (result (solve self g)).part x) ∧
    Separates g (result (solve self g)).part (result (solve self g)).separator ∧
    (result (solve self g)).score = (result (solve self g)).separator.length ∧
    (result (solve self g)).part = (MinimumBisectionSolver.result
      (MinimumBisectionSolver.solve { max_passes_ := self.passes_ } g)).part ∧
    (result (solve self g)).cut_weight = (MinimumBisectionSolver.result
      (MinimumBisectionSolver.solve { max_passes_ := self.passes_ } g)).cut_weight := by
  obtain ⟨h1, h2, h3, h4, h5⟩ := separator_solve_spec self g hg
  refine ⟨h1, h2, ?_, h3, h4, h5⟩
  intro u hu e he hus hes
  by_contra hne
  exact hus ((h2 u).mpr ⟨u, hu, e, he, hne, Or.inl rfl⟩)

set_option maxRecDepth 100000 in
/-- Witness for C11 on the demonstration graph. -/
theorem separator_is_boundary_witness :
    demoGraph.WF ∧
    ((result (solve {} demoGraph)).separator.Pairwise (fun a b => a < b) ∧
    (∀ x, x ∈ (result (solve {} demoGraph)).separator ↔
      OnBoundary demoGraph (result (solve {} demoGraph)).part x) ∧
    Separates demoGraph (result (solve {} demoGraph)).part (result (solve {} demoGraph)).separator ∧
    (result (solve {} demoGraph)).score = (result (solve {} demoGraph)).separator.length ∧
    (result (solve {} demoGraph)).part = (MinimumBisectionSolver.result
      (MinimumBisectionSolver.solve { max_passes_ := 15 } demoGraph)).part ∧
    (result (solve {} demoGraph)).cut_weight = (MinimumBisectionSolver.result
      (MinimumBisectionSolver.solve { max_passes_ := 15 } demoGraph)).cut_weight) :=
  ⟨by decide, separator_is_boundary {} demoGraph (by decide)⟩

set_option maxRecDepth 100000 in
/-- C12 as stated fails: on the graph with the single edge 0-1 the separator is `[0, 1]`, and
after removing vertex 0 from it the remaining set `[1]` still separates the two sides. -/
theorem separator_not_minimal :
    edgeGraph.Built ∧
    (result (solve {} edgeGraph)).separator = [0, 1] ∧
    0 ∈ (result (solve {} edgeGraph)).separator ∧
    Separates edgeGraph (result (solve {} edgeGraph)).part
      ((result (solve {} edgeGraph)).separator.erase 0) ∧
    ¬ (∀ x ∈ (result (solve {} edgeGraph)).separator,
        ¬ Separates edgeGraph (result (solve {} edgeGraph)).part
          ((result (solve {} edgeGraph)).separator.erase x)) :=
  ⟨WeightedGraph.ofEdges_Built _ _, by decide, by decide, by decide, by decide⟩

/-- C12, amended: for every well-formed graph and every vertex `x` of the separator returned by
`VertexSeparatorSolver::solve`, another separator vertex `y` with a different label is joined
to `x` by an adjacency entry, so the separator minus `x` and `y` no longer separates the two
labelled sides; the separator minus `x` alone still separates them (the separator is the whole
edge boundary of the bisection). -/
theorem separator_pairwise_needed (self : State) (g : WeightedGraph) (hg : g.WF) :
    ∀ x ∈ (result (solve self g)).separator,
      (∃ y ∈ (result (solve self g)).separator, y ≠ x ∧
        (result (solve self g)).part.getD x 0 ≠ (result (solve self g)).part.getD y 0 ∧
        ((∃ e ∈ g.nbrs x, e.to_ = y) ∨ (∃ e ∈ g.nbrs y, e.to_ = x)) ∧
        ¬ Separates g (result (solve self g)).part
          (((result (solve self g)).separator.erase x).erase y)) ∧
      Separates g (result (solve self g)).part ((result (solve self g)).separator.erase x) := by
  obtain ⟨h1, h2, _, _, _⟩ := separator_solve_spec self g hg
  have hnd : (result (solve self g)).separator.Nodup :=
    h1.imp (fun h => Nat.ne_of_lt h)
  intro x hx
  constructor
  · obtain ⟨u, hu, e, he, hne, hxe⟩ := (h2 x).mp hx
    have hsep : ¬ Separates g (result (solve self g)).part
        (((result (solve self g)).separator.erase u).erase e.to_) := by
      intro hs
      apply hne
      apply hs u hu e he
      · intro hmem
        exact (List.Nodup.mem_erase_iff hnd).mp (List.mem_of_mem_erase hmem) |>.1 rfl
      · intro hmem
        exact (List.Nodup.mem_erase_iff (hnd.erase u)).mp hmem |>.1 rfl
    have hue : u ≠ e.to_ := by
      intro h
      apply hne
      rw [← h]
    rcases hxe with rfl | rfl
    · refine ⟨e.to_, (h2 _).mpr ⟨x, hu, e, he, hne, Or.inr rfl⟩, fun h => hue h.symm, hne,
        Or.inl ⟨e, he, rfl⟩, hsep⟩
    · refine ⟨u, (h2 _).mpr ⟨u, hu, e, he, hne, Or.inl rfl⟩, hue, fun h => hne h.symm,
        Or.inr ⟨e, he, rfl⟩, ?_⟩
      rw [List.erase_comm]
      exact hsep
  · intro u hu e he hus hes
    by_contra hne
    have hu1 : u ∈ (result (solve self g)).separator := (h2 u).mpr ⟨u, hu, e, he, hne, Or.inl rfl⟩
    have he1 : e.to_ ∈ (result (solve self g)).separator :=
      (h2 _).mpr ⟨u, hu, e, he, hne, Or.inr rfl⟩
    have hux : u = x := by
      by_contra h
      exact hus ((List.mem_erase_of_ne h).mpr hu1)
    have hex : e.to_ = x := by
      by_contra h
      exact hes ((List.mem_erase_of_ne h).mpr he1)
    apply hne
    rw [hux, hex]

set_option maxRecDepth 100000 in
/-- Witness for the amended C12 on the demonstration graph. -/
theorem separator_pairwise_needed_witness :
    demoGraph.WF ∧
    ∀ x ∈ (result (solve {} demoGraph)).separator,
      (∃ y ∈ (result (solve {} demoGraph)).separator, y ≠ x ∧
        (result (solve {} demoGraph)).part.getD x 0 ≠ (result (solve {} demoGraph)).part.getD y 0 ∧
        ((∃ e ∈ demoGraph.nbrs x, e.to_ = y) ∨ (∃ e ∈ demoGraph.nbrs y, e.to_ = x)) ∧
        ¬ Separates demoGraph (result (solve {} demoGraph)).part
          (((result (solve {} demoGraph)).separator.erase x).erase y)) ∧
      Separates demoGraph (result (solve {} demoGraph)).part
        ((result (solve {} demoGraph)).separator.erase x) :=
  ⟨by decide, separator_pairwise_needed {} demoGraph (by decide)⟩

end VertexSeparatorSolver

/-! ## Validation and graph construction -/

namespace STMinCutSolver

/-- C13: `STMinCutSolver(s,t).solve(g)` raises `InvalidArgument` exactly when `g.n >= 1` and
`s < 0`, `t < 0`, `s >= n`, `t >= n` or `s = t`; it raises nothing else; whenever it raises, the
stored result is the default one (empty `part`, `cut_weight` 0) whatever was stored before; and
for `n = 0` it returns normally with the default result whatever `s` and `t` are. -/
theorem st_terminal_validation (fuel : Nat) (self : State) (g : WeightedGraph) :
    ((solve fuel self g).1 = some (.error .invalidArgument) ↔
      1 ≤ g.n ∧ (self.s_ < 0 ∨ self.t_ < 0 ∨ self.s_ ≥ (g.n : Int) ∨ self.t_ ≥ (g.n : Int)
        ∨ self.s_ = self.t_)) ∧
    (∀ e, (solve fuel self g).1 = some (.error e) →
      e = .invalidArgument ∧ result (solve fuel self g).2 = {}) ∧
    (g.n = 0 → solve fuel self g = (some (.ok ()), { self with res_ := {} })) := by
  by_cases hn : g.n = 0
  · simp [solve, hn]
  · by_cases hc : self.s_ < 0 ∨ self.t_ < 0 ∨ self.s_ ≥ (g.n : Int) ∨ self.t_ ≥ (g.n : Int)
        ∨ self.s_ = self.t_
    · have hsolve : solve fuel self g = (some (.error .invalidArgument), { self with res_ := {} }) := by
        simp only [solve, hn, if_false, hc, if_true]
      rw [hsolve]
      refine ⟨⟨fun _ => ⟨by omega, hc⟩, fun _ => rfl⟩, fun e he => ?_, fun h => absurd h hn⟩
      simp only [Option.some.injEq, Except.error.injEq] at he
      exact ⟨he.symm, rfl⟩
    · have hne : ∀ e, (solve fuel self g).1 ≠ some (.error e) := by
        intro e
        simp only [solve, hn, if_false, hc]
        split
        · simp
        · split <;> simp
      exact ⟨⟨fun h => absurd h (hne _), fun h => absurd h.2 hc⟩,
        fun e he => absurd he (hne e), fun h => absurd h hn⟩

end STMinCutSolver

namespace WeightedGraph

/-- C14: on a graph object with `n` adjacency sequences, `add_undirected(u, v, w)` raises
`OutOfRange` exactly when `u` or `v` lies outside `[0,n)`; otherwise it raises `InvalidArgument`
exactly when `w < 0`; otherwise it succeeds, appending `(v,w)` to the end of `u`'s adjacency
sequence and `(u,w)` to the end of `v`'s and leaving every other sequence and `n` unchanged.
Both checks precede the two writes, so a failing call returns only the error and the graph it
was called on is the same value as before. -/
theorem add_undirected_contract (g : WeightedGraph) (u v : Int) (w : Weight)
    (hlen : g.adj.length = g.n) :
    (g.add_undirected u v w = .error .outOfRange ↔
      (u < 0 ∨ (g.n : Int) ≤ u) ∨ (v < 0 ∨ (g.n : Int) ≤ v)) ∧
    (g.add_undirected u v w = .error .invalidArgument ↔
      (0 ≤ u ∧ u < (g.n : Int) ∧ 0 ≤ v ∧ v < (g.n : Int)) ∧ w < 0) ∧
    ((0 ≤ u ∧ u < (g.n : Int) ∧ 0 ≤ v ∧ v < (g.n : Int)) → 0 ≤ w →
      ∃ g1, g.add_undirected u v w = .ok g1 ∧ g1.n = g.n ∧ g1.adj.length = g.adj.length ∧
        ∀ x, g1.nbrs x = g.nbrs x ++ (if x = u.toNat then [⟨v.toNat, w⟩] else [])
          ++ (if x = v.toNat then [⟨u.toNat, w⟩] else [])) := by
  by_cases hr : u < 0 ∨ v < 0 ∨ u ≥ (g.n : Int) ∨ v ≥ (g.n : Int)
  · have h : g.add_undirected u v w = .error .outOfRange := by
      simp only [add_undirected, hr, if_true]
    rw [h]
    refine ⟨⟨fun _ => by omega, fun _ => rfl⟩, ⟨fun h => by simp at h, fun h => by omega⟩,
      fun h => by omega⟩
  · by_cases hw : w < 0
    · have h : g.add_undirected u v w = .error .invalidArgument := by
        simp only [add_undirected, hr, if_false, hw, if_true]
      rw [h]
      refine ⟨⟨fun h => by simp at h, fun h => by omega⟩, ⟨fun _ => ⟨by omega, hw⟩, fun _ => rfl⟩,
        fun _ h0 => absurd hw (not_lt.mpr h0)⟩
    · have h : g.add_undirected u v w = .ok ⟨g.n,
          (g.adj.modify (fun l => l ++ [⟨v.toNat, w⟩]) u.toNat).modify
            (fun l => l ++ [⟨u.toNat, w⟩]) v.toNat⟩ := by
        simp only [add_undirected, hr, if_false, hw]
      rw [h]
      refine ⟨⟨fun h => by simp at h, fun h => by omega⟩,
        ⟨fun h => by simp at h, fun h => absurd h.2 hw⟩, fun _ _ => ⟨_, rfl, rfl, by simp, ?_⟩⟩
      intro x
      unfold nbrs
      simp only
      rw [STMinCutSolver.getD_modify_append _ _ _ _ (by simp [hlen]; omega),
        STMinCutSolver.getD_modify_append _ _ _ _ (by rw [hlen]; omega)]

set_option maxRecDepth 100000 in
/-- Witness for C14 on the demonstration graph with the call `add_undirected(1, 1, 5)`. -/
theorem add_undirected_contract_witness :
    demoGraph.adj.length = demoGraph.n ∧
    ((demoGraph.add_undirected 1 1 5 = .error .outOfRange ↔
      ((1 : Int) < 0 ∨ (demoGraph.n : Int) ≤ 1) ∨ ((1 : Int) < 0 ∨ (demoGraph.n : Int) ≤ 1)) ∧
    (demoGraph.add_undirected 1 1 5 = .error .invalidArgument ↔
      (0 ≤ (1 : Int) ∧ (1 : Int) < (demoGraph.n : Int) ∧ 0 ≤ (1 : Int)
        ∧ (1 : Int) < (demoGraph.n : Int)) ∧ (5 : Weight) < 0) ∧
    ((0 ≤ (1 : Int) ∧ (1 : Int) < (demoGraph.n : Int) ∧ 0 ≤ (1 : Int)
        ∧ (1 : Int) < (demoGraph.n : Int)) → 0 ≤ (5 : Weight) →
      ∃ g1, demoGraph.add_undirected 1 1 5 = .ok g1 ∧ g1.n = demoGraph.n ∧
        g1.adj.length = demoGraph.adj.length ∧
        ∀ x, g1.nbrs x = demoGraph.nbrs x ++ (if x = (1 : Int).toNat then [⟨(1 : Int).toNat, 5⟩] else [])
          ++ (if x = (1 : Int).toNat then [⟨(1 : Int).toNat, 5⟩] else []))) :=
  ⟨by decide, add_undirected_contract demoGraph 1 1 5 (by decide)⟩

theorem BuiltBy.Built {n : Nat} {calls : List (Int × Int × Weight)} {g : WeightedGraph}
    (h : BuiltBy n calls g) : g.Built := by
  induction h with
  | init => exact Built.init n
  | add u v w _ hadd ih => exact Built.add u v w ih hadd

theorem ofEdges_append (n : Nat) (es : List (Int × Int × Weight)) (c : Int × Int × Weight) :
    ofEdges n (es ++ [c]) = match (ofEdges n es).add_undirected c.1 c.2.1 c.2.2 with
      | .ok g1 => g1
      | .error _ => ofEdges n es := by
  unfold ofEdges
  rw [List.foldl_append]
  rfl

theorem ofEdges_n (n : Nat) (es : List (Int × Int × Weight)) : (ofEdges n es).n = n := by
  induction es using List.reverseRecOn with
  | nil => rfl
  | append_singleton es c ih =>
    rw [ofEdges_append]
    cases h : (ofEdges n es).add_undirected c.1 c.2.1 c.2.2 with
    | ok g1 =>
      simp only
      rw [(add_undirected_inv _ _ _ _ _ h).2.2.2.2.2]
      exact ih
    | error _ => exact ih

/-- A list of calls that all pass the checks builds `ofEdges` call by call. -/
theorem ofEdges_BuiltBy (n : Nat) (es : List (Int × Int × Weight))
    (hv : ∀ c ∈ es, ValidCall n c) : BuiltBy n es (ofEdges n es) := by
  induction es using List.reverseRecOn with
  | nil => exact BuiltBy.init
  | append_singleton es c ih =>
    have hc := hv c (by simp)
    have hprev := ih (fun a ha => hv a (by simp [ha]))
    obtain ⟨c1, c2, c3, c4, c5⟩ := hc
    have hok := add_undirected_ok (ofEdges n es) c.1.toNat c.2.1.toNat c.2.2
      (by rw [ofEdges_n]; omega) (by rw [ofEdges_n]; omega) c5
    rw [Int.toNat_of_nonneg c1, Int.toNat_of_nonneg c3] at hok
    rw [ofEdges_append, hok]
    exact BuiltBy.add c.1 c.2.1 c.2.2 hprev hok

end WeightedGraph

/-! ## Cut weight and degree order -/

/-- C15: for every graph obtained from the empty `n`-vertex graph by a sequence `calls` of
successful `add_undirected(u, v, w)` calls (parallel edges and self-loops allowed) whose total
edge weight is at most the 64-bit maximum (every partial sum of `cut_weight_undirected` adds up
some of these non-negative weights, so none leaves the range of `Weight`) and every labeling
`part`, `cut_weight_undirected(g, part)` is the sum of `w` over the calls `(u, v, w)` with
`part[u] != part[v]`: every undirected edge is counted once; the value lies in `[0, 2^63 - 1]`. -/
theorem cut_weight_counts_each_call_once (n : Nat) (calls : List (Int × Int × Weight))
    (g : WeightedGraph) (h : WeightedGraph.BuiltBy n calls g)
    (hsum : g.total_weight ≤ WEIGHT_MAX) (part : List Int) :
    cut_weight_undirected g part
      = ((calls.filter fun c => decide (part.getD c.1.toNat 0 ≠ part.getD c.2.1.toNat 0)).map
          fun c => c.2.2).sum ∧
    0 ≤ cut_weight_undirected g part ∧ cut_weight_undirected g part ≤ WEIGHT_MAX := by
  have hrange := cut_weight_range g h.Built.WF part
  refine ⟨?_, hrange.1, le_trans hrange.2 hsum⟩
  clear hrange hsum
  rw [STMinCutSolver.cut_weight_undirected_adjSum]
  induction h with
  | init => rw [STMinCutSolver.adjSum_init]; rfl
  | @add calls g g1 u v w hb hadd ih =>
    rw [STMinCutSolver.adjSum_add_undirected g g1 u v w hadd hb.Built.WF, ih, List.filter_append,
      List.map_append, List.sum_append]
    have hterm : (if u.toNat < v.toNat ∧ part.getD u.toNat 0 ≠ part.getD v.toNat 0 then (w : Int)
          else 0) + (if v.toNat < u.toNat ∧ part.getD v.toNat 0 ≠ part.getD u.toNat 0 then (w : Int)
          else 0)
        = (([(u, v, w)].filter fun c =>
            decide (part.getD c.1.toNat 0 ≠ part.getD c.2.1.toNat 0)).map fun c => c.2.2).sum := by
      by_cases hp : part.getD u.toNat 0 ≠ part.getD v.toNat 0
      · have hp2 : part.getD v.toNat 0 ≠ part.getD u.toNat 0 := fun e => hp e.symm
        have hne : u.toNat ≠ v.toNat := fun e => hp (by rw [e])
        simp only [List.filter_cons, hp, hp2, decide_True, and_true, if_true, ne_eq,
          not_false_eq_true, List.filter_nil, List.map_cons, List.map_nil, List.sum_cons,
          List.sum_nil]
        rcases Nat.lt_or_gt_of_ne hne with hlt | hgt
        · rw [if_pos hlt, if_neg (by omega)]
        · rw [if_neg (by omega), if_pos hgt]; ring
      · have he : part.getD u.toNat 0 = part.getD v.toNat 0 := not_not.mp hp
        simp [-List.getD_eq_getElem?_getD, he]
    rw [← hterm]
    ring

set_option maxRecDepth 100000 in
/-- Witness for C15: the demonstration graph with the labeling that splits its two 4-cycles. -/
theorem cut_weight_counts_each_call_once_witness :
    WeightedGraph.BuiltBy 8 demoCalls demoGraph ∧ demoGraph.total_weight ≤ WEIGHT_MAX ∧
    cut_weight_undirected demoGraph [0, 0, 0, 0, 1, 1, 1, 1]
      = ((demoCalls.filter fun c => decide (([0, 0, 0, 0, 1, 1, 1, 1] : List Int).getD c.1.toNat 0
          ≠ ([0, 0, 0, 0, 1, 1, 1, 1] : List Int).getD c.2.1.toNat 0)).map fun c => c.2.2).sum ∧
    0 ≤ cut_weight_undirected demoGraph [0, 0, 0, 0, 1, 1, 1, 1] ∧
    cut_weight_undirected demoGraph [0, 0, 0, 0, 1, 1, 1, 1] ≤ WEIGHT_MAX :=
  ⟨WeightedGraph.ofEdges_BuiltBy 8 demoCalls (by decide), by decide,
    cut_weight_counts_each_call_once 8 demoCalls demoGraph
      (WeightedGraph.ofEdges_BuiltBy 8 demoCalls (by decide)) (by decide)
      [0, 0, 0, 0, 1, 1, 1, 1]⟩

theorem dvLe_total (a b : Weight × Nat) : dvLe a b ∨ dvLe b a := by
  unfold dvLe
  rcases lt_trichotomy a.1 b.1 with h | h | h
  · right; left; exact h
  · rcases Nat.le_total a.2 b.2 with h2 | h2
    · left; right; exact ⟨h, h2⟩
    · right; right; exact ⟨h.symm, h2⟩
  · left; left; exact h

theorem dvLe_trans (a b c : Weight × Nat) (h1 : dvLe a b) (h2 : dvLe b c) : dvLe a c := by
  unfold dvLe at *
  unfold Weight at *
  omega

theorem internal_degree_eq_scan (g : WeightedGraph) (S : List Nat) (hr : ∀ v ∈ S, v < g.n)
    (a : Nat) :
    (g.nbrs a).foldl (fun d e => if (mark_in g.n S).getD e.to_ false then d + e.w else d) 0
      = internal_degree g S a := by
  have h := foldl_ite_add (g.nbrs a) (fun e => (mark_in g.n S).getD e.to_ false = true)
    (fun e => e.w) 0
  unfold internal_degree
  rw [zero_add] at h
  rw [h]
  congr 1
  apply List.map_congr_left
  intro e _
  have : ((mark_in g.n S).getD e.to_ false = true) ↔ e.to_ ∈ S := by
    rw [MinimumBisectionSolver.mark_in_getD]
    exact ⟨fun h => h.1, fun h => ⟨h, hr _ h⟩⟩
  by_cases hm : e.to_ ∈ S
  · rw [if_pos (this.mpr hm), if_pos hm]
  · rw [if_neg (fun h => hm (this.mp h)), if_neg hm]

set_option maxRecDepth 100000 in
/-- C16 as stated fails: with a self-loop on vertex 1 and no other edge, both vertices have
weight 0 to other members of `[0, 1]`, yet `order_by_internal_degree` places 1 before 0. -/
theorem order_counts_self_loops :
    loopGraph.Built ∧ ([0, 1] : List Nat).Nodup ∧ (∀ v ∈ ([0, 1] : List Nat), v < loopGraph.n) ∧
    order_by_internal_degree loopGraph [0, 1] = [1, 0] ∧
    other_degree loopGraph [0, 1] 0 = 0 ∧ other_degree loopGraph [0, 1] 1 = 0 ∧
    ¬ ((order_by_internal_degree loopGraph [0, 1]).Perm [0, 1] ∧
      OrderedBy (other_degree loopGraph [0, 1]) (order_by_internal_degree loopGraph [0, 1])) :=
  ⟨WeightedGraph.ofEdges_Built _ _, by decide, by decide, by decide, by decide, by decide,
    by decide⟩

/-- C16, amended: for every graph with non-negative weights (in particular every graph built by
`add_undirected`) and every duplicate-free list `S` of in-range vertices whose sort keys are at
most the 64-bit maximum (a key is the sum of the weights of a vertex's adjacency entries that
lead into `S`, entries of a self-loop on the vertex included; every partial sum of the key loop
adds up some of these non-negative weights, so none leaves the range of `Weight`), the output of
`order_by_internal_degree` is a permutation of `S` such that, for any `a` placed before `b`,
either the key of `a` is strictly greater than that of `b`, or the two keys are equal and
`a < b`; every key that is compared lies in `[0, 2^63 - 1]`. -/
theorem order_by_internal_degree_sorted (g : WeightedGraph) (hg : g.WF) (S : List Nat)
    (hnd : S.Nodup) (hr : ∀ v ∈ S, v < g.n)
    (hkey : ∀ v ∈ S, internal_degree g S v ≤ WEIGHT_MAX) :
    (order_by_internal_degree g S).Perm S ∧
    OrderedBy (internal_degree g S) (order_by_internal_degree g S) ∧
    ∀ v ∈ order_by_internal_degree g S,
      0 ≤ internal_degree g S v ∧ internal_degree g S v ≤ WEIGHT_MAX := by
  refine ⟨order_by_internal_degree_perm g S, ?_, fun v hv => ⟨?_,
    hkey v ((order_by_internal_degree_perm g S).mem_iff.mp hv)⟩⟩
  swap
  · unfold internal_degree
    apply List.sum_nonneg
    intro x hx
    obtain ⟨e, he, rfl⟩ := List.mem_map.mp hx
    split
    · exact (WeightedGraph.nbrs_mem_WF hg v e he).2
    · exact le_refl _
  have hnd2 : (order_by_internal_degree g S).Nodup :=
    (order_by_internal_degree_perm g S).nodup_iff.mpr hnd
  unfold OrderedBy
  unfold order_by_internal_degree at hnd2 ⊢
  simp only at hnd2 ⊢
  have hdv : (S.map fun v => ((g.nbrs v).foldl (fun d e =>
      if (mark_in g.n S).getD e.to_ false then d + e.w else d) (0 : Weight), v))
      = S.map fun v => (internal_degree g S v, v) := by
    apply List.map_congr_left
    intro v _
    rw [internal_degree_eq_scan g S hr v]
  rw [hdv] at hnd2 ⊢
  have hsorted : ((S.map fun v => (internal_degree g S v, v)).insertionSort dvLe).Pairwise dvLe :=
    @List.sorted_insertionSort _ dvLe _ ⟨dvLe_total⟩ ⟨dvLe_trans⟩ _
  have hne := List.pairwise_map.mp hnd2
  rw [List.pairwise_map]
  refine (hsorted.and hne).imp_of_mem ?_
  intro p q hp hq ⟨hle, hneq⟩
  have hmem : ∀ r ∈ (S.map fun v => (internal_degree g S v, v)).insertionSort dvLe,
      r.1 = internal_degree g S r.2 := by
    intro r hr
    have := (List.perm_insertionSort dvLe _).mem_iff.mp hr
    obtain ⟨v, _, rfl⟩ := List.mem_map.mp this
    rfl
  rw [← hmem p hp, ← hmem q hq]
  unfold dvLe at hle
  rcases hle with h | ⟨h1, h2⟩
  · left; exact h
  · right; exact ⟨h1, lt_of_le_of_ne h2 hneq⟩

set_option maxRecDepth 100000 in
/-- Witness for the amended C16: the demonstration graph and the subset `[2, 3, 4, 5]`. -/
theorem order_by_internal_degree_sorted_witness :
    demoGraph.WF ∧ ([2, 3, 4, 5] : List Nat).Nodup ∧
    (∀ v ∈ ([2, 3, 4, 5] : List Nat), v < demoGraph.n) ∧
    (∀ v ∈ ([2, 3, 4, 5] : List Nat), internal_degree demoGraph [2, 3, 4, 5] v ≤ WEIGHT_MAX) ∧
    (order_by_internal_degree demoGraph [2, 3, 4, 5]).Perm [2, 3, 4, 5] ∧
    OrderedBy (internal_degree demoGraph [2, 3, 4, 5])
      (order_by_internal_degree demoGraph [2, 3, 4, 5]) :=
  ⟨by decide, by decide, by decide, by decide,
    (order_by_internal_degree_sorted demoGraph (by decide) [2, 3, 4, 5] (by decide) (by decide)
      (by decide)).1,
    (order_by_internal_degree_sorted demoGraph (by decide) [2, 3, 4, 5] (by decide) (by decide)
      (by decide)).2.1⟩

/-! ## Single-vertex graphs -/

theorem cut_weight_single_vertex (g : WeightedGraph) (hg : g.WF) (hn : g.n = 1)
    (part : List Int) : cut_weight_undirected g part = 0 := by
  have h := STMinCutSolver.cut_weight_undirected_adjSum g part
  unfold STMinCutSolver.adjSum at h
  rw [hn] at h
  simp only [Finset.range_one, Finset.sum_singleton] at h
  rw [show cut_weight_undirected g part = (cut_weight_undirected g part : Int) from rfl, h]
  apply List.sum_eq_zero
  intro x hx
  obtain ⟨e, he, rfl⟩ := List.mem_map.mp hx
  have := (WeightedGraph.nbrs_mem_WF hg 0 e he).1
  rw [if_neg (by omega)]

theorem list_eq_singleton_zero (l : List Int) (hlen : l.length = 1) (h0 : l.getD 0 0 = 0) :
    l = [0] := by
  match l, hlen with
  | [a], _ =>
    simp only [List.getD_cons_zero] at h0
    rw [h0]

namespace MinimumBisectionSolver

theorem bisection_single_vertex (self : State) (g : WeightedGraph) (hg : g.WF) (hn : g.n = 1) :
    (result (solve self g)).part = [0] ∧ (result (solve self g)).cut_weight = 0 := by
  have hn0 : g.n ≠ 0 := by omega
  obtain ⟨h1, _, h3, _⟩ := bisection_on_subset_spec g (List.range g.n) self.max_passes_
    (List.nodup_range g.n) (fun v hv => List.mem_range.mp hv)
  have hpart : bisection_on_subset g (List.range g.n) self.max_passes_ = [0] := by
    apply list_eq_singleton_zero _ (by rw [h1, hn])
    rw [hn] at h3
    by_contra hne
    have : label_count (List.range 1) (bisection_on_subset g (List.range 1) self.max_passes_) 0
        = 0 := by
      unfold label_count
      rw [hn] at hne
      rw [show List.range 1 = [0] from rfl] at hne ⊢
      simp only [List.countP_cons, List.countP_nil, zero_add]
      rw [if_neg (by simpa using hne)]
    rw [this] at h3
    simp at h3
  simp only [solve, result, hn0, if_false, hpart]
  exact ⟨trivial, cut_weight_single_vertex g hg hn _⟩

end MinimumBisectionSolver

namespace KWayPartitionSolver

theorem kway_single_vertex (self : State) (g : WeightedGraph) (hg : g.WF) (hn : g.n = 1) :
    (result (solve self g)).part = [0] ∧ (result (solve self g)).cut_weight = 0 := by
  have hn0 : g.n ≠ 0 := by omega
  by_cases hk : max 1 self.k_ = 1
  · simp [solve, result, hn0, hk, hn]
  · obtain ⟨m, hm⟩ : ∃ m, (max 1 self.k_).toNat = m + 1 := ⟨(max 1 self.k_).toNat - 1, by omega⟩
    have hparts : split_loop g self.passes_ (max 1 self.k_) (m + 1) [List.range g.n]
        = [List.range g.n] := by
      rw [split_loop]
      simp [largest_idx, hn]
    have hlab : label_blocks g.n [List.range g.n] = [0] := by
      rw [hn]
      rfl
    simp only [solve, result, hn0, if_false, hk, hm, hparts, hlab]
    exact ⟨trivial, cut_weight_single_vertex g hg hn _⟩

end KWayPartitionSolver

set_option maxRecDepth 100000 in
/-- C17 as stated fails for the s-t solver: on the one-vertex graph, constructed with terminals
`(0, 0)`, `solve` raises `InvalidArgument` and leaves an empty labeling. -/
theorem single_vertex_st_raises :
    (WeightedGraph.init 1).Built ∧ (WeightedGraph.init 1).n = 1 ∧
    (STMinCutSolver.solve 8 ⟨0, 0, {}⟩ (WeightedGraph.init 1)).1
      = some (.error .invalidArgument) ∧
    (STMinCutSolver.result (STMinCutSolver.solve 8 ⟨0, 0, {}⟩ (WeightedGraph.init 1)).2).part = [] ∧
    ¬ ((STMinCutSolver.solve 8 ⟨0, 0, {}⟩ (WeightedGraph.init 1)).1 = some (.ok ()) ∧
      (STMinCutSolver.result (STMinCutSolver.solve 8 ⟨0, 0, {}⟩ (WeightedGraph.init 1)).2).part
        = [0]) :=
  ⟨WeightedGraph.Built.init 1, by decide, rfl, by decide, fun h => absurd h.2 (by decide)⟩

/-- C17, amended: for every well-formed graph with exactly one vertex, the global min-cut,
minimum-bisection, k-way (every `k`), multilevel k-way (every `k`) and vertex-separator
solvers complete `solve` without raising and return `part = [0]` with `cut_weight = 0`; the s-t
min-cut solver raises `InvalidArgument` whatever terminals it was constructed with (no two
distinct in-range terminals exist) and leaves the default result. -/
theorem single_vertex_trivial (g : WeightedGraph) (hg : g.WF) (hn : g.n = 1) :
    (∀ self : GlobalMinCutSolver.State,
      (GlobalMinCutSolver.result (GlobalMinCutSolver.solve self g)).part = [0] ∧
      (GlobalMinCutSolver.result (GlobalMinCutSolver.solve self g)).cut_weight = 0) ∧
    (∀ self : MinimumBisectionSolver.State,
      (MinimumBisectionSolver.result (MinimumBisectionSolver.solve self g)).part = [0] ∧
      (MinimumBisectionSolver.result (MinimumBisectionSolver.solve self g)).cut_weight = 0) ∧
    (∀ self : KWayPartitionSolver.State,
      (KWayPartitionSolver.result (KWayPartitionSolver.solve self g)).part = [0] ∧
      (KWayPartitionSolver.result (KWayPartitionSolver.solve self g)).cut_weight = 0) ∧
    (∀ (iter : MultilevelKWayPartitionSolver.MapOrder) (self : MultilevelKWayPartitionSolver.State),
      (MultilevelKWayPartitionSolver.solve iter self g).1 = .ok () ∧
      (MultilevelKWayPartitionSolver.result
        (MultilevelKWayPartitionSolver.solve iter self g).2).part = [0] ∧
      (MultilevelKWayPartitionSolver.result
        (MultilevelKWayPartitionSolver.solve iter self g).2).cut_weight = 0) ∧
    (∀ self : VertexSeparatorSolver.State,
      (VertexSeparatorSolver.result (VertexSeparatorSolver.solve self g)).part = [0] ∧
      (VertexSeparatorSolver.result (VertexSeparatorSolver.solve self g)).cut_weight = 0) ∧
    (∀ (fuel : Nat) (self : STMinCutSolver.State),
      STMinCutSolver.solve fuel self g
        = (some (.error .invalidArgument), { self with res_ := {} })) := by
  have hn0 : g.n ≠ 0 := by omega
  refine ⟨fun self => ?_, fun self => MinimumBisectionSolver.bisection_single_vertex self g hg hn,
    fun self => KWayPartitionSolver.kway_single_vertex self g hg hn, fun iter self => ?_,
    fun self => ?_, fun fuel self => ?_⟩
  · simp [GlobalMinCutSolver.solve, GlobalMinCutSolver.result, hn]
  · have hk : max 1 (min self.k_ (g.n : Int)) = 1 := by omega
    simp [MultilevelKWayPartitionSolver.solve, MultilevelKWayPartitionSolver.result, hn0, hk, hn]
  · obtain ⟨_, _, _, h4, h5⟩ := VertexSeparatorSolver.separator_solve_spec self g hg
    rw [h4, h5]
    exact MinimumBisectionSolver.bisection_single_vertex _ g hg hn
  · have hc : self.s_ < 0 ∨ self.t_ < 0 ∨ self.s_ ≥ (g.n : Int) ∨ self.t_ ≥ (g.n : Int)
        ∨ self.s_ = self.t_ := by omega
    simp only [STMinCutSolver.solve, hn0, if_false, hc, if_true]

set_option maxRecDepth 100000 in
/-- Witness for the amended C17: one vertex carrying a self-loop of weight 2. -/
theorem single_vertex_trivial_witness :
    (WeightedGraph.ofEdges 1 [(0, 0, 2)]).WF ∧ (WeightedGraph.ofEdges 1 [(0, 0, 2)]).n = 1 ∧
    (∀ self : MinimumBisectionSolver.State,
      (MinimumBisectionSolver.result
        (MinimumBisectionSolver.solve self (WeightedGraph.ofEdges 1 [(0, 0, 2)]))).part = [0]) ∧
    (∀ (fuel : Nat) (self : STMinCutSolver.State),
      STMinCutSolver.solve fuel self (WeightedGraph.ofEdges 1 [(0, 0, 2)])
        = (some (.error .invalidArgument), { self with res_ := {} })) :=
  ⟨by decide, by decide,
    fun self => ((single_vertex_trivial (WeightedGraph.ofEdges 1 [(0, 0, 2)]) (by decide)
      (by decide)).2.1 self).1,
    (single_vertex_trivial (WeightedGraph.ofEdges 1 [(0, 0, 2)]) (by decide) (by decide)).2.2.2.2.2⟩

/-! ## The demonstration run -/

namespace STMinCutSolver

theorem reach_loop_mono (g : List (List E)) (fuel : Nat) :
    ∀ (vis : List Bool) (q : List Nat) (r : List Bool), reach_loop g fuel vis q = some r →
      ∀ k, reach_loop g (fuel + k) vis q = some r := by
  induction fuel with
  | zero =>
    intro vis q r h k
    cases q with
    | nil =>
      cases k <;> simpa [reach_loop] using h
    | cons u q => simp [reach_loop] at h
  | succ fuel ih =>
    intro vis q r h k
    cases q with
    | nil =>
      simp only [reach_loop] at h ⊢
      exact h
    | cons u q =>
      rw [Nat.add_right_comm]
      simp only [reach_loop] at h ⊢
      exact ih _ _ r h k

/-- A run of `solve` that ends is not changed by more fuel. -/
theorem st_solve_mono (N : Nat) (self : State) (g : WeightedGraph)
    (r : Except SolverError Unit) (st : State) (h : solve N self g = (some r, st)) :
    ∀ fuel, N ≤ fuel → solve fuel self g = (some r, st) := by
  intro fuel hf
  unfold solve at h ⊢
  simp only at h ⊢
  by_cases hn : g.n = 0
  · simp only [hn, if_true] at h ⊢
    exact h
  · simp only [hn, if_false] at h ⊢
    by_cases hc : self.s_ < 0 ∨ self.t_ < 0 ∨ self.s_ ≥ (g.n : Int) ∨ self.t_ ≥ (g.n : Int)
        ∨ self.s_ = self.t_
    · simp only [hc, if_true] at h ⊢
      exact h
    · simp only [hc, if_false] at h ⊢
      cases hm : (build_network g).maxflow N self.s_.toNat self.t_.toNat with
      | none => rw [hm] at h; simp at h
      | some fd =>
        obtain ⟨flow, d1⟩ := fd
        rw [hm] at h
        have hm2 : (build_network g).maxflow fuel self.s_.toNat self.t_.toNat = some (flow, d1) := by
          unfold Dinic.maxflow at hm ⊢
          have := maxflow_loop_mono _ _ N fuel hf N _ 0 _ hm (fuel - N)
          rw [Nat.add_sub_cancel' hf] at this
          exact this
        rw [hm2]
        simp only at h ⊢
        cases hr : d1.reachable_from N self.s_.toNat with
        | none => rw [hr] at h; simp at h
        | some vis =>
          rw [hr] at h
          have hr2 : d1.reachable_from fuel self.s_.toNat = some vis := by
            unfold Dinic.reachable_from at hr ⊢
            have := reach_loop_mono _ N _ _ vis hr (fuel - N)
            rw [Nat.add_sub_cancel' hf] at this
            exact this
          rw [hr2]
          exact h

end STMinCutSolver

set_option maxRecDepth 1000000 in
/-- C18: on the 8-vertex demonstration graph of `main`, `GlobalMinCutSolver::solve` reports
`cut_weight = 2`, and `STMinCutSolver(0, 6)::solve` returns normally (for every fuel of at
least 13) and reports `cut_weight = 2`. -/
theorem demo_exact_cuts :
    demoGraph = WeightedGraph.ofEdges 8 demoCalls ∧
    (GlobalMinCutSolver.result (GlobalMinCutSolver.solve {} demoGraph)).cut_weight = 2 ∧
    ∀ fuel, 13 ≤ fuel →
      (STMinCutSolver.solve fuel ⟨0, 6, {}⟩ demoGraph).1 = some (.ok ()) ∧
      (STMinCutSolver.result (STMinCutSolver.solve fuel ⟨0, 6, {}⟩ demoGraph).2).cut_weight = 2 := by
  refine ⟨rfl, by decide, fun fuel hf => ?_⟩
  have h13 : STMinCutSolver.solve 13 ⟨0, 6, {}⟩ demoGraph
      = (some (.ok ()), ⟨0, 6, { part := [0, 0, 0, 0, 1, 1, 1, 1], cut_weight := 2 }⟩) := by rfl
  rw [STMinCutSolver.st_solve_mono 13 _ _ _ _ h13 fuel hf]
  exact ⟨rfl, rfl⟩

/-- Witness for C18 at fuel 13. -/
theorem demo_exact_cuts_witness :
    13 ≤ 13 ∧
    (STMinCutSolver.solve 13 ⟨0, 6, {}⟩ demoGraph).1 = some (.ok ()) ∧
    (STMinCutSolver.result (STMinCutSolver.solve 13 ⟨0, 6, {}⟩ demoGraph).2).cut_weight = 2 :=
  ⟨Nat.le_refl 13, demo_exact_cuts.2.2 13 (Nat.le_refl 13)⟩

/-! ## Heuristic solvers on the demonstration graph -/

namespace MinimumBisectionSolver

theorem passes_succ (g : WeightedGraph) (S : List Nat) (inn : List Bool) (k : Nat)
    (part : List Int) :
    passes g S inn (k + 1) part =
      match (best_swap g S part (compute_D g inn part)).best_u,
        (best_swap g S part (compute_D g inn part)).best_v with
      | some u, some v =>
        if (best_swap g S part (compute_D g inn part)).best_gain > 0
        then passes g S inn k (swap_labels part u v) else part
      | _, _ => part := rfl

/-- A labeling on which one pass changes nothing is left alone by any number of passes. -/
theorem passes_fix (g : WeightedGraph) (S : List Nat) (inn : List Bool) (part : List Int)
    (h : passes g S inn 1 part = part) : ∀ b, passes g S inn b part = part := by
  intro b
  induction b with
  | zero => rfl
  | succ b ih =>
    rw [passes_succ] at h ⊢
    split
    · rename_i u v hu hv
      rw [hu, hv] at h
      simp only at h
      split
      · rename_i hg
        rw [if_pos hg] at h
        have h2 : swap_labels part u v = part := h
        rw [h2]
        exact ih
      · rfl
    · rfl

theorem passes_add (g : WeightedGraph) (S : List Nat) (inn : List Bool) (a : Nat) :
    ∀ (b : Nat) (part : List Int),
      passes g S inn (a + b) part = passes g S inn b (passes g S inn a part) := by
  induction a with
  | zero => intro b part; rw [Nat.zero_add]; rfl
  | succ a ih =>
    intro b part
    rw [Nat.add_right_comm, passes_succ, passes_succ]
    split
    · split
      · exact ih b _
      · rename_i u v hu hv hg
        symm
        apply passes_fix
        rw [passes_succ, hu, hv]
        simp only
        rw [if_neg hg]
    · rename_i hnone
      symm
      apply passes_fix
      rw [passes_succ]
      split
      · rename_i u v hu hv
        exact absurd hv (by
          intro hv2
          exact hnone u v hu hv2)
      · rfl

/-- Once a pass changes nothing, a larger pass count gives the same bisection. -/
theorem bisection_stable (g : WeightedGraph) (S : List Nat) (k : Nat)
    (hfix : passes g S (mark_in g.n S) 1
        (passes g S (mark_in g.n S) k
          (initial_part g.n ((S.length + 1) / 2) (order_by_internal_degree g S)))
      = passes g S (mark_in g.n S) k
          (initial_part g.n ((S.length + 1) / 2) (order_by_internal_degree g S)))
    (p : Int) (hp : (k : Int) ≤ p) :
    bisection_on_subset g S p = bisection_on_subset g S k := by
  unfold bisection_on_subset
  simp only
  have : p.toNat = k + (p.toNat - k) := by omega
  rw [this, passes_add, passes_fix g S _ _ hfix]
  rfl

theorem bisection_nonpos (g : WeightedGraph) (S : List Nat) (p : Int) (hp : p ≤ 0) :
    bisection_on_subset g S p = bisection_on_subset g S 0 := by
  unfold bisection_on_subset
  simp only
  have : p.toNat = 0 := by omega
  rw [this]
  rfl

end MinimumBisectionSolver

namespace KWayPartitionSolver

/-- One iteration of the splitting loop that does not `break`. -/
theorem split_step (g : WeightedGraph) (p k : Int) (fuel : Nat) (parts : List (List Nat))
    (S : List Nat) (bi : List Int) (parts1 : List (List Nat))
    (hlen : (parts.length : Int) < k)
    (hS : parts.getD (largest_idx parts) [] = S) (hS1 : ¬ S.length ≤ 1)
    (hbi : MinimumBisectionSolver.bisection_on_subset g S p = bi)
    (hAB : ¬ ((S.filter fun v => bi.getD v 0 = 0).isEmpty ∨
      (S.filter fun v => ¬ bi.getD v 0 = 0).isEmpty))
    (hparts : parts.set (largest_idx parts) (S.filter fun v => bi.getD v 0 = 0)
      ++ [S.filter fun v => ¬ bi.getD v 0 = 0] = parts1) :
    split_loop g p k (fuel + 1) parts = split_loop g p k fuel parts1 := by
  rw [split_loop]
  simp only [hlen, if_true, hS, hS1, if_false, hbi, hAB, hparts]

theorem split_done (g : WeightedGraph) (p k : Int) (fuel : Nat) (parts : List (List Nat))
    (hlen : ¬ (parts.length : Int) < k) : split_loop g p k fuel parts = parts := by
  cases fuel with
  | zero => rfl
  | succ fuel =>
    rw [split_loop]
    simp only [hlen, if_false]

theorem kway_solve_eq (k p : Int) (r : PartitionResult) (g : WeightedGraph) (hn : g.n ≠ 0)
    (hk : max 1 k ≠ 1) :
    solve ⟨k, p, r⟩ g = ⟨k, p,
      { part := label_blocks g.n (split_loop g p (max 1 k) (max 1 k).toNat [List.range g.n])
        cut_weight := cut_weight_undirected g
          (label_blocks g.n (split_loop g p (max 1 k) (max 1 k).toNat [List.range g.n])) }⟩ := by
  simp only [solve, hn, if_false, hk]

set_option maxRecDepth 1000000 in
/-- Blocks produced for the demonstration graph with `k = 3`. -/
theorem demo_split (p : Int) :
    split_loop demoGraph p 3 3 [List.range 8]
      = if p ≤ 0 then [[2, 3], [0, 1, 4, 7], [5, 6]] else [[2, 3], [0, 1, 6, 7], [4, 5]] := by
  by_cases hp : p ≤ 0
  · rw [if_pos hp]
    have e0 : MinimumBisectionSolver.bisection_on_subset demoGraph (List.range 8) p
        = [1, 1, 0, 0, 1, 0, 0, 1] := by
      rw [MinimumBisectionSolver.bisection_nonpos _ _ p hp]; decide
    have e1 : MinimumBisectionSolver.bisection_on_subset demoGraph [2, 3, 5, 6] p
        = [0, 0, 0, 0, 0, 1, 1, 0] := by
      rw [MinimumBisectionSolver.bisection_nonpos _ _ p hp]; decide
    rw [split_step demoGraph p 3 2 [List.range 8] (List.range 8) _ [[2, 3, 5, 6], [0, 1, 4, 7]]
        (by decide) (by decide) (by decide) e0 (by decide) (by decide),
      split_step demoGraph p 3 1 _ [2, 3, 5, 6] _ [[2, 3], [0, 1, 4, 7], [5, 6]]
        (by decide) (by decide) (by decide) e1 (by decide) (by decide),
      split_done _ _ _ _ _ (by decide)]
  · rw [if_neg hp]
    have hp1 : ((1 : Nat) : Int) ≤ p := by omega
    have e0 : MinimumBisectionSolver.bisection_on_subset demoGraph (List.range 8) p
        = [1, 1, 0, 0, 0, 0, 1, 1] := by
      rw [MinimumBisectionSolver.bisection_stable _ _ 1 (by decide) p hp1]; decide
    have e1 : MinimumBisectionSolver.bisection_on_subset demoGraph [2, 3, 4, 5] p
        = [0, 0, 0, 0, 1, 1, 0, 0] := by
      rw [MinimumBisectionSolver.bisection_stable _ _ 1 (by decide) p hp1]; decide
    rw [split_step demoGraph p 3 2 [List.range 8] (List.range 8) _ [[2, 3, 4, 5], [0, 1, 6, 7]]
        (by decide) (by decide) (by decide) e0 (by decide) (by decide),
      split_step demoGraph p 3 1 _ [2, 3, 4, 5] _ [[2, 3], [0, 1, 6, 7], [4, 5]]
        (by decide) (by decide) (by decide) e1 (by decide) (by decide),
      split_done _ _ _ _ _ (by decide)]

set_option maxRecDepth 1000000 in
/-- Cut weight reported by `KWayPartitionSolver(3, p)` on the demonstration graph. -/
theorem demo_kway_cut (p : Int) :
    (result (solve ⟨3, p, {}⟩ demoGraph)).cut_weight = if p ≤ 0 then 12 else 8 := by
  rw [kway_solve_eq 3 p {} demoGraph (by decide) (by decide)]
  simp only [result]
  have h := demo_split p
  have hshape : split_loop demoGraph p (max 1 3) (max 1 (3 : Int)).toNat [List.range demoGraph.n]
      = split_loop demoGraph p 3 3 [List.range 8] := rfl
  rw [hshape, h]
  by_cases hp : p ≤ 0
  · rw [if_pos hp, if_pos hp]; decide
  · rw [if_neg hp, if_neg hp]; decide

end KWayPartitionSolver

set_option maxRecDepth 1000000 in
/-- C19 as stated fails: on the demonstration graph the cut between the two 4-cycles weighs 2,
while `MinimumBisectionSolver` (20 passes) reports 6, above that bound. -/
theorem demo_bisection_above_cycle_cut :
    demoGraph = WeightedGraph.ofEdges 8 demoCalls ∧
    cut_weight_undirected demoGraph [0, 0, 0, 0, 1, 1, 1, 1] = 2 ∧
    (MinimumBisectionSolver.result (MinimumBisectionSolver.solve {} demoGraph)).cut_weight = 6 ∧
    ¬ ((MinimumBisectionSolver.result (MinimumBisectionSolver.solve {} demoGraph)).cut_weight
      ≤ cut_weight_undirected demoGraph [0, 0, 0, 0, 1, 1, 1, 1]) :=
  ⟨rfl, by decide, by decide, by decide⟩

set_option maxRecDepth 1000000 in
/-- C19, amended: on the demonstration graph the `cut_weight` reported by
`MinimumBisectionSolver` (default 20 passes), by `KWayPartitionSolver(3)` (for every bisection
pass count `p`) and by `VertexSeparatorSolver` (default 15 passes) is in each case at least 2;
the values are 6, 8 (12 when `p <= 0`) and 6, all above the weight 2 of the cut between the two
4-cycles. -/
theorem demo_heuristic_cuts (p : Int) :
    (MinimumBisectionSolver.result (MinimumBisectionSolver.solve {} demoGraph)).cut_weight = 6 ∧
    (KWayPartitionSolver.result (KWayPartitionSolver.solve ⟨3, p, {}⟩ demoGraph)).cut_weight
      = (if p ≤ 0 then 12 else 8) ∧
    (VertexSeparatorSolver.result (VertexSeparatorSolver.solve {} demoGraph)).cut_weight = 6 ∧
    2 ≤ (MinimumBisectionSolver.result (MinimumBisectionSolver.solve {} demoGraph)).cut_weight ∧
    2 ≤ (KWayPartitionSolver.result (KWayPartitionSolver.solve ⟨3, p, {}⟩ demoGraph)).cut_weight ∧
    2 ≤ (VertexSeparatorSolver.result (VertexSeparatorSolver.solve {} demoGraph)).cut_weight := by
  have hk := KWayPartitionSolver.demo_kway_cut p
  refine ⟨by decide, hk, by decide, by decide, ?_, by decide⟩
  rw [hk]
  split <;> decide

set_option maxRecDepth 1000000 in
/-- C20 fails on a graph with parallel edges: with the edge 0-1 of weight 3 and two parallel
edges 0-2 of weights 1 and 2, zero passes leave the labeling `[0, 0, 1]` of cut weight 3; the
first pass computes the gain of swapping 0 and 2 from the first parallel edge only
(`D[0] + D[2] - 2 * 1 = 1 > 0`), swaps, and the cut weight becomes 6. -/
theorem kl_swap_worsens_cut :
    multiGraph.Built ∧
    (MinimumBisectionSolver.result (MinimumBisectionSolver.solve ⟨0, {}⟩ multiGraph)).part
      = [0, 0, 1] ∧
    (MinimumBisectionSolver.result (MinimumBisectionSolver.solve ⟨0, {}⟩ multiGraph)).cut_weight
      = 3 ∧
    MinimumBisectionSolver.compute_D multiGraph (mark_in 3 [0, 1, 2]) [0, 0, 1] = [0, -3, 3] ∧
    MinimumBisectionSolver.first_weight multiGraph 0 2 = 1 ∧
    (MinimumBisectionSolver.result (MinimumBisectionSolver.solve ⟨1, {}⟩ multiGraph)).part
      = [1, 0, 0] ∧
    (MinimumBisectionSolver.result (MinimumBisectionSolver.solve ⟨1, {}⟩ multiGraph)).cut_weight
      = 6 ∧
    ¬ ((MinimumBisectionSolver.result (MinimumBisectionSolver.solve ⟨1, {}⟩ multiGraph)).cut_weight
      ≤ (MinimumBisectionSolver.result
          (MinimumBisectionSolver.solve ⟨0, {}⟩ multiGraph)).cut_weight) :=
  ⟨WeightedGraph.ofEdges_Built _ _, by decide, by decide, by decide, by decide, by decide,
    by decide, by decide⟩

/-! ## Multilevel solver without coarsening -/

namespace MultilevelKWayPartitionSolver

theorem coarsen_loop_small (iter : MapOrder) (min_coarse : Int) (fuel : Nat) (g : WeightedGraph)
    (h : (g.n : Int) ≤ min_coarse ∨ fuel = 0) :
    coarsen_loop iter min_coarse fuel [g] [] = .ok ([g], []) := by
  cases fuel with
  | zero => rfl
  | succ fuel =>
    rcases h with h | h
    · rw [coarsen_loop]
      have : ¬ ((g.n : Int) > min_coarse) := by omega
      simp [this]
    · omega

theorem uncoarsen_single (g : WeightedGraph) (k rp : Int) (part : List Int) :
    uncoarsen [g] [] k rp part = part := rfl

/-- C25: for every graph with `n >= 1` and every `k`, with `k_eff = max(1, min(k, n))`: if
`n <= max(2 * k_eff, 20)` or `max_levels <= 0`, the coarsening loop of
`MultilevelKWayPartitionSolver(k, bp, rp, ml)::solve` pushes no graph, the uncoarsening loop
(the only caller of `refine_partition`) does not run, and the solver returns normally with
exactly the `part` and `cut_weight` of `KWayPartitionSolver(k_eff, bp)`, for every `rp` and
every iteration order of the hash maps. -/
theorem multilevel_small_is_kway (iter : MapOrder) (self : State) (g : WeightedGraph)
    (hn : 1 ≤ g.n)
    (hsmall : (g.n : Int) ≤ max (2 * max 1 (min self.k_ g.n)) 20 ∨ self.max_levels_ ≤ 0) :
    coarsen_loop iter (max (2 * max 1 (min self.k_ g.n)) 20) self.max_levels_.toNat [g] []
      = .ok ([g], []) ∧
    (solve iter self g).1 = .ok () ∧
    (result (solve iter self g).2).part = (KWayPartitionSolver.result
      (KWayPartitionSolver.solve ⟨max 1 (min self.k_ g.n), self.bisection_passes_, {}⟩ g)).part ∧
    (result (solve iter self g).2).cut_weight = (KWayPartitionSolver.result
      (KWayPartitionSolver.solve ⟨max 1 (min self.k_ g.n), self.bisection_passes_, {}⟩ g)).cut_weight := by
  have hn0 : g.n ≠ 0 := by omega
  have hloop := coarsen_loop_small iter (max (2 * max 1 (min self.k_ g.n)) 20)
    self.max_levels_.toNat g (by
      rcases hsmall with h | h
      · left; exact h
      · right; omega)
  refine ⟨hloop, ?_⟩
  by_cases hk : max 1 (min self.k_ (g.n : Int)) = 1
  · simp [solve, result, hn0, hk, KWayPartitionSolver.solve, KWayPartitionSolver.result]
  · have hk2 : max 1 (max 1 (min self.k_ (g.n : Int))) ≠ 1 := by omega
    have hbase := KWayPartitionSolver.kway_solve_eq (max 1 (min self.k_ (g.n : Int)))
      self.bisection_passes_ {} g hn0 hk2
    have hlast : ([g] : List WeightedGraph).getLastD (WeightedGraph.init 0) = g := rfl
    simp only [solve, result, hn0, if_false, hk, hloop, uncoarsen_single,
      KWayPartitionSolver.result, hlast, hbase]
    exact ⟨trivial, trivial, trivial⟩

set_option maxRecDepth 1000000 in
/-- Witness for C25 on the demonstration graph with `k = 3`. -/
theorem multilevel_small_is_kway_witness :
    1 ≤ demoGraph.n ∧
    ((demoGraph.n : Int) ≤ max (2 * max 1 (min (3 : Int) demoGraph.n)) 20 ∨ (10 : Int) ≤ 0) ∧
    (solve id ⟨3, 8, 4, 10, {}⟩ demoGraph).1 = .ok () ∧
    (result (solve id ⟨3, 8, 4, 10, {}⟩ demoGraph).2).part = (KWayPartitionSolver.result
      (KWayPartitionSolver.solve ⟨max 1 (min (3 : Int) demoGraph.n), 8, {}⟩ demoGraph)).part ∧
    (result (solve id ⟨3, 8, 4, 10, {}⟩ demoGraph).2).cut_weight = (KWayPartitionSolver.result
      (KWayPartitionSolver.solve ⟨max 1 (min (3 : Int) demoGraph.n), 8, {}⟩ demoGraph)).cut_weight :=
  ⟨by decide, Or.inl (by decide),
    (multilevel_small_is_kway id ⟨3, 8, 4, 10, {}⟩ demoGraph (by decide) (Or.inl (by decide))).2⟩

/-- The cut weight stored by `solve` is representable when the adjacency entries sum to at most
the 64-bit maximum. -/
theorem multilevel_cut_fits (iter : MapOrder) (hiter : iter.Legal) (self : State)
    (g : WeightedGraph) (hg : g.WF) (hsum : g.entry_weight ≤ WEIGHT_MAX) :
    0 ≤ (result (solve iter self g).2).cut_weight ∧
    (result (solve iter self g).2).cut_weight ≤ WEIGHT_MAX := by
  unfold solve result
  by_cases hn : g.n = 0
  · simp only [hn, if_true]
    exact ⟨by decide, by decide⟩
  · simp only [hn, if_false]
    by_cases hk : max 1 (min self.k_ (g.n : Int)) = 1
    · simp only [hk, if_true]
      exact ⟨by decide, by decide⟩
    · simp only [hk, if_false]
      obtain ⟨rest1, maps1, hloop⟩ := coarsen_loop_spec iter hiter
        (max (2 * max 1 (min self.k_ (g.n : Int))) 20) g self.max_levels_.toNat [] []
        (fun x hx => by simp at hx; subst hx; exact hg)
      rw [hloop]
      exact cut_weight_fits g hg hsum _

/-- C10: on a graph built by `add_undirected` whose adjacency entries sum to at most the 64-bit
maximum (so that no degree, coarse edge weight, gain or cut weight formed on any level leaves the
range of `Weight`), for every iteration order of the hash maps and every `k`,
`bisection_passes`, `refine_passes`, `max_levels`, `MultilevelKWayPartitionSolver::solve`
completes without an exception, its labeling has one label per vertex, each in `[0, k_eff)`
with `k_eff = max(1, min(k, n))`, and the stored `cut_weight` lies in `[0, 2^63 - 1]`. -/
theorem solve_labels_in_clamped_range (iter : MapOrder) (hiter : iter.Legal) (self : State)
    (g : WeightedGraph) (hb : g.Built) (hsum : g.entry_weight ≤ WEIGHT_MAX) :
    (solve iter self g).1 = .ok () ∧
    (result (solve iter self g).2).part.length = g.n ∧
    (∀ x ∈ (result (solve iter self g).2).part, 0 ≤ x ∧ x < max 1 (min self.k_ g.n)) ∧
    0 ≤ (result (solve iter self g).2).cut_weight ∧
    (result (solve iter self g).2).cut_weight ≤ WEIGHT_MAX :=
  ⟨(multilevel_solve_spec iter hiter self g hb.WF).1,
    (multilevel_solve_spec iter hiter self g hb.WF).2.1,
    (multilevel_solve_spec iter hiter self g hb.WF).2.2,
    multilevel_cut_fits iter hiter self g hb.WF hsum⟩

set_option maxRecDepth 100000 in
/-- Witness for C10: the 22-vertex cycle, `k = 3`, default pass counts, insertion-order maps. -/
theorem solve_labels_in_clamped_range_witness :
    MapOrder.Legal id ∧ cycleGraph.Built ∧ cycleGraph.entry_weight ≤ WEIGHT_MAX ∧
    ((solve id ⟨3, 8, 4, 10, {}⟩ cycleGraph).1 = .ok () ∧
    (result (solve id ⟨3, 8, 4, 10, {}⟩ cycleGraph).2).part.length = cycleGraph.n ∧
    (∀ x ∈ (result (solve id ⟨3, 8, 4, 10, {}⟩ cycleGraph).2).part,
      0 ≤ x ∧ x < max 1 (min (3 : Int) cycleGraph.n)) ∧
    0 ≤ (result (solve id ⟨3, 8, 4, 10, {}⟩ cycleGraph).2).cut_weight ∧
    (result (solve id ⟨3, 8, 4, 10, {}⟩ cycleGraph).2).cut_weight ≤ WEIGHT_MAX) :=
  ⟨fun l => List.Perm.refl l, WeightedGraph.ofEdges_Built _ _, by decide,
    solve_labels_in_clamped_range id (fun l => List.Perm.refl l) ⟨3, 8, 4, 10, {}⟩ cycleGraph
      (WeightedGraph.ofEdges_Built _ _) (by decide)⟩

end MultilevelKWayPartitionSolver

namespace MultilevelKWayPartitionSolver

/-! ## Refinement: block sizes -/

/-- Result of the scan over target blocks: either no move, or a block other than `p` with room
below `max_size` and a strictly positive gain. -/
theorem best_move_spec (weights : List Weight) (sizes : List Int) (k max_size p : Int) :
    ((best_move weights sizes k max_size p).1 = p ∧ (best_move weights sizes k max_size p).2 = 0) ∨
    ((best_move weights sizes k max_size p).1 ≠ p ∧
      0 ≤ (best_move weights sizes k max_size p).1 ∧ (best_move weights sizes k max_size p).1 < k ∧
      sizes.getD (best_move weights sizes k max_size p).1.toNat 0 < max_size ∧
      (best_move weights sizes k max_size p).2
        = weights.getD (best_move weights sizes k max_size p).1.toNat 0 - weights.getD p.toNat 0 ∧
      (best_move weights sizes k max_size p).2 > 0) := by
  unfold best_move
  apply foldl_inv (fun (b : Int × Weight) => (b.1 = p ∧ b.2 = 0) ∨
    (b.1 ≠ p ∧ 0 ≤ b.1 ∧ b.1 < k ∧ sizes.getD b.1.toNat 0 < max_size ∧
      b.2 = weights.getD b.1.toNat 0 - weights.getD p.toNat 0 ∧ b.2 > 0))
  · left; exact ⟨rfl, rfl⟩
  · intro b q hq hb
    have hq' : q < k.toNat := by simpa using hq
    simp only
    split
    · exact hb
    · rename_i hqp
      split
      · exact hb
      · rename_i hsz
        split
        · rename_i hgain
          right
          simp only [Int.toNat_ofNat]
          have hb2 : (0 : Int) ≤ b.2 := by
            rcases hb with h | h
            · rw [h.2]
            · exact le_of_lt h.2.2.2.2.2
          refine ⟨hqp, by omega, by omega, by omega, trivial, ?_⟩
          unfold Weight at *
          omega
        · exact hb

/-- A vertex step either changes nothing or moves `u` from its block `p`, whose counter is above
`min_size`, to another block `q` whose counter is below `max_size`, with positive gain. -/
theorem refine_vertex_cases (g : WeightedGraph) (k min_size max_size : Int) (r : Refine) (u : Nat) :
    refine_vertex g k min_size max_size r u = r ∨
    (0 ≤ r.part.getD u 0 ∧ r.part.getD u 0 < k ∧
      min_size < r.sizes.getD (r.part.getD u 0).toNat 0 ∧
      (best_move (block_weights g r.part k u) r.sizes k max_size (r.part.getD u 0)).1
        ≠ r.part.getD u 0 ∧
      0 ≤ (best_move (block_weights g r.part k u) r.sizes k max_size (r.part.getD u 0)).1 ∧
      (best_move (block_weights g r.part k u) r.sizes k max_size (r.part.getD u 0)).1 < k ∧
      r.sizes.getD
        (best_move (block_weights g r.part k u) r.sizes k max_size (r.part.getD u 0)).1.toNat 0
        < max_size ∧
      (0 : Int) < (block_weights g r.part k u).getD
          (best_move (block_weights g r.part k u) r.sizes k max_size (r.part.getD u 0)).1.toNat 0
        - (block_weights g r.part k u).getD (r.part.getD u 0).toNat 0 ∧
      refine_vertex g k min_size max_size r u =
        { part := r.part.set u
            (best_move (block_weights g r.part k u) r.sizes k max_size (r.part.getD u 0)).1
          sizes := (r.sizes.modify (fun c => c - 1) (r.part.getD u 0).toNat).modify
            (fun c => c + 1)
            (best_move (block_weights g r.part k u) r.sizes k max_size (r.part.getD u 0)).1.toNat
          moved := true }) := by
  unfold refine_vertex
  simp only
  split
  · left; rfl
  · rename_i hp
    split
    · left; rfl
    · rename_i hsz
      split
      · rename_i hmove
        right
        rcases best_move_spec (block_weights g r.part k u) r.sizes k max_size (r.part.getD u 0)
          with h | ⟨h1, h2, h3, h4, h5, h6⟩
        · exact absurd h.1 hmove.1
        · refine ⟨by omega, by omega, by omega, h1, h2, h3, h4, ?_, rfl⟩
          rw [← h5]
          exact h6
      · left; rfl

theorem count_sizes_fold (k : Int) (l : List Int) :
    ∀ init : List Int, init.length = k.toNat →
      (l.foldl (fun sizes p =>
        if p ≥ 0 ∧ p < k then sizes.modify (fun c => c + 1) p.toNat else sizes) init).length
        = k.toNat ∧
      ∀ q, q < k.toNat → (l.foldl (fun sizes p =>
        if p ≥ 0 ∧ p < k then sizes.modify (fun c => c + 1) p.toNat else sizes) init).getD q 0
        = init.getD q 0 + (l.count (q : Int) : Int) := by
  induction l with
  | nil => intro init h; simp [h]
  | cons a l ih =>
    intro init hlen
    simp only [List.foldl_cons]
    by_cases ha : a ≥ 0 ∧ a < k
    · rw [if_pos ha]
      obtain ⟨i1, i2⟩ := ih (init.modify (fun c => c + 1) a.toNat) (by simpa using hlen)
      refine ⟨i1, fun q hq => ?_⟩
      rw [i2 q hq, getD_modify_eq, List.count_cons]
      by_cases haq : a.toNat = q
      · have : a = (q : Int) := by omega
        subst this
        simp only [Int.toNat_ofNat, hlen, hq, and_self, if_true, beq_self_eq_true]
        push_cast
        ring
      · have hne : ¬ (a == (q : Int)) = true := by
          simp only [beq_iff_eq]
          omega
        simp only [haq, false_and, if_false, hne]
        push_cast
        ring
    · rw [if_neg ha]
      obtain ⟨i1, i2⟩ := ih init hlen
      refine ⟨i1, fun q hq => ?_⟩
      rw [i2 q hq, List.count_cons]
      have hne : ¬ (a == (q : Int)) = true := by
        simp only [beq_iff_eq]
        omega
      simp only [hne, if_false]
      push_cast
      ring

theorem count_sizes_ok (part : List Int) (k : Int) (moved : Bool) :
    SizesOk k ⟨part, count_sizes part k, moved⟩ := by
  obtain ⟨h1, h2⟩ := count_sizes_fold k part (List.replicate k.toNat 0) (by simp)
  refine ⟨h1, fun q hq => ?_⟩
  show (count_sizes part k).getD q 0 = _
  unfold count_sizes
  rw [h2 q hq, getD_replicate_eq]
  simp [hq]

/-- Counts after relabeling position `u` from `p` to `q`. -/
theorem count_set_move (part : List Int) (u : Nat) (hu : u < part.length) (q x : Int) :
    ((part.set u q).count x : Int)
      = part.count x - (if part.getD u 0 = x then 1 else 0) + (if q = x then 1 else 0) := by
  have hget : part.getD u 0 = part[u] := List.getD_eq_getElem _ _ hu
  have hcs := List.count_set q x part u hu
  rw [hget, hcs]
  by_cases h1 : part[u] = x
  · have hpos : 0 < part.count x := List.count_pos_iff.mpr (h1 ▸ List.getElem_mem hu)
    have hb1 : (part[u] == x) = true := by simpa using h1
    by_cases h2 : q = x
    · have hb2 : (q == x) = true := by simpa using h2
      rw [if_pos hb1, if_pos hb2, if_pos h1, if_pos h2]
      omega
    · have hb2 : ¬ (q == x) = true := by simpa using h2
      rw [if_pos hb1, if_neg hb2, if_pos h1, if_neg h2]
      omega
  · have hb1 : ¬ (part[u] == x) = true := by simpa using h1
    by_cases h2 : q = x
    · have hb2 : (q == x) = true := by simpa using h2
      rw [if_neg hb1, if_pos hb2, if_neg h1, if_pos h2]
      omega
    · have hb2 : ¬ (q == x) = true := by simpa using h2
      rw [if_neg hb1, if_neg hb2, if_neg h1, if_neg h2]
      omega

/-- A vertex step keeps the counters exact and the block sizes within their bounds. -/
theorem refine_vertex_sizes (g : WeightedGraph) (k min_size max_size : Int) (c0 : Nat → Int)
    (r : Refine) (u : Nat) (hu : u < r.part.length) (hs : SizesOk k r)
    (hb : SizeBounds k c0 min_size max_size r.part) :
    SizesOk k (refine_vertex g k min_size max_size r u) ∧
    SizeBounds k c0 min_size max_size (refine_vertex g k min_size max_size r u).part := by
  rcases refine_vertex_cases g k min_size max_size r u with h | ⟨p0, p1, hmin, hne, q0, q1, hmax, _, h⟩
  · rw [h]; exact ⟨hs, hb⟩
  · rw [h]
    generalize (best_move (block_weights g r.part k u) r.sizes k max_size (r.part.getD u 0)).1 = q
      at hne q0 q1 hmax
    have hp : (r.part.getD u 0).toNat < k.toNat := by omega
    have hq : q.toNat < k.toNat := by omega
    have hsp := hs.2 _ hp
    have hsq := hs.2 _ hq
    have hcount : ∀ x : Nat, ((r.part.set u q).count (x : Int) : Int)
        = r.part.count (x : Int) - (if (r.part.getD u 0).toNat = x then 1 else 0)
          + (if q.toNat = x then 1 else 0) := by
      intro x
      rw [count_set_move r.part u hu q x]
      have e1 : (r.part.getD u 0 = (x : Int)) ↔ ((r.part.getD u 0).toNat = x) := by omega
      have e2 : (q = (x : Int)) ↔ (q.toNat = x) := by omega
      simp only [e1, e2]
    constructor
    · refine ⟨by simpa using hs.1, fun x hx => ?_⟩
      simp only
      rw [getD_modify_eq, getD_modify_eq, hcount x, hs.2 x hx]
      simp only [List.length_modify, hs.1, hq, hp, and_true]
      by_cases h1 : (r.part.getD u 0).toNat = x <;> by_cases h2 : q.toNat = x <;>
        simp [h1, h2] <;> omega
    · intro x hx
      simp only
      rw [hcount x]
      have hbx := hb x hx
      by_cases h1 : (r.part.getD u 0).toNat = x
      · have h2 : ¬ q.toNat = x := by omega
        subst h1
        simp only [if_true, h2, if_false]
        omega
      · by_cases h2 : q.toNat = x
        · subst h2
          simp only [h1, if_false, if_true]
          omega
        · simp only [h1, h2, if_false]
          omega

end MultilevelKWayPartitionSolver

namespace MultilevelKWayPartitionSolver

theorem refine_vertex_length (g : WeightedGraph) (k min_size max_size : Int) (r : Refine) (u : Nat) :
    (refine_vertex g k min_size max_size r u).part.length = r.part.length := by
  rcases refine_vertex_cases g k min_size max_size r u with h | ⟨_, _, _, _, _, _, _, _, h⟩
  · rw [h]
  · rw [h]; simp

/-- One pass keeps the length and the size bounds. -/
theorem refine_pass_sizes (g : WeightedGraph) (k min_size max_size : Int) (c0 : Nat → Int)
    (part : List Int) (hlen : part.length = g.n)
    (hb : SizeBounds k c0 min_size max_size part) :
    ((List.range g.n).foldl (refine_vertex g k min_size max_size)
      ⟨part, count_sizes part k, false⟩).part.length = g.n ∧
    SizeBounds k c0 min_size max_size ((List.range g.n).foldl (refine_vertex g k min_size max_size)
      ⟨part, count_sizes part k, false⟩).part := by
  have h := foldl_inv (fun (r : Refine) => r.part.length = g.n ∧ SizesOk k r ∧
      SizeBounds k c0 min_size max_size r.part)
    (refine_vertex g k min_size max_size) (List.range g.n) ⟨part, count_sizes part k, false⟩
    ⟨hlen, count_sizes_ok part k false, hb⟩
    (by
      intro r u hu ⟨h1, h2, h3⟩
      have hu' : u < r.part.length := by rw [h1]; exact List.mem_range.mp hu
      obtain ⟨i1, i2⟩ := refine_vertex_sizes g k min_size max_size c0 r u hu' h2 h3
      exact ⟨by rw [refine_vertex_length]; exact h1, i1, i2⟩)
  exact ⟨h.1, h.2.2⟩

theorem refine_passes_sizes (g : WeightedGraph) (k min_size max_size : Int) (c0 : Nat → Int)
    (fuel : Nat) :
    ∀ part : List Int, part.length = g.n → SizeBounds k c0 min_size max_size part →
      (refine_passes g k min_size max_size fuel part).length = g.n ∧
      SizeBounds k c0 min_size max_size (refine_passes g k min_size max_size fuel part) := by
  induction fuel with
  | zero => intro part hlen hb; exact ⟨hlen, hb⟩
  | succ fuel ih =>
    intro part hlen hb
    obtain ⟨h1, h2⟩ := refine_pass_sizes g k min_size max_size c0 part hlen hb
    unfold refine_passes
    simp only
    split
    · exact ih _ h1 h2
    · exact ⟨h1, h2⟩

theorem size_bounds_init (k : Int) (lo hi : Int) (part : List Int) :
    SizeBounds k (fun q => (part.count (q : Int) : Int)) lo hi part := by
  intro q _
  simp only
  omega

/-- C21: for every graph with `n` vertices, every `k >= 2`, every labeling of the `n` vertices
with labels in `[0,k)` and every pass count, `refine_partition` leaves a labeling of the `n`
vertices with labels in `[0,k)`, and for every block `q` its size afterwards is at most
`max(size before, ceil(n/k))` and at least `min(size before, floor(n/k))`; in every vertex step
whose counters are exact, a moved vertex leaves a block above the floor size and enters a block
below the ceiling size. -/
theorem refine_respects_size_bounds (g : WeightedGraph) (k : Int) (hk : 2 ≤ k) (part : List Int)
    (hlen : part.length = g.n) (hlab : ∀ x ∈ part, 0 ≤ x ∧ x < k) (max_passes : Int) :
    (refine_partition g part k max_passes).length = g.n ∧
    (∀ x ∈ refine_partition g part k max_passes, 0 ≤ x ∧ x < k) ∧
    (∀ q : Int, 0 ≤ q → q < k →
      ((refine_partition g part k max_passes).count q : Int)
        ≤ max (part.count q : Int) (((g.n : Int) + k - 1) / k) ∧
      min (part.count q : Int) ((g.n : Int) / k)
        ≤ ((refine_partition g part k max_passes).count q : Int)) ∧
    (∀ (r : Refine) (u : Nat), u < r.part.length → SizesOk k r →
      (refine_vertex g k ((g.n : Int) / k) (((g.n : Int) + k - 1) / k) r u).part ≠ r.part →
      (g.n : Int) / k < (r.part.count (r.part.getD u 0) : Int) ∧
      (r.part.count
        ((refine_vertex g k ((g.n : Int) / k) (((g.n : Int) + k - 1) / k) r u).part.getD u 0) : Int)
        < ((g.n : Int) + k - 1) / k) := by
  have hk1 : ¬ k ≤ 1 := by omega
  obtain ⟨_, hok⟩ := refine_partition_ok g g.n k max_passes part ⟨hlen, hlab⟩
  obtain ⟨h1, h2⟩ := refine_passes_sizes g k ((g.n : Int) / k) (((g.n : Int) + k - 1) / k)
    (fun q => (part.count (q : Int) : Int)) max_passes.toNat part hlen
    (size_bounds_init k _ _ part)
  have hrp : refine_partition g part k max_passes
      = refine_passes g k ((g.n : Int) / k) (((g.n : Int) + k - 1) / k) max_passes.toNat part := by
    simp only [refine_partition, hk1, if_false]
  refine ⟨by rw [hrp]; exact h1, hok, fun q hq0 hqk => ?_, fun r u hu hs hmove => ?_⟩
  · rw [hrp]
    have := h2 q.toNat (by omega)
    simp only [Int.toNat_of_nonneg hq0] at this
    omega
  · rcases refine_vertex_cases g k ((g.n : Int) / k) (((g.n : Int) + k - 1) / k) r u with
      h | ⟨p0, p1, hmin, _, q0, q1, hmax, _, h⟩
    · rw [h] at hmove
      exact absurd rfl hmove
    · rw [h]
      simp only
      have hsp := hs.2 (r.part.getD u 0).toNat (by omega)
      have hsq := hs.2 (best_move (block_weights g r.part k u) r.sizes k
        (((g.n : Int) + k - 1) / k) (r.part.getD u 0)).1.toNat (by omega)
      rw [Int.toNat_of_nonneg p0] at hsp
      rw [Int.toNat_of_nonneg q0] at hsq
      rw [getD_set_eq]
      simp only [hu, and_self, if_true]
      rw [← hsp, ← hsq]
      exact ⟨hmin, hmax⟩

set_option maxRecDepth 1000000 in
/-- Witness for C21: the demonstration graph, `k = 2`, four passes. -/
theorem refine_respects_size_bounds_witness :
    (2 : Int) ≤ 2 ∧ ([0, 0, 0, 0, 0, 0, 1, 1] : List Int).length = demoGraph.n ∧
    (∀ x ∈ ([0, 0, 0, 0, 0, 0, 1, 1] : List Int), 0 ≤ x ∧ x < 2) ∧
    (refine_partition demoGraph [0, 0, 0, 0, 0, 0, 1, 1] 2 4).length = demoGraph.n ∧
    (∀ x ∈ refine_partition demoGraph [0, 0, 0, 0, 0, 0, 1, 1] 2 4, 0 ≤ x ∧ x < 2) ∧
    (∀ q : Int, 0 ≤ q → q < 2 →
      ((refine_partition demoGraph [0, 0, 0, 0, 0, 0, 1, 1] 2 4).count q : Int)
        ≤ max (([0, 0, 0, 0, 0, 0, 1, 1] : List Int).count q : Int)
            (((demoGraph.n : Int) + 2 - 1) / 2) ∧
      min (([0, 0, 0, 0, 0, 0, 1, 1] : List Int).count q : Int) ((demoGraph.n : Int) / 2)
        ≤ ((refine_partition demoGraph [0, 0, 0, 0, 0, 0, 1, 1] 2 4).count q : Int)) :=
  ⟨by decide, by decide, by decide,
    (refine_respects_size_bounds demoGraph 2 (by decide) [0, 0, 0, 0, 0, 0, 1, 1] (by decide)
      (by decide) 4).1,
    (refine_respects_size_bounds demoGraph 2 (by decide) [0, 0, 0, 0, 0, 0, 1, 1] (by decide)
      (by decide) 4).2.1,
    (refine_respects_size_bounds demoGraph 2 (by decide) [0, 0, 0, 0, 0, 0, 1, 1] (by decide)
      (by decide) 4).2.2.1⟩

end MultilevelKWayPartitionSolver

/-! ## Refinement: cut weight -/

namespace STMinCutSolver

/-- On a graph built by `add_undirected`, a sum over adjacency entries only depends on what
each edge contributes through its two entries. -/
theorem adjSum_le_of_pairs (g : WeightedGraph) (hg : g.Built) (F G : Nat → Edge → Int)
    (h : ∀ (a b : Nat) (w : Weight), 0 ≤ w →
      F a ⟨b, w⟩ + F b ⟨a, w⟩ ≤ G a ⟨b, w⟩ + G b ⟨a, w⟩) :
    adjSum g F ≤ adjSum g G := by
  induction hg with
  | init n => rw [adjSum_init, adjSum_init]
  | @add g g1 u v w hb hadd ih =>
    rw [adjSum_add_undirected g g1 u v w hadd hb.WF, adjSum_add_undirected g g1 u v w hadd hb.WF]
    have hw := (WeightedGraph.add_undirected_inv g g1 u v w hadd).2.2.2.2.1
    have := h u.toNat v.toNat w hw
    omega

theorem adjSum_eq_of_pairs (g : WeightedGraph) (hg : g.Built) (F G : Nat → Edge → Int)
    (h : ∀ (a b : Nat) (w : Weight), 0 ≤ w →
      F a ⟨b, w⟩ + F b ⟨a, w⟩ = G a ⟨b, w⟩ + G b ⟨a, w⟩) :
    adjSum g F = adjSum g G :=
  le_antisymm (adjSum_le_of_pairs g hg F G fun a b w hw => le_of_eq (h a b w hw))
    (adjSum_le_of_pairs g hg G F fun a b w hw => le_of_eq (h a b w hw).symm)

/-- A sum over the adjacency entries of the single vertex `u`. -/
theorem adjSum_single (g : WeightedGraph) (u : Nat) (hu : u < g.n) (f : Edge → Int) :
    adjSum g (fun a e => if a = u then f e else 0) = ((g.nbrs u).map f).sum := by
  unfold adjSum
  have : ∀ a, ((g.nbrs a).map fun e => if a = u then f e else 0).sum
      = if a = u then ((g.nbrs u).map f).sum else 0 := by
    intro a
    by_cases h : a = u
    · subst h; simp
    · simp [h]
  simp only [this]
  rw [Finset.sum_ite_eq']
  simp [hu]

theorem adjSum_add (g : WeightedGraph) (F G : Nat → Edge → Int) :
    adjSum g (fun a e => F a e + G a e) = adjSum g F + adjSum g G := by
  unfold adjSum
  rw [← Finset.sum_add_distrib]
  apply Finset.sum_congr rfl
  intro a _
  induction g.nbrs a with
  | nil => simp
  | cons e l ih =>
    simp only [List.map_cons, List.sum_cons, ih]
    ring

end STMinCutSolver

namespace MultilevelKWayPartitionSolver

theorem block_weights_fold (part : List Int) (k : Int) (l : List Edge) :
    ∀ init : List Weight, init.length = k.toNat →
      ∀ x, x < k.toNat → (l.foldl (fun ws e =>
        if part.getD e.to_ 0 ≥ 0 ∧ part.getD e.to_ 0 < k
        then ws.modify (fun y => y + e.w) (part.getD e.to_ 0).toNat else ws) init).getD x 0
        = init.getD x 0 + (l.map fun e => if part.getD e.to_ 0 = (x : Int) then e.w else 0).sum := by
  induction l with
  | nil => intro init _ x _; simp
  | cons e l ih =>
    intro init hlen x hx
    simp only [List.foldl_cons, List.map_cons, List.sum_cons]
    by_cases hc : part.getD e.to_ 0 ≥ 0 ∧ part.getD e.to_ 0 < k
    · rw [if_pos hc, ih _ (by simpa using hlen) x hx, getD_modify_eq]
      by_cases hq : (part.getD e.to_ 0).toNat = x
      · have : part.getD e.to_ 0 = (x : Int) := by omega
        simp only [this, Int.toNat_ofNat, hlen, hx, and_self, if_true]
        ring
      · have : ¬ part.getD e.to_ 0 = (x : Int) := by omega
        simp only [hq, false_and, if_false, this]
        ring
    · rw [if_neg hc, ih _ hlen x hx]
      have : ¬ part.getD e.to_ 0 = (x : Int) := by omega
      simp only [this, if_false]
      ring

/-- Entry `x` of `weights`: the total weight of the adjacency entries of `u` that lead into
block `x`. -/
theorem block_weights_spec (g : WeightedGraph) (part : List Int) (k : Int) (u : Nat) (x : Nat)
    (hx : x < k.toNat) :
    (block_weights g part k u).getD x 0
      = ((g.nbrs u).map fun e => if part.getD e.to_ 0 = (x : Int) then e.w else 0).sum := by
  unfold block_weights
  have h := block_weights_fold part k (g.nbrs u) (List.replicate k.toNat 0) (by simp) x hx
  simp only at h ⊢
  rw [h, getD_replicate_eq]
  simp [hx]

/-- Moving `u` from its block to block `q` lowers the cut weight by at least the gain that the
scan computes from the adjacency entries of `u`. -/
theorem move_lowers_cut (g : WeightedGraph) (hg : g.Built) (part : List Int) (u : Nat)
    (hu : u < g.n) (hlen : part.length = g.n) (q : Int) (hq : q ≠ part.getD u 0) :
    (cut_weight_undirected g (part.set u q) : Int)
      + (((g.nbrs u).map fun e => if part.getD e.to_ 0 = q then e.w else 0).sum
        - ((g.nbrs u).map fun e => if part.getD e.to_ 0 = part.getD u 0 then e.w else 0).sum)
      ≤ cut_weight_undirected g part := by
  rw [STMinCutSolver.cut_weight_undirected_adjSum, STMinCutSolver.cut_weight_undirected_adjSum]
  have hsub : (((g.nbrs u).map fun e => if part.getD e.to_ 0 = q then (e.w : Int) else 0).sum
        - ((g.nbrs u).map fun e => if part.getD e.to_ 0 = part.getD u 0 then (e.w : Int) else 0).sum)
      = ((g.nbrs u).map fun e => (if part.getD e.to_ 0 = q then (e.w : Int) else 0)
          - (if part.getD e.to_ 0 = part.getD u 0 then (e.w : Int) else 0)).sum := by
    induction g.nbrs u with
    | nil => simp
    | cons e l ih =>
      simp only [List.map_cons, List.sum_cons] at ih ⊢
      rw [← ih]
      ring
  rw [hsub, ← STMinCutSolver.adjSum_single g u hu, ← STMinCutSolver.adjSum_add]
  apply STMinCutSolver.adjSum_le_of_pairs g hg
  intro a b w hw
  have hset : ∀ x, (part.set u q).getD x 0 = if x = u then q else part.getD x 0 := by
    intro x
    rw [getD_set_eq]
    by_cases hx : u = x
    · subst hx; simp [hlen, hu]
    · have : ¬ x = u := fun e => hx e.symm
      simp [hx, this]
  obtain ⟨P, hP⟩ : ∃ P : Nat → Int, ∀ x, part.getD x 0 = P x := ⟨_, fun _ => rfl⟩
  have hw2 : (0 : Int) ≤ w := hw
  simp only [hset, hP] at hq ⊢
  by_cases hau : a = u <;> by_cases hbu : b = u
  · subst hau; subst hbu
    simp only [lt_irrefl, false_and, if_false, if_true]
    split_ifs <;> omega
  · subst hau
    simp only [if_true, hbu, if_false]
    split_ifs <;> omega
  · subst hbu
    simp only [if_true, hau, if_false]
    split_ifs <;> omega
  · simp only [hau, hbu, if_false]
    omega

end MultilevelKWayPartitionSolver

namespace MultilevelKWayPartitionSolver

/-- A vertex step never raises the cut weight, and lowers it when it moves the vertex. -/
theorem refine_vertex_cut (g : WeightedGraph) (hg : g.Built) (k min_size max_size : Int)
    (r : Refine) (u : Nat) (hu : u < g.n) (hlab : LabelsOk g.n k r.part) :
    cut_weight_undirected g (refine_vertex g k min_size max_size r u).part
      ≤ cut_weight_undirected g r.part ∧
    ((refine_vertex g k min_size max_size r u).part ≠ r.part →
      cut_weight_undirected g (refine_vertex g k min_size max_size r u).part
        < cut_weight_undirected g r.part) := by
  rcases refine_vertex_cases g k min_size max_size r u with
    h | ⟨p0, p1, _, hne, q0, q1, _, hgain, h⟩
  · rw [h]
    exact ⟨le_refl _, fun hmove => absurd rfl hmove⟩
  · rw [h]
    simp only
    rw [block_weights_spec g r.part k u _ (by omega),
      block_weights_spec g r.part k u _ (by omega), Int.toNat_of_nonneg p0,
      Int.toNat_of_nonneg q0] at hgain
    have hcut := move_lowers_cut g hg r.part u hu hlab.1 _ hne
    have hlt : (cut_weight_undirected g (r.part.set u
        (best_move (block_weights g r.part k u) r.sizes k max_size (r.part.getD u 0)).1) : Int)
        < cut_weight_undirected g r.part := by
      unfold Weight at *
      omega
    exact ⟨le_of_lt hlt, fun _ => hlt⟩

theorem refine_passes_cut (g : WeightedGraph) (hg : g.Built) (k min_size max_size : Int)
    (fuel : Nat) :
    ∀ part : List Int, LabelsOk g.n k part →
      cut_weight_undirected g (refine_passes g k min_size max_size fuel part)
        ≤ cut_weight_undirected g part := by
  induction fuel with
  | zero => intro part _; exact le_refl _
  | succ fuel ih =>
    intro part hlab
    have h := foldl_inv (fun (r : Refine) => LabelsOk g.n k r.part ∧
        cut_weight_undirected g r.part ≤ cut_weight_undirected g part)
      (refine_vertex g k min_size max_size) (List.range g.n) ⟨part, count_sizes part k, false⟩
      ⟨hlab, le_refl _⟩
      (by
        intro r u hu ⟨h1, h2⟩
        exact ⟨refine_vertex_ok g g.n k min_size max_size r u h1,
          le_trans (refine_vertex_cut g hg k min_size max_size r u (List.mem_range.mp hu) h1).1 h2⟩)
    unfold refine_passes
    simp only
    split
    · exact le_trans (ih _ h.1) h.2
    · exact h.2

/-- C22: for every graph built by `add_undirected` (non-negative weights, parallel edges and
self-loops allowed) whose adjacency entries sum to at most the 64-bit maximum (so that every
block weight `weights[q]`, every gain and every cut weight stays in the range of `Weight`),
every `k >= 2` and every labeling of its vertices with labels in `[0,k)`, the cut weight of the
labeling produced by `refine_partition` is at most that of the input labeling, both lie in
`[0, 2^63 - 1]`, and every vertex step that moves its vertex strictly lowers the cut weight. -/
theorem refine_improves_cut (g : WeightedGraph) (hg : g.Built)
    (hsum : g.entry_weight ≤ WEIGHT_MAX) (k : Int) (hk : 2 ≤ k)
    (part : List Int) (hlen : part.length = g.n) (hlab : ∀ x ∈ part, 0 ≤ x ∧ x < k)
    (max_passes : Int) :
    cut_weight_undirected g (refine_partition g part k max_passes)
      ≤ cut_weight_undirected g part ∧
    0 ≤ cut_weight_undirected g (refine_partition g part k max_passes) ∧
    cut_weight_undirected g part ≤ WEIGHT_MAX ∧
    (∀ (r : Refine) (u : Nat) (min_size max_size : Int), u < g.n → r.part.length = g.n →
      (∀ x ∈ r.part, 0 ≤ x ∧ x < k) →
      (refine_vertex g k min_size max_size r u).part ≠ r.part →
      cut_weight_undirected g (refine_vertex g k min_size max_size r u).part
        < cut_weight_undirected g r.part) := by
  have hk1 : ¬ k ≤ 1 := by omega
  refine ⟨?_, (cut_weight_fits g hg.WF hsum _).1, (cut_weight_fits g hg.WF hsum _).2, ?_⟩
  · simp only [refine_partition, hk1, if_false]
    exact refine_passes_cut g hg k _ _ _ part ⟨hlen, hlab⟩
  · intro r u mn mx hu hl hx hmove
    exact (refine_vertex_cut g hg k mn mx r u hu ⟨hl, hx⟩).2 hmove

set_option maxRecDepth 1000000 in
/-- Witness for C22: the demonstration graph, `k = 2`, four passes, from a labeling with blocks
of sizes 5 and 3: vertex 4 moves to block 1 and the cut weight drops from 5 to 2. -/
theorem refine_improves_cut_witness :
    demoGraph.Built ∧ demoGraph.entry_weight ≤ WEIGHT_MAX ∧ (2 : Int) ≤ 2 ∧
    ([0, 0, 0, 0, 0, 1, 1, 1] : List Int).length = demoGraph.n ∧
    (∀ x ∈ ([0, 0, 0, 0, 0, 1, 1, 1] : List Int), 0 ≤ x ∧ x < 2) ∧
    cut_weight_undirected demoGraph (refine_partition demoGraph [0, 0, 0, 0, 0, 1, 1, 1] 2 4)
      ≤ cut_weight_undirected demoGraph [0, 0, 0, 0, 0, 1, 1, 1] ∧
    refine_partition demoGraph [0, 0, 0, 0, 0, 1, 1, 1] 2 4 = [0, 0, 0, 0, 1, 1, 1, 1] ∧
    cut_weight_undirected demoGraph [0, 0, 0, 0, 0, 1, 1, 1] = 5 ∧
    cut_weight_undirected demoGraph [0, 0, 0, 0, 1, 1, 1, 1] = 2 :=
  ⟨WeightedGraph.ofEdges_Built _ _, by decide, by decide, by decide, by decide,
    (refine_improves_cut demoGraph (WeightedGraph.ofEdges_Built _ _) (by decide) 2 (by decide)
      [0, 0, 0, 0, 0, 1, 1, 1] (by decide) (by decide) 4).1, by decide, by decide, by decide⟩

end MultilevelKWayPartitionSolver

namespace KWayPartitionSolver

/-! ## Recursive bisection: number of blocks -/

theorem argmax_fold (parts : List (List Nat)) (l : List Nat) :
    ∀ idx0 : Nat,
      (l.foldl (fun idx i =>
        if (parts.getD i []).length > (parts.getD idx []).length then i else idx) idx0 = idx0 ∨
       l.foldl (fun idx i =>
        if (parts.getD i []).length > (parts.getD idx []).length then i else idx) idx0 ∈ l) ∧
      (parts.getD idx0 []).length ≤ (parts.getD (l.foldl (fun idx i =>
        if (parts.getD i []).length > (parts.getD idx []).length then i else idx) idx0) []).length ∧
      ∀ i ∈ l, (parts.getD i []).length ≤ (parts.getD (l.foldl (fun idx i =>
        if (parts.getD i []).length > (parts.getD idx []).length then i else idx) idx0) []).length := by
  induction l with
  | nil => intro idx0; simp
  | cons a l ih =>
    intro idx0
    simp only [List.foldl_cons]
    by_cases h : (parts.getD a []).length > (parts.getD idx0 []).length
    · rw [if_pos h]
      obtain ⟨h1, h2, h3⟩ := ih a
      refine ⟨?_, by omega, fun i hi => ?_⟩
      · right
        rcases h1 with h1 | h1
        · rw [h1]; simp
        · exact List.mem_cons_of_mem _ h1
      · rcases List.mem_cons.mp hi with rfl | hi
        · exact h2
        · exact h3 i hi
    · rw [if_neg h]
      obtain ⟨h1, h2, h3⟩ := ih idx0
      refine ⟨?_, h2, fun i hi => ?_⟩
      · rcases h1 with h1 | h1
        · left; exact h1
        · right; exact List.mem_cons_of_mem _ h1
      · rcases List.mem_cons.mp hi with rfl | hi
        · omega
        · exact h3 i hi

/-- The selected block is a largest one. -/
theorem largest_idx_spec (parts : List (List Nat)) (hne : parts ≠ []) :
    largest_idx parts < parts.length ∧
    ∀ i, i < parts.length →
      (parts.getD i []).length ≤ (parts.getD (largest_idx parts) []).length := by
  have hpos : 0 < parts.length := List.length_pos.mpr hne
  obtain ⟨h1, h2, h3⟩ := argmax_fold parts (List.range' 1 (parts.length - 1)) 0
  unfold largest_idx
  constructor
  · rcases h1 with h1 | h1
    · rw [h1]; exact hpos
    · have := List.mem_range'_1.mp h1
      omega
  · intro i hi
    by_cases h0 : i = 0
    · subst h0; exact h2
    · exact h3 i (List.mem_range'_1.mpr ⟨by omega, by omega⟩)

theorem flatten_set_perm (A B : List Nat) :
    ∀ (parts : List (List Nat)) (idx : Nat), idx < parts.length →
      (A ++ B).Perm (parts.getD idx []) →
      ((parts.set idx A ++ [B]).flatten).Perm parts.flatten := by
  intro parts
  induction parts with
  | nil => intro idx h; simp at h
  | cons p ps ih =>
    intro idx hidx hperm
    cases idx with
    | zero =>
      simp only [List.set_cons_zero, List.cons_append, List.flatten_cons, List.flatten_append,
        List.flatten_nil, List.append_nil, List.getD_cons_zero] at hperm ⊢
      have h1 : (A ++ (ps.flatten ++ B)).Perm ((A ++ B) ++ ps.flatten) := by
        rw [List.append_assoc]
        exact List.Perm.append_left A List.perm_append_comm
      exact h1.trans (List.Perm.append_right _ hperm)
    | succ idx =>
      simp only [List.set_cons_succ, List.cons_append, List.flatten_cons,
        List.getD_cons_succ] at hperm ⊢
      exact List.Perm.append_left p (ih idx (by simpa using hidx) hperm)

theorem mem_of_getD_nonempty (parts : List (List Nat)) (idx : Nat) (hidx : idx < parts.length) :
    parts.getD idx [] ∈ parts := by
  rw [List.getD_eq_getElem _ _ hidx]
  exact List.getElem_mem hidx

theorem block_facts (n : Nat) (parts : List (List Nat)) (h : PartsInv n parts)
    (b : List Nat) (hb : b ∈ parts) : b.Nodup ∧ ∀ v ∈ b, v < n := by
  have hnd : parts.flatten.Nodup := h.1.nodup_iff.mpr (List.nodup_range n)
  refine ⟨(List.nodup_flatten.mp hnd).1 b hb, fun v hv => ?_⟩
  have : v ∈ parts.flatten := List.mem_flatten.mpr ⟨b, hb, hv⟩
  exact List.mem_range.mp (h.1.mem_iff.mp this)

/-- The splitting loop keeps the invariant and stops with `k` blocks or with blocks of at most
one vertex. -/
theorem split_loop_inv (g : WeightedGraph) (p k : Int) (fuel : Nat) :
    ∀ parts : List (List Nat), PartsInv g.n parts → parts ≠ [] → (parts.length : Int) ≤ k →
      k - parts.length ≤ fuel →
      PartsInv g.n (split_loop g p k fuel parts) ∧ split_loop g p k fuel parts ≠ [] ∧
      ((split_loop g p k fuel parts).length : Int) ≤ k ∧
      (((split_loop g p k fuel parts).length : Int) = k ∨
        ∀ b ∈ split_loop g p k fuel parts, b.length ≤ 1) := by
  induction fuel with
  | zero =>
    intro parts hinv hne hle hfuel
    refine ⟨hinv, hne, hle, Or.inl ?_⟩
    show (parts.length : Int) = k
    simp only [CharP.cast_eq_zero] at hfuel
    omega
  | succ fuel ih =>
    intro parts hinv hne hle hfuel
    obtain ⟨hidx, hmax⟩ := largest_idx_spec parts hne
    rw [split_loop]
    by_cases hlt : (parts.length : Int) < k
    · simp only [hlt, if_true]
      by_cases hs : (parts.getD (largest_idx parts) []).length ≤ 1
      · simp only [hs, if_true]
        refine ⟨hinv, hne, hle, Or.inr fun b hb => ?_⟩
        obtain ⟨i, hi, rfl⟩ := List.getElem_of_mem hb
        have := hmax i hi
        rw [List.getD_eq_getElem _ _ hi] at this
        omega
      · simp only [hs, if_false]
        have hmem := mem_of_getD_nonempty parts _ hidx
        obtain ⟨hnd, hr⟩ := block_facts g.n parts hinv _ hmem
        obtain ⟨_, _, hA, hB⟩ := MinimumBisectionSolver.bisection_on_subset_labels g
          (parts.getD (largest_idx parts) []) p hnd hr
        have hBsub : (List.filter (fun v => decide
            ((MinimumBisectionSolver.bisection_on_subset g (parts.getD (largest_idx parts) []) p).getD
              v 0 = 1)) (parts.getD (largest_idx parts) [])).length
            ≤ (List.filter (fun v => decide (¬
              (MinimumBisectionSolver.bisection_on_subset g (parts.getD (largest_idx parts) []) p).getD
                v 0 = 0)) (parts.getD (largest_idx parts) [])).length := by
          apply List.Sublist.length_le
          apply List.monotone_filter_right
          intro v hv
          simp only [decide_eq_true_eq] at hv ⊢
          rw [hv]; decide
        have hAne : ¬ (List.filter (fun v => decide
            ((MinimumBisectionSolver.bisection_on_subset g (parts.getD (largest_idx parts) []) p).getD
              v 0 = 0)) (parts.getD (largest_idx parts) [])).isEmpty = true := by
          rw [List.isEmpty_iff_length_eq_zero]
          omega
        have hBne : ¬ (List.filter (fun v => decide (¬
            (MinimumBisectionSolver.bisection_on_subset g (parts.getD (largest_idx parts) []) p).getD
              v 0 = 0)) (parts.getD (largest_idx parts) [])).isEmpty = true := by
          rw [List.isEmpty_iff_length_eq_zero]
          omega
        simp only [hAne, hBne, or_self, if_false]
        apply ih
        · constructor
          · refine (flatten_set_perm _ _ parts _ hidx ?_).trans hinv.1
            have := List.filter_append_perm (fun v => decide
              ((MinimumBisectionSolver.bisection_on_subset g (parts.getD (largest_idx parts) []) p).getD
                v 0 = 0)) (parts.getD (largest_idx parts) [])
            simpa using this
          · intro b hb
            rcases List.mem_append.mp hb with hb | hb
            · rcases List.mem_or_eq_of_mem_set hb with hb | hb
              · exact hinv.2 b hb
              · subst hb
                intro hnil
                apply hAne
                rw [hnil]; rfl
            · simp only [List.mem_singleton] at hb
              subst hb
              intro hnil
              apply hBne
              rw [hnil]; rfl
        · simp
        · simp only [List.length_append, List.length_set, List.length_singleton]
          push_cast
          omega
        · simp only [List.length_append, List.length_set, List.length_singleton]
          push_cast
          omega
    · simp only [hlt, if_false]
      exact ⟨hinv, hne, hle, Or.inl (by omega)⟩

end KWayPartitionSolver

namespace KWayPartitionSolver

theorem length_le_flatten (parts : List (List Nat)) (h : ∀ b ∈ parts, b ≠ []) :
    parts.length ≤ parts.flatten.length := by
  induction parts with
  | nil => simp
  | cons b bs ih =>
    have hb : 0 < b.length := List.length_pos.mpr (h b (by simp))
    have := ih (fun c hc => h c (by simp [hc]))
    simp only [List.length_cons, List.flatten_cons, List.length_append]
    omega

theorem flatten_length_singletons (parts : List (List Nat))
    (h : ∀ b ∈ parts, b ≠ [] ∧ b.length ≤ 1) : parts.flatten.length = parts.length := by
  induction parts with
  | nil => simp
  | cons b bs ih =>
    have hb := h b (by simp)
    have hb0 : 0 < b.length := List.length_pos.mpr hb.1
    have := ih (fun c hc => h c (by simp [hc]))
    simp only [List.length_cons, List.flatten_cons, List.length_append]
    omega

/-- Number of blocks at the end of the splitting loop. -/
theorem split_loop_count (g : WeightedGraph) (p k : Int) (hk : 1 ≤ k) (hn : 1 ≤ g.n) :
    PartsInv g.n (split_loop g p k k.toNat [List.range g.n]) ∧
    ((split_loop g p k k.toNat [List.range g.n]).length : Int) = min k g.n := by
  have hinit : PartsInv g.n [List.range g.n] := by
    refine ⟨by simp, fun b hb => ?_⟩
    simp only [List.mem_singleton] at hb
    subst hb
    intro h
    have := congrArg List.length h
    simp at this
    omega
  obtain ⟨h1, _, h3, h4⟩ := split_loop_inv g p k k.toNat [List.range g.n] hinit (by simp)
    (by simpa using hk) (by simp only [List.length_singleton]; omega)
  refine ⟨h1, ?_⟩
  have hlen := h1.1.length_eq
  rw [List.length_range] at hlen
  have hle := length_le_flatten _ h1.2
  rcases h4 with h4 | h4
  · omega
  · have := flatten_length_singletons _ (fun b hb => ⟨h1.2 b hb, h4 b hb⟩)
    omega

theorem set_fold_other (L : List (Nat × Nat)) (v : Nat) (hv : v ∉ L.map Prod.snd) :
    ∀ init : List Int,
      (L.foldl (fun part iv => part.set iv.2 (iv.1 : Int)) init).getD v 0 = init.getD v 0 := by
  induction L with
  | nil => intro init; rfl
  | cons a L ih =>
    intro init
    simp only [List.map_cons, List.mem_cons, not_or] at hv
    simp only [List.foldl_cons]
    rw [ih hv.2, getD_set_eq]
    have : ¬ a.2 = v := fun e => hv.1 e.symm
    simp [this]

theorem set_fold_mem (L : List (Nat × Nat)) (hnd : (L.map Prod.snd).Nodup) :
    ∀ init : List Int, ∀ iv ∈ L, iv.2 < init.length →
      (L.foldl (fun part iv => part.set iv.2 (iv.1 : Int)) init).getD iv.2 0 = (iv.1 : Int) := by
  induction L with
  | nil => intro init iv h; simp at h
  | cons a L ih =>
    intro init iv hiv hlen
    simp only [List.map_cons, List.nodup_cons] at hnd
    simp only [List.foldl_cons]
    rcases List.mem_cons.mp hiv with rfl | hmem
    · rw [set_fold_other L _ hnd.1, getD_set_eq]
      simp [hlen]
    · exact ih hnd.2 _ iv hmem (by simpa using hlen)

theorem flat_pairs_snd (parts : List (List Nat)) :
    ((List.range parts.length).flatMap fun i => (parts.getD i []).map fun v => (i, v)).map Prod.snd
      = parts.flatten := by
  rw [List.map_flatMap]
  have h1 : ∀ i, ((parts.getD i []).map fun v => (i, v)).map Prod.snd = parts.getD i [] := by
    intro i
    rw [List.map_map]
    exact List.map_id _
  simp only [h1]
  rw [List.flatMap_def]
  congr 1
  apply List.ext_getElem
  · simp
  · intro i h1 h2
    simp only [List.getElem_map, List.getElem_range]
    exact List.getD_eq_getElem _ _ h2

/-- With disjoint blocks, every vertex of block `i` receives label `i`. -/
theorem label_blocks_exact (n : Nat) (parts : List (List Nat)) (h : PartsInv n parts)
    (i : Nat) (v : Nat) (hi : i < parts.length) (hv : v ∈ parts.getD i []) :
    (label_blocks n parts).getD v 0 = (i : Int) := by
  unfold label_blocks
  have key := foldl_nested_flat (List.range parts.length) (fun i => parts.getD i [])
    (fun (part : List Int) i v => part.set v (i : Int)) (List.replicate n 0)
  beta_reduce at key
  rw [key]
  have hnd : parts.flatten.Nodup := h.1.nodup_iff.mpr (List.nodup_range n)
  have hvn : v < n := (block_facts n parts h _ (mem_of_getD_nonempty parts i hi)).2 v hv
  have := set_fold_mem
    ((List.range parts.length).flatMap fun i => (parts.getD i []).map fun v => (i, v))
    (by rw [flat_pairs_snd]; exact hnd) (List.replicate n 0) (i, v)
    (by
      simp only [List.mem_flatMap, List.mem_range, List.mem_map]
      exact ⟨i, hi, v, hv, rfl⟩)
    (by simpa using hvn)
  exact this

/-- Labels of the result of `solve`: exactly the integers in `[0, min(k, n))`. -/
theorem kway_labels_spec (self : State) (g : WeightedGraph) (hn : 1 ≤ g.n) (hk : 1 ≤ self.k_) :
    (result (solve self g)).part.length = g.n ∧
    ∀ x : Int, x ∈ (result (solve self g)).part ↔ 0 ≤ x ∧ x < min self.k_ g.n := by
  have hn0 : g.n ≠ 0 := by omega
  have hmax : max 1 self.k_ = self.k_ := by omega
  refine ⟨(kway_solve_spec self g).1, fun x => ?_⟩
  by_cases hk1 : self.k_ = 1
  · have h11 : max 1 (1 : Int) = 1 := rfl
    simp only [solve, result, hn0, if_false, hk1, h11, if_true]
    rw [List.mem_replicate]
    constructor
    · rintro ⟨_, rfl⟩; omega
    · intro h; exact ⟨hn0, by omega⟩
  · have hne : max 1 self.k_ ≠ 1 := by omega
    obtain ⟨k, p, r⟩ := self
    simp only at hk hmax hk1 hne ⊢
    rw [kway_solve_eq k p r g hn0 hne, hmax]
    simp only [result]
    obtain ⟨hinv, hcount⟩ := split_loop_count g p k hk hn
    obtain ⟨_, hrange⟩ := label_blocks_spec g.n (split_loop g p k k.toNat [List.range g.n])
    constructor
    · intro hx
      have := hrange x hx
      omega
    · intro ⟨hx0, hxk⟩
      have hi : x.toNat < (split_loop g p k k.toNat [List.range g.n]).length := by omega
      have hb := hinv.2 _ (mem_of_getD_nonempty _ _ hi)
      obtain ⟨v, hv⟩ := List.exists_mem_of_ne_nil _ hb
      have hlab := label_blocks_exact g.n _ hinv x.toNat v hi hv
      rw [Int.toNat_of_nonneg hx0] at hlab
      have hvn : v < g.n := (block_facts g.n _ hinv _ (mem_of_getD_nonempty _ _ hi)).2 v hv
      rw [← hlab, List.getD_eq_getElem _ _ (by rw [(label_blocks_spec g.n _).1]; exact hvn)]
      exact List.getElem_mem _

/-- C23: for every graph with `n >= 1` and every `k >= 1`, the labels used by the result of
`KWayPartitionSolver::solve` are exactly `0, ..., min(k, n) - 1`: there are exactly `k`
non-empty blocks whenever `k <= n`, and fewer than `k` only when `k > n`. -/
theorem kway_labels_exact (self : State) (g : WeightedGraph) (hn : 1 ≤ g.n) (hk : 1 ≤ self.k_) :
    (result (solve self g)).part.length = g.n ∧
    (∀ x : Int, x ∈ (result (solve self g)).part ↔ 0 ≤ x ∧ x < min self.k_ g.n) ∧
    (self.k_ ≤ g.n → ∀ x : Int, 0 ≤ x → x < self.k_ → x ∈ (result (solve self g)).part) := by
  obtain ⟨h1, h2⟩ := kway_labels_spec self g hn hk
  refine ⟨h1, h2, fun hkn x hx0 hxk => (h2 x).mpr ⟨hx0, by omega⟩⟩

set_option maxRecDepth 1000000 in
/-- Witness for C23 on the demonstration graph with `k = 3`. -/
theorem kway_labels_exact_witness :
    1 ≤ demoGraph.n ∧ (1 : Int) ≤ 3 ∧
    (result (solve ⟨3, 8, {}⟩ demoGraph)).part.length = demoGraph.n ∧
    (∀ x : Int, x ∈ (result (solve ⟨3, 8, {}⟩ demoGraph)).part ↔
      0 ≤ x ∧ x < min (3 : Int) demoGraph.n) ∧
    ((3 : Int) ≤ demoGraph.n → ∀ x : Int, 0 ≤ x → x < 3 →
      x ∈ (result (solve ⟨3, 8, {}⟩ demoGraph)).part) :=
  ⟨by decide, by decide, kway_labels_exact ⟨3, 8, {}⟩ demoGraph (by decide) (by decide)⟩

end KWayPartitionSolver

/-! ## Bisection: gain of an exchange -/

namespace STMinCutSolver

/-- Variant of `adjSum_eq_of_pairs` for graphs without self-loops: only edges between distinct
vertices have to be compared. -/
theorem adjSum_eq_of_pairs_simple (g : WeightedGraph) (hg : g.Built)
    (hs : ∀ u ∈ List.range g.n, ∀ e ∈ g.nbrs u, e.to_ ≠ u) (F G : Nat → Edge → Int)
    (h : ∀ (a b : Nat) (w : Weight), a ≠ b → 0 ≤ w →
      F a ⟨b, w⟩ + F b ⟨a, w⟩ = G a ⟨b, w⟩ + G b ⟨a, w⟩) :
    adjSum g F = adjSum g G := by
  induction hg with
  | init n => rw [adjSum_init, adjSum_init]
  | @add g g1 u v w hb hadd ih =>
    rw [adjSum_add_undirected g g1 u v w hadd hb.WF, adjSum_add_undirected g g1 u v w hadd hb.WF]
    obtain ⟨h1, h2, h3, h4, hw, hg1⟩ := WeightedGraph.add_undirected_inv g g1 u v w hadd
    have hn : g1.n = g.n := by rw [hg1]
    have hnb := nbrs_add_undirected g g1 u v w hadd hb.WF
    have hne : u.toNat ≠ v.toNat := by
      intro e
      have := hs u.toNat (by rw [hn]; exact List.mem_range.mpr (by omega)) ⟨v.toNat, w⟩ (by
        rw [hnb u.toNat]
        simp)
      exact this e.symm
    have hprev := ih (fun x hx e he => hs x (by rw [hn]; exact hx) e (by
      rw [hnb x]
      simp [he]))
    have := h u.toNat v.toNat w hne hw
    omega

end STMinCutSolver

namespace MinimumBisectionSolver

theorem compute_D_fold (inn : List Bool) (p : List Int) (u : Nat) (l : List Edge)
    (hin : ∀ e ∈ l, inn.getD e.to_ false = true) :
    ∀ ie : Weight × Weight,
      ((l.foldl (fun (ie : Weight × Weight) e =>
        if !inn.getD e.to_ false then ie
        else if p.getD u 0 = p.getD e.to_ 0 then (ie.1 + e.w, ie.2)
        else (ie.1, ie.2 + e.w)) ie).2 : Int)
      - (l.foldl (fun (ie : Weight × Weight) e =>
        if !inn.getD e.to_ false then ie
        else if p.getD u 0 = p.getD e.to_ 0 then (ie.1 + e.w, ie.2)
        else (ie.1, ie.2 + e.w)) ie).1
      = ie.2 - ie.1
        + (l.map fun e => if p.getD u 0 = p.getD e.to_ 0 then -(e.w : Int) else e.w).sum := by
  induction l with
  | nil => intro ie; simp
  | cons e l ih =>
    intro ie
    have he := hin e (by simp)
    simp only [List.foldl_cons, List.map_cons, List.sum_cons]
    rw [ih (fun x hx => hin x (by simp [hx]))]
    simp only [he, Bool.not_true, Bool.false_eq_true, if_false]
    split <;> simp only <;> ring

/-- Entry `u` of `D` when every vertex is in the subset: external minus internal weight. -/
theorem compute_D_spec (g : WeightedGraph) (hg : g.WF) (p : List Int) (u : Nat) (hu : u < g.n) :
    ((compute_D g (mark_in g.n (List.range g.n)) p).getD u 0 : Int)
      = ((g.nbrs u).map fun e => if p.getD u 0 = p.getD e.to_ 0 then -(e.w : Int) else e.w).sum := by
  have hin : ∀ x, x < g.n → (mark_in g.n (List.range g.n)).getD x false = true := by
    intro x hx
    rw [mark_in_getD]
    exact ⟨List.mem_range.mpr hx, hx⟩
  unfold compute_D
  rw [List.getD_eq_getElem _ _ (by simpa using hu)]
  simp only [List.getElem_map, List.getElem_range, hin u hu, Bool.not_true, Bool.false_eq_true,
    if_false]
  have := compute_D_fold (mark_in g.n (List.range g.n)) p u (g.nbrs u)
    (fun e he => hin _ (WeightedGraph.nbrs_mem_WF hg u e he).1) (0, 0)
  simp only [sub_zero, zero_add] at this
  exact this

theorem find_weight_sum (l : List Edge) (v : Nat) (hnd : (l.map fun e => e.to_).Nodup) :
    (match l.find? (fun e => e.to_ = v) with
      | some e => e.w
      | none => (0 : Weight)) = (l.map fun e => if e.to_ = v then (e.w : Int) else 0).sum := by
  induction l with
  | nil => rfl
  | cons e l ih =>
    simp only [List.map_cons, List.nodup_cons] at hnd
    simp only [List.find?_cons, List.map_cons, List.sum_cons]
    by_cases h : e.to_ = v
    · simp only [h, decide_True, if_true]
      have hz : (l.map fun e => if e.to_ = v then (e.w : Int) else 0).sum = 0 := by
        apply List.sum_eq_zero
        intro x hx
        obtain ⟨e2, he2, rfl⟩ := List.mem_map.mp hx
        have : ¬ e2.to_ = v := by
          intro h2
          apply hnd.1
          rw [h, ← h2]
          exact List.mem_map.mpr ⟨e2, he2, rfl⟩
        simp [this]
      rw [hz]
      exact (add_zero (e.w : Int)).symm
    · simp only [h, decide_False, if_false]
      rw [ih hnd.2]
      exact (zero_add _).symm

/-- In a simple graph the `wuv` scan finds the whole weight between `u` and `v`. -/
theorem first_weight_simple (g : WeightedGraph) (hs : g.Simple) (u v : Nat) (hu : u < g.n) :
    (first_weight g u v : Int) = ((g.nbrs u).map fun e => if e.to_ = v then (e.w : Int) else 0).sum := by
  unfold first_weight
  exact find_weight_sum (g.nbrs u) v (hs u (List.mem_range.mpr hu)).2

end MinimumBisectionSolver

namespace MinimumBisectionSolver

theorem swap_labels_getD (part : List Int) (u v : Nat) (hu : u < part.length)
    (hv : v < part.length) (x : Nat) :
    (swap_labels part u v).getD x 0
      = if x = v then part.getD u 0 else if x = u then part.getD v 0 else part.getD x 0 := by
  unfold swap_labels
  rw [getD_set_eq, getD_set_eq]
  simp only [List.length_set, hu, hv, and_true]
  by_cases h1 : v = x
  · subst h1; simp
  · have h1' : ¬ x = v := fun e => h1 e.symm
    by_cases h2 : u = x
    · subst h2; simp [h1, h1']
    · have h2' : ¬ x = u := fun e => h2 e.symm
      simp [h1, h1', h2, h2']

theorem sum_map_neg_two (l : List Edge) (f : Edge → Int) :
    (l.map fun e => -2 * f e).sum = -2 * (l.map f).sum := by
  induction l with
  | nil => simp
  | cons e l ih =>
    simp only [List.map_cons, List.sum_cons, ih]
    ring

theorem pair_once (a b : Nat) (hab : a ≠ b) (X Y w : Int) :
    (if a < b ∧ X ≠ Y then w else 0) + (if b < a ∧ Y ≠ X then w else 0)
      = if X = Y then 0 else w := by
  rcases Nat.lt_or_gt_of_ne hab with h | h
  · have h' : ¬ b < a := by omega
    by_cases e : X = Y
    · simp [h, h', e]
    · simp [h, h', e]
  · have h' : ¬ a < b := by omega
    by_cases e : X = Y
    · simp [h, h', e]
    · have e' : ¬ Y = X := fun x => e x.symm
      simp [h, h', e, e']

theorem swap_pair_core (u v a b : Nat) (huv : u ≠ v) (hab : a ≠ b) (w Pa Pb : Int)
    (hPa : Pa = 0 ∨ Pa = 1) (hPb : Pb = 0 ∨ Pb = 1)
    (hau0 : a = u → Pa = 0) (hav0 : a = v → Pa = 1) (hbu0 : b = u → Pb = 0)
    (hbv0 : b = v → Pb = 1) :
    (if (if a = v then (0 : Int) else if a = u then 1 else Pa)
        = (if b = v then 0 else if b = u then 1 else Pb) then 0 else w)
    + ((if a = u then if 0 = Pb then -w else w else 0)
      + ((if a = v then if 1 = Pb then -w else w else 0)
        + if a = u then -2 * if b = v then w else 0 else 0))
    + ((if b = u then if 0 = Pa then -w else w else 0)
      + ((if b = v then if 1 = Pa then -w else w else 0)
        + if b = u then -2 * if a = v then w else 0 else 0))
    = if Pa = Pb then 0 else w := by
  have hvu : ¬ v = u := fun e => huv e.symm
  by_cases hau : a = u
  · have hPa0 := hau0 hau
    subst hau
    subst hPa0
    have hbu : ¬ b = a := fun e => hab e.symm
    by_cases hbv : b = v
    · have := hbv0 hbv
      subst hbv
      subst this
      simp [huv, hvu]
      omega
    · rcases hPb with rfl | rfl <;> simp [huv, hbu, hbv]
  · by_cases hav : a = v
    · have hPa1 := hav0 hav
      subst hav
      subst hPa1
      have hbv : ¬ b = a := fun e => hab e.symm
      by_cases hbu : b = u
      · have := hbu0 hbu
        subst hbu
        subst this
        simp [huv, hvu]
        omega
      · rcases hPb with rfl | rfl <;> simp [hvu, hbu, hbv, hau]
    · by_cases hbu : b = u
      · have := hbu0 hbu
        subst hbu
        subst this
        rcases hPa with rfl | rfl <;> simp [huv, hau, hav]
      · by_cases hbv : b = v
        · have := hbv0 hbv
          subst hbv
          subst this
          rcases hPa with rfl | rfl <;> simp [hvu, hau, hav, hbu]
        · simp [hau, hav, hbu, hbv]

/-- In a simple graph with a 0/1 labeling, exchanging a 0-labelled `u` with a 1-labelled `v`
lowers the cut weight by exactly the gain that a pass computes. -/
theorem swap_cut (g : WeightedGraph) (hb : g.Built) (hs : g.Simple) (part : List Int)
    (hlen : part.length = g.n) (hbin : ∀ x ∈ part, x = 0 ∨ x = 1) (u v : Nat)
    (hu : u < g.n) (hv : v < g.n) (hpu : part.getD u 0 = 0) (hpv : part.getD v 0 = 1) :
    (cut_weight_undirected g (swap_labels part u v) : Int)
      = cut_weight_undirected g part
        - swap_gain g (compute_D g (mark_in g.n (List.range g.n)) part) u v := by
  have huv : u ≠ v := by
    intro e
    rw [e, hpv] at hpu
    exact absurd hpu (by decide)
  have hDu := compute_D_spec g hb.WF part u hu
  have hDv := compute_D_spec g hb.WF part v hv
  have hW := first_weight_simple g hs u v hu
  have hS1 := STMinCutSolver.adjSum_single g u hu
    (fun e => if part.getD u 0 = part.getD e.to_ 0 then -(e.w : Int) else e.w)
  have hS2 := STMinCutSolver.adjSum_single g v hv
    (fun e => if part.getD v 0 = part.getD e.to_ 0 then -(e.w : Int) else e.w)
  have hS3 := STMinCutSolver.adjSum_single g u hu
    (fun e => -2 * (if e.to_ = v then (e.w : Int) else 0))
  rw [sum_map_neg_two] at hS3
  have hgain : (swap_gain g (compute_D g (mark_in g.n (List.range g.n)) part) u v : Int)
      = STMinCutSolver.adjSum g (fun a e =>
          (if a = u then (if part.getD u 0 = part.getD e.to_ 0 then -(e.w : Int) else e.w) else 0)
          + ((if a = v then (if part.getD v 0 = part.getD e.to_ 0 then -(e.w : Int) else e.w) else 0)
          + (if a = u then -2 * (if e.to_ = v then (e.w : Int) else 0) else 0))) := by
    rw [STMinCutSolver.adjSum_add g
        (fun a e => if a = u then
          (if part.getD u 0 = part.getD e.to_ 0 then -(e.w : Int) else e.w) else 0)
        (fun a e => (if a = v then
          (if part.getD v 0 = part.getD e.to_ 0 then -(e.w : Int) else e.w) else 0)
          + (if a = u then -2 * (if e.to_ = v then (e.w : Int) else 0) else 0)),
      STMinCutSolver.adjSum_add g
        (fun a e => if a = v then
          (if part.getD v 0 = part.getD e.to_ 0 then -(e.w : Int) else e.w) else 0)
        (fun a e => if a = u then -2 * (if e.to_ = v then (e.w : Int) else 0) else 0),
      hS1, hS2, hS3, ← hDu, ← hDv, ← hW]
    unfold swap_gain
    unfold Weight
    ring
  rw [hgain, STMinCutSolver.cut_weight_undirected_adjSum, STMinCutSolver.cut_weight_undirected_adjSum]
  rw [eq_sub_iff_add_eq, ← STMinCutSolver.adjSum_add]
  apply STMinCutSolver.adjSum_eq_of_pairs_simple g hb (fun x hx => (hs x hx).1)
  intro a b w hab hw
  have hw2 : (0 : Int) ≤ w := hw
  have hbinx : ∀ x, part.getD x 0 = 0 ∨ part.getD x 0 = 1 := by
    intro x
    rcases MultilevelKWayPartitionSolver.getD_mem_or_default part x 0 with h | h
    · exact hbin _ h
    · left; exact h
  simp only [swap_labels_getD part u v (by omega) (by omega), hpu, hpv]
  have k1 := pair_once a b hab
    (if a = v then (0 : Int) else if a = u then 1 else part.getD a 0)
    (if b = v then (0 : Int) else if b = u then 1 else part.getD b 0) w
  have k2 := pair_once a b hab (part.getD a 0) (part.getD b 0) w
  have core := swap_pair_core u v a b huv hab w (part.getD a 0) (part.getD b 0) (hbinx a)
    (hbinx b) (fun e => e ▸ hpu) (fun e => e ▸ hpv) (fun e => e ▸ hpu) (fun e => e ▸ hpv)
  linear_combination k1 + core - k2

end MinimumBisectionSolver

namespace MinimumBisectionSolver

/-! ## Bisection: the pass loop reaches a local optimum -/

theorem inner_scan_spec (g : WeightedGraph) (S : List Nat) (part : List Int) (D : List Weight)
    (u : Nat) (hu : u ∈ S) (hpu : part.getD u 0 = 0) (l : List Nat) (hl : ∀ v ∈ l, v ∈ S)
    (b : BestSwap)
    (hb : 0 ≤ b.best_gain ∧ (0 < b.best_gain → ∃ u v, b.best_u = some u ∧ b.best_v = some v ∧
      u ∈ S ∧ v ∈ S ∧ part.getD u 0 = 0 ∧ part.getD v 0 = 1 ∧ swap_gain g D u v = b.best_gain)) :
    ((0 ≤ (l.foldl (fun b v =>
        if part.getD v 0 = 1 then
          let gain := D.getD u 0 + D.getD v 0 - 2 * first_weight g u v
          if gain > b.best_gain then ⟨gain, some u, some v⟩ else b
        else b) b).best_gain ∧
      (0 < (l.foldl (fun b v =>
        if part.getD v 0 = 1 then
          let gain := D.getD u 0 + D.getD v 0 - 2 * first_weight g u v
          if gain > b.best_gain then ⟨gain, some u, some v⟩ else b
        else b) b).best_gain → ∃ u1 v1, (l.foldl (fun b v =>
        if part.getD v 0 = 1 then
          let gain := D.getD u 0 + D.getD v 0 - 2 * first_weight g u v
          if gain > b.best_gain then ⟨gain, some u, some v⟩ else b
        else b) b).best_u = some u1 ∧ (l.foldl (fun b v =>
        if part.getD v 0 = 1 then
          let gain := D.getD u 0 + D.getD v 0 - 2 * first_weight g u v
          if gain > b.best_gain then ⟨gain, some u, some v⟩ else b
        else b) b).best_v = some v1 ∧
        u1 ∈ S ∧ v1 ∈ S ∧ part.getD u1 0 = 0 ∧ part.getD v1 0 = 1 ∧
        swap_gain g D u1 v1 = (l.foldl (fun b v =>
        if part.getD v 0 = 1 then
          let gain := D.getD u 0 + D.getD v 0 - 2 * first_weight g u v
          if gain > b.best_gain then ⟨gain, some u, some v⟩ else b
        else b) b).best_gain)) ∧
      b.best_gain ≤ (l.foldl (fun b v =>
        if part.getD v 0 = 1 then
          let gain := D.getD u 0 + D.getD v 0 - 2 * first_weight g u v
          if gain > b.best_gain then ⟨gain, some u, some v⟩ else b
        else b) b).best_gain) ∧
    ∀ v ∈ l, part.getD v 0 = 1 → swap_gain g D u v ≤ (l.foldl (fun b v =>
        if part.getD v 0 = 1 then
          let gain := D.getD u 0 + D.getD v 0 - 2 * first_weight g u v
          if gain > b.best_gain then ⟨gain, some u, some v⟩ else b
        else b) b).best_gain := by
  apply foldl_inv_cover
    (fun (c : BestSwap) => (0 ≤ c.best_gain ∧ (0 < c.best_gain → ∃ u v, c.best_u = some u ∧
      c.best_v = some v ∧ u ∈ S ∧ v ∈ S ∧ part.getD u 0 = 0 ∧ part.getD v 0 = 1 ∧
      swap_gain g D u v = c.best_gain)) ∧ b.best_gain ≤ c.best_gain)
    (fun (v : Nat) (c : BestSwap) => part.getD v 0 = 1 → swap_gain g D u v ≤ c.best_gain)
  · exact ⟨hb, le_refl _⟩
  · intro c v hv ⟨⟨h0, h1⟩, h2⟩
    simp only
    by_cases hpv : part.getD v 0 = 1
    · rw [if_pos hpv]
      by_cases hgt : D.getD u 0 + D.getD v 0 - 2 * first_weight g u v > c.best_gain
      · rw [if_pos hgt]
        refine ⟨⟨⟨le_of_lt (lt_of_le_of_lt h0 hgt), fun _ =>
          ⟨u, v, rfl, rfl, hu, hl v hv, hpu, hpv, rfl⟩⟩, le_of_lt (lt_of_le_of_lt h2 hgt)⟩,
          fun _ => le_refl _⟩
      · rw [if_neg hgt]
        exact ⟨⟨⟨h0, h1⟩, h2⟩, fun _ => not_lt.mp hgt⟩
    · rw [if_neg hpv]
      exact ⟨⟨⟨h0, h1⟩, h2⟩, fun h => absurd h hpv⟩
  · intro c x y _ hq hy
    have := hq hy
    simp only
    split
    · split
      · rename_i hgt
        exact le_of_lt (lt_of_le_of_lt this hgt)
      · exact this
    · exact this

/-- Result of the double loop of a pass: the best gain is not negative, it is attained by the
stored pair when positive, and no cross pair has a larger gain. -/
theorem best_swap_spec (g : WeightedGraph) (S : List Nat) (part : List Int) (D : List Weight) :
    (0 ≤ (best_swap g S part D).best_gain ∧
      (0 < (best_swap g S part D).best_gain → ∃ u v, (best_swap g S part D).best_u = some u ∧
        (best_swap g S part D).best_v = some v ∧ u ∈ S ∧ v ∈ S ∧ part.getD u 0 = 0 ∧
        part.getD v 0 = 1 ∧ swap_gain g D u v = (best_swap g S part D).best_gain)) ∧
    ∀ u ∈ S, part.getD u 0 = 0 → ∀ v ∈ S, part.getD v 0 = 1 →
      swap_gain g D u v ≤ (best_swap g S part D).best_gain := by
  unfold best_swap
  apply foldl_inv_cover
    (fun (c : BestSwap) => 0 ≤ c.best_gain ∧ (0 < c.best_gain → ∃ u v, c.best_u = some u ∧
      c.best_v = some v ∧ u ∈ S ∧ v ∈ S ∧ part.getD u 0 = 0 ∧ part.getD v 0 = 1 ∧
      swap_gain g D u v = c.best_gain))
    (fun (u : Nat) (c : BestSwap) => part.getD u 0 = 0 → ∀ v ∈ S, part.getD v 0 = 1 →
      swap_gain g D u v ≤ c.best_gain)
  · exact ⟨le_refl _, fun h => absurd h (lt_irrefl _)⟩
  · intro c u hu hc
    simp only
    by_cases hpu : part.getD u 0 = 0
    · rw [if_pos hpu]
      obtain ⟨⟨i1, _⟩, i3⟩ := inner_scan_spec g S part D u hu hpu S (fun v hv => hv) c hc
      exact ⟨i1, fun _ => i3⟩
    · rw [if_neg hpu]
      exact ⟨hc, fun h => absurd h hpu⟩
  · intro c x y hc hq hy v hv hpv
    have := hq hy v hv hpv
    simp only
    by_cases hpx : part.getD x 0 = 0
    · rw [if_pos hpx]
      by_cases hx : x ∈ S
      · obtain ⟨⟨_, i2⟩, _⟩ := inner_scan_spec g S part D x hx hpx S (fun v hv => hv) c hc
        exact le_trans this i2
      · -- the step is only taken for members of `S`; outside it the bound is kept all the same
        have hmono : c.best_gain ≤ (S.foldl (fun b v =>
            if part.getD v 0 = 1 then
              let gain := D.getD x 0 + D.getD v 0 - 2 * first_weight g x v
              if gain > b.best_gain then ⟨gain, some x, some v⟩ else b
            else b) c).best_gain := by
          apply foldl_inv (fun (d : BestSwap) => c.best_gain ≤ d.best_gain)
          · exact le_refl _
          · intro d v _ hd
            simp only
            split
            · split
              · rename_i hgt
                exact le_of_lt (lt_of_le_of_lt hd hgt)
              · exact hd
            · exact hd
        exact le_trans this hmono
    · rw [if_neg hpx]
      exact this

end MinimumBisectionSolver

namespace MinimumBisectionSolver

theorem cut_nonneg (g : WeightedGraph) (hg : g.WF) (part : List Int) :
    (0 : Int) ≤ cut_weight_undirected g part := by
  rw [cut_weight_undirected_eq g hg part]
  exact cutOf_nonneg g hg _

theorem swap_labels_binary (part : List Int) (u v : Nat) (hbin : ∀ x ∈ part, x = 0 ∨ x = 1) :
    ∀ x ∈ swap_labels part u v, x = 0 ∨ x = 1 := by
  have hget : ∀ i, part.getD i 0 = 0 ∨ part.getD i 0 = 1 := by
    intro i
    rcases MultilevelKWayPartitionSolver.getD_mem_or_default part i 0 with h | h
    · exact hbin _ h
    · left; exact h
  intro x hx
  unfold swap_labels at hx
  rcases List.mem_or_eq_of_mem_set hx with h | h
  · rcases List.mem_or_eq_of_mem_set h with h | h
    · exact hbin x h
    · rw [h]; exact hget v
  · rw [h]; exact hget u

/-- With as many passes as the cut weight, the pass loop ends in a local optimum of pairwise
exchange. -/
theorem passes_swap_optimal (g : WeightedGraph) (hb : g.Built) (hs : g.Simple) (k : Nat) :
    ∀ part : List Int, part.length = g.n → (∀ x ∈ part, x = 0 ∨ x = 1) →
      (cut_weight_undirected g part : Int) ≤ k →
      SwapOptimal g (passes g (List.range g.n) (mark_in g.n (List.range g.n)) k part) := by
  induction k with
  | zero =>
    intro part _ _ hcut
    show SwapOptimal g part
    intro u _ v _ _ _
    have h1 := cut_nonneg g hb.WF (swap_labels part u v)
    show (cut_weight_undirected g part : Int) ≤ cut_weight_undirected g (swap_labels part u v)
    simp only [CharP.cast_eq_zero] at hcut
    unfold Weight at *
    omega
  | succ k ih =>
    intro part hlen hbin hcut
    obtain ⟨⟨hg0, hatt⟩, hmax⟩ := best_swap_spec g (List.range g.n) part
      (compute_D g (mark_in g.n (List.range g.n)) part)
    have hstay : (best_swap g (List.range g.n) part
        (compute_D g (mark_in g.n (List.range g.n)) part)).best_gain ≤ 0 → SwapOptimal g part := by
      intro hle u hu v hv hpu hpv
      have hgain := hmax u hu hpu v hv hpv
      have hcutswap := swap_cut g hb hs part hlen hbin u v (List.mem_range.mp hu)
        (List.mem_range.mp hv) hpu hpv
      show (cut_weight_undirected g part : Int) ≤ cut_weight_undirected g (swap_labels part u v)
      rw [hcutswap]
      have h1 : (swap_gain g (compute_D g (mark_in g.n (List.range g.n)) part) u v : Int)
          ≤ (best_swap g (List.range g.n) part
            (compute_D g (mark_in g.n (List.range g.n)) part)).best_gain := hgain
      have h2 : ((best_swap g (List.range g.n) part
            (compute_D g (mark_in g.n (List.range g.n)) part)).best_gain : Int) ≤ 0 := hle
      unfold Weight at *
      omega
    rw [passes_succ]
    split
    · rename_i u v hbu hbv
      split
      · rename_i hpos
        obtain ⟨u1, v1, e1, e2, hu, hv, hpu, hpv, hgain⟩ := hatt hpos
        rw [hbu] at e1
        rw [hbv] at e2
        cases e1
        cases e2
        have hcutswap := swap_cut g hb hs part hlen hbin u v (List.mem_range.mp hu)
          (List.mem_range.mp hv) hpu hpv
        apply ih _ (by rw [swap_labels_length]; exact hlen) (swap_labels_binary part u v hbin)
        rw [hcutswap, hgain]
        have h2 : (0 : Int) < (best_swap g (List.range g.n) part
            (compute_D g (mark_in g.n (List.range g.n)) part)).best_gain := hpos
        push_cast at hcut
        unfold Weight at *
        omega
      · rename_i hnp
        exact hstay (not_lt.mp hnp)
    · rename_i hnone
      apply hstay
      by_contra hpos
      obtain ⟨u1, v1, e1, e2, _⟩ := hatt (not_le.mp hpos)
      exact hnone u1 v1 e1 e2

theorem clear_outside_all (n : Nat) (part : List Int) (hlen : part.length = n) :
    clear_outside n (mark_in n (List.range n)) part = part := by
  obtain ⟨h1, h2⟩ := clear_outside_spec (mark_in n (List.range n)) part n
  unfold clear_outside
  apply List.ext_getElem h1
  intro i hi1 hi2
  have := h2 i
  rw [List.getD_eq_getElem _ _ hi1, List.getD_eq_getElem _ _ hi2] at this
  rw [this]
  have hin : (mark_in n (List.range n)).getD i false = true := by
    rw [mark_in_getD]
    exact ⟨List.mem_range.mpr (by omega), by omega⟩
  exact if_neg (fun h => by
    have h3 := h.2.2
    rw [hin] at h3
    exact Bool.noConfusion h3)

theorem start_part_length (g : WeightedGraph) : (start_part g).length = g.n := by
  unfold start_part
  rw [initial_part_eq]
  have hperm := order_by_internal_degree_perm g (List.range g.n)
  have := (init_fold ((g.n + 1) / 2) (order_by_internal_degree g (List.range g.n))
    (List.replicate g.n (-1)) 0 (hperm.nodup_iff.mpr (List.nodup_range g.n))
    (fun v hv => by
      have := hperm.mem_iff.mp hv
      simpa using this)).1
  simpa using this

theorem bisection_all_eq (g : WeightedGraph) (p : Int) :
    bisection_on_subset g (List.range g.n) p
      = passes g (List.range g.n) (mark_in g.n (List.range g.n)) p.toNat (start_part g) := by
  have hl := (passes_inv g (List.range g.n) (mark_in g.n (List.range g.n)) p.toNat (start_part g)
    (List.nodup_range g.n) (fun v hv => by
      rw [start_part_length]; exact List.mem_range.mp hv)).1
  unfold bisection_on_subset
  simp only [List.length_range]
  exact clear_outside_all g.n _ (by
    show (passes g (List.range g.n) (mark_in g.n (List.range g.n)) p.toNat (start_part g)).length
      = g.n
    rw [hl, start_part_length])

theorem start_part_binary (g : WeightedGraph) : ∀ x ∈ start_part g, x = 0 ∨ x = 1 := by
  obtain ⟨h1, _, h3, h4⟩ := bisection_on_subset_spec g (List.range g.n) 0
    (List.nodup_range g.n) (fun v hv => by simpa using hv)
  have e : bisection_on_subset g (List.range g.n) 0 = start_part g := by
    rw [bisection_all_eq]
    rfl
  rw [e] at h1 h3 h4
  have e3 := label_count_range (start_part g) 0
  have e4 := label_count_range (start_part g) 1
  rw [h1] at e3 e4
  rw [e3] at h3
  rw [e4] at h4
  simp only [List.length_range] at h3 h4
  apply labels_binary_of_counts
  rw [h3, h4, h1]
  omega

/-- C27: for every simple graph (built by `add_undirected`, without self-loops and parallel
edges, weights non-negative integers) whose adjacency entries sum to at most the 64-bit maximum
(so that every sort key, every `internal`/`external` sum, every gain `D[u] + D[v] - 2 * wuv`
and every cut weight stays in the range of `Weight`) and every `max_passes` that is at least
the cut weight of the initial degree-ordered labeling, the labeling returned by
`MinimumBisectionSolver::solve` is a local optimum of pairwise exchange: exchanging a vertex
labelled 0 with a vertex labelled 1 never gives a strictly smaller cut weight; the stored
`cut_weight` lies in `[0, 2^63 - 1]`. -/
theorem bisection_swap_optimal (self : State) (g : WeightedGraph) (hb : g.Built)
    (hs : g.Simple) (hsum : g.entry_weight ≤ WEIGHT_MAX)
    (hp : (cut_weight_undirected g (start_part g) : Int) ≤ self.max_passes_) :
    SwapOptimal g (result (solve self g)).part ∧
    0 ≤ (result (solve self g)).cut_weight ∧ (result (solve self g)).cut_weight ≤ WEIGHT_MAX := by
  refine ⟨?_, ?_⟩
  swap
  · by_cases hn : g.n = 0
    · simp only [solve, result, hn, if_true]
      exact ⟨by decide, by decide⟩
    · simp only [solve, result, hn, if_false]
      exact cut_weight_fits g hb.WF hsum _
  by_cases hn : g.n = 0
  · intro u hu
    rw [hn] at hu
    simp at hu
  · simp only [solve, result, hn, if_false]
    rw [bisection_all_eq]
    apply passes_swap_optimal g hb hs _ _ (start_part_length g) (start_part_binary g)
    have h0 := cut_nonneg g hb.WF (start_part g)
    have hp2 : (cut_weight_undirected g (start_part g) : Int) ≤ self.max_passes_ := hp
    unfold Weight at *
    omega

set_option maxRecDepth 1000000 in
/-- Witness for C27 on the demonstration graph with 11 passes, the cut weight of its initial
labeling. -/
theorem bisection_swap_optimal_witness :
    demoGraph.Built ∧ demoGraph.Simple ∧ demoGraph.entry_weight ≤ WEIGHT_MAX ∧
    (cut_weight_undirected demoGraph (start_part demoGraph) : Int) ≤ 11 ∧
    SwapOptimal demoGraph (result (solve ⟨11, {}⟩ demoGraph)).part :=
  ⟨WeightedGraph.ofEdges_Built _ _, by decide, by decide, by decide,
    (bisection_swap_optimal ⟨11, {}⟩ demoGraph (WeightedGraph.ofEdges_Built _ _) (by decide)
      (by decide) (by decide)).1⟩

end MinimumBisectionSolver

namespace MultilevelKWayPartitionSolver

theorem any_key_iff (m : List (Nat × Weight)) (k : Nat) :
    (m.any (fun p => decide (p.1 = k)) = true) ↔ k ∈ m.map Prod.fst := by
  simp only [List.any_eq_true, decide_eq_true_eq, List.mem_map]

theorem map_upd_keys (m : List (Nat × Weight)) (k : Nat) (w : Weight) :
    (m.map (fun p => if p.1 = k then (p.1, p.2 + w) else p)).map Prod.fst = m.map Prod.fst := by
  rw [List.map_map]
  apply List.map_congr_left
  intro p _
  show (if p.1 = k then (p.1, p.2 + w) else p).1 = p.1
  split_ifs <;> rfl

theorem map_upd_absent (m : List (Nat × Weight)) (k : Nat) (w : Weight)
    (h : k ∉ m.map Prod.fst) :
    m.map (fun p => if p.1 = k then (p.1, p.2 + w) else p) = m := by
  induction m with
  | nil => rfl
  | cons p rest ih =>
    simp only [List.map_cons, List.mem_cons, not_or] at h
    rw [List.map_cons, ih h.2, if_neg (fun e => h.1 e.symm)]

theorem map_add_keys (m : List (Nat × Weight)) (k : Nat) (w : Weight) :
    (map_add m k w).map Prod.fst =
      if k ∈ m.map Prod.fst then m.map Prod.fst else m.map Prod.fst ++ [k] := by
  unfold map_add
  by_cases h : k ∈ m.map Prod.fst
  · rw [if_pos ((any_key_iff m k).2 h), if_pos h, map_upd_keys]
  · rw [if_neg (fun e => h ((any_key_iff m k).1 e)), if_neg h, List.map_append]
    rfl

theorem map_add_good (u : Nat) (m : List (Nat × Weight)) (k : Nat) (w : Weight)
    (hm : RowGood u m) (hk : k ≠ u) : RowGood u (map_add m k w) := by
  have hkeys := map_add_keys m k w
  constructor
  · rw [hkeys]
    split_ifs with h
    · exact hm.1
    · exact List.Nodup.append hm.1 (List.nodup_singleton k) (by
        intro x hx hx2
        rw [List.mem_singleton] at hx2
        exact h (hx2 ▸ hx))
  · intro p hp
    have : p.1 ∈ (map_add m k w).map Prod.fst := List.mem_map_of_mem _ hp
    rw [hkeys] at this
    split_ifs at this with h
    · obtain ⟨q, hq, e⟩ := List.mem_map.1 this
      rw [← e]
      exact hm.2 q hq
    · rcases List.mem_append.1 this with h1 | h1
      · obtain ⟨q, hq, e⟩ := List.mem_map.1 h1
        rw [← e]
        exact hm.2 q hq
      · rw [List.mem_singleton] at h1
        rw [h1]
        exact hk

theorem map_upd_sum (φ : Nat → Int → Int) (hadd : ∀ k a b, φ k (a + b) = φ k a + φ k b)
    (m : List (Nat × Weight)) (k : Nat) (w : Weight)
    (hnd : (m.map Prod.fst).Nodup) (hk : k ∈ m.map Prod.fst) :
    ((m.map (fun p => if p.1 = k then (p.1, p.2 + w) else p)).map fun p => φ p.1 p.2).sum =
      (m.map fun p => φ p.1 p.2).sum + φ k w := by
  induction m with
  | nil => simp at hk
  | cons p rest ih =>
    simp only [List.map_cons, List.nodup_cons] at hnd
    by_cases hp : p.1 = k
    · have habs : k ∉ rest.map Prod.fst := hp ▸ hnd.1
      rw [List.map_cons, map_upd_absent rest k w habs, if_pos hp]
      simp only [List.map_cons, List.sum_cons]
      rw [hadd, hp]
      ring
    · have hk2 : k ∈ rest.map Prod.fst := by
        simp only [List.map_cons, List.mem_cons] at hk
        rcases hk with h | h
        · exact absurd h.symm hp
        · exact h
      rw [List.map_cons, if_neg hp]
      simp only [List.map_cons, List.sum_cons]
      rw [ih hnd.2 hk2]
      ring

theorem map_add_sum (φ : Nat → Int → Int) (hadd : ∀ k a b, φ k (a + b) = φ k a + φ k b)
    (m : List (Nat × Weight)) (k : Nat) (w : Weight) (hnd : (m.map Prod.fst).Nodup) :
    ((map_add m k w).map fun p => φ p.1 p.2).sum = (m.map fun p => φ p.1 p.2).sum + φ k w := by
  unfold map_add
  by_cases h : k ∈ m.map Prod.fst
  · rw [if_pos ((any_key_iff m k).2 h)]
    exact map_upd_sum φ hadd m k w hnd h
  · rw [if_neg (fun e => h ((any_key_iff m k).1 e))]
    simp only [List.map_append, List.sum_append, List.map_cons, List.map_nil, List.sum_cons,
      List.sum_nil, add_zero]
    have h0 : φ k 0 = 0 := by
      have := hadd k 0 0
      simp only [add_zero] at this
      linarith
    rw [hadd, h0, zero_add]

end MultilevelKWayPartitionSolver

open STMinCutSolver in
theorem sum_flat_pairs {γ : Type} (us : List Nat) (nb : Nat → List γ) (C : Nat → γ → Int) :
    ((us.flatMap fun u => (nb u).map fun e => (u, e)).map fun ue => C ue.1 ue.2).sum
      = (us.map fun u => ((nb u).map (C u)).sum).sum := by
  induction us with
  | nil => rfl
  | cons u us ih =>
    simp only [List.flatMap_cons, List.map_append, List.sum_append, List.map_cons, List.sum_cons,
      List.map_map]
    rw [ih]
    rfl

namespace MultilevelKWayPartitionSolver

open STMinCutSolver

theorem mapSum_modify (φ : Nat → Nat → Int → Int) (am : List (List (Nat × Weight))) (cn : Nat)
    (f : List (Nat × Weight) → List (Nat × Weight)) (i : Nat) (hi : i < cn)
    (hlen : am.length = cn) :
    mapSum φ (am.modify f i) cn = mapSum φ am cn
      + (((f (am.getD i [])).map fun p => φ i p.1 p.2).sum
        - ((am.getD i []).map fun p => φ i p.1 p.2).sum) := by
  unfold mapSum
  have key : ∀ u ∈ Finset.range cn,
      (((am.modify f i).getD u []).map fun p => φ u p.1 p.2).sum
        = ((am.getD u []).map fun p => φ u p.1 p.2).sum
          + if u = i then (((f (am.getD i [])).map fun p => φ i p.1 p.2).sum
              - ((am.getD i []).map fun p => φ i p.1 p.2).sum) else 0 := by
    intro u _
    rw [getD_modify_eq]
    by_cases h : u = i
    · subst h
      rw [if_pos ⟨rfl, by omega⟩, if_pos rfl]
      ring
    · rw [if_neg (fun e => h e.1.symm), if_neg h, add_zero]
  rw [Finset.sum_congr rfl key, Finset.sum_add_distrib, Finset.sum_ite_eq']
  rw [if_pos (Finset.mem_range.2 hi)]

theorem adj_step_spec (φ : Nat → Nat → Int → Int)
    (hadd : ∀ u k a b, φ u k (a + b) = φ u k a + φ u k b)
    (ftc : List Int) (cn : Nat) (am : List (List (Nat × Weight))) (u : Nat) (e : Edge)
    (hu : 0 ≤ ftc.getD u 0 ∧ ftc.getD u 0 < (cn : Int))
    (hv : 0 ≤ ftc.getD e.to_ 0 ∧ ftc.getD e.to_ 0 < (cn : Int))
    (ham : AdjInv cn am) :
    AdjInv cn (adj_step ftc am u e) ∧
    mapSum φ (adj_step ftc am u e) cn = mapSum φ am cn + adj_term φ ftc u e := by
  unfold adj_step adj_term
  simp only
  by_cases h1 : u < e.to_
  · rw [if_pos h1, if_pos h1]
    by_cases h2 : ftc.getD u 0 = ftc.getD e.to_ 0
    · rw [if_pos h2, if_pos h2]
      exact ⟨ham, (add_zero _).symm⟩
    · rw [if_neg h2, if_neg h2]
      obtain ⟨cu, hcu⟩ : ∃ cu : Nat, ftc.getD u 0 = (cu : Int) := ⟨_, (Int.toNat_of_nonneg hu.1).symm⟩
      obtain ⟨cv, hcv⟩ : ∃ cv : Nat, ftc.getD e.to_ 0 = (cv : Int) :=
        ⟨_, (Int.toNat_of_nonneg hv.1).symm⟩
      rw [hcu, hcv] at h2 ⊢
      simp only [Int.toNat_ofNat]
      have hne : cu ≠ cv := fun h => h2 (by rw [h])
      have hcu2 : cu < cn := by omega
      have hcv2 : cv < cn := by omega
      have hlen1 : (am.modify (fun m => map_add m cv e.w) cu).length = cn := by
        rw [List.length_modify]; exact ham.1
      have hrow1 : (am.modify (fun m => map_add m cv e.w) cu).getD cv [] = am.getD cv [] := by
        rw [getD_modify_eq, if_neg (fun h => hne h.1)]
      constructor
      · refine ⟨by rw [List.length_modify]; exact hlen1, fun x hx => ?_⟩
        rw [getD_modify_eq]
        by_cases hx2 : cv = x
        · subst hx2
          rw [if_pos ⟨rfl, by omega⟩, hrow1]
          exact map_add_good cv _ cu e.w (ham.2 cv hcv2) hne
        · rw [if_neg (fun h => hx2 h.1), getD_modify_eq]
          by_cases hx3 : cu = x
          · subst hx3
            rw [if_pos ⟨rfl, by rw [ham.1]; exact hcu2⟩]
            exact map_add_good cu _ cv e.w (ham.2 cu hcu2) (Ne.symm hne)
          · rw [if_neg (fun h => hx3 h.1)]
            exact ham.2 x hx
      · rw [mapSum_modify φ _ cn _ cv hcv2 hlen1, hrow1,
          map_add_sum (φ cv) (hadd cv) _ cu e.w (ham.2 cv hcv2).1,
          mapSum_modify φ am cn _ cu hcu2 ham.1,
          map_add_sum (φ cu) (hadd cu) _ cv e.w (ham.2 cu hcu2).1]
        ring
  · rw [if_neg h1, if_neg h1]
    exact ⟨ham, (add_zero _).symm⟩

theorem adj_fold_spec (φ : Nat → Nat → Int → Int)
    (hadd : ∀ u k a b, φ u k (a + b) = φ u k a + φ u k b)
    (ftc : List Int) (cn : Nat) (L : List (Nat × Edge))
    (hL : ∀ ue ∈ L, (0 ≤ ftc.getD ue.1 0 ∧ ftc.getD ue.1 0 < (cn : Int)) ∧
      (0 ≤ ftc.getD ue.2.to_ 0 ∧ ftc.getD ue.2.to_ 0 < (cn : Int))) :
    ∀ am, AdjInv cn am →
      AdjInv cn (L.foldl (fun am ue => adj_step ftc am ue.1 ue.2) am) ∧
      mapSum φ (L.foldl (fun am ue => adj_step ftc am ue.1 ue.2) am) cn
        = mapSum φ am cn + (L.map fun ue => adj_term φ ftc ue.1 ue.2).sum := by
  induction L with
  | nil => intro am ham; exact ⟨ham, by simp⟩
  | cons ue L ih =>
    intro am ham
    have h0 := hL ue (List.mem_cons_self _ _)
    obtain ⟨s1, s2⟩ := adj_step_spec φ hadd ftc cn am ue.1 ue.2 h0.1 h0.2 ham
    obtain ⟨i1, i2⟩ := ih (fun x hx => hL x (List.mem_cons_of_mem _ hx)) _ s1
    rw [List.foldl_cons]
    refine ⟨i1, ?_⟩
    rw [i2, s2, List.map_cons, List.sum_cons]
    ring

theorem build_adj_map_flat (g : WeightedGraph) (ftc : List Int) (cn : Nat) :
    build_adj_map g ftc cn =
      ((List.range g.n).flatMap fun u => (g.nbrs u).map fun e => (u, e)).foldl
        (fun am ue => adj_step ftc am ue.1 ue.2) (List.replicate cn []) := by
  unfold build_adj_map
  exact foldl_nested_flat (List.range g.n) g.nbrs (fun am u e => adj_step ftc am u e) _

theorem adj_inv_init (cn : Nat) : AdjInv cn (List.replicate cn []) := by
  refine ⟨List.length_replicate _ _, fun u hu => ?_⟩
  rw [getD_replicate_eq, if_pos hu]
  exact ⟨List.nodup_nil, fun p hp => absurd hp (List.not_mem_nil p)⟩

theorem mapSum_init (φ : Nat → Nat → Int → Int) (cn : Nat) :
    mapSum φ (List.replicate cn []) cn = 0 := by
  unfold mapSum
  apply Finset.sum_eq_zero
  intro u _
  rw [getD_replicate_eq]
  split <;> rfl

/-- The accumulated `adj_map`: good rows, and every additive functional of the rows is the sum
of its values on the fine entries `u < v` whose endpoints lie in different coarse vertices. -/
theorem build_adj_map_sum (g : WeightedGraph) (hg : g.WF) (ftc : List Int) (cn : Nat)
    (hftc : ∀ x, x < g.n → 0 ≤ ftc.getD x 0 ∧ ftc.getD x 0 < (cn : Int))
    (φ : Nat → Nat → Int → Int) (hadd : ∀ u k a b, φ u k (a + b) = φ u k a + φ u k b) :
    AdjInv cn (build_adj_map g ftc cn) ∧
    mapSum φ (build_adj_map g ftc cn) cn = adjSum g (adj_term φ ftc) := by
  rw [build_adj_map_flat]
  have hL : ∀ ue ∈ (List.range g.n).flatMap fun u => (g.nbrs u).map fun e => (u, e),
      (0 ≤ ftc.getD ue.1 0 ∧ ftc.getD ue.1 0 < (cn : Int)) ∧
      (0 ≤ ftc.getD ue.2.to_ 0 ∧ ftc.getD ue.2.to_ 0 < (cn : Int)) := by
    intro ue hue
    obtain ⟨u, hu, hue2⟩ := List.mem_flatMap.1 hue
    obtain ⟨e, he, rfl⟩ := List.mem_map.1 hue2
    have hu2 : u < g.n := List.mem_range.1 hu
    exact ⟨hftc u hu2, hftc e.to_ (WeightedGraph.nbrs_mem_WF hg u e he).1⟩
  obtain ⟨i1, i2⟩ := adj_fold_spec φ hadd ftc cn _ hL _ (adj_inv_init cn)
  refine ⟨i1, ?_⟩
  rw [i2, mapSum_init, zero_add, sum_flat_pairs (List.range g.n) g.nbrs (adj_term φ ftc),
    list_sum_range]
  rfl

end MultilevelKWayPartitionSolver

namespace WeightedGraph

open STMinCutSolver

/-- A sum over the adjacency entries of a built graph, call by call. -/
theorem adjSum_calls (n : Nat) (calls : List (Int × Int × Weight)) (g : WeightedGraph)
    (h : BuiltBy n calls g) (f : Nat → Edge → Int) :
    adjSum g f = (calls.map fun c =>
      f c.1.toNat ⟨c.2.1.toNat, c.2.2⟩ + f c.2.1.toNat ⟨c.1.toNat, c.2.2⟩).sum := by
  induction h with
  | init => rw [adjSum_init]; rfl
  | @add calls g g1 u v w hb hadd ih =>
    rw [adjSum_add_undirected g g1 u v w hadd hb.Built.WF, ih, List.map_append, List.sum_append]
    simp only [List.map_cons, List.map_nil, List.sum_cons, List.sum_nil, add_zero]
    ring

theorem BuiltBy.n_eq {n : Nat} {calls : List (Int × Int × Weight)} {g : WeightedGraph}
    (h : BuiltBy n calls g) : g.n = n := by
  induction h with
  | init => rfl
  | @add calls g g1 u v w hb hadd ih =>
    rw [(add_undirected_WF g g1 u v w hb.Built.WF hadd).2, ih]

/-- Calls with pairwise different endpoint pairs, each from the lower to the higher vertex,
build a simple graph. -/
theorem simple_of_calls (n : Nat) (calls : List (Int × Int × Weight)) (g : WeightedGraph)
    (h : BuiltBy n calls g) :
    (∀ c ∈ calls, c.1.toNat < c.2.1.toNat) →
    (calls.map fun c => (c.1.toNat, c.2.1.toNat)).Nodup →
    g.Simple ∧ ∀ x, ∀ e ∈ g.nbrs x,
      (x, e.to_) ∈ (calls.map fun c => (c.1.toNat, c.2.1.toNat)) ∨
      (e.to_, x) ∈ (calls.map fun c => (c.1.toNat, c.2.1.toNat)) := by
  induction h with
  | init =>
    intro _ _
    have hnil : ∀ x, (WeightedGraph.init n).nbrs x = [] := by
      intro x
      unfold WeightedGraph.nbrs WeightedGraph.init
      rw [getD_replicate_eq]
      split <;> rfl
    refine ⟨fun u _ => ?_, fun x e he => ?_⟩
    · rw [hnil]
      exact ⟨fun e he => absurd he (List.not_mem_nil e), List.nodup_nil⟩
    · rw [hnil] at he
      exact absurd he (List.not_mem_nil e)
  | @add calls g g1 u v w hb hadd ih =>
    intro hlt hnd
    rw [List.map_append, List.map_cons, List.map_nil] at hnd
    have hnd1 := (List.nodup_append.1 hnd).1
    have hnew : (u.toNat, v.toNat) ∉ calls.map fun c => (c.1.toNat, c.2.1.toNat) := fun hm =>
      (List.nodup_append.1 hnd).2.2 hm (List.mem_singleton_self _)
    have huv : u.toNat < v.toNat := hlt (u, v, w) (by simp)
    have hltK : ∀ a b, (a, b) ∈ (calls.map fun c => (c.1.toNat, c.2.1.toNat)) → a < b := by
      intro a b hab
      obtain ⟨c, hc, e⟩ := List.mem_map.1 hab
      have := hlt c (List.mem_append_left _ hc)
      simp only [Prod.mk.injEq] at e
      omega
    obtain ⟨ihs, ihm⟩ := ih (fun c hc => hlt c (List.mem_append_left _ hc)) hnd1
    have hn1 : g1.n = g.n := (add_undirected_WF g g1 u v w hb.Built.WF hadd).2
    have hnb := nbrs_add_undirected g g1 u v w hadd hb.Built.WF
    have hmem : ∀ x, ∀ e ∈ g1.nbrs x, e ∈ g.nbrs x ∨ (x = u.toNat ∧ e.to_ = v.toNat) ∨
        (x = v.toNat ∧ e.to_ = u.toNat) := by
      intro x e he
      rw [hnb x] at he
      rcases List.mem_append.1 he with he | he
      · rcases List.mem_append.1 he with he | he
        · exact Or.inl he
        · split_ifs at he with hx
          · rw [List.mem_singleton] at he
            exact Or.inr (Or.inl ⟨hx, by rw [he]⟩)
          · exact absurd he (List.not_mem_nil e)
      · split_ifs at he with hx
        · rw [List.mem_singleton] at he
          exact Or.inr (Or.inr ⟨hx, by rw [he]⟩)
        · exact absurd he (List.not_mem_nil e)
    have hfresh1 : ∀ e ∈ g.nbrs u.toNat, e.to_ ≠ v.toNat := by
      intro e he hto
      rcases ihm _ e he with h | h
      · rw [hto] at h; exact hnew h
      · rw [hto] at h; have := hltK _ _ h; omega
    have hfresh2 : ∀ e ∈ g.nbrs v.toNat, e.to_ ≠ u.toNat := by
      intro e he hto
      rcases ihm _ e he with h | h
      · rw [hto] at h; have := hltK _ _ h; omega
      · rw [hto] at h; exact hnew h
    constructor
    · intro x hx
      have hx2 : x ∈ List.range g.n := by rw [← hn1]; exact hx
      constructor
      · intro e he
        rcases hmem x e he with h | ⟨h1, h2⟩ | ⟨h1, h2⟩
        · exact (ihs x hx2).1 e h
        · omega
        · omega
      · rw [hnb x, List.map_append, List.map_append]
        by_cases h1 : x = u.toNat
        · have h2 : ¬ x = v.toNat := by omega
          rw [if_pos h1, if_neg h2, List.map_nil, List.append_nil]
          refine List.Nodup.append (ihs x hx2).2 (List.nodup_singleton _) ?_
          intro a ha ha2
          simp only [List.map_cons, List.map_nil, List.mem_singleton] at ha2
          obtain ⟨e, he, rfl⟩ := List.mem_map.1 ha
          rw [h1] at he
          exact hfresh1 e he ha2
        · rw [if_neg h1, List.map_nil, List.append_nil]
          by_cases h2 : x = v.toNat
          · rw [if_pos h2]
            refine List.Nodup.append (ihs x hx2).2 (List.nodup_singleton _) ?_
            intro a ha ha2
            simp only [List.map_cons, List.map_nil, List.mem_singleton] at ha2
            obtain ⟨e, he, rfl⟩ := List.mem_map.1 ha
            rw [h2] at he
            exact hfresh2 e he ha2
          · rw [if_neg h2, List.map_nil, List.append_nil]
            exact (ihs x hx2).2
    · intro x e he
      rw [List.map_append, List.map_cons, List.map_nil]
      rcases hmem x e he with h | ⟨h1, h2⟩ | ⟨h1, h2⟩
      · rcases ihm x e h with h | h
        · exact Or.inl (List.mem_append_left _ h)
        · exact Or.inr (List.mem_append_left _ h)
      · left
        rw [h1, h2]
        exact List.mem_append_right _ (List.mem_singleton_self _)
      · right
        rw [h1, h2]
        exact List.mem_append_right _ (List.mem_singleton_self _)

end WeightedGraph

namespace MultilevelKWayPartitionSolver

open STMinCutSolver

theorem emit_fold (cn : Nat) (L : List (Nat × (Nat × Weight)))
    (hL : ∀ up ∈ L, up.1 < cn ∧ up.2.1 < cn ∧ (0 : Int) ≤ up.2.2) :
    ∀ calls0 : List (Int × Int × Weight),
      L.foldl (fun (acc : Except SolverError WeightedGraph) up =>
        if up.1 < up.2.1 then acc.bind fun c => c.add_undirected up.1 up.2.1 up.2.2 else acc)
        (.ok (WeightedGraph.ofEdges cn calls0))
      = .ok (WeightedGraph.ofEdges cn (calls0 ++
          (L.filter fun up => decide (up.1 < up.2.1)).map fun up =>
            ((up.1 : Int), (up.2.1 : Int), up.2.2))) := by
  induction L with
  | nil => intro calls0; simp
  | cons up L ih =>
    intro calls0
    obtain ⟨h1, h2, h3⟩ := hL up (List.mem_cons_self _ _)
    rw [List.foldl_cons]
    by_cases hlt : up.1 < up.2.1
    · have hok := WeightedGraph.add_undirected_ok (WeightedGraph.ofEdges cn calls0) up.1 up.2.1
        up.2.2 (by rw [WeightedGraph.ofEdges_n]; exact h1)
        (by rw [WeightedGraph.ofEdges_n]; exact h2) h3
      have happ := WeightedGraph.ofEdges_append cn calls0 ((up.1 : Int), (up.2.1 : Int), up.2.2)
      simp only [hok] at happ
      rw [if_pos hlt]
      show List.foldl _ ((WeightedGraph.ofEdges cn calls0).add_undirected up.1 up.2.1 up.2.2) L = _
      rw [hok, ← happ, ih (fun x hx => hL x (List.mem_cons_of_mem _ hx)),
        List.filter_cons, if_pos (by simpa using hlt), List.map_cons, List.append_assoc]
      rfl
    · rw [if_neg hlt, ih (fun x hx => hL x (List.mem_cons_of_mem _ hx)),
        List.filter_cons, if_neg (by simpa using hlt)]

theorem emit_pairs_mem (iter : MapOrder) (hiter : iter.Legal)
    (am : List (List (Nat × Weight))) (cn : Nat) (up : Nat × (Nat × Weight))
    (h : up ∈ emit_pairs iter am cn) : up.1 < cn ∧ up.2 ∈ am.getD up.1 [] := by
  unfold emit_pairs at h
  obtain ⟨u, hu, h2⟩ := List.mem_flatMap.1 h
  obtain ⟨p, hp, rfl⟩ := List.mem_map.1 h2
  exact ⟨List.mem_range.1 hu, (hiter _).mem_iff.1 hp⟩

theorem emit_coarse_eq (iter : MapOrder) (hiter : iter.Legal)
    (am : List (List (Nat × Weight))) (cn : Nat)
    (hrows : ∀ row ∈ am, RowOk cn row) :
    emit_coarse iter am cn = .ok (WeightedGraph.ofEdges cn (emit_calls iter am cn)) ∧
    WeightedGraph.BuiltBy cn (emit_calls iter am cn)
      (WeightedGraph.ofEdges cn (emit_calls iter am cn)) := by
  have hrow : ∀ u, RowOk cn (am.getD u []) := by
    intro u
    rcases getD_mem_or_default am u [] with h | h
    · exact hrows _ h
    · rw [h]; intro q hq; exact absurd hq (List.not_mem_nil q)
  have hL : ∀ up ∈ emit_pairs iter am cn, up.1 < cn ∧ up.2.1 < cn ∧ (0 : Int) ≤ up.2.2 := by
    intro up hup
    obtain ⟨h1, h2⟩ := emit_pairs_mem iter hiter am cn up hup
    exact ⟨h1, hrow up.1 up.2 h2⟩
  constructor
  · unfold emit_coarse
    have hflat := foldl_nested_flat (List.range cn) (fun u => iter (am.getD u []))
      (fun (acc : Except SolverError WeightedGraph) (u : Nat) (p : Nat × Weight) =>
        if u < p.1 then acc.bind fun c => c.add_undirected u p.1 p.2 else acc)
      (.ok (WeightedGraph.init cn))
    rw [hflat]
    have := emit_fold cn (emit_pairs iter am cn) hL []
    rw [List.nil_append] at this
    exact this
  · apply WeightedGraph.ofEdges_BuiltBy
    intro c hc
    unfold emit_calls at hc
    obtain ⟨up, hup, rfl⟩ := List.mem_map.1 hc
    obtain ⟨h1, h2, h3⟩ := hL up (List.mem_filter.1 hup).1
    exact ⟨by simp, by simpa using h1, by simp, by simpa using h2, h3⟩

theorem emit_calls_keys (iter : MapOrder) (hiter : iter.Legal)
    (am : List (List (Nat × Weight))) (cn : Nat) (ham : AdjInv cn am) :
    (∀ c ∈ emit_calls iter am cn, c.1.toNat < c.2.1.toNat) ∧
    ((emit_calls iter am cn).map fun c => (c.1.toNat, c.2.1.toNat)).Nodup := by
  constructor
  · intro c hc
    unfold emit_calls at hc
    obtain ⟨up, hup, rfl⟩ := List.mem_map.1 hc
    have := (List.mem_filter.1 hup).2
    simpa using this
  · have hsub : ((emit_calls iter am cn).map fun c => (c.1.toNat, c.2.1.toNat)).Sublist
        ((emit_pairs iter am cn).map fun up => (up.1, up.2.1)) := by
      unfold emit_calls
      rw [List.map_map]
      have : ((fun c : Int × Int × Weight => (c.1.toNat, c.2.1.toNat)) ∘
          fun up : Nat × (Nat × Weight) => ((up.1 : Int), (up.2.1 : Int), up.2.2))
          = fun up => (up.1, up.2.1) := by
        funext up
        simp
      rw [this]
      exact List.Sublist.map _ (List.filter_sublist _)
    apply List.Nodup.sublist hsub
    unfold emit_pairs
    rw [List.map_flatMap]
    rw [List.nodup_flatMap]
    constructor
    · intro u hu
      rw [List.map_map]
      have hk : ((iter (am.getD u [])).map Prod.fst).Nodup :=
        (List.Perm.nodup_iff ((hiter _).map _)).2 (ham.2 u (List.mem_range.1 hu)).1
      have : (List.map ((fun up : Nat × (Nat × Weight) => (up.1, up.2.1)) ∘ fun p => (u, p))
          (iter (am.getD u []))) = ((iter (am.getD u [])).map Prod.fst).map fun k => (u, k) := by
        rw [List.map_map]; rfl
      rw [this]
      exact List.Nodup.map (fun a b e => by simpa using e) hk
    · apply List.Pairwise.imp _ (List.nodup_range cn)
      intro a b hab
      show List.Disjoint _ _
      intro x hx1 hx2
      simp only [List.map_map, List.mem_map, Function.comp] at hx1 hx2
      obtain ⟨p, _, rfl⟩ := hx1
      obtain ⟨q, _, e⟩ := hx2
      simp only [Prod.mk.injEq] at e
      exact hab e.1.symm

end MultilevelKWayPartitionSolver

theorem sum_filter_zero {α : Type} (L : List α) (P : α → Bool) (F : α → Int)
    (h : ∀ x ∈ L, P x = false → F x = 0) :
    ((L.filter P).map F).sum = (L.map F).sum := by
  induction L with
  | nil => rfl
  | cons a L ih =>
    have ih2 := ih (fun x hx => h x (List.mem_cons_of_mem _ hx))
    by_cases ha : P a = true
    · rw [List.filter_cons, if_pos ha, List.map_cons, List.sum_cons, ih2, List.map_cons,
        List.sum_cons]
    · rw [List.filter_cons, if_neg ha, ih2, List.map_cons, List.sum_cons,
        h a (List.mem_cons_self _ _) (by simpa using ha), zero_add]

namespace STMinCutSolver

theorem adjSum_congr (g : WeightedGraph) (F G : Nat → Edge → Int)
    (h : ∀ u, u < g.n → ∀ e ∈ g.nbrs u, F u e = G u e) : adjSum g F = adjSum g G := by
  unfold adjSum
  apply Finset.sum_congr rfl
  intro u hu
  congr 1
  apply List.map_congr_left
  intro e he
  exact h u (Finset.mem_range.1 hu) e he

end STMinCutSolver

namespace MultilevelKWayPartitionSolver

open STMinCutSolver

theorem cutTerm_add (cp : List Int) (u k : Nat) (a b : Int) :
    cutTerm cp u k (a + b) = cutTerm cp u k a + cutTerm cp u k b := by
  unfold cutTerm
  split_ifs
  · rfl
  · rfl

theorem project_getD (g : WeightedGraph) (map part : List Int) (u : Nat) (hu : u < g.n) :
    (project g map part).getD u 0 = part.getD (map.getD u 0).toNat 0 := by
  unfold project
  rw [List.getD_eq_getElem _ _ (by simpa using hu)]
  simp

/-- The cut weight of the emitted graph is the `cutTerm` functional of `adj_map`. -/
theorem emit_cut (iter : MapOrder) (hiter : iter.Legal)
    (am : List (List (Nat × Weight))) (cn : Nat) (c : WeightedGraph)
    (hc : WeightedGraph.BuiltBy cn (emit_calls iter am cn) c) (cp : List Int) :
    (cut_weight_undirected c cp : Int) = mapSum (cutTerm cp) am cn := by
  rw [cut_weight_undirected_adjSum,
    WeightedGraph.adjSum_calls cn _ c hc]
  unfold emit_calls
  rw [List.map_map]
  have hfun : ((fun c : Int × Int × Weight =>
        (if c.1.toNat < c.2.1.toNat ∧ cp.getD c.1.toNat 0 ≠ cp.getD c.2.1.toNat 0
          then (c.2.2 : Int) else 0) +
        (if c.2.1.toNat < c.1.toNat ∧ cp.getD c.2.1.toNat 0 ≠ cp.getD c.1.toNat 0
          then (c.2.2 : Int) else 0)) ∘
      fun up : Nat × (Nat × Weight) => ((up.1 : Int), (up.2.1 : Int), up.2.2))
      = fun up => cutTerm cp up.1 up.2.1 up.2.2 + cutTerm cp up.2.1 up.1 up.2.2 := by
    funext up
    simp only [Function.comp, Int.toNat_ofNat, cutTerm]
  rw [hfun]
  have h1 : (((emit_pairs iter am cn).filter fun up => decide (up.1 < up.2.1)).map
        fun up => cutTerm cp up.1 up.2.1 up.2.2 + cutTerm cp up.2.1 up.1 up.2.2)
      = (((emit_pairs iter am cn).filter fun up => decide (up.1 < up.2.1)).map
        fun up => cutTerm cp up.1 up.2.1 up.2.2) := by
    apply List.map_congr_left
    intro up hup
    have hlt : up.1 < up.2.1 := by simpa using (List.mem_filter.1 hup).2
    have : cutTerm cp up.2.1 up.1 up.2.2 = 0 := by
      unfold cutTerm
      rw [if_neg (fun h => by omega)]
    rw [this, add_zero]
  rw [h1, sum_filter_zero (emit_pairs iter am cn) (fun up => decide (up.1 < up.2.1))
    (fun up => cutTerm cp up.1 up.2.1 up.2.2)]
  · unfold emit_pairs mapSum
    rw [sum_flat_pairs (List.range cn) (fun u => iter (am.getD u []))
      (fun u p => cutTerm cp u p.1 p.2), list_sum_range]
    apply Finset.sum_congr rfl
    intro u _
    exact ((hiter (am.getD u [])).map _).sum_eq
  · intro up _ hP
    have hlt : ¬ up.1 < up.2.1 := by simpa using hP
    unfold cutTerm
    rw [if_neg (fun h => hlt h.1)]

/-- The coarse graph returned by `coarsen_graph`: simple, and its cut weight under `cp` is the
cut weight of the fine graph under the projected labeling. -/
theorem coarsen_graph_cut (iter : MapOrder) (hiter : iter.Legal) (g : WeightedGraph)
    (hg : g.WF) :
    ∃ c, coarsen_graph iter g = .ok (c, (heavy_edge_matching g).fine_to_coarse) ∧
      c.n = (heavy_edge_matching g).coarse_n ∧ c.WF ∧ c.Simple ∧
      ∀ cp : List Int, cut_weight_undirected c cp
        = cut_weight_undirected g (project g (heavy_edge_matching g).fine_to_coarse cp) := by
  obtain ⟨_, h2⟩ := heavy_edge_matching_spec g
  obtain ⟨_, h4⟩ := build_adj_map_spec g hg (heavy_edge_matching g).fine_to_coarse
    (heavy_edge_matching g).coarse_n h2
  obtain ⟨e1, e2⟩ := emit_coarse_eq iter hiter _ (heavy_edge_matching g).coarse_n h4
  have hinv := fun φ hadd => build_adj_map_sum g hg (heavy_edge_matching g).fine_to_coarse
    (heavy_edge_matching g).coarse_n h2 φ hadd
  have hAdj := (hinv (fun _ _ _ => 0) (fun _ _ _ _ => by simp)).1
  obtain ⟨k1, k2⟩ := emit_calls_keys iter hiter _ (heavy_edge_matching g).coarse_n hAdj
  refine ⟨_, ?_, WeightedGraph.ofEdges_n _ _, e2.Built.WF,
    (WeightedGraph.simple_of_calls _ _ _ e2 k1 k2).1, fun cp => ?_⟩
  · unfold coarsen_graph
    simp only [e1]
    rfl
  · have hcut := emit_cut iter hiter _ _ _ e2 cp
    have hsum := (hinv (cutTerm cp) (cutTerm_add cp)).2
    have hfine := cut_weight_undirected_adjSum g
      (project g (heavy_edge_matching g).fine_to_coarse cp)
    have hcongr : adjSum g (adj_term (cutTerm cp) (heavy_edge_matching g).fine_to_coarse)
        = adjSum g (fun u e =>
          if u < e.to_ ∧ (project g (heavy_edge_matching g).fine_to_coarse cp).getD u 0
              ≠ (project g (heavy_edge_matching g).fine_to_coarse cp).getD e.to_ 0
          then (e.w : Int) else 0) := by
      apply adjSum_congr
      intro u hu e he
      have hv := (WeightedGraph.nbrs_mem_WF hg u e he).1
      rw [project_getD g _ _ u hu, project_getD g _ _ e.to_ hv]
      obtain ⟨a, ha⟩ : ∃ a : Nat, (heavy_edge_matching g).fine_to_coarse.getD u 0 = (a : Int) :=
        ⟨_, (Int.toNat_of_nonneg (h2 u hu).1).symm⟩
      obtain ⟨b, hb⟩ : ∃ b : Nat,
          (heavy_edge_matching g).fine_to_coarse.getD e.to_ 0 = (b : Int) :=
        ⟨_, (Int.toNat_of_nonneg (h2 e.to_ hv).1).symm⟩
      unfold adj_term cutTerm
      rw [ha, hb]
      simp only [Int.toNat_ofNat, Nat.cast_inj]
      by_cases hlt : u < e.to_
      · by_cases hab : a = b
        · subst hab
          simp [-List.getD_eq_getElem?_getD, hlt]
        · by_cases hcp : cp.getD a 0 = cp.getD b 0
          · simp [-List.getD_eq_getElem?_getD, hlt, hab, hcp]
          · have hcp2 : ¬ cp.getD b 0 = cp.getD a 0 := fun e => hcp e.symm
            rcases Nat.lt_or_gt_of_ne hab with h | h
            · have h3 : ¬ b < a := by omega
              simp [-List.getD_eq_getElem?_getD, hlt, hab, hcp, h, h3]
            · have h3 : ¬ a < b := by omega
              simp [-List.getD_eq_getElem?_getD, hlt, hab, hcp, hcp2, h, h3]
      · simp [-List.getD_eq_getElem?_getD, hlt]
    have : (cut_weight_undirected (WeightedGraph.ofEdges (heavy_edge_matching g).coarse_n
          (emit_calls iter (build_adj_map g (heavy_edge_matching g).fine_to_coarse
            (heavy_edge_matching g).coarse_n) (heavy_edge_matching g).coarse_n)) cp : Int)
        = (cut_weight_undirected g (project g (heavy_edge_matching g).fine_to_coarse cp) : Int) := by
      rw [hcut, hsum, hcongr, ← hfine]
    exact this

/-- C26: for every graph `g` with non-negative weights (parallel edges and self-loops allowed)
whose adjacency entries sum to at most the 64-bit maximum (so that every degree, every
accumulated weight `adj_map[cu][cv]` and every cut weight stays in the range of `Weight`) and
every iteration order of the hash maps, `coarsen_graph(g)` returns a coarse graph `c` and the
map `fine_to_coarse` such that `fine_to_coarse` maps every vertex of `g` into `[0, c.n)`, `c` has
no self-loops and no parallel edges, and for every labeling `cp` of the coarse vertices
`cut_weight_undirected(c, cp)` equals `cut_weight_undirected(g, u -> cp[fine_to_coarse[u]])`,
a value in `[0, 2^63 - 1]`; the map does not depend on the iteration order. -/
theorem coarsen_preserves_cut (iter : MapOrder) (hiter : iter.Legal) (g : WeightedGraph)
    (hg : g.WF) (hsum : g.entry_weight ≤ WEIGHT_MAX) :
    ∃ c f2c, coarsen_graph iter g = .ok (c, f2c) ∧
      f2c = (heavy_edge_matching g).fine_to_coarse ∧
      (∀ u, u < g.n → 0 ≤ f2c.getD u 0 ∧ f2c.getD u 0 < (c.n : Int)) ∧
      c.Simple ∧
      ∀ cp : List Int,
        cut_weight_undirected c cp = cut_weight_undirected g (project g f2c cp) ∧
        0 ≤ cut_weight_undirected c cp ∧ cut_weight_undirected c cp ≤ WEIGHT_MAX := by
  obtain ⟨c, h1, h2, _, h4, h5⟩ := coarsen_graph_cut iter hiter g hg
  refine ⟨c, _, h1, rfl, fun u hu => ?_, h4, fun cp => ?_⟩
  · rw [h2]
    exact (heavy_edge_matching_spec g).2 u hu
  · have hfit := cut_weight_fits g hg hsum (project g (heavy_edge_matching g).fine_to_coarse cp)
    rw [h5 cp]
    exact ⟨rfl, hfit.1, hfit.2⟩

set_option maxRecDepth 1000000 in
/-- Witness for C26: a graph with parallel edges and a self-loop, insertion-order maps. -/
theorem coarsen_preserves_cut_witness :
    MapOrder.Legal id ∧ loopyGraph.WF ∧ loopyGraph.entry_weight ≤ WEIGHT_MAX ∧
    ∃ c f2c, coarsen_graph id loopyGraph = .ok (c, f2c) ∧
      f2c = (heavy_edge_matching loopyGraph).fine_to_coarse ∧
      (∀ u, u < loopyGraph.n → 0 ≤ f2c.getD u 0 ∧ f2c.getD u 0 < (c.n : Int)) ∧
      c.Simple ∧
      ∀ cp : List Int,
        cut_weight_undirected c cp = cut_weight_undirected loopyGraph (project loopyGraph f2c cp) ∧
        0 ≤ cut_weight_undirected c cp ∧ cut_weight_undirected c cp ≤ WEIGHT_MAX :=
  ⟨fun l => List.Perm.refl l, by decide, by decide,
    coarsen_preserves_cut id (fun l => List.Perm.refl l) loopyGraph (by decide) (by decide)⟩

end MultilevelKWayPartitionSolver

namespace STMinCutSolver

theorem adjSum_mono (g : WeightedGraph) (F G : Nat → Edge → Int)
    (h : ∀ u, u < g.n → ∀ e ∈ g.nbrs u, F u e ≤ G u e) : adjSum g F ≤ adjSum g G := by
  unfold adjSum
  apply Finset.sum_le_sum
  intro u hu
  apply List.sum_le_sum
  intro e he
  exact h u (Finset.mem_range.1 hu) e he

theorem entry_weight_adjSum (g : WeightedGraph) :
    (g.entry_weight : Int) = adjSum g (fun _ e => e.w) := by
  unfold WeightedGraph.entry_weight adjSum
  rw [list_sum_range]

theorem total_weight_adjSum (g : WeightedGraph) :
    (g.total_weight : Int) = adjSum g (fun u e => if u < e.to_ then (e.w : Int) else 0) := by
  unfold WeightedGraph.total_weight adjSum
  rw [foldl_range_add g.n _ (fun u => ((g.nbrs u).map fun e => if u < e.to_ then e.w else 0).sum)
    (fun s u => foldl_ite_add (g.nbrs u) (fun e => u < e.to_) (fun e => e.w) s)]
  rw [zero_add]

/-- On a graph built by `add_undirected` every edge between two distinct vertices has two
adjacency entries, so twice the total edge weight is at most the sum of all entries. -/
theorem two_total_le_entry (g : WeightedGraph) (hb : g.Built) :
    2 * (g.total_weight : Int) ≤ g.entry_weight := by
  rw [total_weight_adjSum, entry_weight_adjSum]
  have h2 : 2 * adjSum g (fun u e => if u < e.to_ then (e.w : Int) else 0)
      = adjSum g (fun u e => (if u < e.to_ then (e.w : Int) else 0)
          + (if u < e.to_ then (e.w : Int) else 0)) := by
    rw [adjSum_add g (fun u e => if u < e.to_ then (e.w : Int) else 0)
      (fun u e => if u < e.to_ then (e.w : Int) else 0)]
    ring
  rw [h2]
  apply adjSum_le_of_pairs g hb
  intro a b w hw
  have hw2 : (0 : Int) ≤ w := hw
  simp only
  rcases Nat.lt_trichotomy a b with h | h | h
  · rw [if_pos h, if_neg (by omega)]
    omega
  · subst h
    rw [if_neg (by omega)]
    omega
  · rw [if_neg (by omega), if_pos h]
    omega

end STMinCutSolver

namespace MultilevelKWayPartitionSolver

open STMinCutSolver

/-- The adjacency entries of the emitted graph: every entry `(v, W)` with `u < v` of a row of
`adj_map` gives two entries of weight `W`. -/
theorem emit_entry (iter : MapOrder) (hiter : iter.Legal)
    (am : List (List (Nat × Weight))) (cn : Nat) (c : WeightedGraph)
    (hc : WeightedGraph.BuiltBy cn (emit_calls iter am cn) c) :
    (c.entry_weight : Int) = mapSum (fun u v W => if u < v then W + W else 0) am cn := by
  rw [entry_weight_adjSum, WeightedGraph.adjSum_calls cn _ c hc]
  unfold emit_calls
  rw [List.map_map]
  have hfun : ((fun c : Int × Int × Weight => (c.2.2 : Int) + c.2.2) ∘
      fun up : Nat × (Nat × Weight) => ((up.1 : Int), (up.2.1 : Int), up.2.2))
      = fun up => (up.2.2 : Int) + up.2.2 := by
    funext up
    rfl
  rw [hfun]
  have h1 : (((emit_pairs iter am cn).filter fun up => decide (up.1 < up.2.1)).map
        fun up => (up.2.2 : Int) + up.2.2)
      = (((emit_pairs iter am cn).filter fun up => decide (up.1 < up.2.1)).map
        fun up => if up.1 < up.2.1 then (up.2.2 : Int) + up.2.2 else 0) := by
    apply List.map_congr_left
    intro up hup
    have hlt : up.1 < up.2.1 := by simpa using (List.mem_filter.1 hup).2
    rw [if_pos hlt]
  rw [h1, sum_filter_zero (emit_pairs iter am cn) (fun up => decide (up.1 < up.2.1))
    (fun up => if up.1 < up.2.1 then (up.2.2 : Int) + up.2.2 else 0)]
  · unfold emit_pairs mapSum
    rw [sum_flat_pairs (List.range cn) (fun u => iter (am.getD u []))
      (fun u p => if u < p.1 then (p.2 : Int) + p.2 else 0), list_sum_range]
    apply Finset.sum_congr rfl
    intro u _
    exact ((hiter (am.getD u [])).map _).sum_eq
  · intro up _ hP
    have hlt : ¬ up.1 < up.2.1 := by simpa using hP
    rw [if_neg hlt]

/-- The coarse graph is built by `add_undirected` calls and its adjacency entries sum to at most
twice the total edge weight of the fine graph: the weight bound passes to the coarse level. -/
theorem coarsen_graph_weight (iter : MapOrder) (hiter : iter.Legal) (g : WeightedGraph)
    (hg : g.WF) :
    ∃ c, coarsen_graph iter g = .ok (c, (heavy_edge_matching g).fine_to_coarse) ∧
      c.Built ∧ (c.entry_weight : Int) ≤ 2 * g.total_weight := by
  obtain ⟨_, h2⟩ := heavy_edge_matching_spec g
  obtain ⟨_, h4⟩ := build_adj_map_spec g hg (heavy_edge_matching g).fine_to_coarse
    (heavy_edge_matching g).coarse_n h2
  obtain ⟨e1, e2⟩ := emit_coarse_eq iter hiter _ (heavy_edge_matching g).coarse_n h4
  refine ⟨_, ?_, e2.Built, ?_⟩
  · unfold coarsen_graph
    simp only [e1]
    rfl
  · rw [emit_entry iter hiter _ _ _ e2,
      (build_adj_map_sum g hg (heavy_edge_matching g).fine_to_coarse
        (heavy_edge_matching g).coarse_n h2 (fun u v W => if u < v then W + W else 0)
        (fun u k a b => by
          show (if u < k then (a + b) + (a + b) else 0)
            = (if u < k then a + a else 0) + (if u < k then b + b else 0)
          split
          · ring
          · rfl)).2]
    have h2t : 2 * (g.total_weight : Int)
        = adjSum g (fun u e => (if u < e.to_ then (e.w : Int) else 0)
            + (if u < e.to_ then (e.w : Int) else 0)) := by
      rw [total_weight_adjSum, adjSum_add g (fun u e => if u < e.to_ then (e.w : Int) else 0)
        (fun u e => if u < e.to_ then (e.w : Int) else 0)]
      ring
    rw [h2t]
    apply adjSum_mono
    intro u hu e he
    obtain ⟨hv, hw⟩ := WeightedGraph.nbrs_mem_WF hg u e he
    have hw2 : (0 : Int) ≤ e.w := hw
    obtain ⟨a, ha⟩ : ∃ a : Nat, (heavy_edge_matching g).fine_to_coarse.getD u 0 = (a : Int) :=
      ⟨_, (Int.toNat_of_nonneg (h2 u hu).1).symm⟩
    obtain ⟨b, hb⟩ : ∃ b : Nat,
        (heavy_edge_matching g).fine_to_coarse.getD e.to_ 0 = (b : Int) :=
      ⟨_, (Int.toNat_of_nonneg (h2 e.to_ hv).1).symm⟩
    unfold adj_term
    rw [ha, hb]
    simp only [Int.toNat_ofNat, Nat.cast_inj]
    by_cases hlt : u < e.to_
    · rw [if_pos hlt, if_pos hlt]
      by_cases hab : a = b
      · rw [if_pos hab]
        omega
      · rw [if_neg hab]
        rcases Nat.lt_or_gt_of_ne hab with h | h
        · rw [if_pos h, if_neg (by omega)]
          omega
        · rw [if_neg (by omega), if_pos h]
          omega
    · rw [if_neg hlt, if_neg hlt]
      omega

end MultilevelKWayPartitionSolver

theorem count_set_true_le (l : List Bool) (i : Nat) :
    (l.set i true).count true ≤ l.count true + 1 := by
  induction l generalizing i with
  | nil => simp
  | cons a as ih =>
    cases i with
    | zero =>
      rw [List.set_cons_zero, List.count_cons, List.count_cons]
      split_ifs <;> omega
    | succ i =>
      rw [List.set_cons_succ, List.count_cons, List.count_cons]
      have := ih i
      omega

theorem count_true_of_all (l : List Bool) (n : Nat) (hlen : l.length = n)
    (h : ∀ x, x < n → l.getD x false = true) : l.count true = n := by
  have : l = List.replicate n true := by
    rw [List.eq_replicate_iff]
    refine ⟨hlen, fun b hb => ?_⟩
    obtain ⟨i, hi, rfl⟩ := List.getElem_of_mem hb
    have := h i (by omega)
    rw [List.getD_eq_getElem _ _ hi] at this
    exact this
  rw [this, List.count_replicate_self]

namespace MultilevelKWayPartitionSolver

theorem heaviest_unmatched_free (g : WeightedGraph) (matched : List Bool) (u b : Nat)
    (h : (heaviest_unmatched g matched u).1 = some b) : matched.getD b false = false := by
  have key : ∀ v, (heaviest_unmatched g matched u).1 = some v → matched.getD v false = false := by
    unfold heaviest_unmatched
    apply foldl_inv (fun (b : Option Nat × Weight) =>
      ∀ v, b.1 = some v → matched.getD v false = false)
    · intro v hv
      cases hv
    · intro b e _ hb
      by_cases hm : matched.getD e.to_ false = true
      · rw [if_pos hm]
        exact hb
      · rw [if_neg hm]
        by_cases hw : e.w > b.2
        · rw [if_pos hw]
          intro v hv
          have hv2 : e.to_ = v := Option.some.inj hv
          rw [← hv2]
          simpa using hm
        · rw [if_neg hw]
          exact hb
  exact key b h

theorem match_step_onto (g : WeightedGraph) (n : Nat) (m : Matching) (u : Nat) (hu : u < n)
    (hm : MatchInv n m) (ho : MatchOnto n m) : MatchOnto n (match_step g m u) := by
  obtain ⟨h1, h2, _⟩ := hm
  obtain ⟨o1, o2⟩ := ho
  unfold match_step
  by_cases hmu : m.matched.getD u false = true
  · simp only [hmu, if_true]
    exact ⟨o1, o2⟩
  · simp only [hmu, Bool.false_eq_true, if_false]
    have hmu2 : m.matched.getD u false = false := by simpa using hmu
    cases hbest : (heaviest_unmatched g (m.matched.set u true) u).1 with
    | none =>
      dsimp only [MatchOnto]
      constructor
      · intro c hc
        by_cases hcn : c = m.coarse_n
        · refine ⟨u, hu, ?_, ?_⟩
          · rw [getD_set_eq]; simp [h1, hu]
          · rw [getD_set_eq, hcn]; simp [h2, hu]
        · obtain ⟨x, hx, hx1, hx2⟩ := o1 c (by omega)
          have hxu : ¬ u = x := fun e => by rw [e, hx1] at hmu2; exact Bool.noConfusion hmu2
          refine ⟨x, hx, ?_, ?_⟩
          · rw [getD_set_eq, if_neg (fun h => hxu h.1)]; exact hx1
          · rw [getD_set_eq, if_neg (fun h => hxu h.1)]; exact hx2
      · have := count_set_true_le m.matched u
        omega
    | some best =>
      dsimp only [MatchOnto]
      have hfree := heaviest_unmatched_free g _ u best hbest
      rw [getD_set_eq] at hfree
      have hbu : ¬ (u = best ∧ u < m.matched.length) := by
        intro h
        rw [if_pos h] at hfree
        exact Bool.noConfusion hfree
      rw [if_neg hbu] at hfree
      constructor
      · intro c hc
        by_cases hcn : c = m.coarse_n
        · refine ⟨u, hu, ?_, ?_⟩
          · rw [getD_set_eq, getD_set_eq]
            simp [h1, hu]
          · rw [getD_set_eq, getD_set_eq, hcn]
            simp only [List.length_set, h2, hu, and_true, if_true]
            split <;> rfl
        · obtain ⟨x, hx, hx1, hx2⟩ := o1 c (by omega)
          have hxu : ¬ u = x := fun e => by rw [e, hx1] at hmu2; exact Bool.noConfusion hmu2
          have hxb : ¬ best = x := fun e => by rw [e, hx1] at hfree; exact Bool.noConfusion hfree
          refine ⟨x, hx, ?_, ?_⟩
          · rw [getD_set_eq, if_neg (fun h => hxb h.1), getD_set_eq, if_neg (fun h => hxu h.1)]
            exact hx1
          · rw [getD_set_eq, if_neg (fun h => hxb h.1), getD_set_eq, if_neg (fun h => hxu h.1)]
            exact hx2
      · have a1 := count_set_true_le m.matched u
        have a2 := count_set_true_le (m.matched.set u true) best
        omega

/-- The matching sends the fine vertices onto the coarse ids and at most halves their number. -/
theorem heavy_edge_matching_onto (g : WeightedGraph) :
    Onto g.n (heavy_edge_matching g).coarse_n (heavy_edge_matching g).fine_to_coarse ∧
    g.n ≤ 2 * (heavy_edge_matching g).coarse_n := by
  unfold heavy_edge_matching
  simp only
  have hperm := List.perm_insertionSort (degLe g.degrees) (List.range g.n)
  have hmem : ∀ x, x ∈ (List.range g.n).insertionSort (degLe g.degrees) ↔ x < g.n := by
    intro x; rw [hperm.mem_iff]; simp
  obtain ⟨⟨⟨h1, _, _⟩, o1, o2⟩, h4⟩ := foldl_inv_cover
    (fun (m : Matching) => MatchInv g.n m ∧ MatchOnto g.n m)
    (fun u (m : Matching) => m.matched.getD u false = true) (match_step g)
    ((List.range g.n).insertionSort (degLe g.degrees))
    ⟨List.replicate g.n false, List.replicate g.n (-1), 0⟩
    ⟨⟨by simp, by simp, fun x hx => by
      rw [getD_replicate_eq] at hx
      split at hx <;> simp at hx⟩, fun c hc => absurd hc (Nat.not_lt_zero c), by
        show (List.replicate g.n false).count true ≤ 2 * 0
        rw [List.count_replicate]
        simp⟩
    (fun b x hx hb =>
      ⟨⟨(match_step_inv g g.n b x ((hmem x).mp hx) hb.1).1,
        match_step_onto g g.n b x ((hmem x).mp hx) hb.1 hb.2⟩,
        (match_step_inv g g.n b x ((hmem x).mp hx) hb.1).2⟩)
    (fun b x y _ hq => match_step_stable g b x y hq)
  constructor
  · intro c hc
    obtain ⟨x, hx, _, hx2⟩ := o1 c hc
    exact ⟨x, hx, hx2⟩
  · have := count_true_of_all _ g.n h1 (fun x hx => h4 x ((hmem x).mpr hx))
    omega

end MultilevelKWayPartitionSolver

namespace MultilevelKWayPartitionSolver

/-! ## The hierarchy of graphs -/

theorem chain_last (k : Int) : ∀ (graphs : List WeightedGraph) (maps : List (List Int)),
    ChainOk k graphs maps → LevelOk k (graphs.getLastD (WeightedGraph.init 0))
  | [], _, h => by simp [ChainOk] at h
  | [g], [], h => by simpa [ChainOk] using h
  | [g], m :: ms, h => by simp [ChainOk] at h
  | g :: b :: rest, [], h => by simp [ChainOk] at h
  | g :: b :: rest, m :: ms, h => by
    have h2 : ChainOk k (b :: rest) ms := by
      simp only [ChainOk] at h
      exact h.2.2
    have := chain_last k (b :: rest) ms h2
    rw [List.getLastD_cons] at this ⊢
    rw [List.getLastD_cons]
    exact this

theorem chain_append (k : Int) (c : WeightedGraph) (map : List Int) (hc : LevelOk k c) :
    ∀ (graphs : List WeightedGraph) (maps : List (List Int)),
    ChainOk k graphs maps → Onto (graphs.getLastD (WeightedGraph.init 0)).n c.n map →
    ChainOk k (graphs ++ [c]) (maps ++ [map])
  | [], _, h, _ => by simp [ChainOk] at h
  | [g], [], h, ho => by
    simp only [ChainOk] at h
    simp only [List.getLastD_cons, List.getLastD_nil] at ho
    show ChainOk k [g, c] [map]
    simp only [ChainOk]
    exact ⟨h, ho, hc⟩
  | [g], m :: ms, h, _ => by simp [ChainOk] at h
  | g :: b :: rest, [], h, _ => by simp [ChainOk] at h
  | g :: b :: rest, m :: ms, h, ho => by
    simp only [ChainOk] at h
    rw [List.getLastD_cons, List.getLastD_cons] at ho
    have ho2 : Onto ((b :: rest).getLastD (WeightedGraph.init 0)).n c.n map := by
      rw [List.getLastD_cons]
      exact ho
    have := chain_append k c map hc (b :: rest) ms h.2.2 ho2
    show ChainOk k (g :: b :: (rest ++ [c])) (m :: (ms ++ [map]))
    simp only [ChainOk]
    exact ⟨h.1, h.2.1, this⟩

theorem uncoarsen_cons (g b : WeightedGraph) (bs : List WeightedGraph) (m : List Int)
    (ms : List (List Int)) (k rp : Int) (part : List Int) :
    uncoarsen (g :: b :: bs) (m :: ms) k rp part
      = refine_partition g (project g m (uncoarsen (b :: bs) ms k rp part)) k rp := by
  unfold uncoarsen
  simp only [List.length_cons, Nat.add_sub_cancel]
  rw [List.range_succ_eq_map, List.reverse_cons, List.foldl_append]
  simp only [List.foldl_cons, List.foldl_nil, List.getD_cons_zero]
  rw [← List.map_reverse, List.foldl_map]
  simp only [List.getD_cons_succ]

/-! ## Labels survive projection and refinement -/

theorem project_keeps_labels (fine : WeightedGraph) (cn : Nat) (map part : List Int) (k : Int)
    (hlen : part.length = cn) (ho : Onto fine.n cn map) (hp : AllLabels k part) :
    AllLabels k (project fine map part) := by
  intro x h0 hk
  obtain ⟨i, hi, hx⟩ := List.getElem_of_mem (hp x h0 hk)
  obtain ⟨u, hu, hmu⟩ := ho i (by omega)
  unfold project
  rw [List.mem_map]
  refine ⟨u, List.mem_range.2 hu, ?_⟩
  rw [hmu, Int.toNat_ofNat, List.getD_eq_getElem _ _ hi]
  exact hx

theorem refine_keeps_labels (g : WeightedGraph) (k rp : Int) (part : List Int) (hk : 2 ≤ k)
    (hn : k ≤ (g.n : Int)) (hlen : part.length = g.n) (hp : AllLabels k part) :
    (refine_partition g part k rp).length = g.n ∧ AllLabels k (refine_partition g part k rp) := by
  have hk1 : ¬ k ≤ 1 := by omega
  have hrp : refine_partition g part k rp
      = refine_passes g k ((g.n : Int) / k) (((g.n : Int) + k - 1) / k) rp.toNat part := by
    simp only [refine_partition, hk1, if_false]
  obtain ⟨h1, h2⟩ := refine_passes_sizes g k ((g.n : Int) / k) (((g.n : Int) + k - 1) / k)
    (fun q => (part.count (q : Int) : Int)) rp.toNat part hlen (size_bounds_init k _ _ part)
  rw [hrp]
  refine ⟨h1, fun x h0 hxk => ?_⟩
  have hb := (h2 x.toNat (by omega)).1
  simp only [Int.toNat_of_nonneg h0] at hb
  have hc : 0 < part.count x := List.count_pos_iff.2 (hp x h0 hxk)
  have hlo : (1 : Int) ≤ (g.n : Int) / k := by
    rw [Int.le_ediv_iff_mul_le (by omega)]
    omega
  apply List.count_pos_iff.1
  omega

theorem chain_labels (k rp : Int) (hk : 2 ≤ k) :
    ∀ (graphs : List WeightedGraph) (maps : List (List Int)) (part : List Int),
    ChainOk k graphs maps →
    part.length = (graphs.getLastD (WeightedGraph.init 0)).n → AllLabels k part →
    (uncoarsen graphs maps k rp part).length = (graphs.headD (WeightedGraph.init 0)).n ∧
      AllLabels k (uncoarsen graphs maps k rp part)
  | [], _, _, h, _, _ => by simp [ChainOk] at h
  | [g], [], part, _, hlen, hp => by
    rw [uncoarsen_single]
    exact ⟨by simpa using hlen, hp⟩
  | [g], m :: ms, _, h, _, _ => by simp [ChainOk] at h
  | g :: b :: rest, [], _, h, _, _ => by simp [ChainOk] at h
  | g :: b :: rest, m :: ms, part, h, hlen, hp => by
    simp only [ChainOk] at h
    rw [List.getLastD_cons, List.getLastD_cons] at hlen
    have hlen2 : part.length = ((b :: rest).getLastD (WeightedGraph.init 0)).n := by
      rw [List.getLastD_cons]
      exact hlen
    obtain ⟨i1, i2⟩ := chain_labels k rp hk (b :: rest) ms part h.2.2 hlen2 hp
    rw [uncoarsen_cons]
    have hproj := project_keeps_labels g b.n m _ k (by simpa using i1) h.2.1 i2
    have hplen : (project g m (uncoarsen (b :: rest) ms k rp part)).length = g.n := by
      unfold project
      simp
    exact refine_keeps_labels g k rp _ hk h.1.2.2 hplen hproj

/-! ## The coarsening loop -/

theorem coarsen_graph_onto (iter : MapOrder) (hiter : iter.Legal) (g : WeightedGraph)
    (hg : g.WF) :
    ∃ c map, coarsen_graph iter g = .ok (c, map) ∧ c.Built ∧ Onto g.n c.n map ∧
      g.n ≤ 2 * c.n ∧ (c.entry_weight : Int) ≤ 2 * g.total_weight := by
  obtain ⟨c, h1, h2, _, _, _⟩ := coarsen_graph_cut iter hiter g hg
  obtain ⟨c2, k1, k2, k3⟩ := coarsen_graph_weight iter hiter g hg
  have hcc : c2 = c := by
    rw [h1] at k1
    exact ((Prod.mk.injEq _ _ _ _).mp (Except.ok.inj k1)).1.symm
  subst hcc
  refine ⟨c2, _, h1, k2, ?_, ?_, k3⟩
  · rw [h2]; exact (heavy_edge_matching_onto g).1
  · rw [h2]; exact (heavy_edge_matching_onto g).2

theorem coarsen_loop_chain (iter : MapOrder) (hiter : iter.Legal) (k min_coarse : Int)
    (hmin : 2 * k ≤ min_coarse) (g : WeightedGraph) (fuel : Nat) :
    ∀ (rest : List WeightedGraph) (maps : List (List Int)), ChainOk k (g :: rest) maps →
    ∃ rest1 maps1, coarsen_loop iter min_coarse fuel (g :: rest) maps = .ok (g :: rest1, maps1) ∧
      ChainOk k (g :: rest1) maps1 := by
  induction fuel with
  | zero => intro rest maps h; exact ⟨rest, maps, rfl, h⟩
  | succ fuel ih =>
    intro rest maps h
    unfold coarsen_loop
    simp only
    split
    · rename_i hbig
      obtain ⟨hbb, hbw, _⟩ := chain_last k _ _ h
      obtain ⟨c, map, hc, hcb, hon, hhalf, hcw⟩ := coarsen_graph_onto iter hiter _ hbb.WF
      rw [hc]
      simp only
      split
      · exact ⟨rest, maps, rfl, h⟩
      · have hkc : k ≤ (c.n : Int) := by omega
        have hfit : c.entry_weight ≤ WEIGHT_MAX := by
          have h2 := STMinCutSolver.two_total_le_entry _ hbb
          have hcw2 : (c.entry_weight : Int) ≤ 2 * WeightedGraph.total_weight
            ((g :: rest).getLastD (WeightedGraph.init 0)) := hcw
          have hbw2 : (WeightedGraph.entry_weight
            ((g :: rest).getLastD (WeightedGraph.init 0)) : Int) ≤ WEIGHT_MAX := hbw
          exact le_trans hcw2 (le_trans h2 hbw2)
        have := ih (rest ++ [c]) (maps ++ [map]) (by
          rw [← List.cons_append]
          exact chain_append k c map ⟨hcb, hfit, hkc⟩ _ _ h hon)
        simpa using this
    · exact ⟨rest, maps, rfl, h⟩

/-- C24: for every graph with `n >= 1` built by `add_undirected` whose adjacency entries sum to
at most the 64-bit maximum (so that no degree, coarse edge weight, gain or cut weight formed on
any level leaves the range of `Weight`), every iteration order of the hash maps and every `k`,
`bisection_passes`, `refine_passes` and `max_levels`, `solve` returns normally and every label
in `[0, max(1, min(k, n)))` is carried by at least one vertex of the result; for `k_eff >= 2`
every graph of the hierarchy built by the coarsening loop is again built by `add_undirected`,
inherits the weight bound and keeps at least `k_eff` vertices, and every map sends the finer
level onto the coarser one; the stored `cut_weight` lies in `[0, 2^63 - 1]`. -/
theorem multilevel_blocks_nonempty (iter : MapOrder) (hiter : iter.Legal) (self : State)
    (g : WeightedGraph) (hb : g.Built) (hsum : g.entry_weight ≤ WEIGHT_MAX) (hn : 1 ≤ g.n) :
    (solve iter self g).1 = .ok () ∧
    (∀ x : Int, 0 ≤ x → x < max 1 (min self.k_ g.n) →
      x ∈ (result (solve iter self g).2).part) ∧
    (2 ≤ max 1 (min self.k_ (g.n : Int)) →
      ∃ rest maps, coarsen_loop iter (max (2 * max 1 (min self.k_ (g.n : Int))) 20)
          self.max_levels_.toNat [g] [] = .ok (g :: rest, maps) ∧
        ChainOk (max 1 (min self.k_ (g.n : Int))) (g :: rest) maps) ∧
    0 ≤ (result (solve iter self g).2).cut_weight ∧
    (result (solve iter self g).2).cut_weight ≤ WEIGHT_MAX := by
  have hg : g.WF := hb.WF
  suffices key : (solve iter self g).1 = .ok () ∧
      (∀ x : Int, 0 ≤ x → x < max 1 (min self.k_ g.n) →
        x ∈ (result (solve iter self g).2).part) ∧
      (2 ≤ max 1 (min self.k_ (g.n : Int)) →
        ∃ rest maps, coarsen_loop iter (max (2 * max 1 (min self.k_ (g.n : Int))) 20)
            self.max_levels_.toNat [g] [] = .ok (g :: rest, maps) ∧
          ChainOk (max 1 (min self.k_ (g.n : Int))) (g :: rest) maps) from
    ⟨key.1, key.2.1, key.2.2, multilevel_cut_fits iter hiter self g hg hsum⟩
  have hn0 : g.n ≠ 0 := by omega
  have hchain0 : ChainOk (max 1 (min self.k_ (g.n : Int))) [g] [] := by
    simp only [ChainOk]
    exact ⟨hb, hsum, by omega⟩
  obtain ⟨rest1, maps1, hloop, hchain⟩ := coarsen_loop_chain iter hiter
    (max 1 (min self.k_ (g.n : Int))) (max (2 * max 1 (min self.k_ (g.n : Int))) 20)
    (le_max_left _ _) g self.max_levels_.toNat [] [] hchain0
  refine ⟨(multilevel_solve_spec iter hiter self g hg).1, ?_, fun _ => ⟨rest1, maps1, hloop, hchain⟩⟩
  unfold solve result
  simp only [hn0, if_false]
  by_cases hk : max 1 (min self.k_ (g.n : Int)) = 1
  · simp only [hk, if_true]
    intro x h0 h1
    have hx : x = 0 := by omega
    rw [hx, List.mem_replicate]
    exact ⟨hn0, rfl⟩
  · simp only [hk, if_false]
    rw [hloop]
    simp only
    have hk2 : 2 ≤ max 1 (min self.k_ (g.n : Int)) := by omega
    obtain ⟨_, _, hlast⟩ := chain_last _ _ _ hchain
    have hb := KWayPartitionSolver.kway_labels_spec
      ⟨max 1 (min self.k_ (g.n : Int)), self.bisection_passes_, {}⟩
      ((g :: rest1).getLastD (WeightedGraph.init 0)) (by omega) (by simp)
    have hall : AllLabels (max 1 (min self.k_ (g.n : Int)))
        (KWayPartitionSolver.result (KWayPartitionSolver.solve
          ⟨max 1 (min self.k_ (g.n : Int)), self.bisection_passes_, {}⟩
          ((g :: rest1).getLastD (WeightedGraph.init 0)))).part := by
      intro x h0 hxk
      rw [hb.2 x]
      refine ⟨h0, ?_⟩
      simp only
      omega
    exact (chain_labels _ self.refine_passes_ hk2 _ _ _ hchain hb.1 hall).2

set_option maxRecDepth 1000000 in
/-- Witness for C24: the 22-vertex cycle, `k = 3`, default pass counts, insertion-order maps. -/
theorem multilevel_blocks_nonempty_witness :
    MapOrder.Legal id ∧ cycleGraph.Built ∧ cycleGraph.entry_weight ≤ WEIGHT_MAX ∧
    1 ≤ cycleGraph.n ∧
    (solve id ⟨3, 8, 4, 10, {}⟩ cycleGraph).1 = .ok () ∧
    (∀ x : Int, 0 ≤ x → x < max 1 (min (3 : Int) cycleGraph.n) →
      x ∈ (result (solve id ⟨3, 8, 4, 10, {}⟩ cycleGraph).2).part) :=
  ⟨fun l => List.Perm.refl l, WeightedGraph.ofEdges_Built _ _, by decide, by decide,
    (multilevel_blocks_nonempty id (fun l => List.Perm.refl l) ⟨3, 8, 4, 10, {}⟩ cycleGraph
      (WeightedGraph.ofEdges_Built _ _) (by decide) (by decide)).1,
    (multilevel_blocks_nonempty id (fun l => List.Perm.refl l) ⟨3, 8, 4, 10, {}⟩ cycleGraph
      (WeightedGraph.ofEdges_Built _ _) (by decide) (by decide)).2.1⟩

end MultilevelKWayPartitionSolver

